import Mathlib

/-!
# biword2vec: samplers, sigmoid table and the embedding model's update rule

A shallow embedding of `src/util.h`, `src/util.cpp`, `src/sampler.cpp` and the
model part of `src/biword2vec.h`.

Conventions of the embedding.

* `double` / `T` values are exact rationals (`ℚ`): every statement below is a
  statement in exact arithmetic.  Division by zero follows `ℚ` (`x / 0 = 0`).
* `std::numeric_limits<double>::epsilon()` is the constant `2⁻⁵²`.
* `std::vector` / heap arrays are `List`s, read with `getD` and written with
  `set`.
* `std::exp` and `log` are library functions outside the repository; the
  sigmoid table is built from an arbitrary pair of functions `exp log : ℚ → ℚ`,
  and the properties of `exp` a theorem needs (positivity, monotonicity) are
  stated as hypotheses.
* The values a sampler obtains from its random engine through
  `uniform_int_dist_` and `uniform_real_dist_` are explicit arguments of
  `draw` / `sampling`.
-/

namespace BiWord2Vec

/-! ## `src/util.h` -/

/-- The constant `MAX_EXP_NUM = 20.0`. -/
def MAX_EXP_NUM : ℚ := 20

/-- The constant `DEF_EXP_TABLE_SIZE = 1000`. -/
def DEF_EXP_TABLE_SIZE : Nat := 1000

/-- The value of `std::numeric_limits<double>::epsilon()`, `2⁻⁵²`. -/
def epsilon : ℚ := 1 / 2 ^ 52

/-- `util_equal`: `std::fabs(v1 - v2) < epsilon`. -/
def util_equal (v1 v2 : ℚ) : Bool :=
  decide (|v1 - v2| < epsilon)

/-- `util_greater`: false when `util_equal`, else `v1 > v2`. -/
def util_greater (v1 v2 : ℚ) : Bool :=
  if util_equal v1 v2 then false else decide (v1 > v2)

/-- `util_less`: false when `util_equal`, else `v1 < v2`. -/
def util_less (v1 v2 : ℚ) : Bool :=
  if util_equal v1 v2 then false else decide (v1 < v2)

/-- `safe_exp`: `exp` of the argument clamped to `[-MAX_EXP_NUM, MAX_EXP_NUM]`. -/
def safe_exp (exp : ℚ → ℚ) (x : ℚ) : ℚ :=
  exp (max (min x MAX_EXP_NUM) (-MAX_EXP_NUM))

/-- `sigmoid`: `1 / (1 + safe_exp(-x))`. -/
def sigmoid (exp : ℚ → ℚ) (x : ℚ) : ℚ :=
  1 / (1 + safe_exp exp (-x))

/-- `safe_log`: `log (max x 1e-10)`. -/
def safe_log (log : ℚ → ℚ) (x : ℚ) : ℚ :=
  log (max x (1 / 10 ^ 10))

/-! ## `src/util.cpp`: `SigmoidTable` -/

/-- The members of `SigmoidTable`.  The two arrays are allocated with
`table_size_ + 1` cells of which the constructor fills the first `table_size_`;
the last cell is never read (every index is clamped to `table_size_ - 1`), so
the lists hold the `table_size_` filled cells. -/
structure SigmoidTable where
  table_size_ : Nat
  sigmoid_table_ : List ℚ
  log_sigmoid_table_ : List ℚ

/-- The argument of slot `i` in the constructor:
`(2 * MAX_EXP_NUM * i) / table_size_ - MAX_EXP_NUM`. -/
def exp_value (table_size i : Nat) : ℚ :=
  (2 * MAX_EXP_NUM * (i : ℚ)) / (table_size : ℚ) - MAX_EXP_NUM

/-- The constructor `SigmoidTable::SigmoidTable(table_size)`. -/
def SigmoidTable.new (exp log : ℚ → ℚ) (table_size : Nat) : SigmoidTable where
  table_size_ := table_size
  sigmoid_table_ :=
    (List.range table_size).map (fun i => sigmoid exp (exp_value table_size i))
  log_sigmoid_table_ :=
    (List.range table_size).map
      (fun i => safe_log log (sigmoid exp (exp_value table_size i)))

/-- The slot computation shared by `operator[]` and `LogSigmoid`:
`size_t idx = (x + MAX_EXP_NUM) * table_size_ / (MAX_EXP_NUM * 2)` (the
conversion to `size_t` truncates), then clamped to `table_size_ - 1`. -/
def SigmoidTable.slot (t : SigmoidTable) (x : ℚ) : Nat :=
  let idx : Nat := ⌊(x + MAX_EXP_NUM) * (t.table_size_ : ℚ) / (MAX_EXP_NUM * 2)⌋.toNat
  if idx ≥ t.table_size_ then t.table_size_ - 1 else idx

/-- `SigmoidTable::operator[]` (the spec's "evaluate"). -/
def SigmoidTable.evaluate (t : SigmoidTable) (x : ℚ) : ℚ :=
  if util_greater x MAX_EXP_NUM then 1
  else if util_less x (-MAX_EXP_NUM) then 0
  else t.sigmoid_table_.getD (t.slot x) 0

/-- `SigmoidTable::LogSigmoid`. -/
def SigmoidTable.LogSigmoid (t : SigmoidTable) (x : ℚ) : ℚ :=
  if util_greater x MAX_EXP_NUM then 1
  else if util_less x (-MAX_EXP_NUM) then 0
  else t.log_sigmoid_table_.getD (t.slot x) 0

/-! ## `src/sampler.cpp`: `AliasSampler` -/

/-- The members of `AliasSampler` that `Init` fills. -/
structure AliasSampler where
  alias_ : List Nat
  alias_prob_ : List ℚ
  data_index_ : List Nat

/-- The local variables of `AliasSampler::Init` while its loops run.  The arrays
`smaller` / `larger` with their counters `num_smaller` / `num_larger` are
stacks: the list holds the cells below the counter, most recently pushed
first (`smaller[num_smaller++] = i` is a push, `smaller[--num_smaller]` a
pop). -/
structure AliasBuild where
  probs : List ℚ
  smaller : List Nat
  larger : List Nat
  alias_ : List Nat
  alias_prob_ : List ℚ

/-- The accumulation `sum += data_weights[i].second`. -/
def weight_sum (data_weights : List (Nat × ℚ)) : ℚ :=
  data_weights.foldl (fun sum p => sum + p.2) 0

/-- The normalisation `probs[i] = data_weights[i].second * n / sum`. -/
def normalise (data_weights : List (Nat × ℚ)) : List ℚ :=
  data_weights.map
    (fun p => p.2 * (data_weights.length : ℚ) / weight_sum data_weights)

/-- The loop `for (i = n - 1; i >= 0; --i)` that distributes the indices over
`smaller` and `larger`. -/
def split_indices (probs : List ℚ) (n : Nat) : List Nat × List Nat :=
  (List.range n).reverse.foldl
    (fun (st : List Nat × List Nat) i =>
      if util_less (probs.getD i 0) 1 then (i :: st.1, st.2) else (st.1, i :: st.2))
    ([], [])

/-- The loop `while (num_smaller && num_larger)`.  Every pass takes one index
off the two stacks together, so the loop makes fewer than `n` passes; the first
argument bounds the number of passes and `Init` supplies `n`
(`work_loop_exit` below shows the loop condition is false in the state
returned). -/
def work_loop : Nat → AliasBuild → AliasBuild
  | 0, st => st
  | fuel + 1, st =>
    match st.smaller, st.larger with
    | l :: smaller, g :: larger =>
      let alias_prob_ := st.alias_prob_.set l (st.probs.getD l 0)
      let alias_ := st.alias_.set l g
      let probs := st.probs.set g (st.probs.getD g 0 + st.probs.getD l 0 - 1)
      if util_less (probs.getD g 0) 1 then
        work_loop fuel
          { probs := probs, smaller := g :: smaller, larger := larger,
            alias_ := alias_, alias_prob_ := alias_prob_ }
      else
        work_loop fuel
          { probs := probs, smaller := smaller, larger := g :: larger,
            alias_ := alias_, alias_prob_ := alias_prob_ }
    | _, _ => st

/-- The two closing loops: every index left in `larger`, then every index left
in `smaller`, gets `alias_prob_ = 1`. -/
def clamp_rest (st : AliasBuild) : List ℚ :=
  st.smaller.foldl (fun ap i => ap.set i 1)
    (st.larger.foldl (fun ap i => ap.set i 1) st.alias_prob_)

/-- `AliasSampler::Init` on a fresh object: the returned flag and the members. -/
def AliasSampler.Init (data_weights : List (Nat × ℚ)) : Bool × AliasSampler :=
  let n := data_weights.length
  if n = 0 then
    (false, { alias_ := [], alias_prob_ := [], data_index_ := [] })
  else
    let probs := normalise data_weights
    let sl := split_indices probs n
    let st := work_loop n
      { probs := probs, smaller := sl.1, larger := sl.2,
        alias_ := List.replicate n 0, alias_prob_ := List.replicate n 0 }
    (true, { alias_ := st.alias_, alias_prob_ := clamp_rest st,
             data_index_ := data_weights.map Prod.fst })

/-- The constructor `AliasSampler::AliasSampler(data_weights)`. -/
def AliasSampler.new (data_weights : List (Nat × ℚ)) : AliasSampler :=
  (AliasSampler.Init data_weights).2

/-- `AliasSampler::draw`; `idx` is the value of `uniform_int_dist_` and
`rand_prob` the value of `uniform_real_dist_`. -/
def AliasSampler.draw (s : AliasSampler) (idx : Nat) (rand_prob : ℚ) : Nat :=
  if util_less rand_prob (s.alias_prob_.getD idx 0) then idx
  else s.alias_.getD idx 0

/-- `AliasSampler::sampling`. -/
def AliasSampler.sampling (s : AliasSampler) (idx : Nat) (rand_prob : ℚ) : Nat :=
  let idx := s.draw idx rand_prob
  let idx := if idx ≥ s.data_index_.length then s.data_index_.length - 1 else idx
  s.data_index_.getD idx 0


/-! ## `src/sampler.cpp`: `MultinomialSampler` and `RandomSampler` -/

/-- The members of `MultinomialSampler` filled by its constructor. -/
structure MultinomialSampler where
  multinomial_dist_ : List ℚ
  data_index_ : List Nat

/-- The constructor loop `cur_weight += w; multinomial_dist_[i] = cur_weight /
total_weight`, started with the running value `cur_weight`. -/
def cumulative (total_weight : ℚ) : ℚ → List (Nat × ℚ) → List ℚ
  | _, [] => []
  | cur_weight, p :: rest =>
    (cur_weight + p.2) / total_weight :: cumulative total_weight (cur_weight + p.2) rest

/-- The constructor `MultinomialSampler::MultinomialSampler(data_weights)`. -/
def MultinomialSampler.new (data_weights : List (Nat × ℚ)) : MultinomialSampler where
  multinomial_dist_ := cumulative (weight_sum data_weights) 0 data_weights
  data_index_ := data_weights.map Prod.fst

/-- The library call `std::upper_bound(first, last, value) - first`, by its
contract: the position of the first element `e` with `value < e`, the length
when there is none. -/
def upper_bound (a : List ℚ) (value : ℚ) : Nat :=
  a.findIdx (fun e => decide (value < e))

/-- `MultinomialSampler::sampling`; `rand_prob` is the value of `random_impl()`. -/
def MultinomialSampler.sampling (s : MultinomialSampler) (rand_prob : ℚ) : Nat :=
  let pos := upper_bound s.multinomial_dist_ rand_prob
  let pos := if pos ≥ s.multinomial_dist_.length then s.multinomial_dist_.length - 1 else pos
  s.data_index_.getD pos 0

/-- The member of `RandomSampler` filled by its constructor. -/
structure RandomSampler where
  data_index_ : List Nat

/-- The constructor `RandomSampler::RandomSampler(data_weights)`. -/
def RandomSampler.new (data_weights : List (Nat × ℚ)) : RandomSampler where
  data_index_ := data_weights.map Prod.fst

/-- `RandomSampler::sampling`; `idx` is the value of `uniform_dist_`. -/
def RandomSampler.sampling (s : RandomSampler) (idx : Nat) : Nat :=
  let idx := if idx ≥ s.data_index_.length then s.data_index_.length - 1 else idx
  s.data_index_.getD idx 0

/-! ## `src/biword2vec.h`: `BiWord2VecModel` -/

/-- The members of `BiWord2VecModel<T>`. -/
structure BiWord2VecModel where
  alpha_ : ℚ
  hidden_size_ : Nat
  source_size_ : Nat
  target_size_ : Nat
  source_hidden_ : List ℚ
  target_hidden_ : List ℚ
  sigmoid_table_ : SigmoidTable

/-- What the constructor establishes: the two tables hold
`size * hidden_size_ + 1` cells. -/
def BiWord2VecModel.Allocated (m : BiWord2VecModel) : Prop :=
  m.source_hidden_.length = m.source_size_ * m.hidden_size_ + 1 ∧
  m.target_hidden_.length = m.target_size_ * m.hidden_size_ + 1

/-- `BiWord2VecModel::PredictRaw`: the returned value and the object after the
call (the body assigns to no member). -/
def BiWord2VecModel.PredictRaw (m : BiWord2VecModel) (source_id target_id : Nat) :
    ℚ × BiWord2VecModel :=
  if source_id ≥ m.source_size_ ∨ target_id ≥ m.target_size_ then (0, m)
  else
    ((List.range m.hidden_size_).foldl
      (fun sum i =>
        sum + m.source_hidden_.getD (source_id * m.hidden_size_ + i) 0 *
          m.target_hidden_.getD (target_id * m.hidden_size_ + i) 0) 0, m)

/-- The lambda `update_target` of `Update`, acting on `buffer` and on
`target_hidden_`. -/
def update_target (hidden_size : Nat) (source_hidden : List ℚ) (source_id target_id : Nat)
    (grad : ℚ) (buffer target_hidden : List ℚ) : List ℚ × List ℚ :=
  (List.range hidden_size).foldl
    (fun (st : List ℚ × List ℚ) i =>
      (st.1.set i (st.1.getD i 0 - grad * st.2.getD (target_id * hidden_size + i) 0),
       st.2.set (target_id * hidden_size + i)
        (st.2.getD (target_id * hidden_size + i) 0 -
          grad * source_hidden.getD (source_id * hidden_size + i) 0)))
    (buffer, target_hidden)

/-- The lambda `update_source` of `Update`, acting on `source_hidden_`. -/
def update_source (hidden_size : Nat) (source_id : Nat) (buffer source_hidden : List ℚ) :
    List ℚ :=
  (List.range hidden_size).foldl
    (fun (sh : List ℚ) i =>
      sh.set (source_id * hidden_size + i)
        (sh.getD (source_id * hidden_size + i) 0 + buffer.getD i 0))
    source_hidden

/-- The variables `Update` carries through its loop over the negative targets. -/
structure UpdateState where
  logloss : ℚ
  buffer : List ℚ
  model : BiWord2VecModel

/-- The subtraction `pred_raw -= noise_prob_func(id)`, done when
`noise_prob_func != nullptr`. -/
def apply_noise (noise_prob_func : Option (Nat → ℚ)) (id : Nat) (pred_raw : ℚ) : ℚ :=
  match noise_prob_func with
  | some f => pred_raw - f id
  | none => pred_raw

/-- The positive term of `Update`: the statements from `PredictRaw(source_id,
target_id)` to the first `update_target` call. -/
def positive_term (source_id : Nat) (noise_prob_func : Option (Nat → ℚ)) (decay : ℚ)
    (st : UpdateState) (target_id : Nat) : UpdateState :=
  let pr := st.model.PredictRaw source_id target_id
  let m := pr.2
  let pred_raw := apply_noise noise_prob_func target_id pr.1
  let pred := m.sigmoid_table_.evaluate pred_raw
  let logloss := st.logloss + -(m.sigmoid_table_.LogSigmoid pred_raw)
  let bt := update_target m.hidden_size_ m.source_hidden_ source_id target_id
    (m.alpha_ * decay * (pred - 1)) st.buffer m.target_hidden_
  { logloss := logloss, buffer := bt.1, model := { m with target_hidden_ := bt.2 } }

/-- The body of the loop of `Update` over `negative_targets`. -/
def negative_term (source_id : Nat) (noise_prob_func : Option (Nat → ℚ)) (decay : ℚ)
    (st : UpdateState) (negative_id : Nat) : UpdateState :=
  let pr := st.model.PredictRaw source_id negative_id
  let m := pr.2
  let pred_raw := apply_noise noise_prob_func negative_id pr.1
  let pred := m.sigmoid_table_.evaluate pred_raw
  let logloss := st.logloss + -(m.sigmoid_table_.LogSigmoid (-pred_raw))
  let bt := update_target m.hidden_size_ m.source_hidden_ source_id negative_id
    (m.alpha_ * decay * pred) st.buffer m.target_hidden_
  { logloss := logloss, buffer := bt.1, model := { m with target_hidden_ := bt.2 } }

/-- `BiWord2VecModel::Update`: the returned loss and the object after the call.
`buffer` is scratch space: its first `hidden_size_` cells are zeroed by
`std::fill` whatever it held before. -/
def BiWord2VecModel.Update (m : BiWord2VecModel) (source_id target_id : Nat)
    (negative_targets : List Nat) (noise_prob_func : Option (Nat → ℚ)) (decay : ℚ) :
    ℚ × BiWord2VecModel :=
  let st0 : UpdateState :=
    { logloss := 0, buffer := List.replicate m.hidden_size_ 0, model := m }
  let st1 := positive_term source_id noise_prob_func decay st0 target_id
  let st2 := negative_targets.foldl (negative_term source_id noise_prob_func decay) st1
  (st2.logloss,
   { st2.model with
     source_hidden_ :=
      update_source st2.model.hidden_size_ source_id st2.buffer st2.model.source_hidden_ })

/-! ## The statements of the spec, in its own words -/

/-- Row `id` of a flat table whose rows have `h` cells: component `i` of the row
is cell `id * h + i`. -/
def row (table : List ℚ) (h id : Nat) : Nat → ℚ :=
  fun i => table.getD (id * h + i) 0

/-- The dot product of two rows over their `h` components. -/
def dot (h : Nat) (a b : Nat → ℚ) : ℚ :=
  ∑ i ∈ Finset.range h, a i * b i

/-- The raw score of a term: the dot product of the source row with the
current row of the target, minus `noise_prob_fn(target)` when a noise function
is supplied. -/
def raw_score (h : Nat) (src : Nat → ℚ) (noise : Option (Nat → ℚ))
    (rows : Nat → Nat → ℚ) (t : Nat) : ℚ :=
  match noise with
  | some f => dot h src (rows t) - f t
  | none => dot h src (rows t)

/-- The gradient of a term with raw score `r`: `decay * alpha * (sigmoid r - 1)`
for the positive term, `decay * alpha * sigmoid r` for a negative one. -/
def term_grad (tbl : SigmoidTable) (alpha decay : ℚ) (positive : Bool) (r : ℚ) : ℚ :=
  if positive then decay * alpha * (tbl.evaluate r - 1) else decay * alpha * tbl.evaluate r

/-- The loss of a term with raw score `r`: `-LogSigmoid r` for the positive
term, `-LogSigmoid (-r)` for a negative one. -/
def term_loss (tbl : SigmoidTable) (positive : Bool) (r : ℚ) : ℚ :=
  if positive then -(tbl.LogSigmoid r) else -(tbl.LogSigmoid (-r))

/-- The step as the spec describes it, term by term: the current target rows,
the sum of `g_k * (row of target k just before term k)`, and the summed
loss. -/
structure StepSpec where
  rows : Nat → Nat → ℚ
  acc : Nat → ℚ
  loss : ℚ

/-- One term of the described step on target `t`: the target row becomes its
current value minus `g * src`, `g * (current target row)` joins the sum, and
the term's loss joins the loss. -/
def spec_term (tbl : SigmoidTable) (alpha decay : ℚ) (h : Nat) (src : Nat → ℚ)
    (noise : Option (Nat → ℚ)) (positive : Bool) (st : StepSpec) (t : Nat) : StepSpec :=
  let r := raw_score h src noise st.rows t
  let g := term_grad tbl alpha decay positive r
  { rows := Function.update st.rows t (fun i => st.rows t i - g * src i)
    acc := fun i => st.acc i + g * st.rows t i
    loss := st.loss + term_loss tbl positive r }

/-- The described step of one call: the positive term on `target_id`, then one
negative term per listed id, in order, starting from the pre-call target
rows. -/
def spec_step (m : BiWord2VecModel) (source_id target_id : Nat) (negatives : List Nat)
    (noise : Option (Nat → ℚ)) (decay : ℚ) : StepSpec :=
  let src := row m.source_hidden_ m.hidden_size_ source_id
  negatives.foldl
    (spec_term m.sigmoid_table_ m.alpha_ decay m.hidden_size_ src noise false)
    (spec_term m.sigmoid_table_ m.alpha_ decay m.hidden_size_ src noise true
      { rows := fun t => row m.target_hidden_ m.hidden_size_ t, acc := fun _ => 0, loss := 0 }
      target_id)

/-- The probability mass the alias table gives position `j`, scaled by `n`:
`alias_prob[j]` plus the sum of `1 - alias_prob[i]` over the slots `i` whose
alias is `j`. -/
def table_mass (s : AliasSampler) (j : Nat) : ℚ :=
  s.alias_prob_.getD j 0 +
    ∑ i ∈ Finset.range s.alias_.length,
      if s.alias_.getD i 0 = j then 1 - s.alias_prob_.getD i 0 else 0

/-- The variables of a running `Update` call on the pre-call model `m` hold
the described state `sp`: only `target_hidden_` differs from `m`, the target
rows are `sp.rows`, the buffer is minus the accumulated sum and the loss is
`sp.loss`. -/
structure Represents (m : BiWord2VecModel) (st : UpdateState) (sp : StepSpec) : Prop where
  alpha_eq : st.model.alpha_ = m.alpha_
  hidden_eq : st.model.hidden_size_ = m.hidden_size_
  source_size_eq : st.model.source_size_ = m.source_size_
  target_size_eq : st.model.target_size_ = m.target_size_
  source_eq : st.model.source_hidden_ = m.source_hidden_
  table_eq : st.model.sigmoid_table_ = m.sigmoid_table_
  target_length : st.model.target_hidden_.length = m.target_hidden_.length
  buffer_length : st.buffer.length = m.hidden_size_
  rows_eq : ∀ t, t < m.target_size_ → ∀ i, i < m.hidden_size_ →
    row st.model.target_hidden_ m.hidden_size_ t i = sp.rows t i
  buffer_eq : ∀ i, i < m.hidden_size_ → st.buffer.getD i 0 = -sp.acc i
  loss_eq : st.logloss = sp.loss

/-- A small model for concrete instances: one source row `[5]`, two target
rows `[5]` and `[1]` (hidden size 1; each table has the one further cell the
constructor allocates), learning rate `1/20`, and a sigmoid table built with
`max t 0 + 1` standing for `std::exp`. -/
def sample_model : BiWord2VecModel where
  alpha_ := 1 / 20
  hidden_size_ := 1
  source_size_ := 1
  target_size_ := 2
  source_hidden_ := [5, 0]
  target_hidden_ := [5, 1, 0]
  sigmoid_table_ := SigmoidTable.new (fun t => max t 0 + 1) (fun _ => 0) DEF_EXP_TABLE_SIZE

/-- What holds of the local variables of `AliasSampler::Init` between two
passes of its work loop, for `n` entries with normalised weights `p0`: the two
stacks hold distinct indices below `n`, sorted by `util_less (probs[i], 1)`;
the `probs` of the stacked indices sum to their number; a stacked index still
has its initial `alias_` / `alias_prob_`; an index already paired has
`alias_prob_` below 1; for every position the mass handed over so far by
paired slots plus what the position still holds is its normalised weight; and
at most `n` indices are stacked. -/
structure BuildInv (n : Nat) (p0 : Nat → ℚ) (st : AliasBuild) : Prop where
  len_probs : st.probs.length = n
  len_alias : st.alias_.length = n
  len_alias_prob : st.alias_prob_.length = n
  nodup : (st.smaller ++ st.larger).Nodup
  lt_n : ∀ i, i ∈ st.smaller ++ st.larger → i < n
  small : ∀ l, l ∈ st.smaller → util_less (st.probs.getD l 0) 1 = true
  large : ∀ g, g ∈ st.larger → util_less (st.probs.getD g 0) 1 = false
  total : ((st.smaller ++ st.larger).map (fun i => st.probs.getD i 0)).sum =
    ((st.smaller ++ st.larger).length : ℚ)
  fresh : ∀ i, i ∈ st.smaller ++ st.larger →
    st.alias_.getD i 0 = 0 ∧ st.alias_prob_.getD i 0 = 0
  paired : ∀ i, i < n → i ∉ st.smaller ++ st.larger →
    util_less (st.alias_prob_.getD i 0) 1 = true
  mass : ∀ j, j < n →
    (∑ i ∈ Finset.range n,
      if i ∉ st.smaller ++ st.larger ∧ st.alias_.getD i 0 = j
      then 1 - st.alias_prob_.getD i 0 else 0) +
      (if j ∈ st.smaller ++ st.larger then st.probs.getD j 0 else st.alias_prob_.getD j 0) =
      p0 j
  count : (st.smaller ++ st.larger).length ≤ n

/-- What holds of a position `j` of weight 0 between two passes of the work
loop of `Init`: it is not in `larger`; while in `smaller` its `probs` is 0;
once off `smaller` its `alias_prob_` is 0; and no paired slot has it as
alias. -/
structure ZeroInv (n j : Nat) (st : AliasBuild) : Prop where
  not_large : j ∉ st.larger
  small_zero : j ∈ st.smaller → st.probs.getD j 0 = 0
  done_zero : j ∉ st.smaller → st.alias_prob_.getD j 0 = 0
  no_alias : ∀ i, i < n → i ∉ st.smaller ++ st.larger → st.alias_.getD i 0 ≠ j

/-! ## Further definitions: `util_*<T>` at `float`, machine integers -/

/-- The value of `std::numeric_limits<float>::epsilon()`, `2⁻²³`; `real_t` of
`biword2vec.cpp` is `float`. -/
def epsilon_float : ℚ := 1 / 2 ^ 23

/-- `util_equal<T>` at a type whose machine epsilon is `eps`. -/
def util_equal_at (eps v1 v2 : ℚ) : Bool :=
  decide (|v1 - v2| < eps)

/-- `util_less<T>` at a type whose machine epsilon is `eps`. -/
def util_less_at (eps v1 v2 : ℚ) : Bool :=
  if util_equal_at eps v1 v2 then false else decide (v1 < v2)

/-- The number of values of `size_t`, `2⁶⁴`. -/
def SIZE_T_RANGE : Nat := 2 ^ 64

/-- A natural number as a `size_t` value: arithmetic on `size_t` wraps. -/
def to_size_t (n : Nat) : Nat := n % SIZE_T_RANGE

/-! ## `src/word_table.cpp`: `WordTable` -/

/-- The members of `WordTable`.  `word_map_` (a `std::unordered_map`) is a list
of bindings in which `find` returns the first binding of the key and an
assignment `word_map_[word] = id` puts a binding in front.  The spin lock is
left out: calls are taken one at a time. -/
structure WordTable where
  word_map_ : List (String × Nat)
  word_vec_ : List String

/-- The table the constructor leaves (it only reserves buckets). -/
def WordTable.new : WordTable where
  word_map_ := []
  word_vec_ := []

/-- The constant `WordTable::npos`, `size_t(-1)`. -/
def WordTable.npos : Nat := SIZE_T_RANGE - 1

/-- The non-const `WordTable::SearchWord` (both overloads have the same body):
the id returned and the table after the call. -/
def WordTable.SearchWord (t : WordTable) (word : String) : Nat × WordTable :=
  match t.word_map_.lookup word with
  | none =>
    match t.word_map_.lookup word with
    | none =>
      let id := t.word_vec_.length
      (id, { word_map_ := (word, id) :: t.word_map_, word_vec_ := t.word_vec_ ++ [word] })
    | some id => (id, t)
  | some id => (id, t)

/-- The const `WordTable::SearchWord`. -/
def WordTable.SearchWord_const (t : WordTable) (word : String) : Nat :=
  match t.word_map_.lookup word with
  | some id => id
  | none => WordTable.npos

/-- `WordTable::WordAt`. -/
def WordTable.WordAt (t : WordTable) (pos : Nat) : String :=
  if pos ≥ t.word_vec_.length then "" else t.word_vec_.getD pos ""

/-- `WordTable::size`. -/
def WordTable.size (t : WordTable) : Nat :=
  t.word_vec_.length

/-- A sequence of inserting `SearchWord` calls made one after the other: the
ids returned, in call order, and the table after the last call. -/
def search_all (words : List String) (t : WordTable) : List Nat × WordTable :=
  words.foldl
    (fun (acc : List Nat × WordTable) w =>
      (acc.1 ++ [(acc.2.SearchWord w).1], (acc.2.SearchWord w).2))
    ([], t)

/-! ## `src/data.h`: `Sample` and `DataManager` -/

/-- The members of `Sample<IdType, T>`; ids are natural numbers (`IdType` is
taken wide enough for the vocabulary). -/
structure Sample where
  source_ : Nat
  target_ : Nat
  weight_ : ℚ

/-- The default constructor `Sample()`. -/
def Sample.new : Sample where
  source_ := 0
  target_ := 0
  weight_ := 0

/-- The members of `DataManager<IdType, T>`. -/
structure DataManager where
  samples_ : List Sample
  source_words_ : WordTable
  target_words_ : WordTable

/-- The object the constructor `DataManager()` leaves. -/
def DataManager.new : DataManager where
  samples_ := []
  source_words_ := WordTable.new
  target_words_ := WordTable.new

/-- The delimiter set `" \t\r\n"` of `parse_data`. -/
def DELIMITERS : List Char := [' ', '\t', '\r', '\n']

/-- The library call `strtok_r(s, delim, &ptr)` on the text `s` still to be
scanned: skip the leading delimiters; if nothing is left return no token;
otherwise the token is the run up to the next delimiter and scanning resumes
after that delimiter.  The result is the token and the text left to scan. -/
def strtok_r (delim : List Char) (s : List Char) : Option (List Char) × List Char :=
  let s1 := s.dropWhile (fun c => decide (c ∈ delim))
  if s1 = [] then (none, [])
  else (some (s1.takeWhile (fun c => !decide (c ∈ delim))),
        (s1.dropWhile (fun c => !decide (c ∈ delim))).tail)

/-- `DataManager::parse_data` on one line buffer (both pointers non-null): the
returned flag, the sample behind `sample` and the object after the call.
`atof` is the library function; `T` is `float`. -/
def DataManager.parse_data (atof : List Char → ℚ) (dm : DataManager) (input_buf : List Char)
    (sample : Sample) : Bool × Sample × DataManager :=
  let r1 := strtok_r DELIMITERS input_buf
  let r2 := strtok_r DELIMITERS r1.2
  let r3 := strtok_r DELIMITERS r2.2
  match r1.1, r2.1, r3.1 with
  | some p1, some p2, some p3 =>
    let weight := atof p3
    let weight := if util_less_at epsilon_float weight 0 then 0 else weight
    let s := dm.source_words_.SearchWord (String.mk p1)
    let t := dm.target_words_.SearchWord (String.mk p2)
    (true, { source_ := s.1, target_ := t.1, weight_ := weight },
      { dm with source_words_ := s.2, target_words_ := t.2 })
  | _, _, _ => (false, sample, dm)

/-- The body of the loop of `parser_thread` for one line that `fgets` returned. -/
def DataManager.load_line (atof : List Char → ℚ) (dm : DataManager) (line : List Char) :
    DataManager :=
  let r := dm.parse_data atof line Sample.new
  if r.1 then { r.2.2 with samples_ := r.2.2.samples_ ++ [r.2.1] } else r.2.2

/-- `DataManager::load_data` with one parser thread: `file` is `none` when
`fopen` fails, otherwise the lines `fgets` returns one after the other. -/
def DataManager.load_data (atof : List Char → ℚ) (dm : DataManager)
    (file : Option (List (List Char))) : Bool × DataManager :=
  match file with
  | none => (false, dm)
  | some lines => (true, lines.foldl (DataManager.load_line atof) dm)

/-- `DataManager::size`. -/
def DataManager.size (dm : DataManager) : Nat := dm.samples_.length

/-- `DataManager::source_size`. -/
def DataManager.source_size (dm : DataManager) : Nat := dm.source_words_.size

/-- `DataManager::target_size`. -/
def DataManager.target_size (dm : DataManager) : Nat := dm.target_words_.size

/-- `DataManager::SampleAt`; `none` is the null pointer. -/
def DataManager.SampleAt (dm : DataManager) (pos : Nat) : Option Sample :=
  if pos ≥ dm.samples_.length then none else dm.samples_.get? pos

/-- The whitespace-separated fields of a line: the pieces between delimiter
characters, without the empty ones. -/
def fields (line : List Char) : List (List Char) :=
  (line.splitOnP (fun c => decide (c ∈ DELIMITERS))).filter (fun f => !f.isEmpty)

/-- What holds of the ids returned and of the table after the calls
`SearchWord(words[0])`, `SearchWord(words[1])`, ... on a fresh table: the map
binds exactly the listed words, each to its position; the word list has no
repetition and holds exactly the tokens looked up; its length is the number of
distinct tokens; and the id returned by call `k` is the position of the token
in the word list, which is the number of distinct tokens that occur before
the first occurrence of the token. -/
structure TableAfter (words : List String) (r : List Nat × WordTable) : Prop where
  valid : ∀ x, r.2.word_map_.lookup x =
    if x ∈ r.2.word_vec_ then some (r.2.word_vec_.indexOf x) else none
  nodup : r.2.word_vec_.Nodup
  mem_iff : ∀ w, w ∈ r.2.word_vec_ ↔ w ∈ words
  card : r.2.word_vec_.length = words.toFinset.card
  ids_length : r.1.length = words.length
  ids_index : ∀ k, k < words.length →
    r.1.getD k 0 = r.2.word_vec_.indexOf (words.getD k "")
  ids_rank : ∀ k, k < words.length →
    r.1.getD k 0 = (words.take (words.indexOf (words.getD k ""))).toFinset.card

/-- What holds of a `DataManager` between two lines of `load_data`: both word
tables are consistent, and the source (target) ids of the stored samples are
exactly the ids below `source_size()` (`target_size()`). -/
structure LoadInv (dm : DataManager) : Prop where
  source_valid : ∀ x, dm.source_words_.word_map_.lookup x =
    if x ∈ dm.source_words_.word_vec_ then some (dm.source_words_.word_vec_.indexOf x) else none
  target_valid : ∀ x, dm.target_words_.word_map_.lookup x =
    if x ∈ dm.target_words_.word_vec_ then some (dm.target_words_.word_vec_.indexOf x) else none
  source_ids : ∀ i, i < dm.source_size ↔ ∃ s, s ∈ dm.samples_ ∧ s.source_ = i
  target_ids : ∀ i, i < dm.target_size ↔ ∃ s, s ∈ dm.samples_ ∧ s.target_ = i

/-! ## `src/biword2vec.h`: constructor, `InitModel` and `Save` of `BiWord2VecModel` -/

/-- The constructor `BiWord2VecModel(source, target, hidden, alpha)`: the two
tables get `size * hidden + 1` cells (shown as 0 until written) and the
sigmoid table its default size. -/
def BiWord2VecModel.new (exp log : ℚ → ℚ) (source target hidden : Nat) (alpha : ℚ) :
    BiWord2VecModel where
  alpha_ := alpha
  hidden_size_ := hidden
  source_size_ := source
  target_size_ := target
  source_hidden_ := List.replicate (source * hidden + 1) 0
  target_hidden_ := List.replicate (target * hidden + 1) 0
  sigmoid_table_ := SigmoidTable.new exp log DEF_EXP_TABLE_SIZE

/-- `BiWord2VecModel::InitModel`; `source_draw i` and `target_draw i` are the
values `uniform_dist(rand_generator)` returns in the two loops. -/
def BiWord2VecModel.InitModel (m : BiWord2VecModel) (source_draw target_draw : Nat → ℚ) :
    Bool × BiWord2VecModel :=
  let source_hidden := (List.range (m.source_size_ * m.hidden_size_)).foldl
    (fun tbl i => tbl.set i (source_draw i / m.hidden_size_)) m.source_hidden_
  let target_hidden := (List.range (m.target_size_ * m.hidden_size_)).foldl
    (fun tbl i => tbl.set i (target_draw i / m.hidden_size_)) m.target_hidden_
  (true, { m with source_hidden_ := source_hidden, target_hidden_ := target_hidden })

/-- The inner loop of `Save` for row `i`: each pass appends
`fprintf(fp, "%lf%s", table[i * hidden_size_ + j], tail)` to the text `fp`
written so far.  `fmt` is the text `"%lf"` produces.  The comparison with
`hidden_size_ - 1` is only reached when `hidden_size_ ≥ 1`. -/
def save_values (fmt : ℚ → String) (hidden_size : Nat) (table : List ℚ) (i : Nat)
    (fp : String) : String :=
  (List.range hidden_size).foldl
    (fun fp j =>
      let tail := if j = hidden_size - 1 then "\n" else " "
      fp ++ (fmt (table.getD (i * hidden_size + j) 0) ++ tail))
    fp

/-- The text `Save` writes into one file (`fopen` succeeded): the header
`"%lu %lu\n"`, then for each row the name followed by a tab (`"%s\t"` with the
name function, `"%lu\t"` with the id when the function is null) and the inner
loop. -/
def save_file (fmt : ℚ → String) (name : Option (Nat → String)) (size hidden_size : Nat)
    (table : List ℚ) : String :=
  let fp := toString size ++ " " ++ toString hidden_size ++ "\n"
  (List.range size).foldl
    (fun fp i =>
      let fp := match name with
        | some f => fp ++ (f i ++ "\t")
        | none => fp ++ (toString i ++ "\t")
      save_values fmt hidden_size table i fp)
    fp

/-- `BiWord2VecModel::Save`: the files written, each as its path and text. -/
def BiWord2VecModel.Save (m : BiWord2VecModel) (fmt : ℚ → String) (path : String)
    (source_name target_name : Option (Nat → String)) : List (String × String) :=
  [(path ++ ".source",
      save_file fmt source_name m.source_size_ m.hidden_size_ m.source_hidden_),
   (path ++ ".target",
      save_file fmt target_name m.target_size_ m.hidden_size_ m.target_hidden_)]

/-- The name of row `i` as the specification describes it: the result of the
name function, the decimal id without one. -/
def row_name (name : Option (Nat → String)) (i : Nat) : String :=
  match name with
  | some f => f i
  | none => toString i

/-- The line of row `i` as the specification describes it: the name, a tab,
the `hidden_size` numbers separated by single spaces, a newline. -/
def described_line (fmt : ℚ → String) (name : Option (Nat → String)) (hidden_size : Nat)
    (table : List ℚ) (i : Nat) : String :=
  row_name name i ++ "\t" ++
    " ".intercalate ((List.range hidden_size).map
      (fun j => fmt (table.getD (i * hidden_size + j) 0))) ++ "\n"

/-- The file as the specification describes it: the header line, then one line
per row. -/
def described_file (fmt : ℚ → String) (name : Option (Nat → String)) (size hidden_size : Nat)
    (table : List ℚ) : String :=
  toString size ++ " " ++ toString hidden_size ++ "\n" ++
    String.join ((List.range size).map (described_line fmt name hidden_size table))

/-! ## `src/data.h`: the sampler builders -/

/-- An object behind a `BaseSampler*`: the two samplers the builders create. -/
inductive BaseSampler where
  | alias (s : AliasSampler)
  | random (s : RandomSampler)

/-- The virtual call `sampling()`; `idx` and `rand_prob` are the values the
object's distributions return in this call. -/
def BaseSampler.sampling : BaseSampler → Nat → ℚ → Nat
  | .alias s, idx, rand_prob => s.sampling idx rand_prob
  | .random s, idx, _ => s.sampling idx

/-- `DataManager::build_data_sampler`; `none` is the null pointer. -/
def DataManager.build_data_sampler (dm : DataManager) : Option BaseSampler :=
  if dm.samples_.length = 0 then none
  else
    let data_weights := (List.range dm.samples_.length).map
      (fun i => (i, (dm.samples_.getD i Sample.new).weight_))
    some (.alias (AliasSampler.new data_weights))

/-- The statement `map[key] += w` on a `std::unordered_map` whose values start
at 0, the map kept as the list of its entries in the order of first insertion. -/
def accumulate (map : List (Nat × ℚ)) (key : Nat) (w : ℚ) : List (Nat × ℚ) :=
  match map.lookup key with
  | none => map ++ [(key, 0 + w)]
  | some _ => map.map (fun p => if p.1 = key then (p.1, p.2 + w) else p)

/-- `DataManager::build_target_sampler(seed, weight_exp)` as `data.h` defines
it; `pow` is the library function, `none` the null pointer. -/
def DataManager.build_target_sampler (pow : ℚ → ℚ → ℚ) (dm : DataManager) (weight_exp : ℚ) :
    Option BaseSampler :=
  if dm.samples_.length = 0 then none
  else
    let target_weights := dm.samples_.foldl (fun m s => accumulate m s.target_ s.weight_) []
    let data_weights := target_weights.map (fun p => (p.1, pow p.2 weight_exp))
    if util_equal weight_exp 0 then some (.random (RandomSampler.new data_weights))
    else some (.alias (AliasSampler.new data_weights))

/-- `DataManager::SourceWord`. -/
def DataManager.SourceWord (dm : DataManager) (pos : Nat) : String :=
  dm.source_words_.WordAt pos

/-- `DataManager::TargetWord`. -/
def DataManager.TargetWord (dm : DataManager) (pos : Nat) : String :=
  dm.target_words_.WordAt pos

/-! ## `src/biword2vec.h`: `BiWord2VecTrainer` -/

/-- How a run of the code ends: it finishes with a value, or it reaches a
statement without defined behaviour, a member access through a null pointer or
an integer division by zero. -/
inductive Outcome (α : Type) where
  | ok (a : α)
  | null_dereference
  | division_by_zero

/-- The enumeration `LossType`. -/
inductive LossType where
  | LOSS_LINE
  | LOSS_NCE
deriving DecidableEq

/-- The members of `TrainingContext`; `target_noise_prob` is `none` for the
null pointer, otherwise the entries of the map it points to. -/
structure TrainingContext where
  model : BiWord2VecModel
  training_words : Nat
  training_words_actual : Nat
  negative : Nat
  num_threads : Nat
  iteration : Nat
  logloss : ℚ
  logloss_count : Nat
  target_noise_prob : Option (List (Nat × ℚ))

/-- The members of `BiWord2VecTrainer`; `none` is the null pointer. -/
structure BiWord2VecTrainer where
  data_manager_ : DataManager
  data_sampler_ : Option BaseSampler
  target_sampler_ : Option BaseSampler

/-- The constructor `BiWord2VecTrainer()`. -/
def BiWord2VecTrainer.new : BiWord2VecTrainer where
  data_manager_ := DataManager.new
  data_sampler_ := none
  target_sampler_ := none

/-- What the program takes from outside: the library functions and the values
of the random distributions.  `data_draw t i` is what the distributions of the
data sampler return to worker `t` in pass `i` of its loop, `noise_draw t i j`
what those of the target sampler return for its `j`-th negative id there. -/
structure Environment where
  exp : ℚ → ℚ
  log : ℚ → ℚ
  pow : ℚ → ℚ → ℚ
  atof : List Char → ℚ
  fmt : ℚ → String
  source_draw : Nat → ℚ
  target_draw : Nat → ℚ
  data_draw : Nat → Nat → Nat × ℚ
  noise_draw : Nat → Nat → Nat → Nat × ℚ

/-- A record of one call of `Update` by a worker: its arguments and the value
it returned. -/
structure UpdateCall where
  source_id : Nat
  target_id : Nat
  negative_targets : List Nat
  decay : ℚ
  result : ℚ

/-- The shared context and the local variables of `TrainThread` while its loop
runs, with the record `calls` of the `Update` calls made so far. -/
structure ThreadState where
  context : TrainingContext
  last_word_count : Nat
  alpha_decay : ℚ
  logloss : ℚ
  count : Nat
  calls : List UpdateCall

/-- The block of `TrainThread` that publishes into the shared context in pass
`i` (the text it prints is left out). -/
def publish (st : ThreadState) (i : Nat) : ThreadState :=
  let context := { st.context with
    logloss := st.context.logloss + st.logloss
    logloss_count := to_size_t (st.context.logloss_count + st.count)
    training_words_actual :=
      to_size_t (st.context.training_words_actual + (i - st.last_word_count)) }
  let alpha_decay := 1 - context.training_words_actual * 1 /
    (to_size_t (context.training_words * context.iteration) + 1)
  { st with
    context := context
    last_word_count := i
    alpha_decay := max (1 / 10000) alpha_decay }

/-- The loop of `TrainThread` that fills `negative_targets` in pass `i`; it
calls `target_sampler_->sampling()` once per negative id, so with a null
`target_sampler_` it only finishes when `negative` is 0. -/
def negative_targets (tr : BiWord2VecTrainer) (env : Environment) (thread_id negative i : Nat) :
    Outcome (List Nat) :=
  match tr.target_sampler_ with
  | some target_sampler =>
    .ok ((List.range negative).map (fun j =>
      target_sampler.sampling (env.noise_draw thread_id i j).1 (env.noise_draw thread_id i j).2))
  | none => if negative = 0 then .ok [] else .null_dereference

/-- The function `noise_prob_func` that `TrainThread` hands to `Update`. -/
def noise_prob_func (target_noise_prob : Option (List (Nat × ℚ))) : Option (Nat → ℚ) :=
  match target_noise_prob with
  | none => none
  | some map => some (fun id => (map.lookup id).getD 0)

/-- Pass `i` of the loop of `TrainThread`. -/
def train_step (tr : BiWord2VecTrainer) (env : Environment)
    (thread_id local_training_words negative : Nat) (st : ThreadState) (i : Nat) :
    Outcome ThreadState :=
  match tr.data_sampler_ with
  | none => .null_dereference
  | some data_sampler =>
    let sample_id :=
      data_sampler.sampling (env.data_draw thread_id i).1 (env.data_draw thread_id i).2
    match tr.data_manager_.SampleAt sample_id with
    | none => .null_dereference
    | some sample =>
      let st :=
        if i - st.last_word_count > 10000 ∨ i = local_training_words - 1 then publish st i
        else st
      match negative_targets tr env thread_id negative i with
      | .ok negatives =>
        let r := st.context.model.Update sample.source_ sample.target_ negatives
          (noise_prob_func st.context.target_noise_prob) st.alpha_decay
        .ok { st with
          context := { st.context with model := r.2 }
          logloss := st.logloss + r.1
          count := to_size_t (st.count + (1 + negative))
          calls := st.calls ++
            [{ source_id := sample.source_, target_id := sample.target_,
               negative_targets := negatives, decay := st.alpha_decay, result := r.1 }] }
      | .null_dereference => .null_dereference
      | .division_by_zero => .division_by_zero

/-- The passes `is` of a loop one after the other, up to the first that does
not finish. -/
def run_passes (step : ThreadState → Nat → Outcome ThreadState) :
    List Nat → ThreadState → Outcome ThreadState
  | [], st => .ok st
  | i :: is, st =>
    match step st i with
    | .ok st => run_passes step is st
    | .null_dereference => .null_dereference
    | .division_by_zero => .division_by_zero

/-- The number `local_training_words` of `TrainThread`, computed in `size_t`;
the divisor is not 0. -/
def local_training_words (training_words iteration num_threads : Nat) : Nat :=
  to_size_t (to_size_t (training_words * iteration) + num_threads + SIZE_T_RANGE - 1) /
    num_threads

/-- `BiWord2VecTrainer::TrainThread`: the state when the loop has ended. -/
def BiWord2VecTrainer.TrainThread (tr : BiWord2VecTrainer) (env : Environment)
    (thread_id : Nat) (context : TrainingContext) : Outcome ThreadState :=
  let iteration := context.iteration
  let num_threads := context.num_threads
  let training_words := context.training_words
  if num_threads = 0 then .division_by_zero
  else
    let local_training_words := local_training_words training_words iteration num_threads
    let negative := context.negative
    run_passes (train_step tr env thread_id local_training_words negative)
      (List.range local_training_words)
      { context := context, last_word_count := 0, alpha_decay := 1, logloss := 0, count := 0,
        calls := [] }

/-- The workers `ids` of `Train`, run one after the other on the shared
context; `log` collects the `Update` calls of each. -/
def run_workers (worker : Nat → TrainingContext → Outcome ThreadState) :
    List Nat → TrainingContext → List (List UpdateCall) →
      Outcome (TrainingContext × List (List UpdateCall))
  | [], context, log => .ok (context, log)
  | i :: ids, context, log =>
    match worker i context with
    | .ok st => run_workers worker ids st.context (log ++ [st.calls])
    | .null_dereference => .null_dereference
    | .division_by_zero => .division_by_zero

/-- The map `target_unigram_prob` that `Train` fills for `LOSS_NCE`. -/
def target_unigram_prob (log : ℚ → ℚ) (dm : DataManager) (negative : Nat) : List (Nat × ℚ) :=
  let map := dm.samples_.foldl (fun m s => accumulate m s.target_ s.weight_) []
  let total_weight := dm.samples_.foldl (fun t s => t + s.weight_) 0
  map.map (fun p => (p.1, log (negative * p.2 / total_weight)))

/-- The statements of `Train` before the workers are started: the trainer with
the loaded data and the two samplers, and the context handed to the workers.
The lines of the file are parsed in their order. -/
def BiWord2VecTrainer.prepare (tr : BiWord2VecTrainer) (env : Environment)
    (file : Option (List (List Char))) (alpha : ℚ)
    (hidden_size iteration negative training_words num_threads : Nat)
    (weight_neg_sampling : ℚ) (method : LossType) : BiWord2VecTrainer × TrainingContext :=
  let dm := (tr.data_manager_.load_data env.atof file).2
  let tr : BiWord2VecTrainer :=
    { data_manager_ := dm
      data_sampler_ := dm.build_data_sampler
      target_sampler_ := dm.build_target_sampler env.pow weight_neg_sampling }
  let model := BiWord2VecModel.new env.exp env.log dm.source_size dm.target_size hidden_size alpha
  let model := (model.InitModel env.source_draw env.target_draw).2
  let training_words := if training_words = 0 then dm.size else training_words
  let context : TrainingContext :=
    { model := model
      training_words := training_words
      training_words_actual := 0
      negative := negative
      num_threads := num_threads
      iteration := iteration
      logloss := 0
      logloss_count := 0
      target_noise_prob :=
        if method = LossType.LOSS_NCE then some (target_unigram_prob env.log dm negative)
        else none }
  (tr, context)

/-- What a finished call of `Train` leaves: the returned flag, the number of
workers started, the context when the workers have ended, the final loss, the
files written and the `Update` calls of each worker. -/
structure TrainResult where
  returned : Bool
  launched : Nat
  context : TrainingContext
  loss : ℚ
  files : List (String × String)
  calls : List (List UpdateCall)

/-- `BiWord2VecTrainer::Train`, its workers run one after the other. -/
def BiWord2VecTrainer.Train (tr : BiWord2VecTrainer) (env : Environment)
    (file : Option (List (List Char))) (model_path : String) (alpha : ℚ)
    (hidden_size iteration negative training_words num_threads : Nat)
    (weight_neg_sampling : ℚ) (method : LossType) : Outcome TrainResult :=
  let p := tr.prepare env file alpha hidden_size iteration negative training_words num_threads
    weight_neg_sampling method
  let tr := p.1
  let context := p.2
  let num_threads := max num_threads 1
  match run_workers (tr.TrainThread env) (List.range num_threads) context [] with
  | .ok (context, calls) =>
    .ok { returned := true
          launched := num_threads
          context := context
          loss := context.logloss / context.logloss_count
          files := context.model.Save env.fmt model_path
            (some tr.data_manager_.SourceWord) (some tr.data_manager_.TargetWord)
          calls := calls }
  | .null_dereference => .null_dereference
  | .division_by_zero => .division_by_zero

/-- The members of the context that no worker writes are the same in `a` and
`b`. -/
structure SameSettings (a b : TrainingContext) : Prop where
  training_words : b.training_words = a.training_words
  iteration : b.iteration = a.iteration
  num_threads : b.num_threads = a.num_threads
  negative : b.negative = a.negative
  target_noise_prob : b.target_noise_prob = a.target_noise_prob

/-- The grand total `T` of the specification: `training_words * iteration`,
with the sample count in place of a `training_words` given as 0. -/
def grand_total (training_words sample_count iteration : Nat) : Nat :=
  (if training_words = 0 then sample_count else training_words) * iteration

/-- An environment for examples. -/
def sample_environment : Environment where
  exp := fun t => max t 0 + 1
  log := fun _ => 0
  pow := fun x _ => x
  atof := fun _ => 1
  fmt := fun _ => "1.000000"
  source_draw := fun _ => 0
  target_draw := fun _ => 0
  data_draw := fun _ _ => (0, 0)
  noise_draw := fun _ _ _ => (0, 0)

/-- A corpus file for examples: the single line `"a b 1\n"`. -/
def sample_file : Option (List (List Char)) :=
  some [['a', ' ', 'b', ' ', '1', '\n']]

/-- What holds of the state of a worker after `m` passes none of which has
published, for a context that held `logloss` and `logloss_count` at the start
and `k` negatives per example: the shared counters are untouched, and the
local `count` and `logloss` are those of the `m` calls of `Update` so far. -/
structure Unpublished (logloss : ℚ) (logloss_count k m : Nat) (st : ThreadState) : Prop where
  shared_loss : st.context.logloss = logloss
  shared_count : st.context.logloss_count = logloss_count
  last : st.last_word_count = 0
  count : st.count = to_size_t (m * (1 + k))
  loss : st.logloss = (st.calls.map UpdateCall.result).sum
  calls : st.calls.length = m
  negatives : ∀ c ∈ st.calls, c.negative_targets.length = k

/-- The map `target_weights` that `build_target_sampler` fills from the
samples. -/
def target_weights (dm : DataManager) : List (Nat × ℚ) :=
  dm.samples_.foldl (fun m s => accumulate m s.target_ s.weight_) []

/-- What holds of the local variables of `AliasSampler::Init` between two
passes of its work loop whatever the weights are: the stacked indices and the
entries of `alias_` are below `n`, and `alias_` has `n` cells. -/
structure RangeInv (n : Nat) (st : AliasBuild) : Prop where
  smaller_lt : ∀ i ∈ st.smaller, i < n
  larger_lt : ∀ i ∈ st.larger, i < n
  alias_lt : ∀ a ∈ st.alias_, a < n
  alias_length : st.alias_.length = n

/-! ## `Update` with every array access checked -/

/-- The read `a[i]` when cell `i` is inside the array `a`; `none` when it is
outside. -/
def read_at (a : List ℚ) (i : Nat) : Option ℚ :=
  if i < a.length then some (a.getD i 0) else none

/-- The write `a[i] = v` when cell `i` is inside the array `a`; `none` when it
is outside. -/
def write_at (a : List ℚ) (i : Nat) (v : ℚ) : Option (List ℚ) :=
  if i < a.length then some (a.set i v) else none

/-- The passes `is` of a loop one after the other; `none` as soon as a pass
leaves an array. -/
def run_checked {σ : Type} (pass : σ → Nat → Option σ) : List Nat → σ → Option σ
  | [], st => some st
  | i :: is, st =>
    match pass st i with
    | some st1 => run_checked pass is st1
    | none => none

/-- `BiWord2VecModel::PredictRaw`, the accesses to `source_hidden_` and
`target_hidden_` checked. -/
def BiWord2VecModel.PredictRaw_checked (m : BiWord2VecModel) (source_id target_id : Nat) :
    Option ℚ :=
  if source_id ≥ m.source_size_ ∨ target_id ≥ m.target_size_ then some 0
  else
    run_checked
      (fun sum i =>
        (read_at m.source_hidden_ (source_id * m.hidden_size_ + i)).bind fun a =>
        (read_at m.target_hidden_ (target_id * m.hidden_size_ + i)).bind fun b =>
        some (sum + a * b))
      (List.range m.hidden_size_) 0

/-- The lambda `update_target` of `Update`, the accesses to `buffer`,
`target_hidden_` and `source_hidden_` checked. -/
def update_target_checked (hidden_size : Nat) (source_hidden : List ℚ)
    (source_id target_id : Nat) (grad : ℚ) (buffer target_hidden : List ℚ) :
    Option (List ℚ × List ℚ) :=
  run_checked
    (fun (st : List ℚ × List ℚ) i =>
      (read_at st.1 i).bind fun b =>
      (read_at st.2 (target_id * hidden_size + i)).bind fun t =>
      (write_at st.1 i (b - grad * t)).bind fun buffer1 =>
      (read_at source_hidden (source_id * hidden_size + i)).bind fun s =>
      (write_at st.2 (target_id * hidden_size + i) (t - grad * s)).bind fun target1 =>
      some (buffer1, target1))
    (List.range hidden_size) (buffer, target_hidden)

/-- The lambda `update_source` of `Update`, the accesses to `source_hidden_`
and `buffer` checked. -/
def update_source_checked (hidden_size : Nat) (source_id : Nat)
    (buffer source_hidden : List ℚ) : Option (List ℚ) :=
  run_checked
    (fun (sh : List ℚ) i =>
      (read_at sh (source_id * hidden_size + i)).bind fun s =>
      (read_at buffer i).bind fun b =>
      write_at sh (source_id * hidden_size + i) (s + b))
    (List.range hidden_size) source_hidden

/-- The positive term of `Update`, every access checked. -/
def positive_term_checked (source_id : Nat) (noise_prob_func : Option (Nat → ℚ)) (decay : ℚ)
    (st : UpdateState) (target_id : Nat) : Option UpdateState :=
  (st.model.PredictRaw_checked source_id target_id).bind fun raw =>
  let m := st.model
  let pred_raw := apply_noise noise_prob_func target_id raw
  let pred := m.sigmoid_table_.evaluate pred_raw
  let logloss := st.logloss + -(m.sigmoid_table_.LogSigmoid pred_raw)
  (update_target_checked m.hidden_size_ m.source_hidden_ source_id target_id
    (m.alpha_ * decay * (pred - 1)) st.buffer m.target_hidden_).bind fun bt =>
  some { logloss := logloss, buffer := bt.1, model := { m with target_hidden_ := bt.2 } }

/-- The body of the loop of `Update` over `negative_targets`, every access
checked. -/
def negative_term_checked (source_id : Nat) (noise_prob_func : Option (Nat → ℚ)) (decay : ℚ)
    (st : UpdateState) (negative_id : Nat) : Option UpdateState :=
  (st.model.PredictRaw_checked source_id negative_id).bind fun raw =>
  let m := st.model
  let pred_raw := apply_noise noise_prob_func negative_id raw
  let pred := m.sigmoid_table_.evaluate pred_raw
  let logloss := st.logloss + -(m.sigmoid_table_.LogSigmoid (-pred_raw))
  (update_target_checked m.hidden_size_ m.source_hidden_ source_id negative_id
    (m.alpha_ * decay * pred) st.buffer m.target_hidden_).bind fun bt =>
  some { logloss := logloss, buffer := bt.1, model := { m with target_hidden_ := bt.2 } }

/-- `BiWord2VecModel::Update`, every access to `source_hidden_`,
`target_hidden_` and `buffer` checked: `none` when one of them is outside its
array, otherwise the returned loss and the object after the call. -/
def BiWord2VecModel.Update_checked (m : BiWord2VecModel) (source_id target_id : Nat)
    (negative_targets : List Nat) (noise_prob_func : Option (Nat → ℚ)) (decay : ℚ) :
    Option (ℚ × BiWord2VecModel) :=
  let st0 : UpdateState :=
    { logloss := 0, buffer := List.replicate m.hidden_size_ 0, model := m }
  (positive_term_checked source_id noise_prob_func decay st0 target_id).bind fun st1 =>
  (run_checked (negative_term_checked source_id noise_prob_func decay)
    negative_targets st1).bind fun st2 =>
  (update_source_checked st2.model.hidden_size_ source_id st2.buffer
    st2.model.source_hidden_).bind fun source_hidden =>
  some (st2.logloss, { st2.model with source_hidden_ := source_hidden })

/-! ## `src/distance.cpp`: `EmbeddingModel::Match` -/

/-- The members of `EmbeddingModel` that `Match` reads.  A cell of `model_` is a
`double`; `none` stands for NaN (what `atof` gives for the text `nan`).
`LoadModel` takes `num_feat_` from the first line of the file and appends one
name to `feat_name_` for every row line it reads; for a file that ends before
its `num_feat_` row lines it still returns true, and `feat_name_` is then
shorter than `num_feat_`. -/
structure EmbeddingModel where
  feat_name_ : List String
  num_feat_ : Nat
  hidden_size_ : Nat
  model_ : List (Option ℚ)

/-- The comparison `a > b` of two `double` values: false when one of them is
NaN. -/
def double_gt (a b : Option ℚ) : Bool :=
  match a, b with
  | some x, some y => decide (x > y)
  | _, _ => false

/-- The comparison `a >= b` of two `double` values: false when one of them is
NaN. -/
def double_ge (a b : Option ℚ) : Bool :=
  match a, b with
  | some x, some y => decide (x ≥ y)
  | _, _ => false

/-- The comparison `cmp` of `Match`: `left.second > right.second`. -/
def cmp (left right : String × Option ℚ) : Bool :=
  double_gt left.2 right.2

/-- Whether position `k` of the queue `q` holds an element that may be its
`top()`: by the contract of `std::priority_queue` an element `x` with
`cmp(x, y)` false for every element `y`. -/
def is_top (q : List (String × Option ℚ)) (k : Nat) : Bool :=
  decide (k < q.length) && q.all (fun y => !cmp (q.getD k ("", none)) y)

/-- The position of `top()` in the queue `q`, kept as the list of the elements
it holds.  When several elements may be the top, the library does not say
which one is; `choose` stands for the choice the heap makes, and the first
such position is taken when `choose` does not name one. -/
def top_position (choose : List (String × Option ℚ) → Nat) (q : List (String × Option ℚ)) :
    Nat :=
  if is_top q (choose q) then choose q
  else q.findIdx (fun x => q.all (fun y => !cmp x y))

/-- The loop `while (q.size() > topn) q.pop()`.  Every pass removes one element,
so the loop makes at most `q.size()` passes; the first argument bounds the
number of passes. -/
def pop_while (choose : List (String × Option ℚ) → Nat) (topn : Nat) :
    Nat → List (String × Option ℚ) → List (String × Option ℚ)
  | 0, q => q
  | fuel + 1, q =>
    if q.length > topn then pop_while choose topn fuel (q.eraseIdx (top_position choose q))
    else q

/-- The loop `while (q.size() > 0) { vec.push_back(q.top()); q.pop(); }`; the
first argument bounds the number of passes. -/
def drain (choose : List (String × Option ℚ) → Nat) :
    Nat → List (String × Option ℚ) → List (String × Option ℚ) → List (String × Option ℚ)
  | 0, _, vec => vec
  | fuel + 1, q, vec =>
    if q.length > 0 then
      drain choose fuel (q.eraseIdx (top_position choose q))
        (vec ++ [q.getD (top_position choose q) ("", none)])
    else vec

/-- `EmbeddingModel::Match`.  The pair pushed for row `i` is its name
`feat_name_[i]` and the score of `embedding_i`, the part of `model_` from cell
`i * hidden_size_` on; `sort` is the library call
`std::sort(vec.begin(), vec.end(), cmp)`.  The read `feat_name_[i]` is not
checked here (see `Match_checked`). -/
def EmbeddingModel.Match (m : EmbeddingModel) (choose : List (String × Option ℚ) → Nat)
    (sort : List (String × Option ℚ) → List (String × Option ℚ))
    (embedding : List (Option ℚ))
    (score_func : List (Option ℚ) → List (Option ℚ) → Nat → Option ℚ) (topn : Nat) :
    List (String × Option ℚ) :=
  let q := (List.range m.num_feat_).foldl
    (fun q i =>
      let q := (m.feat_name_.getD i "",
        score_func embedding (m.model_.drop (i * m.hidden_size_)) m.hidden_size_) :: q
      pop_while choose topn q.length q)
    []
  let vec := drain choose q.length q []
  sort vec

/-- `EmbeddingModel::Match`, the read `feat_name_[i]` checked: `none` when `i`
is outside the vector `feat_name_`. -/
def EmbeddingModel.Match_checked (m : EmbeddingModel)
    (choose : List (String × Option ℚ) → Nat)
    (sort : List (String × Option ℚ) → List (String × Option ℚ))
    (embedding : List (Option ℚ))
    (score_func : List (Option ℚ) → List (Option ℚ) → Nat → Option ℚ) (topn : Nat) :
    Option (List (String × Option ℚ)) :=
  (run_checked
    (fun q i =>
      (m.feat_name_[i]?).bind fun name =>
      let q := (name,
        score_func embedding (m.model_.drop (i * m.hidden_size_)) m.hidden_size_) :: q
      some (pop_while choose topn q.length q))
    (List.range m.num_feat_) []).bind fun q =>
  some (sort (drain choose q.length q []))

/-- What holds of the queue `q` of `Match` after the rows `rows` have been
pushed: with the elements popped so far it holds exactly the pairs of those
rows, it holds `min(topn, number of rows)` of them, and, when no score is NaN,
no popped pair has a higher score than a pair still held. -/
structure QueueInv (topn : Nat) (rows q dropped : List (String × Option ℚ)) : Prop where
  perm : (q ++ dropped).Perm rows
  size : q.length = min topn rows.length
  best : (∀ r ∈ rows, r.2.isSome = true) → ∀ a ∈ q, ∀ b ∈ dropped, cmp b a = false

/-- An example of a sort function: insertion sort by decreasing score (a NaN
taken as 0). -/
def sample_sort (l : List (String × Option ℚ)) : List (String × Option ℚ) :=
  l.insertionSort (fun a b => b.2.getD 0 ≤ a.2.getD 0)

/-- The product of the first cells, an example of a score function; the
product with a NaN is NaN. -/
def first_cell_score (v1 v2 : List (Option ℚ)) (_ : Nat) : Option ℚ :=
  match v1.headD none, v2.headD none with
  | some a, some b => some (a * b)
  | _, _ => none

/-- An embedding model for examples: three rows of one cell. -/
def sample_embedding_model : EmbeddingModel where
  feat_name_ := ["a", "b", "c"]
  num_feat_ := 3
  hidden_size_ := 1
  model_ := [some 1, some 3, some 2, some 0]

/-- The model `LoadModel` leaves for the file of the three lines `2 1`,
`a<TAB>nan` and `b<TAB>nan`: two rows, each with the one cell NaN (and the one
further cell the allocation adds). -/
def nan_embedding_model : EmbeddingModel where
  feat_name_ := ["a", "b"]
  num_feat_ := 2
  hidden_size_ := 1
  model_ := [none, none, some 0]

/-- The model `LoadModel` leaves for the file of the two lines `2 1` and
`a<TAB>1`, which ends before the second row line: `LoadModel` returns true
with two rows announced and one name stored. -/
def truncated_embedding_model : EmbeddingModel where
  feat_name_ := ["a"]
  num_feat_ := 2
  hidden_size_ := 1
  model_ := [some 1, some 0, some 0]

/-! ## `T = float`: the conversion of a value to `float` -/

/-- The integer nearest to `x`, the even one of the two when `x` lies halfway
between two integers. -/
def round_half_even (x : ℚ) : ℤ :=
  if x - ⌊x⌋ < 1 / 2 then ⌊x⌋
  else if 1 / 2 < x - ⌊x⌋ then ⌊x⌋ + 1
  else if ⌊x⌋ % 2 = 0 then ⌊x⌋ else ⌊x⌋ + 1

/-- The exponent `e` of the `float` grid around `x`: `2^e ≤ |x| < 2^(e+1)`,
and `-126` for the subnormal values below `2^-126`. -/
def float_exponent (x : ℚ) : ℤ :=
  max (Int.log 2 |x|) (-126)

/-- The conversion of a value to `float` (IEEE binary32, round to nearest, ties
to even): the nearest multiple of `2^(e-23)`.  Values beyond the largest
`float`, which the conversion turns into an infinity, are outside this
definition. -/
def to_float (x : ℚ) : ℚ :=
  (round_half_even (x / 2 ^ (float_exponent x - 23)) : ℚ) * 2 ^ (float_exponent x - 23)

/-- What the proofs use of a conversion `fl` to `T`: it is monotone, it
commutes with negation and it leaves 1 as it is. -/
structure Rounding (fl : ℚ → ℚ) : Prop where
  mono : Monotone fl
  neg : ∀ x, fl (-x) = -fl x
  one : fl 1 = 1

/-! ## `BiWord2VecModel<T>` at `T = float`: `PredictRaw` and `Update` with their conversions -/

/-- `BiWord2VecModel::PredictRaw` at `T = float`.  `fl` is the conversion of a
value to `T`: the product of two cells and the sum `sum += ...` are `T`
operations, each rounded by `fl` on its own (no fused multiply-add, no extended
precision).  (The operations on `double` stay exact, as everywhere in this
file.) -/
def BiWord2VecModel.PredictRaw_T (m : BiWord2VecModel) (fl : ℚ → ℚ)
    (source_id target_id : Nat) : ℚ × BiWord2VecModel :=
  if source_id ≥ m.source_size_ ∨ target_id ≥ m.target_size_ then (0, m)
  else
    ((List.range m.hidden_size_).foldl
      (fun sum i =>
        fl (sum + fl (m.source_hidden_.getD (source_id * m.hidden_size_ + i) 0 *
          m.target_hidden_.getD (target_id * m.hidden_size_ + i) 0))) 0, m)

/-- The lambda `update_target` of `Update` at `T = float`: `grad * cell` and
the two `-=` are `T` operations. -/
def update_target_T (fl : ℚ → ℚ) (hidden_size : Nat) (source_hidden : List ℚ)
    (source_id target_id : Nat) (grad : ℚ) (buffer target_hidden : List ℚ) :
    List ℚ × List ℚ :=
  (List.range hidden_size).foldl
    (fun (st : List ℚ × List ℚ) i =>
      (st.1.set i (fl (st.1.getD i 0 - fl (grad * st.2.getD (target_id * hidden_size + i) 0))),
       st.2.set (target_id * hidden_size + i)
        (fl (st.2.getD (target_id * hidden_size + i) 0 -
          fl (grad * source_hidden.getD (source_id * hidden_size + i) 0)))))
    (buffer, target_hidden)

/-- The lambda `update_source` of `Update` at `T = float`. -/
def update_source_T (fl : ℚ → ℚ) (hidden_size : Nat) (source_id : Nat)
    (buffer source_hidden : List ℚ) : List ℚ :=
  (List.range hidden_size).foldl
    (fun (sh : List ℚ) i =>
      sh.set (source_id * hidden_size + i)
        (fl (sh.getD (source_id * hidden_size + i) 0 + buffer.getD i 0)))
    source_hidden

/-- The subtraction `pred_raw -= noise_prob_func(id)` at `T = float`. -/
def apply_noise_T (fl : ℚ → ℚ) (noise_prob_func : Option (Nat → ℚ)) (id : Nat)
    (pred_raw : ℚ) : ℚ :=
  match noise_prob_func with
  | some f => fl (pred_raw - f id)
  | none => pred_raw

/-- The positive term of `Update` at `T = float`: `T pred = sigmoid_table_[pred_raw]`
converts the table value to `T`; in `alpha_ * decay * (pred - 1.)` the product
`alpha_ * decay` is a `T` operation, the rest is done in `double` and converted
to `T` when it is passed as `grad`. -/
def positive_term_T (fl : ℚ → ℚ) (source_id : Nat) (noise_prob_func : Option (Nat → ℚ))
    (decay : ℚ) (st : UpdateState) (target_id : Nat) : UpdateState :=
  let pr := st.model.PredictRaw_T fl source_id target_id
  let m := pr.2
  let pred_raw := apply_noise_T fl noise_prob_func target_id pr.1
  let pred := fl (m.sigmoid_table_.evaluate pred_raw)
  let logloss := fl (st.logloss + -(m.sigmoid_table_.LogSigmoid pred_raw))
  let bt := update_target_T fl m.hidden_size_ m.source_hidden_ source_id target_id
    (fl (fl (m.alpha_ * decay) * (pred - 1))) st.buffer m.target_hidden_
  { logloss := logloss, buffer := bt.1, model := { m with target_hidden_ := bt.2 } }

/-- The body of the loop of `Update` over `negative_targets` at `T = float`. -/
def negative_term_T (fl : ℚ → ℚ) (source_id : Nat) (noise_prob_func : Option (Nat → ℚ))
    (decay : ℚ) (st : UpdateState) (negative_id : Nat) : UpdateState :=
  let pr := st.model.PredictRaw_T fl source_id negative_id
  let m := pr.2
  let pred_raw := apply_noise_T fl noise_prob_func negative_id pr.1
  let pred := fl (m.sigmoid_table_.evaluate pred_raw)
  let logloss := fl (st.logloss + -(m.sigmoid_table_.LogSigmoid (-pred_raw)))
  let bt := update_target_T fl m.hidden_size_ m.source_hidden_ source_id negative_id
    (fl (fl (m.alpha_ * decay) * pred)) st.buffer m.target_hidden_
  { logloss := logloss, buffer := bt.1, model := { m with target_hidden_ := bt.2 } }

/-- `BiWord2VecModel::Update` at `T = float`: the returned loss and the object
after the call. -/
def BiWord2VecModel.Update_T (m : BiWord2VecModel) (fl : ℚ → ℚ) (source_id target_id : Nat)
    (negative_targets : List Nat) (noise_prob_func : Option (Nat → ℚ)) (decay : ℚ) :
    ℚ × BiWord2VecModel :=
  let st0 : UpdateState :=
    { logloss := 0, buffer := List.replicate m.hidden_size_ 0, model := m }
  let st1 := positive_term_T fl source_id noise_prob_func decay st0 target_id
  let st2 := negative_targets.foldl (negative_term_T fl source_id noise_prob_func decay) st1
  (st2.logloss,
   { st2.model with
     source_hidden_ :=
      update_source_T fl st2.model.hidden_size_ source_id st2.buffer
        st2.model.source_hidden_ })

/-- Every cell of the two tables is a value of `T`: the conversion leaves it as
it is. -/
def BiWord2VecModel.Stored (m : BiWord2VecModel) (fl : ℚ → ℚ) : Prop :=
  (∀ x ∈ m.source_hidden_, fl x = x) ∧ (∀ x ∈ m.target_hidden_, fl x = x)

/-- A stand-in for `std::exp` on the `float` sample: the positive,
non-decreasing step function `2 ^ ⌊3 t / 2⌋`. -/
def step_exp (t : ℚ) : ℚ := 2 ^ ⌊3 * t / 2⌋

/-- A model whose cells are `float` values: source rows `[4.25]` and `[4]`,
target rows `[4.25]`, `[6]` and `[-4]` (hidden size 1; each table has the one
further cell the constructor allocates), learning rate `1/16`, and the sigmoid
table the constructor builds from `exp` and `log`. -/
def float_model (exp log : ℚ → ℚ) : BiWord2VecModel where
  alpha_ := 1 / 16
  hidden_size_ := 1
  source_size_ := 2
  target_size_ := 3
  source_hidden_ := [17 / 4, 4, 0]
  target_hidden_ := [17 / 4, 6, -4, 0]
  sigmoid_table_ := SigmoidTable.new exp log DEF_EXP_TABLE_SIZE

/-- The `float` sample with `step_exp` standing for `std::exp`. -/
def float_sample : BiWord2VecModel := float_model step_exp (fun _ => 0)

/-! ## Comparison helpers -/

theorem epsilon_pos : 0 < epsilon := by
  norm_num [epsilon]

theorem util_less_iff (a b : ℚ) : util_less a b = true ↔ a + epsilon ≤ b := by
  unfold util_less util_equal
  by_cases h : |a - b| < epsilon
  · have h2 := abs_lt.mp h
    simp only [h, decide_True, if_true]
    constructor
    · intro hf; cases hf
    · intro hle; linarith [h2.1]
  · simp only [h, decide_False, Bool.false_eq_true, if_false, decide_eq_true_eq]
    rw [abs_lt, not_and_or] at h
    have := epsilon_pos
    constructor
    · intro hlt
      rcases h with h | h
      · linarith
      · linarith
    · intro hle; linarith

theorem util_greater_iff (a b : ℚ) : util_greater a b = true ↔ b + epsilon ≤ a := by
  unfold util_greater util_equal
  by_cases h : |a - b| < epsilon
  · have h2 := abs_lt.mp h
    simp only [h, decide_True, if_true]
    constructor
    · intro hf; cases hf
    · intro hle; linarith [h2.2]
  · simp only [h, decide_False, Bool.false_eq_true, if_false, decide_eq_true_eq, gt_iff_lt]
    rw [abs_lt, not_and_or] at h
    have := epsilon_pos
    constructor
    · intro hlt
      rcases h with h | h
      · linarith
      · linarith
    · intro hle; linarith

theorem getD_set_eq (l : List ℚ) (i j : Nat) (a : ℚ) :
    (l.set i a).getD j 0 = if i = j ∧ i < l.length then a else l.getD j 0 := by
  simp only [List.getD_eq_getElem?_getD, List.getElem?_set]
  by_cases hij : i = j
  · subst hij
    by_cases hi : i < l.length
    · simp [hi]
    · simp [hi, List.getElem?_eq_none (not_lt.mp hi)]
  · simp [hij]

theorem getD_set_nat (l : List Nat) (i j : Nat) (a : Nat) :
    (l.set i a).getD j 0 = if i = j ∧ i < l.length then a else l.getD j 0 := by
  simp only [List.getD_eq_getElem?_getD, List.getElem?_set]
  by_cases hij : i = j
  · subst hij
    by_cases hi : i < l.length
    · simp [hi]
    · simp [hi, List.getElem?_eq_none (not_lt.mp hi)]
  · simp [hij]

/-! ## `SigmoidTable` -/

theorem sigmoid_table_getD (exp log : ℚ → ℚ) (n i : Nat) (hi : i < n) :
    (SigmoidTable.new exp log n).sigmoid_table_.getD i 0 = sigmoid exp (exp_value n i) := by
  simp [SigmoidTable.new, List.getD_eq_getElem?_getD, List.getElem?_map,
    List.getElem?_range hi]

theorem slot_lt (t : SigmoidTable) (x : ℚ) (hn : 0 < t.table_size_) :
    t.slot x < t.table_size_ := by
  unfold SigmoidTable.slot
  simp only
  split_ifs with h
  · omega
  · omega

theorem slot_mono (t : SigmoidTable) (x y : ℚ) (hxy : x ≤ y) : t.slot x ≤ t.slot y := by
  have hfl : ⌊(x + MAX_EXP_NUM) * (t.table_size_ : ℚ) / (MAX_EXP_NUM * 2)⌋.toNat ≤
      ⌊(y + MAX_EXP_NUM) * (t.table_size_ : ℚ) / (MAX_EXP_NUM * 2)⌋.toNat := by
    apply Int.toNat_le_toNat
    apply Int.floor_le_floor
    have h1 : (0 : ℚ) ≤ (t.table_size_ : ℚ) := Nat.cast_nonneg _
    have h2 : (0 : ℚ) < MAX_EXP_NUM * 2 := by norm_num [MAX_EXP_NUM]
    apply div_le_div_of_nonneg_right _ h2.le
    apply mul_le_mul_of_nonneg_right _ h1
    linarith
  unfold SigmoidTable.slot
  simp only
  split_ifs with h1 h2 h2
  · exact le_refl _
  · omega
  · omega
  · exact hfl

theorem safe_exp_pos (exp : ℚ → ℚ) (hpos : ∀ x, 0 < exp x) (x : ℚ) : 0 < safe_exp exp x :=
  hpos _

theorem sigmoid_pos (exp : ℚ → ℚ) (hpos : ∀ x, 0 < exp x) (x : ℚ) : 0 < sigmoid exp x := by
  unfold sigmoid
  have := safe_exp_pos exp hpos (-x)
  positivity

theorem sigmoid_lt_one (exp : ℚ → ℚ) (hpos : ∀ x, 0 < exp x) (x : ℚ) : sigmoid exp x < 1 := by
  unfold sigmoid
  have h := safe_exp_pos exp hpos (-x)
  rw [div_lt_one (by linarith)]
  linarith

theorem sigmoid_mono (exp : ℚ → ℚ) (hpos : ∀ x, 0 < exp x) (hmono : Monotone exp)
    (x y : ℚ) (hxy : x ≤ y) : sigmoid exp x ≤ sigmoid exp y := by
  unfold sigmoid
  have hx := safe_exp_pos exp hpos (-x)
  have hy := safe_exp_pos exp hpos (-y)
  have hle : safe_exp exp (-y) ≤ safe_exp exp (-x) := by
    unfold safe_exp
    apply hmono
    apply max_le_max _ (le_refl _)
    apply min_le_min _ (le_refl _)
    linarith
  apply one_div_le_one_div_of_le (by linarith)
  linarith

theorem exp_value_mono (n i j : Nat) (hij : i ≤ j) : exp_value n i ≤ exp_value n j := by
  unfold exp_value
  have h1 : (0 : ℚ) ≤ (n : ℚ) := Nat.cast_nonneg _
  have h2 : (i : ℚ) ≤ (j : ℚ) := Nat.cast_le.mpr hij
  have h3 : (0 : ℚ) ≤ 2 * MAX_EXP_NUM := by norm_num [MAX_EXP_NUM]
  have := div_le_div_of_nonneg_right (mul_le_mul_of_nonneg_left h2 h3) h1
  linarith

/-- The three branches of `operator[]` on a freshly built table. -/
theorem evaluate_new (exp log : ℚ → ℚ) (n : Nat) (hn : 0 < n) (x : ℚ) :
    (SigmoidTable.new exp log n).evaluate x =
      if MAX_EXP_NUM + epsilon ≤ x then 1
      else if x + epsilon ≤ -MAX_EXP_NUM then 0
      else sigmoid exp (exp_value n ((SigmoidTable.new exp log n).slot x)) := by
  unfold SigmoidTable.evaluate
  have hs := slot_lt (SigmoidTable.new exp log n) x hn
  rw [sigmoid_table_getD exp log n _ hs]
  by_cases h1 : MAX_EXP_NUM + epsilon ≤ x
  · rw [if_pos ((util_greater_iff _ _).mpr h1), if_pos h1]
  · have h1f : ¬ util_greater x MAX_EXP_NUM = true := fun h => h1 ((util_greater_iff _ _).mp h)
    rw [if_neg h1f, if_neg h1]
    by_cases h2 : x + epsilon ≤ -MAX_EXP_NUM
    · rw [if_pos ((util_less_iff _ _).mpr h2), if_pos h2]
    · have h2f : ¬ util_less x (-MAX_EXP_NUM) = true := fun h => h2 ((util_less_iff _ _).mp h)
      rw [if_neg h2f, if_neg h2]

theorem evaluate_new_bounds (exp log : ℚ → ℚ) (hpos : ∀ x, 0 < exp x) (n : Nat) (hn : 0 < n)
    (x : ℚ) :
    0 ≤ (SigmoidTable.new exp log n).evaluate x ∧ (SigmoidTable.new exp log n).evaluate x ≤ 1 := by
  rw [evaluate_new exp log n hn]
  split_ifs
  · exact ⟨zero_le_one, le_refl _⟩
  · exact ⟨le_refl _, zero_le_one⟩
  · exact ⟨(sigmoid_pos exp hpos _).le, (sigmoid_lt_one exp hpos _).le⟩

theorem evaluate_new_mono (exp log : ℚ → ℚ) (hpos : ∀ x, 0 < exp x) (hmono : Monotone exp)
    (n : Nat) (hn : 0 < n) (x y : ℚ) (hxy : x ≤ y) :
    (SigmoidTable.new exp log n).evaluate x ≤ (SigmoidTable.new exp log n).evaluate y := by
  have hb := evaluate_new_bounds exp log hpos n hn
  by_cases h1 : MAX_EXP_NUM + epsilon ≤ y
  · have : (SigmoidTable.new exp log n).evaluate y = 1 := by
      rw [evaluate_new exp log n hn, if_pos h1]
    rw [this]
    exact (hb x).2
  · by_cases h2 : x + epsilon ≤ -MAX_EXP_NUM
    · have h3 : ¬ MAX_EXP_NUM + epsilon ≤ x := fun h => h1 (le_trans h hxy)
      have : (SigmoidTable.new exp log n).evaluate x = 0 := by
        rw [evaluate_new exp log n hn, if_neg h3, if_pos h2]
      rw [this]
      exact (hb y).1
    · have h3 : ¬ MAX_EXP_NUM + epsilon ≤ x := fun h => h1 (le_trans h hxy)
      have h4 : ¬ y + epsilon ≤ -MAX_EXP_NUM := fun h => h2 (by linarith)
      rw [evaluate_new exp log n hn, evaluate_new exp log n hn, if_neg h3, if_neg h2,
        if_neg h1, if_neg h4]
      exact sigmoid_mono exp hpos hmono _ _ (exp_value_mono n _ _ (slot_mono _ x y hxy))

/-! ## `PredictRaw` -/

theorem foldl_range_add (f : Nat → ℚ) (n : Nat) :
    (List.range n).foldl (fun sum i => sum + f i) 0 = ∑ i ∈ Finset.range n, f i := by
  induction n with
  | zero => simp
  | succ k ih =>
    rw [List.range_succ, List.foldl_append, ih, Finset.sum_range_succ]
    rfl

theorem PredictRaw_snd (m : BiWord2VecModel) (s t : Nat) : (m.PredictRaw s t).2 = m := by
  unfold BiWord2VecModel.PredictRaw
  split_ifs <;> rfl

theorem PredictRaw_fst (m : BiWord2VecModel) (s t : Nat) (hs : s < m.source_size_)
    (ht : t < m.target_size_) :
    (m.PredictRaw s t).1 =
      dot m.hidden_size_ (row m.source_hidden_ m.hidden_size_ s)
        (row m.target_hidden_ m.hidden_size_ t) := by
  unfold BiWord2VecModel.PredictRaw
  rw [if_neg (by omega)]
  exact foldl_range_add _ _

theorem PredictRaw_out_of_range (m : BiWord2VecModel) (s t : Nat)
    (h : m.source_size_ ≤ s ∨ m.target_size_ ≤ t) : (m.PredictRaw s t).1 = 0 := by
  unfold BiWord2VecModel.PredictRaw
  rw [if_pos h]

/-! ## Samplers built from a single pair -/

theorem alias_new_single (idx : Nat) (w : ℚ) :
    AliasSampler.new [(idx, w)] = { alias_ := [0], alias_prob_ := [1], data_index_ := [idx] } := by
  by_cases h : util_less (w / w) 1 = true
  · simp [AliasSampler.new, AliasSampler.Init, normalise, weight_sum, split_indices,
      List.range, List.range.loop, work_loop, clamp_rest, h]
  · simp [AliasSampler.new, AliasSampler.Init, normalise, weight_sum, split_indices,
      List.range, List.range.loop, work_loop, clamp_rest, h]

theorem alias_sampling_single (idx : Nat) (w : ℚ) (slot : Nat) (u : ℚ) :
    (AliasSampler.new [(idx, w)]).sampling slot u = idx := by
  rw [alias_new_single]
  unfold AliasSampler.sampling
  simp only [List.length_singleton]
  split_ifs with h
  · rfl
  · have h0 : AliasSampler.draw { alias_ := [0], alias_prob_ := [1], data_index_ := [idx] }
        slot u = 0 := by omega
    rw [h0]
    rfl

theorem multinomial_sampling_single (idx : Nat) (w : ℚ) (u : ℚ) :
    (MultinomialSampler.new [(idx, w)]).sampling u = idx := by
  unfold MultinomialSampler.sampling MultinomialSampler.new
  simp only [cumulative, List.length_singleton, List.map_cons, List.map_nil]
  split_ifs with h
  · rfl
  · have h0 : upper_bound [(0 + w) / weight_sum [(idx, w)]] u = 0 := by omega
    rw [h0]
    rfl

theorem random_sampling_single (idx : Nat) (w : ℚ) (slot : Nat) :
    (RandomSampler.new [(idx, w)]).sampling slot = idx := by
  unfold RandomSampler.sampling RandomSampler.new
  simp only [List.length_singleton, List.map_cons, List.map_nil]
  split_ifs with h
  · rfl
  · have h0 : slot = 0 := by omega
    rw [h0]
    rfl

/-! ## The loops of `Update` -/

theorem update_target_loop (h : Nat) (S : List ℚ) (s t : Nat) (g : ℚ) (b T : List ℚ)
    (hb : b.length = h) (hT : t * h + h ≤ T.length) (n : Nat) (hn : n ≤ h) :
    ((List.range n).foldl
      (fun (st : List ℚ × List ℚ) i =>
        (st.1.set i (st.1.getD i 0 - g * st.2.getD (t * h + i) 0),
         st.2.set (t * h + i) (st.2.getD (t * h + i) 0 - g * S.getD (s * h + i) 0)))
      (b, T)).1.length = h ∧
    ((List.range n).foldl
      (fun (st : List ℚ × List ℚ) i =>
        (st.1.set i (st.1.getD i 0 - g * st.2.getD (t * h + i) 0),
         st.2.set (t * h + i) (st.2.getD (t * h + i) 0 - g * S.getD (s * h + i) 0)))
      (b, T)).2.length = T.length ∧
    (∀ i, ((List.range n).foldl
      (fun (st : List ℚ × List ℚ) i =>
        (st.1.set i (st.1.getD i 0 - g * st.2.getD (t * h + i) 0),
         st.2.set (t * h + i) (st.2.getD (t * h + i) 0 - g * S.getD (s * h + i) 0)))
      (b, T)).1.getD i 0 =
        if i < n then b.getD i 0 - g * T.getD (t * h + i) 0 else b.getD i 0) ∧
    (∀ k, ((List.range n).foldl
      (fun (st : List ℚ × List ℚ) i =>
        (st.1.set i (st.1.getD i 0 - g * st.2.getD (t * h + i) 0),
         st.2.set (t * h + i) (st.2.getD (t * h + i) 0 - g * S.getD (s * h + i) 0)))
      (b, T)).2.getD k 0 =
        if t * h ≤ k ∧ k < t * h + n then T.getD k 0 - g * S.getD (s * h + (k - t * h)) 0
        else T.getD k 0) := by
  induction n with
  | zero =>
    refine ⟨hb, rfl, fun i => ?_, fun k => ?_⟩
    · simp
    · have : ¬ (t * h ≤ k ∧ k < t * h + 0) := by omega
      rw [List.range_zero, List.foldl_nil, if_neg this]
  | succ n ih =>
    obtain ⟨h1, h2, h3, h4⟩ := ih (by omega)
    rw [List.range_succ, List.foldl_append]
    simp only [List.foldl_cons, List.foldl_nil]
    refine ⟨by rw [List.length_set]; exact h1, by rw [List.length_set]; exact h2,
      fun i => ?_, fun k => ?_⟩
    · rw [getD_set_eq, h3, h3, h4, h1]
      have hnn : ¬ n < n := lt_irrefl n
      have hk : ¬ (t * h ≤ t * h + n ∧ t * h + n < t * h + n) := by omega
      simp only [hnn, hk, if_false]
      by_cases hi : n = i
      · subst hi
        have : n < h := by omega
        simp [this]
      · by_cases hi2 : i < n
        · have : i < n + 1 := by omega
          simp [hi, hi2, this]
        · have : ¬ i < n + 1 := by omega
          simp [hi, hi2, this]
    · rw [getD_set_eq, h4, h4, h2]
      have hk : ¬ (t * h ≤ t * h + n ∧ t * h + n < t * h + n) := by omega
      simp only [hk, if_false]
      by_cases hi : t * h + n = k
      · subst hi
        have h5 : t * h + n < T.length := by omega
        have h6 : t * h ≤ t * h + n ∧ t * h + n < t * h + (n + 1) := by omega
        have h7 : t * h + n - t * h = n := by omega
        simp [h5, h6, h7]
      · by_cases hi2 : t * h ≤ k ∧ k < t * h + n
        · have : t * h ≤ k ∧ k < t * h + (n + 1) := by omega
          simp [hi, hi2, this]
        · have : ¬ (t * h ≤ k ∧ k < t * h + (n + 1)) := by omega
          simp [hi, hi2, this]

theorem update_target_spec (h : Nat) (S : List ℚ) (s t : Nat) (g : ℚ) (b T : List ℚ)
    (hb : b.length = h) (hT : t * h + h ≤ T.length) :
    (update_target h S s t g b T).1.length = h ∧
    (update_target h S s t g b T).2.length = T.length ∧
    (∀ i, i < h → (update_target h S s t g b T).1.getD i 0 =
        b.getD i 0 - g * T.getD (t * h + i) 0) ∧
    (∀ k, (update_target h S s t g b T).2.getD k 0 =
        if t * h ≤ k ∧ k < t * h + h then T.getD k 0 - g * S.getD (s * h + (k - t * h)) 0
        else T.getD k 0) := by
  obtain ⟨h1, h2, h3, h4⟩ := update_target_loop h S s t g b T hb hT h (le_refl h)
  refine ⟨h1, h2, fun i hi => ?_, h4⟩
  have := h3 i
  rw [if_pos hi] at this
  exact this

theorem update_source_loop (h : Nat) (s : Nat) (b S : List ℚ) (hS : s * h + h ≤ S.length)
    (n : Nat) (hn : n ≤ h) :
    ((List.range n).foldl
      (fun (sh : List ℚ) i => sh.set (s * h + i) (sh.getD (s * h + i) 0 + b.getD i 0))
      S).length = S.length ∧
    (∀ k, ((List.range n).foldl
      (fun (sh : List ℚ) i => sh.set (s * h + i) (sh.getD (s * h + i) 0 + b.getD i 0))
      S).getD k 0 =
        if s * h ≤ k ∧ k < s * h + n then S.getD k 0 + b.getD (k - s * h) 0 else S.getD k 0) := by
  induction n with
  | zero =>
    refine ⟨rfl, fun k => ?_⟩
    have : ¬ (s * h ≤ k ∧ k < s * h + 0) := by omega
    rw [List.range_zero, List.foldl_nil, if_neg this]
  | succ n ih =>
    obtain ⟨h1, h2⟩ := ih (by omega)
    rw [List.range_succ, List.foldl_append]
    simp only [List.foldl_cons, List.foldl_nil]
    refine ⟨by rw [List.length_set]; exact h1, fun k => ?_⟩
    rw [getD_set_eq, h2, h2, h1]
    have hk : ¬ (s * h ≤ s * h + n ∧ s * h + n < s * h + n) := by omega
    simp only [hk, if_false]
    by_cases hi : s * h + n = k
    · subst hi
      have h5 : s * h + n < S.length := by omega
      have h6 : s * h ≤ s * h + n ∧ s * h + n < s * h + (n + 1) := by omega
      have h7 : s * h + n - s * h = n := by omega
      simp [h5, h6, h7]
    · by_cases hi2 : s * h ≤ k ∧ k < s * h + n
      · have : s * h ≤ k ∧ k < s * h + (n + 1) := by omega
        simp [hi, hi2, this]
      · have : ¬ (s * h ≤ k ∧ k < s * h + (n + 1)) := by omega
        simp [hi, hi2, this]

theorem update_source_spec (h : Nat) (s : Nat) (b S : List ℚ) (hS : s * h + h ≤ S.length) :
    (update_source h s b S).length = S.length ∧
    (∀ k, (update_source h s b S).getD k 0 =
        if s * h ≤ k ∧ k < s * h + h then S.getD k 0 + b.getD (k - s * h) 0 else S.getD k 0) :=
  update_source_loop h s b S hS h (le_refl h)

/-- Rows of a table after a write to the cells of row `t`. -/
theorem row_index_iff (h t u i : Nat) (hi : i < h) :
    (t * h ≤ u * h + i ∧ u * h + i < t * h + h) ↔ u = t := by
  constructor
  · rintro ⟨h1, h2⟩
    by_contra hne
    rcases Nat.lt_or_gt_of_ne hne with hlt | hgt
    · have : (u + 1) * h ≤ t * h := Nat.mul_le_mul_right h hlt
      rw [Nat.add_mul] at this
      omega
    · have : (t + 1) * h ≤ u * h := Nat.mul_le_mul_right h hgt
      rw [Nat.add_mul] at this
      omega
  · rintro rfl
    omega

/-! ## `Update` against the described step -/

theorem dot_congr (h : Nat) (a b c d : Nat → ℚ) (hac : ∀ i, i < h → a i = c i)
    (hbd : ∀ i, i < h → b i = d i) : dot h a b = dot h c d := by
  unfold dot
  apply Finset.sum_congr rfl
  intro i hi
  rw [hac i (Finset.mem_range.mp hi), hbd i (Finset.mem_range.mp hi)]

theorem represents_raw (m : BiWord2VecModel) (st : UpdateState) (sp : StepSpec)
    (hr : Represents m st sp) (s t : Nat) (hs : s < m.source_size_) (ht : t < m.target_size_)
    (noise : Option (Nat → ℚ)) :
    apply_noise noise t (st.model.PredictRaw s t).1 =
      raw_score m.hidden_size_ (row m.source_hidden_ m.hidden_size_ s) noise sp.rows t := by
  have hd : (st.model.PredictRaw s t).1 =
      dot m.hidden_size_ (row m.source_hidden_ m.hidden_size_ s) (sp.rows t) := by
    rw [PredictRaw_fst st.model s t (by rw [hr.source_size_eq]; exact hs)
      (by rw [hr.target_size_eq]; exact ht), hr.hidden_eq, hr.source_eq]
    exact dot_congr _ _ _ _ _ (fun _ _ => rfl) (fun i hi => hr.rows_eq t ht i hi)
  unfold apply_noise raw_score
  cases noise with
  | none => exact hd
  | some f => simp only [hd]

theorem represents_update (m : BiWord2VecModel) (hm : m.Allocated) (st : UpdateState)
    (sp : StepSpec) (hr : Represents m st sp) (s t : Nat)
    (ht : t < m.target_size_) (g loss : ℚ) :
    Represents m
      { logloss := loss,
        buffer := (update_target m.hidden_size_ m.source_hidden_ s t g st.buffer
          st.model.target_hidden_).1,
        model := { m with
          target_hidden_ := (update_target m.hidden_size_ m.source_hidden_ s t g st.buffer
            st.model.target_hidden_).2 } }
      { rows := Function.update sp.rows t
          (fun i => sp.rows t i - g * row m.source_hidden_ m.hidden_size_ s i),
        acc := fun i => sp.acc i + g * sp.rows t i,
        loss := loss } := by
  have hT : t * m.hidden_size_ + m.hidden_size_ ≤ st.model.target_hidden_.length := by
    rw [hr.target_length, hm.2]
    have : (t + 1) * m.hidden_size_ ≤ m.target_size_ * m.hidden_size_ :=
      Nat.mul_le_mul_right _ ht
    rw [Nat.add_mul] at this
    omega
  obtain ⟨h1, h2, h3, h4⟩ := update_target_spec m.hidden_size_ m.source_hidden_ s t g
    st.buffer st.model.target_hidden_ hr.buffer_length hT
  refine ⟨rfl, rfl, rfl, rfl, rfl, rfl, ?_, h1, ?_, ?_, rfl⟩
  · show (update_target _ _ _ _ _ _ _).2.length = _
    rw [h2, hr.target_length]
  · intro u hu i hi
    show (update_target _ _ _ _ _ _ _).2.getD (u * m.hidden_size_ + i) 0 = _
    rw [h4]
    have hrow := hr.rows_eq u hu i hi
    unfold row at hrow
    by_cases hut : u = t
    · subst hut
      have h5 : u * m.hidden_size_ + i - u * m.hidden_size_ = i := by omega
      rw [if_pos ((row_index_iff m.hidden_size_ u u i hi).mpr rfl), h5, hrow]
      simp only [Function.update_same]
      rfl
    · rw [if_neg (fun hc => hut ((row_index_iff m.hidden_size_ t u i hi).mp hc)), hrow]
      simp only [Function.update_noteq hut]
  · intro i hi
    show (update_target _ _ _ _ _ _ _).1.getD i 0 = _
    have hrow := hr.rows_eq t ht i hi
    unfold row at hrow
    rw [h3 i hi, hr.buffer_eq i hi, hrow]
    simp only
    ring

theorem positive_term_represents (m : BiWord2VecModel) (hm : m.Allocated) (st : UpdateState)
    (sp : StepSpec) (hr : Represents m st sp) (s t : Nat) (hs : s < m.source_size_)
    (ht : t < m.target_size_) (noise : Option (Nat → ℚ)) (decay : ℚ) :
    Represents m (positive_term s noise decay st t)
      (spec_term m.sigmoid_table_ m.alpha_ decay m.hidden_size_
        (row m.source_hidden_ m.hidden_size_ s) noise true sp t) := by
  have hraw := represents_raw m st sp hr s t hs ht noise
  unfold positive_term spec_term term_grad term_loss
  simp only [PredictRaw_snd, hraw, hr.table_eq, hr.alpha_eq, hr.hidden_eq, hr.source_eq,
    hr.source_size_eq, hr.target_size_eq,
    hr.loss_eq, if_true]
  have := represents_update m hm st sp hr s t ht
    (decay * m.alpha_ * (m.sigmoid_table_.evaluate
      (raw_score m.hidden_size_ (row m.source_hidden_ m.hidden_size_ s) noise sp.rows t) - 1))
    (sp.loss + -(m.sigmoid_table_.LogSigmoid
      (raw_score m.hidden_size_ (row m.source_hidden_ m.hidden_size_ s) noise sp.rows t)))
  rw [mul_comm decay m.alpha_] at this
  rw [mul_comm decay m.alpha_]
  exact this

theorem negative_term_represents (m : BiWord2VecModel) (hm : m.Allocated) (st : UpdateState)
    (sp : StepSpec) (hr : Represents m st sp) (s t : Nat) (hs : s < m.source_size_)
    (ht : t < m.target_size_) (noise : Option (Nat → ℚ)) (decay : ℚ) :
    Represents m (negative_term s noise decay st t)
      (spec_term m.sigmoid_table_ m.alpha_ decay m.hidden_size_
        (row m.source_hidden_ m.hidden_size_ s) noise false sp t) := by
  have hraw := represents_raw m st sp hr s t hs ht noise
  unfold negative_term spec_term term_grad term_loss
  simp only [PredictRaw_snd, hraw, hr.table_eq, hr.alpha_eq, hr.hidden_eq, hr.source_eq,
    hr.source_size_eq, hr.target_size_eq,
    hr.loss_eq, Bool.false_eq_true, if_false]
  have := represents_update m hm st sp hr s t ht
    (decay * m.alpha_ * (m.sigmoid_table_.evaluate
      (raw_score m.hidden_size_ (row m.source_hidden_ m.hidden_size_ s) noise sp.rows t)))
    (sp.loss + -(m.sigmoid_table_.LogSigmoid
      (-raw_score m.hidden_size_ (row m.source_hidden_ m.hidden_size_ s) noise sp.rows t)))
  rw [mul_comm decay m.alpha_] at this
  rw [mul_comm decay m.alpha_]
  exact this

theorem negatives_represent (m : BiWord2VecModel) (hm : m.Allocated) (s : Nat)
    (hs : s < m.source_size_) (noise : Option (Nat → ℚ)) (decay : ℚ) (negs : List Nat) :
    ∀ (st : UpdateState) (sp : StepSpec), Represents m st sp →
      (∀ n, n ∈ negs → n < m.target_size_) →
      Represents m (negs.foldl (negative_term s noise decay) st)
        (negs.foldl
          (spec_term m.sigmoid_table_ m.alpha_ decay m.hidden_size_
            (row m.source_hidden_ m.hidden_size_ s) noise false) sp) := by
  induction negs with
  | nil => intro st sp hr _; exact hr
  | cons n rest ih =>
    intro st sp hr hn
    simp only [List.foldl_cons]
    apply ih
    · exact negative_term_represents m hm st sp hr s n hs (hn n (List.mem_cons_self n rest))
        noise decay
    · intro k hk
      exact hn k (List.mem_cons_of_mem n hk)

theorem initial_represents (m : BiWord2VecModel) :
    Represents m { logloss := 0, buffer := List.replicate m.hidden_size_ 0, model := m }
      { rows := fun t => row m.target_hidden_ m.hidden_size_ t, acc := fun _ => 0, loss := 0 } := by
  refine ⟨rfl, rfl, rfl, rfl, rfl, rfl, rfl, List.length_replicate _ _, fun _ _ _ _ => rfl,
    fun i hi => ?_, rfl⟩
  simp [List.getD_eq_getElem?_getD, List.getElem?_replicate, hi]

theorem loop_represents (m : BiWord2VecModel) (hm : m.Allocated) (s t : Nat)
    (negs : List Nat) (noise : Option (Nat → ℚ)) (decay : ℚ) (hs : s < m.source_size_)
    (ht : t < m.target_size_) (hn : ∀ n, n ∈ negs → n < m.target_size_) :
    Represents m
      (negs.foldl (negative_term s noise decay)
        (positive_term s noise decay
          { logloss := 0, buffer := List.replicate m.hidden_size_ 0, model := m } t))
      (spec_step m s t negs noise decay) :=
  negatives_represent m hm s hs noise decay negs _ _
    (positive_term_represents m hm _ _ (initial_represents m) s t hs ht noise decay) hn

/-- One `Update` call against the described step: loss, target rows, source
row, and the members the call leaves alone. -/
theorem update_spec (m : BiWord2VecModel) (hm : m.Allocated) (s t : Nat)
    (negs : List Nat) (noise : Option (Nat → ℚ)) (decay : ℚ) (hs : s < m.source_size_)
    (ht : t < m.target_size_) (hn : ∀ n, n ∈ negs → n < m.target_size_) :
    (m.Update s t negs noise decay).1 = (spec_step m s t negs noise decay).loss ∧
    (∀ u, u < m.target_size_ → ∀ i, i < m.hidden_size_ →
      row (m.Update s t negs noise decay).2.target_hidden_ m.hidden_size_ u i =
        (spec_step m s t negs noise decay).rows u i) ∧
    (∀ i, i < m.hidden_size_ →
      row (m.Update s t negs noise decay).2.source_hidden_ m.hidden_size_ s i =
        row m.source_hidden_ m.hidden_size_ s i - (spec_step m s t negs noise decay).acc i) ∧
    (m.Update s t negs noise decay).2.hidden_size_ = m.hidden_size_ ∧
    (m.Update s t negs noise decay).2.source_size_ = m.source_size_ ∧
    (m.Update s t negs noise decay).2.target_size_ = m.target_size_ := by
  have hr := loop_represents m hm s t negs noise decay hs ht hn
  have hS : s * m.hidden_size_ + m.hidden_size_ ≤ m.source_hidden_.length := by
    rw [hm.1]
    have : (s + 1) * m.hidden_size_ ≤ m.source_size_ * m.hidden_size_ :=
      Nat.mul_le_mul_right _ hs
    rw [Nat.add_mul] at this
    omega
  refine ⟨hr.loss_eq, fun u hu i hi => hr.rows_eq u hu i hi, fun i hi => ?_, hr.hidden_eq,
    hr.source_size_eq, hr.target_size_eq⟩
  show (update_source _ s _ _).getD (s * m.hidden_size_ + i) 0 = _
  rw [hr.hidden_eq, hr.source_eq, (update_source_spec m.hidden_size_ s _ _ hS).2,
    if_pos (by omega)]
  have h5 : s * m.hidden_size_ + i - s * m.hidden_size_ = i := by omega
  rw [h5, hr.buffer_eq i hi]
  unfold row
  ring

/-! ## The dot product after a gradient step -/

theorem dot_step_gt (h : Nat) (a b : Nat → ℚ) (c : ℚ) (hc0 : 0 < c) (hc1 : c ≤ 1)
    (hne : ∃ i, i < h ∧ (a i ≠ 0 ∨ b i ≠ 0)) :
    dot h a b < dot h (fun i => a i + c * b i) (fun i => b i + c * a i) := by
  unfold dot
  obtain ⟨j, hj, hab⟩ := hne
  have key : ∀ x y : ℚ, x * y ≤ (x + c * y) * (y + c * x) := by
    intro x y
    nlinarith [sq_nonneg (x + y), sq_nonneg x, sq_nonneg y, mul_nonneg hc0.le (sq_nonneg (x + y)),
      mul_nonneg (sub_nonneg.mpr hc1) (add_nonneg (sq_nonneg x) (sq_nonneg y))]
  have keylt : ∀ x y : ℚ, (x ≠ 0 ∨ y ≠ 0) → x * y < (x + c * y) * (y + c * x) := by
    intro x y hxy
    have hpos : 0 < x ^ 2 + y ^ 2 := by
      rcases hxy with hx | hy
      · have := sq_pos_of_ne_zero hx
        nlinarith [sq_nonneg y]
      · have := sq_pos_of_ne_zero hy
        nlinarith [sq_nonneg x]
    have h1 : (x + c * y) * (y + c * x) - x * y =
        c * ((1 - c / 2) * (x ^ 2 + y ^ 2) + c / 2 * (x + y) ^ 2) := by ring
    have h2 : 0 < (1 - c / 2) * (x ^ 2 + y ^ 2) := mul_pos (by linarith) hpos
    have h3 : 0 ≤ c / 2 * (x + y) ^ 2 := mul_nonneg (by linarith) (sq_nonneg _)
    have h4 : 0 < c * ((1 - c / 2) * (x ^ 2 + y ^ 2) + c / 2 * (x + y) ^ 2) :=
      mul_pos hc0 (by linarith)
    linarith
  apply Finset.sum_lt_sum
  · intro i _
    exact key (a i) (b i)
  · exact ⟨j, Finset.mem_range.mpr hj, keylt (a j) (b j) hab⟩

theorem dot_step_lt (h : Nat) (a b : Nat → ℚ) (c : ℚ) (hc0 : 0 < c) (hc1 : c ≤ 1)
    (hne : ∃ i, i < h ∧ (a i ≠ 0 ∨ b i ≠ 0)) :
    dot h (fun i => a i - c * b i) (fun i => b i - c * a i) < dot h a b := by
  unfold dot
  obtain ⟨j, hj, hab⟩ := hne
  have hid : ∀ x y : ℚ, x * y - (x - c * y) * (y - c * x) =
      c * ((1 - c / 2) * (x ^ 2 + y ^ 2) + c / 2 * (x - y) ^ 2) := by
    intro x y; ring
  have key : ∀ x y : ℚ, (x - c * y) * (y - c * x) ≤ x * y := by
    intro x y
    have h2 : 0 ≤ (1 - c / 2) * (x ^ 2 + y ^ 2) :=
      mul_nonneg (by linarith) (add_nonneg (sq_nonneg x) (sq_nonneg y))
    have h3 : 0 ≤ c / 2 * (x - y) ^ 2 := mul_nonneg (by linarith) (sq_nonneg _)
    have h4 : 0 ≤ c * ((1 - c / 2) * (x ^ 2 + y ^ 2) + c / 2 * (x - y) ^ 2) :=
      mul_nonneg hc0.le (by linarith)
    linarith [hid x y]
  have keylt : ∀ x y : ℚ, (x ≠ 0 ∨ y ≠ 0) → (x - c * y) * (y - c * x) < x * y := by
    intro x y hxy
    have hpos : 0 < x ^ 2 + y ^ 2 := by
      rcases hxy with hx | hy
      · have := sq_pos_of_ne_zero hx
        nlinarith [sq_nonneg y]
      · have := sq_pos_of_ne_zero hy
        nlinarith [sq_nonneg x]
    have h2 : 0 < (1 - c / 2) * (x ^ 2 + y ^ 2) := mul_pos (by linarith) hpos
    have h3 : 0 ≤ c / 2 * (x - y) ^ 2 := mul_nonneg (by linarith) (sq_nonneg _)
    have h4 : 0 < c * ((1 - c / 2) * (x ^ 2 + y ^ 2) + c / 2 * (x - y) ^ 2) :=
      mul_pos hc0 (by linarith)
    linarith [hid x y]
  apply Finset.sum_lt_sum
  · intro i _
    exact key (a i) (b i)
  · exact ⟨j, Finset.mem_range.mpr hj, keylt (a j) (b j) hab⟩

theorem apply_noise_raw (m : BiWord2VecModel) (s t : Nat) (hs : s < m.source_size_)
    (ht : t < m.target_size_) (noise : Option (Nat → ℚ)) :
    apply_noise noise t (m.PredictRaw s t).1 =
      raw_score m.hidden_size_ (row m.source_hidden_ m.hidden_size_ s) noise
        (fun u => row m.target_hidden_ m.hidden_size_ u) t := by
  rw [PredictRaw_fst m s t hs ht]
  unfold apply_noise raw_score
  cases noise <;> rfl

/-! ## The sample model -/

theorem sample_exp_pos : ∀ t : ℚ, 0 < max t 0 + 1 := fun t =>
  lt_of_lt_of_le zero_lt_one (le_add_of_nonneg_left (le_max_right t 0))

theorem sample_model_allocated : sample_model.Allocated := by
  constructor <;> rfl

theorem sample_model_raw (t : Nat) (ht : t < 2) :
    (sample_model.PredictRaw 0 t).1 = if t = 0 then 25 else 5 := by
  rw [PredictRaw_fst sample_model 0 t (by norm_num [sample_model]) ht]
  interval_cases t <;> norm_num [dot, row, sample_model]

/-! ## `AliasSampler::Init`: the two index lists -/

theorem split_fold (p : Nat → Bool) (xs : List Nat) (acc : List Nat × List Nat) :
    xs.reverse.foldl
      (fun (st : List Nat × List Nat) i => if p i then (i :: st.1, st.2) else (st.1, i :: st.2))
      acc =
    (xs.filter p ++ acc.1, xs.filter (fun i => !p i) ++ acc.2) := by
  induction xs with
  | nil => simp
  | cons x rest ih =>
    rw [List.reverse_cons, List.foldl_append, ih]
    by_cases hx : p x = true
    · simp [hx]
    · simp [hx]

theorem split_indices_eq (probs : List ℚ) (n : Nat) :
    split_indices probs n =
      ((List.range n).filter (fun i => util_less (probs.getD i 0) 1),
       (List.range n).filter (fun i => !util_less (probs.getD i 0) 1)) := by
  unfold split_indices
  rw [split_fold (fun i => util_less (probs.getD i 0) 1)]
  simp

theorem sum_filter_split (p : Nat → Bool) (f : Nat → ℚ) (xs : List Nat) :
    ((xs.filter p).map f).sum + ((xs.filter (fun i => !p i)).map f).sum = (xs.map f).sum := by
  induction xs with
  | nil => simp
  | cons x rest ih =>
    by_cases hx : p x = true
    · simp [hx, ← ih]; ring
    · simp [hx, ← ih]; ring

theorem length_filter_split (p : Nat → Bool) (xs : List Nat) :
    (xs.filter p).length + (xs.filter (fun i => !p i)).length = xs.length := by
  induction xs with
  | nil => simp
  | cons x rest ih =>
    by_cases hx : p x = true
    · simp [hx, ← ih]; omega
    · simp [hx, ← ih]; omega

theorem weight_sum_fold (dw : List (Nat × ℚ)) (a : ℚ) :
    dw.foldl (fun sum p => sum + p.2) a = a + (dw.map Prod.snd).sum := by
  induction dw generalizing a with
  | nil => simp
  | cons x rest ih =>
    simp only [List.foldl_cons, List.map_cons, List.sum_cons]
    rw [ih]
    ring

theorem weight_sum_eq (dw : List (Nat × ℚ)) : weight_sum dw = (dw.map Prod.snd).sum := by
  unfold weight_sum
  rw [weight_sum_fold, zero_add]

theorem map_getD_range (l : List ℚ) :
    (List.range l.length).map (fun i => l.getD i 0) = l := by
  apply List.ext_getElem
  · simp
  · intro i h1 h2
    simp [List.getD_eq_getElem?_getD, List.getElem?_eq_getElem h2]

theorem sum_map_scale (l : List ℚ) (c d : ℚ) :
    (l.map (fun x => x * c / d)).sum = l.sum * c / d := by
  induction l with
  | nil => simp
  | cons x rest ih =>
    simp only [List.map_cons, List.sum_cons, ih]
    ring

theorem normalise_length (dw : List (Nat × ℚ)) : (normalise dw).length = dw.length := by
  simp [normalise]

theorem normalise_sum (dw : List (Nat × ℚ)) (hpos : 0 < weight_sum dw) :
    (normalise dw).sum = (dw.length : ℚ) := by
  have h : normalise dw =
      (dw.map Prod.snd).map (fun x => x * (dw.length : ℚ) / weight_sum dw) := by
    simp [normalise, List.map_map, Function.comp]
  rw [h, sum_map_scale, ← weight_sum_eq]
  field_simp

theorem normalise_getD (dw : List (Nat × ℚ)) (j : Nat) (hj : j < dw.length) :
    (normalise dw).getD j 0 = (dw.getD j (0, 0)).2 * (dw.length : ℚ) / weight_sum dw := by
  simp [normalise, List.getD_eq_getElem?_getD, List.getElem?_map, List.getElem?_eq_getElem hj]

/-! ## `AliasSampler::Init`: the work loop -/

theorem step_inv (n : Nat) (p0 : Nat → ℚ) (st : AliasBuild) (h : BuildInv n p0 st)
    (l g : Nat) (sm lg sm2 lg2 : List Nat)
    (hs : st.smaller = l :: sm) (hl : st.larger = g :: lg)
    (hperm : (sm2 ++ lg2).Perm (g :: (sm ++ lg)))
    (hsm2 : ∀ x, x ∈ sm2 → x ∈ sm ∨
      (x = g ∧ util_less (st.probs.getD g 0 + st.probs.getD l 0 - 1) 1 = true))
    (hlg2 : ∀ x, x ∈ lg2 → x ∈ lg ∨
      (x = g ∧ util_less (st.probs.getD g 0 + st.probs.getD l 0 - 1) 1 = false)) :
    BuildInv n p0
      { probs := st.probs.set g (st.probs.getD g 0 + st.probs.getD l 0 - 1),
        smaller := sm2, larger := lg2,
        alias_ := st.alias_.set l g,
        alias_prob_ := st.alias_prob_.set l (st.probs.getD l 0) } := by
  have hnd := h.nodup
  rw [hs, hl, List.cons_append, List.nodup_cons, List.nodup_middle, List.nodup_cons] at hnd
  obtain ⟨hl_notin, hg_notin, hnd2⟩ := hnd
  have hlg_ne : l ≠ g := by
    intro e; apply hl_notin; rw [e]; simp
  have hl_sm : l ∉ sm := fun e => hl_notin (by simp [e])
  have hl_lg : l ∉ lg := fun e => hl_notin (by simp [e])
  have hg_sm : g ∉ sm := fun e => hg_notin (by simp [e])
  have hg_lg : g ∉ lg := fun e => hg_notin (by simp [e])
  have hmem : ∀ i, i ∈ st.smaller ++ st.larger ↔ (i = l ∨ i ∈ sm ∨ i = g ∨ i ∈ lg) := by
    intro i; rw [hs, hl]; simp [or_assoc]
  have hmem2 : ∀ i, i ∈ sm2 ++ lg2 ↔ (i = g ∨ i ∈ sm ∨ i ∈ lg) := by
    intro i; rw [hperm.mem_iff]; simp
  have hl_n : l < n := h.lt_n l ((hmem l).mpr (Or.inl rfl))
  have hg_n : g < n := h.lt_n g ((hmem g).mpr (Or.inr (Or.inr (Or.inl rfl))))
  have hP : ∀ i, (st.probs.set g (st.probs.getD g 0 + st.probs.getD l 0 - 1)).getD i 0 =
      if g = i then st.probs.getD g 0 + st.probs.getD l 0 - 1 else st.probs.getD i 0 := by
    intro i
    rw [getD_set_eq, h.len_probs]
    by_cases e : g = i
    · subst e; simp [hg_n]
    · simp [e]
  have hA : ∀ i, (st.alias_.set l g).getD i 0 = if l = i then g else st.alias_.getD i 0 := by
    intro i
    rw [getD_set_nat, h.len_alias]
    by_cases e : l = i
    · subst e; simp [hl_n]
    · simp [e]
  have hQ : ∀ i, (st.alias_prob_.set l (st.probs.getD l 0)).getD i 0 =
      if l = i then st.probs.getD l 0 else st.alias_prob_.getD i 0 := by
    intro i
    rw [getD_set_eq, h.len_alias_prob]
    by_cases e : l = i
    · subst e; simp [hl_n]
    · simp [e]
  refine ⟨?_, ?_, ?_, ?_, ?_, ?_, ?_, ?_, ?_, ?_, ?_, ?_⟩
  · show (st.probs.set _ _).length = n
    rw [List.length_set]; exact h.len_probs
  · show (st.alias_.set _ _).length = n
    rw [List.length_set]; exact h.len_alias
  · show (st.alias_prob_.set _ _).length = n
    rw [List.length_set]; exact h.len_alias_prob
  · show (sm2 ++ lg2).Nodup
    rw [hperm.nodup_iff, List.nodup_cons]
    exact ⟨hg_notin, hnd2⟩
  · intro i hi
    have : i ∈ sm2 ++ lg2 := hi
    rw [hmem2] at this
    apply h.lt_n
    rw [hmem]
    rcases this with e | e | e
    · exact Or.inr (Or.inr (Or.inl e))
    · exact Or.inr (Or.inl e)
    · exact Or.inr (Or.inr (Or.inr e))
  · intro x hx
    show util_less ((st.probs.set _ _).getD x 0) 1 = true
    rw [hP]
    rcases hsm2 x hx with e | ⟨e, hu⟩
    · have hne : g ≠ x := fun e2 => hg_sm (e2 ▸ e)
      rw [if_neg hne]
      exact h.small x (by rw [hs]; exact List.mem_cons_of_mem _ e)
    · rw [if_pos e.symm]; exact hu
  · intro x hx
    show util_less ((st.probs.set _ _).getD x 0) 1 = false
    rw [hP]
    rcases hlg2 x hx with e | ⟨e, hu⟩
    · have hne : g ≠ x := fun e2 => hg_lg (e2 ▸ e)
      rw [if_neg hne]
      exact h.large x (by rw [hl]; exact List.mem_cons_of_mem _ e)
    · rw [if_pos e.symm]; exact hu
  · show ((sm2 ++ lg2).map (fun i => (st.probs.set _ _).getD i 0)).sum = ((sm2 ++ lg2).length : ℚ)
    have ht := h.total
    rw [hs, hl] at ht
    have hperm0 : ((l :: sm) ++ (g :: lg)).Perm (l :: g :: (sm ++ lg)) := by
      rw [List.cons_append]
      exact List.Perm.cons l List.perm_middle
    rw [(hperm0.map _).sum_eq, hperm0.length_eq] at ht
    rw [(hperm.map _).sum_eq, hperm.length_eq]
    have hrest : (sm ++ lg).map
        (fun i => (st.probs.set g (st.probs.getD g 0 + st.probs.getD l 0 - 1)).getD i 0) =
        (sm ++ lg).map (fun i => st.probs.getD i 0) := by
      apply List.map_congr_left
      intro i hi
      rw [hP]
      have hne : g ≠ i := fun e => hg_notin (e ▸ hi)
      rw [if_neg hne]
    simp only [List.map_cons, List.sum_cons, List.length_cons, Nat.cast_add, Nat.cast_one] at ht ⊢
    rw [hrest, hP, if_pos rfl]
    linarith
  · intro i hi
    have hi2 : i ∈ sm2 ++ lg2 := hi
    rw [hmem2] at hi2
    have hne : l ≠ i := by
      rintro rfl
      rcases hi2 with e | e | e
      · exact hlg_ne e
      · exact hl_sm e
      · exact hl_lg e
    show (st.alias_.set _ _).getD i 0 = 0 ∧ (st.alias_prob_.set _ _).getD i 0 = 0
    rw [hA, hQ, if_neg hne, if_neg hne]
    apply h.fresh
    rw [hmem]
    rcases hi2 with e | e | e
    · exact Or.inr (Or.inr (Or.inl e))
    · exact Or.inr (Or.inl e)
    · exact Or.inr (Or.inr (Or.inr e))
  · intro i hi hnot
    have hnot2 : i ∉ sm2 ++ lg2 := hnot
    rw [hmem2] at hnot2
    show util_less ((st.alias_prob_.set _ _).getD i 0) 1 = true
    rw [hQ]
    by_cases e : l = i
    · rw [if_pos e]
      exact h.small l (by rw [hs]; exact List.mem_cons_self _ _)
    · rw [if_neg e]
      apply h.paired i hi
      rw [hmem]
      rintro (e2 | e2 | e2 | e2)
      · exact e e2.symm
      · exact hnot2 (Or.inr (Or.inl e2))
      · exact hnot2 (Or.inl e2)
      · exact hnot2 (Or.inr (Or.inr e2))
  · intro j hj
    have hm := h.mass j hj
    show (∑ i ∈ Finset.range n,
      if i ∉ sm2 ++ lg2 ∧ (st.alias_.set l g).getD i 0 = j
      then 1 - (st.alias_prob_.set l (st.probs.getD l 0)).getD i 0 else 0) +
      (if j ∈ sm2 ++ lg2
        then (st.probs.set g (st.probs.getD g 0 + st.probs.getD l 0 - 1)).getD j 0
        else (st.alias_prob_.set l (st.probs.getD l 0)).getD j 0) = p0 j
    have hterm : ∀ i, (if i ∉ sm2 ++ lg2 ∧ (st.alias_.set l g).getD i 0 = j
        then 1 - (st.alias_prob_.set l (st.probs.getD l 0)).getD i 0 else 0) =
        (if i ∉ st.smaller ++ st.larger ∧ st.alias_.getD i 0 = j
          then 1 - st.alias_prob_.getD i 0 else 0) +
        (if i = l then (if g = j then 1 - st.probs.getD l 0 else 0) else 0) := by
      intro i
      rw [hA, hQ]
      by_cases e : l = i
      · subst e
        have h1 : l ∉ sm2 ++ lg2 := by
          rw [hmem2]
          rintro (e2 | e2 | e2)
          · exact hlg_ne e2
          · exact hl_sm e2
          · exact hl_lg e2
        have h2 : l ∈ st.smaller ++ st.larger := (hmem l).mpr (Or.inl rfl)
        simp [h1, h2]
      · have h1 : i ∈ sm2 ++ lg2 ↔ i ∈ st.smaller ++ st.larger := by
          rw [hmem, hmem2]
          constructor
          · rintro (e2 | e2 | e2)
            · exact Or.inr (Or.inr (Or.inl e2))
            · exact Or.inr (Or.inl e2)
            · exact Or.inr (Or.inr (Or.inr e2))
          · rintro (e2 | e2 | e2 | e2)
            · exact absurd e2.symm e
            · exact Or.inr (Or.inl e2)
            · exact Or.inl e2
            · exact Or.inr (Or.inr e2)
        have e' : ¬ i = l := fun e2 => e e2.symm
        simp only [if_neg e, if_neg e', h1, add_zero]
    rw [Finset.sum_congr rfl (fun i _ => hterm i), Finset.sum_add_distrib,
      Finset.sum_ite_eq' (Finset.range n) l, if_pos (Finset.mem_range.mpr hl_n)]
    rw [hP, hQ]
    by_cases ejg : g = j
    · subst ejg
      have h1 : g ∈ sm2 ++ lg2 := (hmem2 g).mpr (Or.inl rfl)
      have h2 : g ∈ st.smaller ++ st.larger := (hmem g).mpr (Or.inr (Or.inr (Or.inl rfl)))
      rw [if_pos h2] at hm
      rw [if_pos h1, if_pos rfl, if_pos rfl]
      linarith
    · rw [if_neg ejg, if_neg ejg, add_zero]
      by_cases ejl : l = j
      · subst ejl
        have h1 : l ∉ sm2 ++ lg2 := by
          rw [hmem2]
          rintro (e2 | e2 | e2)
          · exact hlg_ne e2
          · exact hl_sm e2
          · exact hl_lg e2
        have h2 : l ∈ st.smaller ++ st.larger := (hmem l).mpr (Or.inl rfl)
        rw [if_pos h2] at hm
        rw [if_neg h1, if_pos rfl]
        exact hm
      · have h1 : j ∈ sm2 ++ lg2 ↔ j ∈ st.smaller ++ st.larger := by
          rw [hmem, hmem2]
          constructor
          · rintro (e2 | e2 | e2)
            · exact absurd e2.symm ejg
            · exact Or.inr (Or.inl e2)
            · exact Or.inr (Or.inr (Or.inr e2))
          · rintro (e2 | e2 | e2 | e2)
            · exact absurd e2.symm ejl
            · exact Or.inr (Or.inl e2)
            · exact absurd e2.symm ejg
            · exact Or.inr (Or.inr e2)
        rw [if_neg ejl]
        simp only [h1]
        exact hm
  · show (sm2 ++ lg2).length ≤ n
    have hc := h.count
    rw [hs, hl] at hc
    rw [hperm.length_eq]
    simp only [List.length_append, List.length_cons] at hc ⊢
    omega

/-- Induction over the passes of the work loop. -/
theorem work_loop_induction (I : AliasBuild → Prop)
    (hstep : ∀ (st : AliasBuild) (l g : Nat) (sm lg sm2 lg2 : List Nat),
      st.smaller = l :: sm → st.larger = g :: lg → I st →
      ((sm2 = g :: sm ∧ lg2 = lg ∧
          util_less ((st.probs.set g (st.probs.getD g 0 + st.probs.getD l 0 - 1)).getD g 0) 1
            = true) ∨
       (sm2 = sm ∧ lg2 = g :: lg ∧
          util_less ((st.probs.set g (st.probs.getD g 0 + st.probs.getD l 0 - 1)).getD g 0) 1
            = false)) →
      I { probs := st.probs.set g (st.probs.getD g 0 + st.probs.getD l 0 - 1),
          smaller := sm2, larger := lg2,
          alias_ := st.alias_.set l g,
          alias_prob_ := st.alias_prob_.set l (st.probs.getD l 0) }) :
    ∀ (fuel : Nat) (st : AliasBuild), I st → I (work_loop fuel st) := by
  intro fuel
  induction fuel with
  | zero => intro st h; exact h
  | succ k ih =>
    intro st h
    rw [work_loop]
    split
    · rename_i l sm g lg hs hl
      simp only
      split
      · rename_i hu
        exact ih _ (hstep st l g sm lg (g :: sm) lg hs hl h (Or.inl ⟨rfl, rfl, hu⟩))
      · rename_i hu
        exact ih _ (hstep st l g sm lg sm (g :: lg) hs hl h
          (Or.inr ⟨rfl, rfl, by simpa using hu⟩))
    · exact h

/-- One pass of the work loop keeps `BuildInv`. -/
theorem build_step (n : Nat) (p0 : Nat → ℚ) (st : AliasBuild) (hI : BuildInv n p0 st)
    (l g : Nat) (sm lg sm2 lg2 : List Nat)
    (hs : st.smaller = l :: sm) (hl : st.larger = g :: lg)
    (hbr : (sm2 = g :: sm ∧ lg2 = lg ∧
          util_less ((st.probs.set g (st.probs.getD g 0 + st.probs.getD l 0 - 1)).getD g 0) 1
            = true) ∨
       (sm2 = sm ∧ lg2 = g :: lg ∧
          util_less ((st.probs.set g (st.probs.getD g 0 + st.probs.getD l 0 - 1)).getD g 0) 1
            = false)) :
    BuildInv n p0
      { probs := st.probs.set g (st.probs.getD g 0 + st.probs.getD l 0 - 1),
        smaller := sm2, larger := lg2,
        alias_ := st.alias_.set l g,
        alias_prob_ := st.alias_prob_.set l (st.probs.getD l 0) } := by
  have hg_n : g < n := hI.lt_n g (by rw [hs, hl]; simp)
  have hget : (st.probs.set g (st.probs.getD g 0 + st.probs.getD l 0 - 1)).getD g 0 =
      st.probs.getD g 0 + st.probs.getD l 0 - 1 := by
    rw [getD_set_eq, hI.len_probs, if_pos ⟨rfl, hg_n⟩]
  rw [hget] at hbr
  rcases hbr with ⟨e1, e2, hu⟩ | ⟨e1, e2, hu⟩
  · rw [e1, e2]
    refine step_inv n p0 st hI l g sm lg _ _ hs hl (by simp) ?_ ?_
    · intro x hx
      rcases List.mem_cons.mp hx with e | e
      · exact Or.inr ⟨e, hu⟩
      · exact Or.inl e
    · intro x hx; exact Or.inl hx
  · rw [e1, e2]
    refine step_inv n p0 st hI l g sm lg _ _ hs hl List.perm_middle ?_ ?_
    · intro x hx; exact Or.inl hx
    · intro x hx
      rcases List.mem_cons.mp hx with e | e
      · exact Or.inr ⟨e, hu⟩
      · exact Or.inl e

theorem work_loop_inv (n : Nat) (p0 : Nat → ℚ) (fuel : Nat) (st : AliasBuild)
    (h : BuildInv n p0 st) : BuildInv n p0 (work_loop fuel st) :=
  work_loop_induction (BuildInv n p0)
    (fun st l g sm lg sm2 lg2 hs hl hI hbr => build_step n p0 st hI l g sm lg sm2 lg2 hs hl hbr)
    fuel st h

/-- The loop condition is false in the state `work_loop` returns, when the bound
is at least the number of stacked indices. -/
theorem work_loop_exit : ∀ (fuel : Nat) (st : AliasBuild),
    st.smaller.length + st.larger.length ≤ fuel →
    (work_loop fuel st).smaller = [] ∨ (work_loop fuel st).larger = [] := by
  intro fuel
  induction fuel with
  | zero =>
    intro st h
    left
    show st.smaller = []
    exact List.eq_nil_of_length_eq_zero (by omega)
  | succ k ih =>
    intro st h
    rw [work_loop]
    split
    · rename_i l sm g lg hs hl
      rw [hs, hl] at h
      simp only [List.length_cons] at h
      simp only
      split
      · apply ih; simp only [List.length_cons]; omega
      · apply ih; simp only [List.length_cons]; omega
    · rename_i hne
      cases hs : st.smaller with
      | nil => exact Or.inl rfl
      | cons l sm =>
        cases hl : st.larger with
        | nil => exact Or.inr rfl
        | cons g lg => exact (hne l sm g lg hs hl).elim

/-! ## `AliasSampler::Init`: from the first to the last state -/

theorem init_all_active (dw : List (Nat × ℚ)) (i : Nat) (hi : i < dw.length) :
    i ∈ (split_indices (normalise dw) dw.length).1 ++
      (split_indices (normalise dw) dw.length).2 := by
  rw [split_indices_eq]
  simp only [List.mem_append, List.mem_filter, List.mem_range]
  by_cases hu : util_less ((normalise dw).getD i 0) 1 = true
  · exact Or.inl ⟨hi, hu⟩
  · exact Or.inr ⟨hi, by simpa using hu⟩

theorem init_inv (dw : List (Nat × ℚ)) (hpos : 0 < weight_sum dw) :
    BuildInv dw.length (fun j => (normalise dw).getD j 0)
      { probs := normalise dw,
        smaller := (split_indices (normalise dw) dw.length).1,
        larger := (split_indices (normalise dw) dw.length).2,
        alias_ := List.replicate dw.length 0,
        alias_prob_ := List.replicate dw.length 0 } := by
  rw [split_indices_eq]
  have hall : ∀ i, i < dw.length →
      i ∈ (List.range dw.length).filter (fun i => util_less ((normalise dw).getD i 0) 1) ++
        (List.range dw.length).filter (fun i => !util_less ((normalise dw).getD i 0) 1) := by
    intro i hi
    rw [List.mem_append, List.mem_filter, List.mem_filter, List.mem_range]
    by_cases hu : util_less ((normalise dw).getD i 0) 1 = true
    · exact Or.inl ⟨hi, hu⟩
    · exact Or.inr ⟨hi, by simpa using hu⟩
  refine ⟨normalise_length dw, List.length_replicate _ _, List.length_replicate _ _, ?_, ?_,
    ?_, ?_, ?_, ?_, ?_, ?_, ?_⟩
  · dsimp only
    rw [List.nodup_append]
    refine ⟨(List.nodup_range _).filter _, (List.nodup_range _).filter _, ?_⟩
    intro x hx1 hx2
    rw [List.mem_filter] at hx1 hx2
    have h1 := hx1.2
    have h2 := hx2.2
    simp only [Bool.not_eq_true'] at h2
    rw [h1] at h2
    cases h2
  · intro i hi
    have hi2 := hi
    dsimp only at hi2
    rw [List.mem_append, List.mem_filter, List.mem_filter, List.mem_range] at hi2
    rcases hi2 with e | e
    · exact e.1
    · exact e.1
  · intro l hl
    exact (List.mem_filter.mp hl).2
  · intro g hg
    have := (List.mem_filter.mp hg).2
    simpa using this
  · dsimp only
    rw [List.map_append, List.sum_append, List.length_append,
      sum_filter_split (fun i => util_less ((normalise dw).getD i 0) 1)
        (fun i => (normalise dw).getD i 0) (List.range dw.length),
      length_filter_split (fun i => util_less ((normalise dw).getD i 0) 1)
        (List.range dw.length), List.length_range]
    have h1 := map_getD_range (normalise dw)
    rw [normalise_length] at h1
    rw [h1, normalise_sum dw hpos]
  · intro i hi
    have hi2 := hi
    constructor
    · show (List.replicate dw.length 0).getD i 0 = 0
      simp only [List.getD_eq_getElem?_getD, List.getElem?_replicate]
      split_ifs <;> rfl
    · show (List.replicate dw.length (0 : ℚ)).getD i 0 = 0
      simp only [List.getD_eq_getElem?_getD, List.getElem?_replicate]
      split_ifs <;> rfl
  · intro i hi hnot
    exact absurd (hall i hi) hnot
  · intro j hj
    dsimp only
    rw [if_pos (hall j hj)]
    have hz : ∀ i ∈ Finset.range dw.length,
        (if i ∉ (List.range dw.length).filter
              (fun i => util_less ((normalise dw).getD i 0) 1) ++
            (List.range dw.length).filter (fun i => !util_less ((normalise dw).getD i 0) 1) ∧
            (List.replicate dw.length 0).getD i 0 = j
          then 1 - (List.replicate dw.length (0 : ℚ)).getD i 0 else 0) = 0 := by
      intro i hi
      rw [if_neg]
      intro hc
      exact hc.1 (hall i (Finset.mem_range.mp hi))
    rw [Finset.sum_eq_zero hz, zero_add]
  · dsimp only
    rw [List.length_append,
      length_filter_split (fun i => util_less ((normalise dw).getD i 0) 1)
        (List.range dw.length), List.length_range]

theorem sum_map_add_const (f : Nat → ℚ) (c : ℚ) (xs : List Nat) :
    (xs.map (fun i => f i + c)).sum = (xs.map f).sum + (xs.length : ℚ) * c := by
  induction xs with
  | nil => simp
  | cons x rest ih =>
    simp only [List.map_cons, List.sum_cons, List.length_cons, Nat.cast_add, Nat.cast_one, ih]
    ring

/-- With exact arithmetic the loop never ends with indices left in `smaller`. -/
theorem smaller_empty_of_exit (n : Nat) (p0 : Nat → ℚ) (st : AliasBuild) (h : BuildInv n p0 st)
    (hexit : st.smaller = [] ∨ st.larger = []) : st.smaller = [] := by
  rcases hexit with e | e
  · exact e
  · by_contra hne
    have ht := h.total
    rw [e, List.append_nil] at ht
    have hle := List.sum_le_card_nsmul
      (st.smaller.map (fun i => st.probs.getD i 0 + epsilon)) 1 (by
        intro x hx
        obtain ⟨i, hi, rfl⟩ := List.mem_map.mp hx
        exact (util_less_iff _ _).mp (h.small i hi))
    rw [List.length_map, sum_map_add_const, ht, nsmul_eq_mul, mul_one] at hle
    have hlen : 0 < st.smaller.length := List.length_pos.mpr hne
    have hlen2 : (0 : ℚ) < (st.smaller.length : ℚ) := Nat.cast_pos.mpr hlen
    have := mul_pos hlen2 epsilon_pos
    linarith

theorem clamp_fold (xs : List Nat) : ∀ (ap : List ℚ),
    (xs.foldl (fun ap i => ap.set i 1) ap).length = ap.length ∧
    ∀ j, (xs.foldl (fun ap i => ap.set i 1) ap).getD j 0 =
      if j ∈ xs ∧ j < ap.length then 1 else ap.getD j 0 := by
  induction xs with
  | nil => intro ap; simp
  | cons x rest ih =>
    intro ap
    simp only [List.foldl_cons]
    obtain ⟨h1, h2⟩ := ih (ap.set x 1)
    refine ⟨by rw [h1, List.length_set], fun j => ?_⟩
    rw [h2, List.length_set, getD_set_eq]
    by_cases hj : j < ap.length
    · by_cases hr : j ∈ rest
      · simp [hj, hr]
      · by_cases hx : x = j
        · subst hx; simp [hj, hr]
        · have hx2 : ¬ j = x := fun e => hx e.symm
          simp [hj, hr, hx, hx2]
    · have hx : ¬ (x = j ∧ x < ap.length) := by
        rintro ⟨e, h3⟩
        rw [e] at h3
        exact hj h3
      simp [hj, hx]

theorem clamp_rest_getD (n : Nat) (p0 : Nat → ℚ) (st : AliasBuild) (h : BuildInv n p0 st)
    (j : Nat) (hj : j < n) :
    (clamp_rest st).getD j 0 =
      if j ∈ st.smaller ++ st.larger then 1 else st.alias_prob_.getD j 0 := by
  unfold clamp_rest
  rw [(clamp_fold st.smaller _).2, (clamp_fold st.larger _).1, (clamp_fold st.larger _).2,
    h.len_alias_prob]
  by_cases h1 : j ∈ st.smaller
  · simp [h1, hj]
  · by_cases h2 : j ∈ st.larger
    · simp [h1, h2, hj]
    · simp [h1, h2]

/-! ## `AliasSampler::Init`: the finished table -/

/-- The state in which the work loop of `Init` ends on `data_weights`. -/
theorem alias_new_eq (dw : List (Nat × ℚ)) (hne : dw ≠ []) :
    AliasSampler.new dw =
      { alias_ := (work_loop dw.length
          { probs := normalise dw,
            smaller := (split_indices (normalise dw) dw.length).1,
            larger := (split_indices (normalise dw) dw.length).2,
            alias_ := List.replicate dw.length 0,
            alias_prob_ := List.replicate dw.length 0 }).alias_,
        alias_prob_ := clamp_rest (work_loop dw.length
          { probs := normalise dw,
            smaller := (split_indices (normalise dw) dw.length).1,
            larger := (split_indices (normalise dw) dw.length).2,
            alias_ := List.replicate dw.length 0,
            alias_prob_ := List.replicate dw.length 0 }),
        data_index_ := dw.map Prod.fst } := by
  unfold AliasSampler.new AliasSampler.Init
  have : dw.length ≠ 0 := fun h => hne (List.eq_nil_of_length_eq_zero h)
  simp only [this, if_false]

theorem final_state (dw : List (Nat × ℚ)) (hpos : 0 < weight_sum dw) :
    BuildInv dw.length (fun j => (normalise dw).getD j 0)
      (work_loop dw.length
        { probs := normalise dw,
          smaller := (split_indices (normalise dw) dw.length).1,
          larger := (split_indices (normalise dw) dw.length).2,
          alias_ := List.replicate dw.length 0,
          alias_prob_ := List.replicate dw.length 0 }) ∧
    (work_loop dw.length
        { probs := normalise dw,
          smaller := (split_indices (normalise dw) dw.length).1,
          larger := (split_indices (normalise dw) dw.length).2,
          alias_ := List.replicate dw.length 0,
          alias_prob_ := List.replicate dw.length 0 }).smaller = [] := by
  have h0 := init_inv dw hpos
  have h1 := work_loop_inv _ _ dw.length _ h0
  refine ⟨h1, smaller_empty_of_exit _ _ _ h1 (work_loop_exit _ _ ?_)⟩
  have := h0.count
  simpa using this

/-- The mass of position `j` in a table finished from a state of the work loop:
the normalised weight, plus `1 - probs[j]` when `j` is left over. -/
theorem table_mass_of_state (n : Nat) (p0 : Nat → ℚ) (st : AliasBuild) (h : BuildInv n p0 st)
    (di : List Nat) (j : Nat) (hj : j < n) :
    table_mass { alias_ := st.alias_, alias_prob_ := clamp_rest st, data_index_ := di } j =
      p0 j + (if j ∈ st.smaller ++ st.larger then 1 - st.probs.getD j 0 else 0) := by
  unfold table_mass
  simp only
  rw [h.len_alias, clamp_rest_getD n p0 st h j hj]
  have hterm : ∀ i ∈ Finset.range n,
      (if st.alias_.getD i 0 = j then 1 - (clamp_rest st).getD i 0 else 0) =
      (if i ∉ st.smaller ++ st.larger ∧ st.alias_.getD i 0 = j
        then 1 - st.alias_prob_.getD i 0 else 0) := by
    intro i hi
    rw [clamp_rest_getD n p0 st h i (Finset.mem_range.mp hi)]
    by_cases hact : i ∈ st.smaller ++ st.larger
    · simp [hact]
    · simp [hact]
  rw [Finset.sum_congr rfl hterm]
  have hm := h.mass j hj
  by_cases hact : j ∈ st.smaller ++ st.larger
  · rw [if_pos hact] at hm ⊢
    rw [if_pos hact]
    linarith
  · rw [if_neg hact] at hm ⊢
    rw [if_neg hact]
    linarith

/-- A left-over index holds `probs` within `n * epsilon` of 1. -/
theorem leftover_bound (n : Nat) (p0 : Nat → ℚ) (st : AliasBuild) (h : BuildInv n p0 st)
    (hsm : st.smaller = []) (j : Nat) (hj : j ∈ st.larger) :
    |1 - st.probs.getD j 0| < (n : ℚ) * epsilon := by
  have he := epsilon_pos
  have ht := h.total
  have hc := h.count
  rw [hsm, List.nil_append] at ht hc
  have hlow : ∀ g, g ∈ st.larger → 1 < st.probs.getD g 0 + epsilon := by
    intro g hg
    have := h.large g hg
    by_contra hcon
    have h2 := (util_less_iff (st.probs.getD g 0) 1).mpr (not_lt.mp hcon)
    rw [this] at h2
    cases h2
  have hsum : (st.larger.map (fun g => st.probs.getD g 0 + (epsilon - 1))).sum =
      (st.larger.length : ℚ) * epsilon := by
    rw [sum_map_add_const, ht]
    ring
  have hle := List.single_le_sum (l := st.larger.map (fun g => st.probs.getD g 0 + (epsilon - 1)))
    (by
      intro x hx
      obtain ⟨g, hg, rfl⟩ := List.mem_map.mp hx
      linarith [hlow g hg])
    (st.probs.getD j 0 + (epsilon - 1)) (List.mem_map.mpr ⟨j, hj, rfl⟩)
  rw [hsum] at hle
  have hlen : (st.larger.length : ℚ) ≤ (n : ℚ) := Nat.cast_le.mpr hc
  have hn1 : (1 : ℚ) ≤ (n : ℚ) := by
    have : 1 ≤ st.larger.length := List.length_pos.mpr (List.ne_nil_of_mem hj)
    exact_mod_cast le_trans this hc
  have h3 : (st.larger.length : ℚ) * epsilon ≤ (n : ℚ) * epsilon :=
    mul_le_mul_of_nonneg_right hlen he.le
  have h4 : epsilon ≤ (n : ℚ) * epsilon := by nlinarith
  rw [abs_lt]
  constructor
  · linarith
  · linarith [hlow j hj]

/-! ## `AliasSampler::Init`: an entry of weight 0 -/

theorem util_less_zero_one : util_less 0 1 = true := by
  rw [util_less_iff]
  norm_num [epsilon]

theorem zero_step (n : Nat) (p0 : Nat → ℚ) (j : Nat) (st : AliasBuild)
    (h : BuildInv n p0 st) (hz : ZeroInv n j st)
    (l g : Nat) (sm lg sm2 lg2 : List Nat)
    (hs : st.smaller = l :: sm) (hl : st.larger = g :: lg)
    (hbr : (sm2 = g :: sm ∧ lg2 = lg) ∨ (sm2 = sm ∧ lg2 = g :: lg)) :
    ZeroInv n j
      { probs := st.probs.set g (st.probs.getD g 0 + st.probs.getD l 0 - 1),
        smaller := sm2, larger := lg2,
        alias_ := st.alias_.set l g,
        alias_prob_ := st.alias_prob_.set l (st.probs.getD l 0) } := by
  have hnd := h.nodup
  rw [hs, hl, List.cons_append, List.nodup_cons, List.nodup_middle, List.nodup_cons] at hnd
  obtain ⟨hl_notin, hg_notin, hnd2⟩ := hnd
  have hl_n : l < n := h.lt_n l (by rw [hs]; simp)
  have hg_n : g < n := h.lt_n g (by rw [hs, hl]; simp)
  have hjg : j ≠ g := by
    intro e
    apply hz.not_large
    rw [hl, e]
    exact List.mem_cons_self _ _
  have hj_lg : j ∉ lg := fun e => hz.not_large (by rw [hl]; exact List.mem_cons_of_mem _ e)
  have hmem2 : ∀ i, i ∈ sm2 ++ lg2 ↔ (i = g ∨ i ∈ sm ∨ i ∈ lg) := by
    intro i
    rcases hbr with ⟨e1, e2⟩ | ⟨e1, e2⟩
    · rw [e1, e2]; simp [or_assoc]
    · rw [e1, e2]; simp [or_left_comm]
  have hsm2 : ∀ i, i ∈ sm2 → i = g ∨ i ∈ sm := by
    intro i hi
    rcases hbr with ⟨e1, _⟩ | ⟨e1, _⟩
    · rw [e1] at hi; exact List.mem_cons.mp hi
    · rw [e1] at hi; exact Or.inr hi
  have hsm_sub : ∀ i, i ∈ sm → i ∈ sm2 := by
    intro i hi
    rcases hbr with ⟨e1, _⟩ | ⟨e1, _⟩
    · rw [e1]; exact List.mem_cons_of_mem _ hi
    · rw [e1]; exact hi
  have hlg2 : ∀ i, i ∈ lg2 → i = g ∨ i ∈ lg := by
    intro i hi
    rcases hbr with ⟨_, e2⟩ | ⟨_, e2⟩
    · rw [e2] at hi; exact Or.inr hi
    · rw [e2] at hi; exact List.mem_cons.mp hi
  have hP : ∀ i, (st.probs.set g (st.probs.getD g 0 + st.probs.getD l 0 - 1)).getD i 0 =
      if g = i then st.probs.getD g 0 + st.probs.getD l 0 - 1 else st.probs.getD i 0 := by
    intro i
    rw [getD_set_eq, h.len_probs]
    by_cases e : g = i
    · subst e; simp [hg_n]
    · simp [e]
  have hA : ∀ i, (st.alias_.set l g).getD i 0 = if l = i then g else st.alias_.getD i 0 := by
    intro i
    rw [getD_set_nat, h.len_alias]
    by_cases e : l = i
    · subst e; simp [hl_n]
    · simp [e]
  have hQ : ∀ i, (st.alias_prob_.set l (st.probs.getD l 0)).getD i 0 =
      if l = i then st.probs.getD l 0 else st.alias_prob_.getD i 0 := by
    intro i
    rw [getD_set_eq, h.len_alias_prob]
    by_cases e : l = i
    · subst e; simp [hl_n]
    · simp [e]
  refine ⟨?_, ?_, ?_, ?_⟩
  · intro hj
    rcases hlg2 j hj with e | e
    · exact hjg e
    · exact hj_lg e
  · intro hj
    show (st.probs.set _ _).getD j 0 = 0
    rw [hP, if_neg (fun e => hjg e.symm)]
    apply hz.small_zero
    rcases hsm2 j hj with e | e
    · exact absurd e hjg
    · rw [hs]; exact List.mem_cons_of_mem _ e
  · intro hj
    show (st.alias_prob_.set _ _).getD j 0 = 0
    rw [hQ]
    by_cases e : l = j
    · rw [if_pos e, e]
      apply hz.small_zero
      rw [hs, e]
      exact List.mem_cons_self _ _
    · rw [if_neg e]
      apply hz.done_zero
      rw [hs]
      intro hc
      rcases List.mem_cons.mp hc with e2 | e2
      · exact e e2.symm
      · exact hj (hsm_sub j e2)
  · intro i hi hnot
    have hnot2 : i ∉ sm2 ++ lg2 := hnot
    rw [hmem2] at hnot2
    show (st.alias_.set _ _).getD i 0 ≠ j
    rw [hA]
    by_cases e : l = i
    · rw [if_pos e]
      exact fun e2 => hjg e2.symm
    · rw [if_neg e]
      apply hz.no_alias i hi
      rw [hs, hl]
      intro hc
      simp only [List.mem_append, List.mem_cons] at hc
      rcases hc with (e2 | e2) | (e2 | e2)
      · exact e e2.symm
      · exact hnot2 (Or.inr (Or.inl e2))
      · exact hnot2 (Or.inl e2)
      · exact hnot2 (Or.inr (Or.inr e2))

theorem zero_init (dw : List (Nat × ℚ)) (j : Nat) (hj : j < dw.length)
    (hw : (normalise dw).getD j 0 = 0) :
    ZeroInv dw.length j
      { probs := normalise dw,
        smaller := (split_indices (normalise dw) dw.length).1,
        larger := (split_indices (normalise dw) dw.length).2,
        alias_ := List.replicate dw.length 0,
        alias_prob_ := List.replicate dw.length 0 } := by
  have hjs : j ∈ (split_indices (normalise dw) dw.length).1 := by
    rw [split_indices_eq]
    simp only [List.mem_filter, List.mem_range]
    exact ⟨hj, by rw [hw]; exact util_less_zero_one⟩
  refine ⟨?_, fun _ => hw, fun hc => absurd hjs hc,
    fun i hi hnot => absurd (init_all_active dw i hi) hnot⟩
  rw [split_indices_eq]
  simp only [List.mem_filter, List.mem_range, not_and, Bool.not_eq_true', Bool.not_eq_false]
  intro _
  simp only [Bool.not_eq_eq_eq_not, Bool.not_true, hw, util_less_zero_one]

theorem zero_final (dw : List (Nat × ℚ)) (hpos : 0 < weight_sum dw) (j : Nat)
    (hj : j < dw.length) (hw : (dw.getD j (0, 0)).2 = 0) :
    ZeroInv dw.length j
      (work_loop dw.length
        { probs := normalise dw,
          smaller := (split_indices (normalise dw) dw.length).1,
          larger := (split_indices (normalise dw) dw.length).2,
          alias_ := List.replicate dw.length 0,
          alias_prob_ := List.replicate dw.length 0 }) := by
  have h0 := init_inv dw hpos
  have hw0 : (normalise dw).getD j 0 = 0 := by
    rw [normalise_getD dw j hj, hw]; simp
  have hz0 := zero_init dw j hj hw0
  have hboth := work_loop_induction
    (fun st => BuildInv dw.length (fun j => (normalise dw).getD j 0) st ∧ ZeroInv dw.length j st)
    (by
      intro st l g sm lg sm2 lg2 hs hl hI hbr
      refine ⟨build_step _ _ st hI.1 l g sm lg sm2 lg2 hs hl hbr,
        zero_step _ _ j st hI.1 hI.2 l g sm lg sm2 lg2 hs hl ?_⟩
      rcases hbr with ⟨e1, e2, _⟩ | ⟨e1, e2, _⟩
      · exact Or.inl ⟨e1, e2⟩
      · exact Or.inr ⟨e1, e2⟩)
    dw.length _ ⟨h0, hz0⟩
  exact hboth.2

/-! ## `LogSigmoid` -/

theorem log_sigmoid_table_getD (exp log : ℚ → ℚ) (n i : Nat) (hi : i < n) :
    (SigmoidTable.new exp log n).log_sigmoid_table_.getD i 0 =
      safe_log log (sigmoid exp (exp_value n i)) := by
  simp [SigmoidTable.new, List.getD_eq_getElem?_getD, List.getElem?_map,
    List.getElem?_range hi]

/-- The three branches of `LogSigmoid` on a freshly built table. -/
theorem log_sigmoid_new (exp log : ℚ → ℚ) (n : Nat) (hn : 0 < n) (x : ℚ) :
    (SigmoidTable.new exp log n).LogSigmoid x =
      if MAX_EXP_NUM + epsilon ≤ x then 1
      else if x + epsilon ≤ -MAX_EXP_NUM then 0
      else safe_log log (sigmoid exp (exp_value n ((SigmoidTable.new exp log n).slot x))) := by
  unfold SigmoidTable.LogSigmoid
  have hs := slot_lt (SigmoidTable.new exp log n) x hn
  rw [log_sigmoid_table_getD exp log n _ hs]
  by_cases h1 : MAX_EXP_NUM + epsilon ≤ x
  · rw [if_pos ((util_greater_iff _ _).mpr h1), if_pos h1]
  · have h1f : ¬ util_greater x MAX_EXP_NUM = true := fun h => h1 ((util_greater_iff _ _).mp h)
    rw [if_neg h1f, if_neg h1]
    by_cases h2 : x + epsilon ≤ -MAX_EXP_NUM
    · rw [if_pos ((util_less_iff _ _).mpr h2), if_pos h2]
    · have h2f : ¬ util_less x (-MAX_EXP_NUM) = true := fun h => h2 ((util_less_iff _ _).mp h)
      rw [if_neg h2f, if_neg h2]

/-! ## `MultinomialSampler` -/

theorem cumulative_length (total : ℚ) (dw : List (Nat × ℚ)) :
    ∀ cur, (cumulative total cur dw).length = dw.length := by
  induction dw with
  | nil => intro cur; rfl
  | cons p rest ih => intro cur; simp [cumulative, ih]

theorem SearchWord_of_mem (t : WordTable)
    (hv : ∀ x, t.word_map_.lookup x = if x ∈ t.word_vec_ then some (t.word_vec_.indexOf x) else none)
    (w : String) (hw : w ∈ t.word_vec_) :
    t.SearchWord w = (t.word_vec_.indexOf w, t) := by
  unfold WordTable.SearchWord
  rw [hv w, if_pos hw]

theorem SearchWord_of_not_mem (t : WordTable)
    (hv : ∀ x, t.word_map_.lookup x = if x ∈ t.word_vec_ then some (t.word_vec_.indexOf x) else none)
    (w : String) (hw : w ∉ t.word_vec_) :
    t.SearchWord w =
      (t.word_vec_.length,
        { word_map_ := (w, t.word_vec_.length) :: t.word_map_,
          word_vec_ := t.word_vec_ ++ [w] }) := by
  unfold WordTable.SearchWord
  rw [hv w, if_neg hw]

theorem SearchWord_valid (t : WordTable)
    (hv : ∀ x, t.word_map_.lookup x = if x ∈ t.word_vec_ then some (t.word_vec_.indexOf x) else none)
    (w : String) :
    ∀ x, (t.SearchWord w).2.word_map_.lookup x =
      if x ∈ (t.SearchWord w).2.word_vec_ then some ((t.SearchWord w).2.word_vec_.indexOf x)
      else none := by
  by_cases hw : w ∈ t.word_vec_
  · rw [SearchWord_of_mem t hv w hw]
    exact hv
  · rw [SearchWord_of_not_mem t hv w hw]
    intro x
    simp only [List.lookup_cons, List.mem_append, List.mem_singleton]
    by_cases hx : x = w
    · subst hx
      simp only [beq_self_eq_true, or_true, if_true]
      rw [List.indexOf_append_of_not_mem hw]
      simp
    · have hb : (x == w) = false := by simpa using hx
      rw [hb, hv x]
      by_cases hxv : x ∈ t.word_vec_
      · simp only [hxv, true_or, if_true]
        rw [List.indexOf_append_of_mem hxv]
      · simp [hxv, hx]

theorem getD_append_left_str (l₁ l₂ : List String) (k : Nat) (hk : k < l₁.length) :
    (l₁ ++ l₂).getD k "" = l₁.getD k "" := by
  simp [List.getD_eq_getElem?_getD, List.getElem?_append_left hk]

theorem getD_append_left_nat (l₁ l₂ : List Nat) (k : Nat) (hk : k < l₁.length) :
    (l₁ ++ l₂).getD k 0 = l₁.getD k 0 := by
  simp [List.getD_eq_getElem?_getD, List.getElem?_append_left hk]

theorem getD_append_length_str (l : List String) (w : String) :
    (l ++ [w]).getD l.length "" = w := by
  simp [List.getD_eq_getElem?_getD]

theorem getD_append_length_nat (l : List Nat) (w : Nat) :
    (l ++ [w]).getD l.length 0 = w := by
  simp [List.getD_eq_getElem?_getD]

theorem getD_mem_str (l : List String) (k : Nat) (hk : k < l.length) : l.getD k "" ∈ l := by
  rw [List.getD_eq_getElem?_getD, List.getElem?_eq_getElem hk]
  exact List.getElem_mem hk

theorem getD_indexOf_str (l : List String) (w : String) (hw : w ∈ l) :
    l.getD (l.indexOf w) "" = w := by
  have h := List.indexOf_lt_length.mpr hw
  rw [List.getD_eq_getElem?_getD, List.getElem?_eq_getElem h]
  simp

theorem search_all_snoc (ws : List String) (w : String) (t : WordTable) :
    search_all (ws ++ [w]) t =
      ((search_all ws t).1 ++ [((search_all ws t).2.SearchWord w).1],
       ((search_all ws t).2.SearchWord w).2) := by
  unfold search_all
  rw [List.foldl_append]
  rfl

theorem table_after_nil : TableAfter [] (search_all [] WordTable.new) := by
  refine ⟨fun x => ?_, List.nodup_nil, fun w => Iff.rfl, rfl, rfl, fun k hk => ?_, fun k hk => ?_⟩
  · simp [search_all, WordTable.new]
  · simp at hk
  · simp at hk

theorem table_after_snoc (ws : List String) (w : String) (r : List Nat × WordTable)
    (h : TableAfter ws r) :
    TableAfter (ws ++ [w]) (r.1 ++ [(r.2.SearchWord w).1], (r.2.SearchWord w).2) := by
  have hrank_old : ∀ k, k < ws.length →
      (ws ++ [w]).take ((ws ++ [w]).indexOf ((ws ++ [w]).getD k "")) =
        ws.take (ws.indexOf (ws.getD k "")) := by
    intro k hk
    have hm := getD_mem_str ws k hk
    rw [getD_append_left_str ws [w] k hk, List.indexOf_append_of_mem hm,
      List.take_append_of_le_length (List.indexOf_le_length)]
  by_cases hw : w ∈ ws
  · have hwv : w ∈ r.2.word_vec_ := (h.mem_iff w).mpr hw
    rw [SearchWord_of_mem r.2 h.valid w hwv]
    refine ⟨h.valid, h.nodup, fun x => ?_, ?_, ?_, fun k hk => ?_, fun k hk => ?_⟩
    · rw [h.mem_iff x]
      simp only [List.mem_append, List.mem_singleton]
      constructor
      · exact Or.inl
      · rintro (e | e)
        · exact e
        · rw [e]; exact hw
    · show r.2.word_vec_.length = _
      rw [h.card, List.toFinset_append]
      congr 1
      ext x
      simp only [Finset.mem_union, List.mem_toFinset, List.mem_singleton]
      constructor
      · exact Or.inl
      · rintro (e | e)
        · exact e
        · rw [e]; exact hw
    · simp [h.ids_length]
    · simp only [List.length_append, List.length_singleton] at hk
      by_cases hk2 : k < ws.length
      · rw [getD_append_left_nat _ _ k (by rw [h.ids_length]; exact hk2),
          getD_append_left_str ws [w] k hk2]
        exact h.ids_index k hk2
      · have hk3 : k = ws.length := by omega
        subst hk3
        rw [getD_append_length_str]
        have := getD_append_length_nat r.1 (r.2.word_vec_.indexOf w)
        rw [h.ids_length] at this
        exact this
    · simp only [List.length_append, List.length_singleton] at hk
      by_cases hk2 : k < ws.length
      · rw [getD_append_left_nat _ _ k (by rw [h.ids_length]; exact hk2), hrank_old k hk2]
        exact h.ids_rank k hk2
      · have hk3 : k = ws.length := by omega
        subst hk3
        have h1 := getD_append_length_nat r.1 (r.2.word_vec_.indexOf w)
        rw [h.ids_length] at h1
        rw [h1, getD_append_length_str, List.indexOf_append_of_mem hw,
          List.take_append_of_le_length (List.indexOf_le_length)]
        have hj := List.indexOf_lt_length.mpr hw
        have h2 := h.ids_index _ hj
        have h3 := h.ids_rank _ hj
        rw [getD_indexOf_str ws w hw] at h2 h3
        rw [← h2, h3]
  · have hwv : w ∉ r.2.word_vec_ := fun e => hw ((h.mem_iff w).mp e)
    have hval := SearchWord_valid r.2 h.valid w
    rw [SearchWord_of_not_mem r.2 h.valid w hwv] at hval ⊢
    refine ⟨hval, ?_, fun x => ?_, ?_, ?_, fun k hk => ?_, fun k hk => ?_⟩
    · show (r.2.word_vec_ ++ [w]).Nodup
      rw [List.nodup_append]
      refine ⟨h.nodup, List.nodup_singleton w, ?_⟩
      intro x hx1 hx2
      rw [List.mem_singleton] at hx2
      rw [hx2] at hx1
      exact hwv hx1
    · show x ∈ r.2.word_vec_ ++ [w] ↔ _
      simp only [List.mem_append, List.mem_singleton, h.mem_iff x]
    · show (r.2.word_vec_ ++ [w]).length = _
      rw [List.length_append, List.length_singleton, h.card, List.toFinset_append]
      have hdisj : Disjoint ws.toFinset [w].toFinset := by
        rw [Finset.disjoint_left]
        intro x hx1 hx2
        simp only [List.mem_toFinset, List.mem_singleton] at hx1 hx2
        rw [hx2] at hx1
        exact hw hx1
      rw [Finset.card_union_of_disjoint hdisj]
      simp
    · simp [h.ids_length]
    · simp only [List.length_append, List.length_singleton] at hk
      show (r.1 ++ [r.2.word_vec_.length]).getD k 0 =
        (r.2.word_vec_ ++ [w]).indexOf ((ws ++ [w]).getD k "")
      by_cases hk2 : k < ws.length
      · rw [getD_append_left_nat _ _ k (by rw [h.ids_length]; exact hk2),
          getD_append_left_str ws [w] k hk2,
          List.indexOf_append_of_mem ((h.mem_iff _).mpr (getD_mem_str ws k hk2))]
        exact h.ids_index k hk2
      · have hk3 : k = ws.length := by omega
        subst hk3
        have h1 := getD_append_length_nat r.1 r.2.word_vec_.length
        rw [h.ids_length] at h1
        rw [h1, getD_append_length_str, List.indexOf_append_of_not_mem hwv]
        simp
    · simp only [List.length_append, List.length_singleton] at hk
      show (r.1 ++ [r.2.word_vec_.length]).getD k 0 = _
      by_cases hk2 : k < ws.length
      · rw [getD_append_left_nat _ _ k (by rw [h.ids_length]; exact hk2), hrank_old k hk2]
        exact h.ids_rank k hk2
      · have hk3 : k = ws.length := by omega
        subst hk3
        have h1 := getD_append_length_nat r.1 r.2.word_vec_.length
        rw [h.ids_length] at h1
        rw [h1, getD_append_length_str, List.indexOf_append_of_not_mem hw]
        simp [h.card]

theorem table_after (words : List String) : TableAfter words (search_all words WordTable.new) := by
  induction words using List.reverseRecOn with
  | nil => exact table_after_nil
  | append_singleton ws w ih =>
    rw [search_all_snoc]
    exact table_after_snoc ws w _ ih

/-! ## `parse_data`: `strtok_r` and the fields of a line -/

theorem fields_nil : fields [] = [] := by
  simp [fields]

theorem fields_dropWhile (s : List Char) :
    fields (s.dropWhile (fun c => decide (c ∈ DELIMITERS))) = fields s := by
  induction s with
  | nil => rfl
  | cons x xs ih =>
    by_cases hx : decide (x ∈ DELIMITERS) = true
    · rw [List.dropWhile_cons, if_pos hx, ih]
      unfold fields
      rw [List.splitOnP_cons, if_pos hx]
      simp
    · rw [List.dropWhile_cons, if_neg hx]

/-- One `strtok_r` call against the fields of the text: no token exactly when
there is no field; otherwise the token is the first field and the text left
holds the remaining fields. -/
theorem strtok_r_fields (s : List Char) :
    ((strtok_r DELIMITERS s).1 = none ∧ fields s = []) ∨
    (∃ t, (strtok_r DELIMITERS s).1 = some t ∧ t ≠ [] ∧
      fields s = t :: fields (strtok_r DELIMITERS s).2) := by
  unfold strtok_r
  simp only
  by_cases h1 : s.dropWhile (fun c => decide (c ∈ DELIMITERS)) = []
  · left
    rw [if_pos h1]
    refine ⟨rfl, ?_⟩
    rw [← fields_dropWhile, h1, fields_nil]
  · right
    rw [if_neg h1]
    obtain ⟨x, xs, hx⟩ := List.exists_cons_of_ne_nil h1
    have hxd : ¬ decide (x ∈ DELIMITERS) = true := by
      have := List.head_dropWhile_not (fun c => decide (c ∈ DELIMITERS)) s h1
      simp only [hx, List.head_cons] at this
      simpa using this
    have htok : ∀ c ∈ (x :: xs).takeWhile (fun c => !decide (c ∈ DELIMITERS)),
        ¬ decide (c ∈ DELIMITERS) = true := by
      intro c hc
      have := List.mem_takeWhile_imp hc
      simpa using this
    have htne : (x :: xs).takeWhile (fun c => !decide (c ∈ DELIMITERS)) ≠ [] := by
      rw [List.takeWhile_cons, if_pos (by simpa using hxd)]
      exact List.cons_ne_nil _ _
    refine ⟨_, rfl, by rw [hx]; exact htne, ?_⟩
    rw [← fields_dropWhile s, hx]
    have hsplit := List.takeWhile_append_dropWhile (fun c => !decide (c ∈ DELIMITERS)) (x :: xs)
    rcases hrest : (x :: xs).dropWhile (fun c => !decide (c ∈ DELIMITERS)) with _ | ⟨d, r⟩
    · rw [hrest, List.append_nil] at hsplit
      rw [hsplit] at htok
      rw [hsplit]
      unfold fields
      rw [List.splitOnP_eq_single _ _ htok]
      simp
    · have hd : decide (d ∈ DELIMITERS) = true := by
        have := List.head_dropWhile_not (fun c => !decide (c ∈ DELIMITERS)) (x :: xs)
          (by rw [hrest]; exact List.cons_ne_nil _ _)
        simp only [hrest, List.head_cons] at this
        simpa using this
      rw [hrest] at hsplit
      have hf : fields (x :: xs) =
          (x :: xs).takeWhile (fun c => !decide (c ∈ DELIMITERS)) :: fields r := by
        conv_lhs => rw [← hsplit]
        unfold fields
        rw [List.splitOnP_first _ _ htok d hd r, List.filter_cons_of_pos]
        simpa using htne
      rw [hf]
      rfl

/-- `parse_data` against the fields of the line: with fewer than three fields
it returns false and leaves the sample and the object as they are; with three
or more it returns true, interns the first two fields and takes the weight
from `atof` of the third. -/
theorem parse_data_fields (atof : List Char → ℚ) (dm : DataManager) (line : List Char)
    (sample : Sample) :
    ((fields line).length < 3 ∧ dm.parse_data atof line sample = (false, sample, dm)) ∨
    (∃ f1 f2 f3 rest, fields line = f1 :: f2 :: f3 :: rest ∧
      dm.parse_data atof line sample =
        (true,
         { source_ := (dm.source_words_.SearchWord (String.mk f1)).1,
           target_ := (dm.target_words_.SearchWord (String.mk f2)).1,
           weight_ := if util_less_at epsilon_float (atof f3) 0 then 0 else atof f3 },
         { dm with
           source_words_ := (dm.source_words_.SearchWord (String.mk f1)).2,
           target_words_ := (dm.target_words_.SearchWord (String.mk f2)).2 })) := by
  unfold DataManager.parse_data
  simp only
  rcases strtok_r_fields line with ⟨h1, hf1⟩ | ⟨t1, h1, _, hf1⟩
  · left
    rw [h1]
    exact ⟨by rw [hf1]; decide, rfl⟩
  · rcases strtok_r_fields (strtok_r DELIMITERS line).2 with ⟨h2, hf2⟩ | ⟨t2, h2, _, hf2⟩
    · left
      rw [h1, h2]
      exact ⟨by rw [hf1, hf2]; simp, rfl⟩
    · rcases strtok_r_fields (strtok_r DELIMITERS (strtok_r DELIMITERS line).2).2 with
        ⟨h3, hf3⟩ | ⟨t3, h3, _, hf3⟩
      · left
        rw [h1, h2, h3]
        exact ⟨by rw [hf1, hf2, hf3]; simp, rfl⟩
      · right
        rw [h1, h2, h3]
        exact ⟨t1, t2, t3, _, by rw [hf1, hf2, hf3], rfl⟩

/-! ## `load_data`: ids of the stored samples -/

theorem SearchWord_size (t : WordTable)
    (hv : ∀ x, t.word_map_.lookup x = if x ∈ t.word_vec_ then some (t.word_vec_.indexOf x) else none)
    (w : String) :
    (t.SearchWord w).1 < (t.SearchWord w).2.size ∧
    ((t.SearchWord w).2.size = t.size ∨
      ((t.SearchWord w).2.size = t.size + 1 ∧ (t.SearchWord w).1 = t.size)) := by
  by_cases hw : w ∈ t.word_vec_
  · rw [SearchWord_of_mem t hv w hw]
    exact ⟨List.indexOf_lt_length.mpr hw, Or.inl rfl⟩
  · rw [SearchWord_of_not_mem t hv w hw]
    refine ⟨?_, Or.inr ⟨?_, rfl⟩⟩
    · show t.word_vec_.length < (t.word_vec_ ++ [w]).length
      simp
    · show (t.word_vec_ ++ [w]).length = t.word_vec_.length + 1
      simp

theorem load_inv_new : LoadInv DataManager.new := by
  refine ⟨fun x => ?_, fun x => ?_, fun i => ?_, fun i => ?_⟩
  · simp [DataManager.new, WordTable.new]
  · simp [DataManager.new, WordTable.new]
  · simp [DataManager.new, WordTable.new, DataManager.source_size, WordTable.size]
  · simp [DataManager.new, WordTable.new, DataManager.target_size, WordTable.size]

/-- Ids below the size of a table after one `SearchWord` call and one more
sample carrying the returned id. -/
theorem ids_after_insert (old_size new_size id : Nat) (ids : List Nat)
    (hold : ∀ i, i < old_size ↔ i ∈ ids) (hid : id < new_size)
    (hsize : new_size = old_size ∨ (new_size = old_size + 1 ∧ id = old_size)) :
    ∀ i, i < new_size ↔ i ∈ ids ++ [id] := by
  intro i
  simp only [List.mem_append, List.mem_singleton, ← hold i]
  rcases hsize with h | ⟨h, h2⟩
  · constructor
    · intro hi; left; omega
    · rintro (hi | hi) <;> omega
  · constructor
    · intro hi
      by_cases e : i = id
      · exact Or.inr e
      · left; omega
    · rintro (hi | hi) <;> omega

theorem load_line_inv (atof : List Char → ℚ) (dm : DataManager) (h : LoadInv dm)
    (line : List Char) : LoadInv (dm.load_line atof line) := by
  unfold DataManager.load_line
  rcases parse_data_fields atof dm line Sample.new with ⟨_, he⟩ | ⟨f1, f2, f3, rest, _, he⟩
  · simp only [he]
    exact h
  · simp only [he, if_true]
    have hs := SearchWord_size dm.source_words_ h.source_valid (String.mk f1)
    have ht := SearchWord_size dm.target_words_ h.target_valid (String.mk f2)
    refine ⟨SearchWord_valid _ h.source_valid _, SearchWord_valid _ h.target_valid _,
      fun i => ?_, fun i => ?_⟩
    · have := ids_after_insert dm.source_size
        (dm.source_words_.SearchWord (String.mk f1)).2.size
        (dm.source_words_.SearchWord (String.mk f1)).1
        (dm.samples_.map Sample.source_)
        (by
          intro j
          rw [h.source_ids j]
          simp only [List.mem_map])
        hs.1 hs.2 i
      show i < (dm.source_words_.SearchWord (String.mk f1)).2.size ↔ _
      rw [this]
      simp only [List.mem_append, List.mem_map, List.mem_singleton]
      constructor
      · rintro (⟨s, hs1, hs2⟩ | e)
        · exact ⟨s, Or.inl hs1, hs2⟩
        · exact ⟨_, Or.inr rfl, e.symm⟩
      · rintro ⟨s, hs1 | hs1, hs2⟩
        · exact Or.inl ⟨s, hs1, hs2⟩
        · right
          rw [← hs2, hs1]
    · have := ids_after_insert dm.target_size
        (dm.target_words_.SearchWord (String.mk f2)).2.size
        (dm.target_words_.SearchWord (String.mk f2)).1
        (dm.samples_.map Sample.target_)
        (by
          intro j
          rw [h.target_ids j]
          simp only [List.mem_map])
        ht.1 ht.2 i
      show i < (dm.target_words_.SearchWord (String.mk f2)).2.size ↔ _
      rw [this]
      simp only [List.mem_append, List.mem_map, List.mem_singleton]
      constructor
      · rintro (⟨s, hs1, hs2⟩ | e)
        · exact ⟨s, Or.inl hs1, hs2⟩
        · exact ⟨_, Or.inr rfl, e.symm⟩
      · rintro ⟨s, hs1 | hs1, hs2⟩
        · exact Or.inl ⟨s, hs1, hs2⟩
        · right
          rw [← hs2, hs1]

theorem load_lines_inv (atof : List Char → ℚ) (lines : List (List Char)) :
    ∀ dm, LoadInv dm → LoadInv (lines.foldl (DataManager.load_line atof) dm) := by
  induction lines with
  | nil => intro dm h; exact h
  | cons l rest ih =>
    intro dm h
    exact ih _ (load_line_inv atof dm h l)

/-! ## `Save`: the text written by the loops -/

theorem foldl_append_join (l : List String) (acc : String) :
    l.foldl (fun r s => r ++ s) acc = acc ++ String.join l := by
  induction l generalizing acc with
  | nil => simp [String.join]
  | cons a l ih =>
    rw [List.foldl_cons, ih]
    show acc ++ a ++ String.join l = acc ++ List.foldl (fun r s => r ++ s) ("" ++ a) l
    rw [ih, String.empty_append, String.append_assoc]

theorem join_cons (a : String) (l : List String) : String.join (a :: l) = a ++ String.join l := by
  rw [String.join, List.foldl_cons, foldl_append_join, String.empty_append]

theorem join_append (l₁ l₂ : List String) :
    String.join (l₁ ++ l₂) = String.join l₁ ++ String.join l₂ := by
  induction l₁ with
  | nil => simp [String.join]
  | cons a l ih => rw [List.cons_append, join_cons, join_cons, ih, String.append_assoc]

theorem intercalate_go (s : String) (l : List String) (acc : String) :
    String.intercalate.go acc s l = acc ++ String.join (l.map (fun x => s ++ x)) := by
  induction l generalizing acc with
  | nil => simp [String.intercalate.go, String.join]
  | cons a l ih =>
    rw [String.intercalate.go, ih, List.map_cons, join_cons]
    simp only [String.append_assoc]

theorem intercalate_snoc (s : String) (a : String) (l : List String) (x : String) :
    s.intercalate ((a :: l) ++ [x]) = s.intercalate (a :: l) ++ s ++ x := by
  rw [List.cons_append, String.intercalate, String.intercalate, intercalate_go, intercalate_go,
    List.map_append, join_append, List.map_cons, List.map_nil, join_cons]
  simp [String.join, String.append_assoc]

/-- Numbers separated by single spaces: every number but the last is followed
by a space. -/
theorem intercalate_range (g : Nat → String) (m : Nat) :
    " ".intercalate ((List.range (m + 1)).map g) =
      String.join ((List.range m).map (fun j => g j ++ " ")) ++ g m := by
  induction m with
  | zero =>
    show String.intercalate.go (g 0) " " [] = String.join [] ++ g 0
    simp [String.intercalate.go, String.join]
  | succ m ih =>
    have h : (List.range (m + 1 + 1)).map g = (g 0 :: (List.range m).map (fun j => g (j + 1)))
        ++ [g (m + 1)] := by
      rw [List.range_succ, List.map_append, List.map_singleton]
      congr 1
      rw [List.range_succ_eq_map, List.map_cons, List.map_map]
      rfl
    have h2 : (List.range (m + 1)).map g = g 0 :: (List.range m).map (fun j => g (j + 1)) := by
      rw [List.range_succ_eq_map, List.map_cons, List.map_map]
      rfl
    rw [h, intercalate_snoc, ← h2, ih]
    rw [List.range_succ (n := m), List.map_append, join_append, List.map_singleton]
    simp [String.join, String.append_assoc]

theorem save_values_partial (fmt : ℚ → String) (h : Nat) (table : List ℚ) (i : Nat)
    (fp : String) (n : Nat) (hn : n < h) :
    (List.range n).foldl
      (fun fp j =>
        let tail := if j = h - 1 then "\n" else " "
        fp ++ (fmt (table.getD (i * h + j) 0) ++ tail)) fp
      = fp ++ String.join ((List.range n).map
          (fun j => fmt (table.getD (i * h + j) 0) ++ " ")) := by
  induction n with
  | zero => simp [String.join]
  | succ n ih =>
    have hne : ¬ n = h - 1 := by omega
    rw [List.range_succ, List.foldl_append, ih (by omega), List.map_append, join_append]
    simp [String.join, String.append_assoc, hne]

theorem save_values_eq (fmt : ℚ → String) (h : Nat) (hh : 1 ≤ h) (table : List ℚ) (i : Nat)
    (fp : String) :
    save_values fmt h table i fp =
      fp ++ (" ".intercalate ((List.range h).map (fun j => fmt (table.getD (i * h + j) 0)))
        ++ "\n") := by
  obtain ⟨m, rfl⟩ : ∃ m, h = m + 1 := ⟨h - 1, by omega⟩
  rw [intercalate_range, save_values, List.range_succ, List.foldl_append,
    save_values_partial fmt (m + 1) table i fp m (by omega)]
  simp [String.append_assoc]

theorem save_file_rows (fmt : ℚ → String) (name : Option (Nat → String)) (h : Nat)
    (hh : 1 ≤ h) (table : List ℚ) (fp : String) (n : Nat) :
    (List.range n).foldl
      (fun fp i =>
        let fp := match name with
          | some f => fp ++ (f i ++ "\t")
          | none => fp ++ (toString i ++ "\t")
        save_values fmt h table i fp) fp
      = fp ++ String.join ((List.range n).map (described_line fmt name h table)) := by
  induction n with
  | zero => simp [String.join]
  | succ n ih =>
    rw [List.range_succ, List.foldl_append, ih, List.map_append, join_append]
    cases name <;>
      simp [String.join, String.append_assoc, save_values_eq fmt h hh, described_line, row_name]

theorem save_file_eq (fmt : ℚ → String) (name : Option (Nat → String)) (size h : Nat)
    (hh : 1 ≤ h) (table : List ℚ) :
    save_file fmt name size h table = described_file fmt name size h table := by
  rw [save_file, described_file]
  exact save_file_rows fmt name h hh table _ size

/-! ## The sampler builders -/

theorem range_getD (n k : Nat) (hk : k < n) : (List.range n).getD k 0 = k := by
  rw [List.getD_eq_getElem _ _ (by simpa using hk), List.getElem_range]

theorem sample_at_some (dm : DataManager) (k : Nat) (hk : k < dm.samples_.length) :
    ∃ s, dm.SampleAt k = some s := by
  refine ⟨dm.samples_.get ⟨k, hk⟩, ?_⟩
  unfold DataManager.SampleAt
  rw [if_neg (by omega), List.get?_eq_get hk]

theorem data_sampler_none (dm : DataManager) (h : dm.samples_.length = 0) :
    dm.build_data_sampler = none ∧ ∀ pow w, dm.build_target_sampler pow w = none := by
  constructor
  · unfold DataManager.build_data_sampler
    rw [if_pos h]
  · intro pow w
    unfold DataManager.build_target_sampler
    rw [if_pos h]

theorem target_sampler_some (dm : DataManager) (h : dm.samples_.length ≠ 0) (pow : ℚ → ℚ → ℚ)
    (w : ℚ) : ∃ ts, dm.build_target_sampler pow w = some ts := by
  unfold DataManager.build_target_sampler
  rw [if_neg h]
  dsimp only
  split_ifs
  · exact ⟨_, rfl⟩
  · exact ⟨_, rfl⟩

theorem data_sampler_some (dm : DataManager) (h : dm.samples_.length ≠ 0) :
    ∃ ds, dm.build_data_sampler = some ds ∧
      ∀ idx u, ∃ s, dm.SampleAt (ds.sampling idx u) = some s := by
  unfold DataManager.build_data_sampler
  rw [if_neg h]
  refine ⟨_, rfl, ?_⟩
  intro idx u
  apply sample_at_some
  have hne : (List.range dm.samples_.length).map
      (fun i => (i, (dm.samples_.getD i Sample.new).weight_)) ≠ [] := by
    intro hc
    apply h
    simpa using congrArg List.length hc
  simp only [BaseSampler.sampling]
  rw [alias_new_eq _ hne]
  unfold AliasSampler.sampling
  have hm : List.map Prod.fst ((List.range dm.samples_.length).map
      (fun i => (i, (dm.samples_.getD i Sample.new).weight_))) = List.range dm.samples_.length := by
    rw [List.map_map]
    conv_rhs => rw [← List.map_id (List.range dm.samples_.length)]
    rfl
  simp only [hm, List.length_range]
  split_ifs with hge
  · rw [range_getD _ _ (by omega)]
    omega
  · rw [range_getD _ _ (by omega)]
    omega

/-! ## `TrainThread`: the passes of the loop -/

theorem same_settings_refl (a : TrainingContext) : SameSettings a a :=
  ⟨rfl, rfl, rfl, rfl, rfl⟩

theorem same_settings_trans (a b c : TrainingContext) (h₁ : SameSettings a b)
    (h₂ : SameSettings b c) : SameSettings a c :=
  ⟨h₂.training_words.trans h₁.training_words, h₂.iteration.trans h₁.iteration,
    h₂.num_threads.trans h₁.num_threads, h₂.negative.trans h₁.negative,
    h₂.target_noise_prob.trans h₁.target_noise_prob⟩

theorem publish_settings (st : ThreadState) (i : Nat) :
    SameSettings st.context (publish st i).context ∧ (publish st i).calls = st.calls :=
  ⟨⟨rfl, rfl, rfl, rfl, rfl⟩, rfl⟩

theorem train_step_ok (tr : BiWord2VecTrainer) (env : Environment) (t L k : Nat)
    (ds ts : BaseSampler) (hd : tr.data_sampler_ = some ds) (ht : tr.target_sampler_ = some ts)
    (hv : ∀ idx u, ∃ s, tr.data_manager_.SampleAt (ds.sampling idx u) = some s)
    (st : ThreadState) (i : Nat) :
    ∃ st1 c, train_step tr env t L k st i = .ok st1 ∧ st1.calls = st.calls ++ [c] ∧
      c.negative_targets.length = k ∧ SameSettings st.context st1.context := by
  obtain ⟨s, hs⟩ := hv (env.data_draw t i).1 (env.data_draw t i).2
  unfold train_step
  rw [hd]
  dsimp only
  rw [hs]
  simp only [negative_targets, ht]
  by_cases hc : i - st.last_word_count > 10000 ∨ i = L - 1
  · simp only [if_pos hc]
    exact ⟨_, _, rfl, rfl, by simp, ⟨rfl, rfl, rfl, rfl, rfl⟩⟩
  · simp only [if_neg hc]
    exact ⟨_, _, rfl, rfl, by simp, ⟨rfl, rfl, rfl, rfl, rfl⟩⟩

theorem run_passes_ok (tr : BiWord2VecTrainer) (env : Environment) (t L k : Nat)
    (ds ts : BaseSampler) (hd : tr.data_sampler_ = some ds) (ht : tr.target_sampler_ = some ts)
    (hv : ∀ idx u, ∃ s, tr.data_manager_.SampleAt (ds.sampling idx u) = some s)
    (is : List Nat) : ∀ st : ThreadState,
    ∃ st1, run_passes (train_step tr env t L k) is st = .ok st1 ∧
      st1.calls.length = st.calls.length + is.length ∧
      (∀ c ∈ st1.calls, c ∈ st.calls ∨ c.negative_targets.length = k) ∧
      SameSettings st.context st1.context := by
  induction is with
  | nil =>
    intro st
    exact ⟨st, rfl, rfl, fun c hc => Or.inl hc, same_settings_refl _⟩
  | cons i is ih =>
    intro st
    obtain ⟨st1, c, h1, hc, hk, hs⟩ := train_step_ok tr env t L k ds ts hd ht hv st i
    obtain ⟨st2, h2, hlen, hmem, hs2⟩ := ih st1
    refine ⟨st2, ?_, ?_, ?_, same_settings_trans _ _ _ hs hs2⟩
    · rw [run_passes, h1]
      exact h2
    · rw [hlen, hc, List.length_append, List.length_cons, List.length_nil, List.length_cons]
      omega
    · intro u hu
      rcases hmem u hu with h | h
      · rw [hc, List.mem_append, List.mem_singleton] at h
        rcases h with h | h
        · exact Or.inl h
        · exact Or.inr (h ▸ hk)
      · exact Or.inr h

theorem train_thread_ok (tr : BiWord2VecTrainer) (env : Environment) (t : Nat)
    (ds ts : BaseSampler) (hd : tr.data_sampler_ = some ds) (ht : tr.target_sampler_ = some ts)
    (hv : ∀ idx u, ∃ s, tr.data_manager_.SampleAt (ds.sampling idx u) = some s)
    (ctx : TrainingContext) (hn : ctx.num_threads ≠ 0) :
    ∃ st, tr.TrainThread env t ctx = .ok st ∧
      st.calls.length = local_training_words ctx.training_words ctx.iteration ctx.num_threads ∧
      (∀ c ∈ st.calls, c.negative_targets.length = ctx.negative) ∧
      SameSettings ctx st.context := by
  unfold BiWord2VecTrainer.TrainThread
  rw [if_neg hn]
  obtain ⟨st, h, hlen, hmem, hs⟩ := run_passes_ok tr env t
    (local_training_words ctx.training_words ctx.iteration ctx.num_threads) ctx.negative
    ds ts hd ht hv
    (List.range (local_training_words ctx.training_words ctx.iteration ctx.num_threads))
    { context := ctx, last_word_count := 0, alpha_decay := 1, logloss := 0, count := 0,
      calls := [] }
  refine ⟨st, h, ?_, ?_, hs⟩
  · rw [hlen]
    simp
  · intro c hc
    rcases hmem c hc with h | h
    · simp at h
    · exact h

theorem train_thread_zero (tr : BiWord2VecTrainer) (env : Environment) (t : Nat)
    (ctx : TrainingContext) (hn : ctx.num_threads ≠ 0)
    (h0 : local_training_words ctx.training_words ctx.iteration ctx.num_threads = 0) :
    tr.TrainThread env t ctx =
      .ok { context := ctx, last_word_count := 0, alpha_decay := 1, logloss := 0, count := 0,
            calls := [] } := by
  unfold BiWord2VecTrainer.TrainThread
  rw [if_neg hn]
  dsimp only
  rw [h0]
  rfl

theorem run_workers_ok (tr : BiWord2VecTrainer) (env : Environment)
    (ds ts : BaseSampler) (hd : tr.data_sampler_ = some ds) (ht : tr.target_sampler_ = some ts)
    (hv : ∀ idx u, ∃ s, tr.data_manager_.SampleAt (ds.sampling idx u) = some s)
    (ids : List Nat) : ∀ (ctx : TrainingContext) (log : List (List UpdateCall)),
    ctx.num_threads ≠ 0 →
    ∃ ctx1 log1, run_workers (tr.TrainThread env) ids ctx log = .ok (ctx1, log1) ∧
      log1.length = log.length + ids.length ∧
      (∀ c ∈ log1, c ∈ log ∨
        (c.length = local_training_words ctx.training_words ctx.iteration ctx.num_threads ∧
          ∀ u ∈ c, u.negative_targets.length = ctx.negative)) ∧
      SameSettings ctx ctx1 := by
  induction ids with
  | nil =>
    intro ctx log _
    exact ⟨ctx, log, rfl, rfl, fun c hc => Or.inl hc, same_settings_refl _⟩
  | cons i ids ih =>
    intro ctx log hn
    obtain ⟨st, h1, hlen, hneg, hs⟩ := train_thread_ok tr env i ds ts hd ht hv ctx hn
    obtain ⟨ctx2, log2, h2, hl2, hm2, hs2⟩ := ih st.context (log ++ [st.calls])
      (by rw [hs.num_threads]; exact hn)
    refine ⟨ctx2, log2, ?_, ?_, ?_, same_settings_trans _ _ _ hs hs2⟩
    · rw [run_workers, h1]
      exact h2
    · rw [hl2, List.length_append, List.length_cons, List.length_nil, List.length_cons]
      omega
    · intro c hc
      rcases hm2 c hc with h | h
      · rw [List.mem_append, List.mem_singleton] at h
        rcases h with h | h
        · exact Or.inl h
        · exact Or.inr (h ▸ ⟨hlen, hneg⟩)
      · rw [hs.training_words, hs.iteration, hs.num_threads, hs.negative] at h
        exact Or.inr h

theorem run_workers_zero (tr : BiWord2VecTrainer) (env : Environment)
    (ctx : TrainingContext) (hn : ctx.num_threads ≠ 0)
    (h0 : local_training_words ctx.training_words ctx.iteration ctx.num_threads = 0)
    (ids : List Nat) : ∀ log : List (List UpdateCall),
    run_workers (tr.TrainThread env) ids ctx log =
      .ok (ctx, log ++ List.replicate ids.length []) := by
  induction ids with
  | nil =>
    intro log
    simp [run_workers]
  | cons i ids ih =>
    intro log
    rw [run_workers, train_thread_zero tr env i ctx hn h0]
    dsimp only
    rw [ih, List.length_cons, List.replicate_succ, List.append_assoc]
    rfl

/-! ## `TrainThread`: the share of a worker -/

theorem share_no_overflow (T n : Nat) (hn : 1 ≤ n) (h : T + n - 1 < SIZE_T_RANGE) :
    to_size_t (to_size_t T + n + SIZE_T_RANGE - 1) / n = (T + n - 1) / n := by
  have h1 : to_size_t T = T := by
    unfold to_size_t
    exact Nat.mod_eq_of_lt (by omega)
  have h2 : to_size_t (T + n + SIZE_T_RANGE - 1) = T + n - 1 := by
    unfold to_size_t
    have : T + n + SIZE_T_RANGE - 1 = (T + n - 1) + SIZE_T_RANGE := by omega
    rw [this, Nat.add_mod_right]
    exact Nat.mod_eq_of_lt h
  rw [h1, h2]

theorem ceil_div_eq (T n : Nat) (hn : 1 ≤ n) : (T + n - 1) / n = ⌈(T : ℚ) / n⌉₊ := by
  have hn0 : (0 : ℚ) < n := by exact_mod_cast hn
  have h1 : (T + n - 1) / n * n ≤ T + n - 1 := Nat.div_mul_le_self _ _
  have h2 : T + n - 1 < (T + n - 1) / n * n + n := Nat.lt_div_mul_add (by omega)
  symm
  by_cases hq : (T + n - 1) / n = 0
  · have hT : T = 0 := by
      rw [hq] at h2
      omega
    rw [hq, hT]
    simp
  · rw [Nat.ceil_eq_iff hq]
    obtain ⟨q, hq1⟩ := Nat.exists_eq_succ_of_ne_zero hq
    rw [hq1, Nat.succ_eq_add_one] at h1 h2 ⊢
    have h5 : (q + 1) * n = q * n + n := by ring
    have h3 : q * n < T := by omega
    have h4 : T ≤ (q + 1) * n := by omega
    constructor
    · rw [lt_div_iff₀ hn0, Nat.add_sub_cancel]
      exact_mod_cast h3
    · rw [div_le_iff₀ hn0]
      exact_mod_cast h4

theorem sum_lengths (l : List (List UpdateCall)) (q : Nat) (h : ∀ c ∈ l, c.length = q) :
    (l.map List.length).sum = l.length * q := by
  induction l with
  | nil => simp
  | cons a l ih =>
    rw [List.map_cons, List.sum_cons, ih (fun c hc => h c (List.mem_cons_of_mem _ hc)),
      h a (List.mem_cons_self _ _), List.length_cons]
    ring

theorem train_of_workers (tr : BiWord2VecTrainer) (env : Environment)
    (file : Option (List (List Char))) (model_path : String) (alpha : ℚ)
    (hidden_size iteration negative training_words num_threads : Nat)
    (weight_neg_sampling : ℚ) (method : LossType)
    (context : TrainingContext) (calls : List (List UpdateCall))
    (h : run_workers
      ((tr.prepare env file alpha hidden_size iteration negative training_words num_threads
        weight_neg_sampling method).1.TrainThread env)
      (List.range (max num_threads 1))
      (tr.prepare env file alpha hidden_size iteration negative training_words num_threads
        weight_neg_sampling method).2 [] = .ok (context, calls)) :
    ∃ r, tr.Train env file model_path alpha hidden_size iteration negative training_words
        num_threads weight_neg_sampling method = .ok r ∧
      r.returned = true ∧ r.launched = max num_threads 1 ∧ r.context = context ∧
      r.loss = context.logloss / context.logloss_count ∧ r.calls = calls := by
  unfold BiWord2VecTrainer.Train
  dsimp only
  rw [h]
  exact ⟨_, rfl, rfl, rfl, rfl, rfl, rfl⟩

theorem prepare_samplers (env : Environment)
    (file : Option (List (List Char))) (alpha : ℚ)
    (hidden_size iteration negative training_words num_threads : Nat)
    (weight_neg_sampling : ℚ) (method : LossType)
    (hsamples : 0 < (DataManager.new.load_data env.atof file).2.size) :
    ∃ ds ts,
      (BiWord2VecTrainer.new.prepare env file alpha hidden_size iteration negative training_words
        num_threads weight_neg_sampling method).1.data_sampler_ = some ds ∧
      (BiWord2VecTrainer.new.prepare env file alpha hidden_size iteration negative training_words
        num_threads weight_neg_sampling method).1.target_sampler_ = some ts ∧
      ∀ idx u, ∃ s,
        (BiWord2VecTrainer.new.prepare env file alpha hidden_size iteration negative
          training_words num_threads weight_neg_sampling method).1.data_manager_.SampleAt
            (ds.sampling idx u) = some s := by
  have hne : (DataManager.new.load_data env.atof file).2.samples_.length ≠ 0 := by
    unfold DataManager.size at hsamples
    omega
  obtain ⟨ds, hd, hv⟩ := data_sampler_some _ hne
  obtain ⟨ts, ht⟩ := target_sampler_some _ hne env.pow weight_neg_sampling
  exact ⟨ds, ts, hd, ht, hv⟩

/-! ## `TrainThread`: what a worker publishes -/

theorem run_passes_append (step : ThreadState → Nat → Outcome ThreadState) (l₁ l₂ : List Nat) :
    ∀ (st st1 : ThreadState), run_passes step l₁ st = .ok st1 →
      run_passes step (l₁ ++ l₂) st = run_passes step l₂ st1 := by
  induction l₁ with
  | nil =>
    intro st st1 h
    simp only [run_passes, Outcome.ok.injEq] at h
    rw [h, List.nil_append]
  | cons i l ih =>
    intro st st1 h
    rw [List.cons_append, run_passes]
    rw [run_passes] at h
    cases hs : step st i with
    | ok st2 =>
      rw [hs] at h
      exact ih st2 st1 h
    | null_dereference =>
      rw [hs] at h
      cases h
    | division_by_zero =>
      rw [hs] at h
      cases h

theorem train_step_quiet (tr : BiWord2VecTrainer) (env : Environment) (t L k : Nat)
    (ds ts : BaseSampler) (hd : tr.data_sampler_ = some ds) (ht : tr.target_sampler_ = some ts)
    (hv : ∀ idx u, ∃ s, tr.data_manager_.SampleAt (ds.sampling idx u) = some s)
    (st : ThreadState) (i : Nat) (hc : ¬ (i - st.last_word_count > 10000 ∨ i = L - 1)) :
    ∃ st1 c, train_step tr env t L k st i = .ok st1 ∧ st1.calls = st.calls ++ [c] ∧
      c.negative_targets.length = k ∧
      st1.context.logloss = st.context.logloss ∧
      st1.context.logloss_count = st.context.logloss_count ∧
      st1.last_word_count = st.last_word_count ∧
      st1.count = to_size_t (st.count + (1 + k)) ∧
      st1.logloss = st.logloss + c.result := by
  obtain ⟨s, hs⟩ := hv (env.data_draw t i).1 (env.data_draw t i).2
  unfold train_step
  rw [hd]
  dsimp only
  rw [hs]
  simp only [negative_targets, ht, if_neg hc]
  exact ⟨_, _, rfl, rfl, by simp, rfl, rfl, rfl, rfl, rfl⟩

theorem train_step_publish (tr : BiWord2VecTrainer) (env : Environment) (t L k : Nat)
    (ds ts : BaseSampler) (hd : tr.data_sampler_ = some ds) (ht : tr.target_sampler_ = some ts)
    (hv : ∀ idx u, ∃ s, tr.data_manager_.SampleAt (ds.sampling idx u) = some s)
    (st : ThreadState) (i : Nat) (hc : i - st.last_word_count > 10000 ∨ i = L - 1) :
    ∃ st1 c, train_step tr env t L k st i = .ok st1 ∧ st1.calls = st.calls ++ [c] ∧
      c.negative_targets.length = k ∧
      st1.context.logloss = st.context.logloss + st.logloss ∧
      st1.context.logloss_count = to_size_t (st.context.logloss_count + st.count) := by
  obtain ⟨s, hs⟩ := hv (env.data_draw t i).1 (env.data_draw t i).2
  unfold train_step
  rw [hd]
  dsimp only
  rw [hs]
  simp only [negative_targets, ht, if_pos hc]
  exact ⟨_, _, rfl, rfl, by simp, rfl, rfl⟩

theorem to_size_t_add (a b : Nat) : to_size_t (to_size_t a + b) = to_size_t (a + b) := by
  unfold to_size_t
  exact Nat.mod_add_mod a SIZE_T_RANGE b

theorem quiet_passes (tr : BiWord2VecTrainer) (env : Environment) (t L k : Nat)
    (ds ts : BaseSampler) (hd : tr.data_sampler_ = some ds) (ht : tr.target_sampler_ = some ts)
    (hv : ∀ idx u, ∃ s, tr.data_manager_.SampleAt (ds.sampling idx u) = some s)
    (ctx : TrainingContext) (m : Nat) (hm : m ≤ L - 1) (hm2 : m ≤ 10001) :
    ∃ st, run_passes (train_step tr env t L k) (List.range m)
        { context := ctx, last_word_count := 0, alpha_decay := 1, logloss := 0, count := 0,
          calls := [] } = .ok st ∧
      Unpublished ctx.logloss ctx.logloss_count k m st := by
  induction m with
  | zero =>
    refine ⟨_, rfl, ⟨rfl, rfl, rfl, ?_, ?_, rfl, ?_⟩⟩
    · simp [to_size_t]
    · simp
    · intro c hc
      simp at hc
  | succ m ih =>
    obtain ⟨st, h, hI⟩ := ih (by omega) (by omega)
    have hc : ¬ (m - st.last_word_count > 10000 ∨ m = L - 1) := by
      rw [hI.last]
      omega
    obtain ⟨st1, c, h1, hcalls, hk, hl, hcnt, hlast, hcount, hloss⟩ :=
      train_step_quiet tr env t L k ds ts hd ht hv st m hc
    refine ⟨st1, ?_, ⟨?_, ?_, ?_, ?_, ?_, ?_, ?_⟩⟩
    · rw [List.range_succ, run_passes_append _ _ _ _ _ h, run_passes, h1]
      rfl
    · rw [hl, hI.shared_loss]
    · rw [hcnt, hI.shared_count]
    · rw [hlast, hI.last]
    · rw [hcount, hI.count, to_size_t_add]
      congr 1
      ring
    · rw [hloss, hI.loss, hcalls, List.map_append, List.sum_append]
      simp
    · rw [hcalls, List.length_append, hI.calls]
      rfl
    · intro u hu
      rw [hcalls, List.mem_append, List.mem_singleton] at hu
      rcases hu with hu | hu
      · exact hI.negatives u hu
      · exact hu ▸ hk

theorem train_thread_publishes (tr : BiWord2VecTrainer) (env : Environment) (t : Nat)
    (ds ts : BaseSampler) (hd : tr.data_sampler_ = some ds) (ht : tr.target_sampler_ = some ts)
    (hv : ∀ idx u, ∃ s, tr.data_manager_.SampleAt (ds.sampling idx u) = some s)
    (ctx : TrainingContext) (hn : ctx.num_threads ≠ 0) (N : Nat)
    (hN : local_training_words ctx.training_words ctx.iteration ctx.num_threads = N)
    (h1 : 1 ≤ N) (h2 : N ≤ 10001) :
    ∃ st, tr.TrainThread env t ctx = .ok st ∧
      st.calls.length = N ∧
      (∀ c ∈ st.calls, c.negative_targets.length = ctx.negative) ∧
      st.context.logloss =
        ctx.logloss + ((st.calls.take (N - 1)).map UpdateCall.result).sum ∧
      st.context.logloss_count =
        to_size_t (ctx.logloss_count + (N - 1) * (1 + ctx.negative)) := by
  obtain ⟨st, h, hI⟩ := quiet_passes tr env t N ctx.negative ds ts hd ht hv ctx (N - 1)
    (le_refl _) (by omega)
  obtain ⟨st1, c, hs1, hcalls, hk, hl, hcnt⟩ :=
    train_step_publish tr env t N ctx.negative ds ts hd ht hv st (N - 1) (Or.inr rfl)
  have hrange : List.range N = List.range (N - 1) ++ [N - 1] := by
    obtain ⟨m, rfl⟩ : ∃ m, N = m + 1 := ⟨N - 1, by omega⟩
    rw [List.range_succ]
    rfl
  refine ⟨st1, ?_, ?_, ?_, ?_, ?_⟩
  · unfold BiWord2VecTrainer.TrainThread
    rw [if_neg hn]
    dsimp only
    rw [hN, hrange, run_passes_append _ _ _ _ _ h, run_passes, hs1]
    rfl
  · rw [hcalls, List.length_append, hI.calls]
    simp only [List.length_singleton]
    omega
  · intro u hu
    rw [hcalls, List.mem_append, List.mem_singleton] at hu
    rcases hu with hu | hu
    · exact hI.negatives u hu
    · exact hu ▸ hk
  · rw [hl, hI.shared_loss, hI.loss, hcalls, List.take_left' hI.calls]
  · rw [hcnt, hI.shared_count, hI.count]
    unfold to_size_t
    rw [Nat.add_mod_mod]

theorem train_of_null (tr : BiWord2VecTrainer) (env : Environment)
    (file : Option (List (List Char))) (model_path : String) (alpha : ℚ)
    (hidden_size iteration negative training_words num_threads : Nat)
    (weight_neg_sampling : ℚ) (method : LossType)
    (h : run_workers
      ((tr.prepare env file alpha hidden_size iteration negative training_words num_threads
        weight_neg_sampling method).1.TrainThread env)
      (List.range (max num_threads 1))
      (tr.prepare env file alpha hidden_size iteration negative training_words num_threads
        weight_neg_sampling method).2 [] = .null_dereference) :
    tr.Train env file model_path alpha hidden_size iteration negative training_words
        num_threads weight_neg_sampling method = .null_dereference := by
  unfold BiWord2VecTrainer.Train
  dsimp only
  rw [h]

theorem train_of_division (tr : BiWord2VecTrainer) (env : Environment)
    (file : Option (List (List Char))) (model_path : String) (alpha : ℚ)
    (hidden_size iteration negative training_words num_threads : Nat)
    (weight_neg_sampling : ℚ) (method : LossType)
    (h : run_workers
      ((tr.prepare env file alpha hidden_size iteration negative training_words num_threads
        weight_neg_sampling method).1.TrainThread env)
      (List.range (max num_threads 1))
      (tr.prepare env file alpha hidden_size iteration negative training_words num_threads
        weight_neg_sampling method).2 [] = .division_by_zero) :
    tr.Train env file model_path alpha hidden_size iteration negative training_words
        num_threads weight_neg_sampling method = .division_by_zero := by
  unfold BiWord2VecTrainer.Train
  dsimp only
  rw [h]

theorem run_workers_single (worker : Nat → TrainingContext → Outcome ThreadState)
    (context : TrainingContext) :
    run_workers worker [0] context [] =
      match worker 0 context with
      | .ok st => .ok (st.context, [st.calls])
      | .null_dereference => .null_dereference
      | .division_by_zero => .division_by_zero := by
  rw [run_workers]
  cases worker 0 context <;> rfl

/-! ## The slots and the results of the samplers -/

theorem getD_mem_nat (l : List Nat) (k : Nat) (hk : k < l.length) : l.getD k 0 ∈ l := by
  rw [List.getD_eq_getElem _ _ hk]
  exact List.getElem_mem _

theorem getD_clamp_mem (l : List Nat) (hne : l ≠ []) (k : Nat) :
    l.getD (if k ≥ l.length then l.length - 1 else k) 0 ∈ l := by
  have hpos : 0 < l.length := List.length_pos.2 hne
  apply getD_mem_nat
  split_ifs with h
  · omega
  · omega

theorem range_inv_step (n : Nat) (st : AliasBuild) (l g : Nat) (sm lg sm2 lg2 : List Nat)
    (hs : st.smaller = l :: sm) (hl : st.larger = g :: lg) (h : RangeInv n st)
    (h2 : (sm2 = g :: sm ∧ lg2 = lg) ∨ (sm2 = sm ∧ lg2 = g :: lg)) (probs : List ℚ)
    (alias_prob : List ℚ) :
    RangeInv n { probs := probs, smaller := sm2, larger := lg2,
                 alias_ := st.alias_.set l g, alias_prob_ := alias_prob } := by
  have hg : g < n := h.larger_lt g (by rw [hl]; exact List.mem_cons_self _ _)
  have hsm : ∀ i ∈ sm, i < n := fun i hi =>
    h.smaller_lt i (by rw [hs]; exact List.mem_cons_of_mem _ hi)
  have hlg : ∀ i ∈ lg, i < n := fun i hi =>
    h.larger_lt i (by rw [hl]; exact List.mem_cons_of_mem _ hi)
  refine ⟨?_, ?_, ?_, ?_⟩
  · intro i hi
    rcases h2 with ⟨rfl, -⟩ | ⟨rfl, -⟩
    · rcases List.mem_cons.1 hi with rfl | hi
      · exact hg
      · exact hsm i hi
    · exact hsm i hi
  · intro i hi
    rcases h2 with ⟨-, rfl⟩ | ⟨-, rfl⟩
    · exact hlg i hi
    · rcases List.mem_cons.1 hi with rfl | hi
      · exact hg
      · exact hlg i hi
  · intro a ha
    rcases List.mem_or_eq_of_mem_set ha with ha | rfl
    · exact h.alias_lt a ha
    · exact hg
  · show (st.alias_.set l g).length = n
    rw [List.length_set]
    exact h.alias_length

theorem range_inv_final (dw : List (Nat × ℚ)) (hne : dw ≠ []) :
    RangeInv dw.length
      (work_loop dw.length
        { probs := normalise dw,
          smaller := (split_indices (normalise dw) dw.length).1,
          larger := (split_indices (normalise dw) dw.length).2,
          alias_ := List.replicate dw.length 0,
          alias_prob_ := List.replicate dw.length 0 }) := by
  have hpos : 0 < dw.length := List.length_pos.2 hne
  apply work_loop_induction (RangeInv dw.length)
  · intro st l g sm lg sm2 lg2 hs hl h h2
    apply range_inv_step dw.length st l g sm lg sm2 lg2 hs hl h
    rcases h2 with ⟨a, b, -⟩ | ⟨a, b, -⟩
    · exact Or.inl ⟨a, b⟩
    · exact Or.inr ⟨a, b⟩
  · rw [split_indices_eq]
    refine ⟨?_, ?_, ?_, ?_⟩
    · intro i hi
      exact List.mem_range.1 (List.mem_of_mem_filter hi)
    · intro i hi
      exact List.mem_range.1 (List.mem_of_mem_filter hi)
    · intro a ha
      rw [List.eq_of_mem_replicate ha]
      exact hpos
    · exact List.length_replicate _ _

theorem alias_draw_lt (dw : List (Nat × ℚ)) (hne : dw ≠ []) (idx : Nat) (u : ℚ)
    (hidx : idx < dw.length) : (AliasSampler.new dw).draw idx u < dw.length := by
  have h := range_inv_final dw hne
  rw [alias_new_eq dw hne]
  unfold AliasSampler.draw
  dsimp only
  split_ifs
  · exact hidx
  · exact h.alias_lt _ (getD_mem_nat _ _ (by rw [h.alias_length]; exact hidx))

theorem alias_sampling_eq (dw : List (Nat × ℚ)) (hne : dw ≠ []) (idx : Nat) (u : ℚ)
    (hidx : idx < dw.length) :
    (AliasSampler.new dw).sampling idx u =
      (dw.map Prod.fst).getD ((AliasSampler.new dw).draw idx u) 0 := by
  have hlt := alias_draw_lt dw hne idx u hidx
  have hd : (AliasSampler.new dw).data_index_ = dw.map Prod.fst := by
    rw [alias_new_eq dw hne]
  unfold AliasSampler.sampling
  dsimp only
  rw [hd, List.length_map, if_neg (by omega)]

theorem alias_sampling_mem (dw : List (Nat × ℚ)) (hne : dw ≠ []) (idx : Nat) (u : ℚ) :
    (AliasSampler.new dw).sampling idx u ∈ dw.map Prod.fst := by
  have hd : (AliasSampler.new dw).data_index_ = dw.map Prod.fst := by
    rw [alias_new_eq dw hne]
  unfold AliasSampler.sampling
  dsimp only
  rw [hd]
  exact getD_clamp_mem _ (by simpa using hne) _

theorem multinomial_sampling_mem (dw : List (Nat × ℚ)) (hne : dw ≠ []) (u : ℚ) :
    (MultinomialSampler.new dw).sampling u ∈ dw.map Prod.fst := by
  unfold MultinomialSampler.sampling MultinomialSampler.new
  dsimp only
  rw [cumulative_length]
  have := getD_clamp_mem (dw.map Prod.fst) (by simpa using hne)
    (upper_bound (cumulative (weight_sum dw) 0 dw) u)
  rwa [List.length_map] at this

theorem random_sampling_mem (dw : List (Nat × ℚ)) (hne : dw ≠ []) (idx : Nat) :
    (RandomSampler.new dw).sampling idx ∈ dw.map Prod.fst := by
  unfold RandomSampler.sampling RandomSampler.new
  dsimp only
  exact getD_clamp_mem _ (by simpa using hne) _

theorem accumulate_keys (m : List (Nat × ℚ)) (k : Nat) (w : ℚ) :
    accumulate m k w ≠ [] ∧
      ∀ x ∈ (accumulate m k w).map Prod.fst, x ∈ m.map Prod.fst ∨ x = k := by
  unfold accumulate
  cases hl : m.lookup k with
  | none =>
    refine ⟨by simp, ?_⟩
    intro x hx
    simp only [List.map_append, List.map_cons, List.map_nil, List.mem_append,
      List.mem_singleton] at hx
    exact hx
  | some v =>
    have hm : m ≠ [] := by
      intro hc
      rw [hc] at hl
      simp at hl
    refine ⟨by simpa using hm, ?_⟩
    intro x hx
    left
    simp only [List.map_map, List.mem_map, Function.comp] at hx ⊢
    obtain ⟨p, hp, rfl⟩ := hx
    refine ⟨p, hp, ?_⟩
    split_ifs <;> rfl

theorem target_weights_keys (samples : List Sample) :
    ∀ m : List (Nat × ℚ),
      (samples ≠ [] → samples.foldl (fun m s => accumulate m s.target_ s.weight_) m ≠ []) ∧
      ∀ x ∈ (samples.foldl (fun m s => accumulate m s.target_ s.weight_) m).map Prod.fst,
        x ∈ m.map Prod.fst ∨ x ∈ samples.map Sample.target_ := by
  induction samples with
  | nil =>
    intro m
    exact ⟨fun h => absurd rfl h, fun x hx => Or.inl hx⟩
  | cons s rest ih =>
    intro m
    rw [List.foldl_cons]
    obtain ⟨h1, h2⟩ := ih (accumulate m s.target_ s.weight_)
    obtain ⟨a1, a2⟩ := accumulate_keys m s.target_ s.weight_
    constructor
    · intro _
      by_cases hr : rest = []
      · rw [hr]
        exact a1
      · exact h1 hr
    · intro x hx
      rcases h2 x hx with h | h
      · rcases a2 x h with h | h
        · exact Or.inl h
        · right
          rw [h]
          exact List.mem_map.2 ⟨s, List.mem_cons_self _ _, rfl⟩
      · right
        rw [List.map_cons]
        exact List.mem_cons_of_mem _ h

theorem target_sampler_mem (dm : DataManager) (pow : ℚ → ℚ → ℚ) (w : ℚ) (ts : BaseSampler)
    (h : dm.build_target_sampler pow w = some ts) (idx : Nat) (u : ℚ) :
    ts.sampling idx u ∈ dm.samples_.map Sample.target_ := by
  unfold DataManager.build_target_sampler at h
  have hn : dm.samples_.length ≠ 0 := by
    intro hc
    rw [if_pos hc] at h
    cases h
  rw [if_neg hn] at h
  have hs : dm.samples_ ≠ [] := fun hc => hn (by rw [hc]; rfl)
  obtain ⟨k1, k2⟩ := target_weights_keys dm.samples_ []
  have hne : (dm.samples_.foldl (fun m s => accumulate m s.target_ s.weight_) []).map
      (fun p => (p.1, pow p.2 w)) ≠ [] := by
    simpa using k1 hs
  have hkeys : ((dm.samples_.foldl (fun m s => accumulate m s.target_ s.weight_) []).map
      (fun p => (p.1, pow p.2 w))).map Prod.fst =
      (dm.samples_.foldl (fun m s => accumulate m s.target_ s.weight_) []).map Prod.fst := by
    rw [List.map_map]
    rfl
  have hmem : ∀ x ∈ ((dm.samples_.foldl (fun m s => accumulate m s.target_ s.weight_) []).map
      (fun p => (p.1, pow p.2 w))).map Prod.fst, x ∈ dm.samples_.map Sample.target_ := by
    intro x hx
    rw [hkeys] at hx
    rcases k2 x hx with h | h
    · simp at h
    · exact h
  dsimp only at h
  split_ifs at h
  · simp only [Option.some.injEq] at h
    subst h
    exact hmem _ (random_sampling_mem _ hne idx)
  · simp only [Option.some.injEq] at h
    subst h
    exact hmem _ (alias_sampling_mem _ hne idx u)

/-! ## `Update`: the cells it reads and writes -/

theorem read_at_eq (a : List ℚ) (i : Nat) (h : i < a.length) :
    read_at a i = some (a.getD i 0) := by
  unfold read_at
  rw [if_pos h]

theorem write_at_eq (a : List ℚ) (i : Nat) (v : ℚ) (h : i < a.length) :
    write_at a i v = some (a.set i v) := by
  unfold write_at
  rw [if_pos h]

theorem run_checked_eq {σ : Type} (checked : σ → Nat → Option σ) (pass : σ → Nat → σ)
    (P : σ → Prop) (Q : Nat → Prop)
    (hstep : ∀ st i, P st → Q i → checked st i = some (pass st i) ∧ P (pass st i))
    (is : List Nat) : ∀ st, P st → (∀ i ∈ is, Q i) →
      run_checked checked is st = some (is.foldl pass st) ∧ P (is.foldl pass st) := by
  induction is with
  | nil =>
    intro st h _
    exact ⟨rfl, h⟩
  | cons i is ih =>
    intro st h hq
    obtain ⟨h1, h2⟩ := hstep st i h (hq i (List.mem_cons_self _ _))
    rw [run_checked, h1, List.foldl_cons]
    exact ih _ h2 (fun j hj => hq j (List.mem_cons_of_mem _ hj))

theorem predict_raw_checked (m : BiWord2VecModel) (s t : Nat)
    (hS : s * m.hidden_size_ + m.hidden_size_ ≤ m.source_hidden_.length)
    (hT : t * m.hidden_size_ + m.hidden_size_ ≤ m.target_hidden_.length) :
    m.PredictRaw_checked s t = some (m.PredictRaw s t).1 := by
  unfold BiWord2VecModel.PredictRaw_checked BiWord2VecModel.PredictRaw
  split_ifs with hc
  · rfl
  · exact (run_checked_eq _
      (fun sum i => sum + m.source_hidden_.getD (s * m.hidden_size_ + i) 0 *
        m.target_hidden_.getD (t * m.hidden_size_ + i) 0)
      (fun _ => True) (fun i => i < m.hidden_size_)
      (by
        intro st i _ hi
        refine ⟨?_, trivial⟩
        dsimp only
        rw [read_at_eq _ _ (by omega), read_at_eq _ _ (by omega)]
        rfl)
      (List.range m.hidden_size_) 0 trivial (fun i hi => List.mem_range.1 hi)).1

theorem update_target_checked_eq (h : Nat) (S : List ℚ) (s t : Nat) (g : ℚ) (b T : List ℚ)
    (hb : b.length = h) (hS : s * h + h ≤ S.length) (hT : t * h + h ≤ T.length) :
    update_target_checked h S s t g b T = some (update_target h S s t g b T) := by
  unfold update_target_checked update_target
  exact (run_checked_eq _
    (fun (st : List ℚ × List ℚ) i =>
      (st.1.set i (st.1.getD i 0 - g * st.2.getD (t * h + i) 0),
       st.2.set (t * h + i) (st.2.getD (t * h + i) 0 - g * S.getD (s * h + i) 0)))
    (fun st => st.1.length = h ∧ st.2.length = T.length) (fun i => i < h)
    (by
      intro st i hst hi
      obtain ⟨h1, h2⟩ := hst
      refine ⟨?_, by simp [h1], by simp [h2]⟩
      dsimp only
      rw [read_at_eq _ _ (by omega), read_at_eq _ _ (by omega)]
      dsimp only [Option.bind]
      rw [write_at_eq _ _ _ (by omega), read_at_eq _ _ (by omega)]
      dsimp only [Option.bind]
      rw [write_at_eq _ _ _ (by omega)])
    (List.range h) (b, T) ⟨hb, rfl⟩ (fun i hi => List.mem_range.1 hi)).1

theorem update_source_checked_eq (h : Nat) (s : Nat) (b S : List ℚ)
    (hb : b.length = h) (hS : s * h + h ≤ S.length) :
    update_source_checked h s b S = some (update_source h s b S) := by
  unfold update_source_checked update_source
  exact (run_checked_eq _
    (fun (sh : List ℚ) i => sh.set (s * h + i) (sh.getD (s * h + i) 0 + b.getD i 0))
    (fun sh => sh.length = S.length) (fun i => i < h)
    (by
      intro sh i hsh hi
      refine ⟨?_, by simp [hsh]⟩
      dsimp only
      rw [read_at_eq _ _ (by omega), read_at_eq _ _ (by omega)]
      dsimp only [Option.bind]
      rw [write_at_eq _ _ _ (by omega)])
    (List.range h) S rfl (fun i hi => List.mem_range.1 hi)).1

theorem row_bound (size h len u : Nat) (hlen : len = size * h + 1) (hu : u < size) :
    u * h + h ≤ len := by
  have : (u + 1) * h ≤ size * h := Nat.mul_le_mul_right h hu
  rw [Nat.add_mul] at this
  omega

theorem positive_term_checked_eq (m : BiWord2VecModel) (hm : m.Allocated) (st : UpdateState)
    (sp : StepSpec) (hr : Represents m st sp) (s t : Nat) (hs : s < m.source_size_)
    (ht : t < m.target_size_) (noise : Option (Nat → ℚ)) (decay : ℚ) :
    positive_term_checked s noise decay st t = some (positive_term s noise decay st t) := by
  have hS : s * st.model.hidden_size_ + st.model.hidden_size_ ≤ st.model.source_hidden_.length := by
    rw [hr.hidden_eq, hr.source_eq]
    exact row_bound _ _ _ _ hm.1 hs
  have hT : t * st.model.hidden_size_ + st.model.hidden_size_ ≤ st.model.target_hidden_.length := by
    rw [hr.hidden_eq, hr.target_length]
    exact row_bound _ _ _ _ hm.2 ht
  unfold positive_term_checked positive_term
  rw [predict_raw_checked _ s t hS hT]
  dsimp only [Option.bind]
  rw [PredictRaw_snd, update_target_checked_eq _ _ _ _ _ _ _
    (by rw [hr.buffer_length, hr.hidden_eq]) hS hT]

theorem negative_term_checked_eq (m : BiWord2VecModel) (hm : m.Allocated) (st : UpdateState)
    (sp : StepSpec) (hr : Represents m st sp) (s t : Nat) (hs : s < m.source_size_)
    (ht : t < m.target_size_) (noise : Option (Nat → ℚ)) (decay : ℚ) :
    negative_term_checked s noise decay st t = some (negative_term s noise decay st t) := by
  have hS : s * st.model.hidden_size_ + st.model.hidden_size_ ≤ st.model.source_hidden_.length := by
    rw [hr.hidden_eq, hr.source_eq]
    exact row_bound _ _ _ _ hm.1 hs
  have hT : t * st.model.hidden_size_ + st.model.hidden_size_ ≤ st.model.target_hidden_.length := by
    rw [hr.hidden_eq, hr.target_length]
    exact row_bound _ _ _ _ hm.2 ht
  unfold negative_term_checked negative_term
  rw [predict_raw_checked _ s t hS hT]
  dsimp only [Option.bind]
  rw [PredictRaw_snd, update_target_checked_eq _ _ _ _ _ _ _
    (by rw [hr.buffer_length, hr.hidden_eq]) hS hT]

theorem negatives_checked_eq (m : BiWord2VecModel) (hm : m.Allocated) (s : Nat)
    (hs : s < m.source_size_) (noise : Option (Nat → ℚ)) (decay : ℚ) (negs : List Nat) :
    ∀ (st : UpdateState) (sp : StepSpec), Represents m st sp →
      (∀ n, n ∈ negs → n < m.target_size_) →
      run_checked (negative_term_checked s noise decay) negs st =
        some (negs.foldl (negative_term s noise decay) st) := by
  induction negs with
  | nil =>
    intro st sp _ _
    rfl
  | cons n rest ih =>
    intro st sp hr hn
    rw [run_checked, negative_term_checked_eq m hm st sp hr s n hs
      (hn n (List.mem_cons_self n rest)) noise decay, List.foldl_cons]
    exact ih _ _
      (negative_term_represents m hm st sp hr s n hs (hn n (List.mem_cons_self n rest))
        noise decay)
      (fun k hk => hn k (List.mem_cons_of_mem n hk))

theorem update_checked_eq (m : BiWord2VecModel) (hm : m.Allocated) (s t : Nat)
    (negs : List Nat) (noise : Option (Nat → ℚ)) (decay : ℚ) (hs : s < m.source_size_)
    (ht : t < m.target_size_) (hn : ∀ n, n ∈ negs → n < m.target_size_) :
    m.Update_checked s t negs noise decay = some (m.Update s t negs noise decay) := by
  have h0 := initial_represents m
  have h1 := positive_term_represents m hm _ _ h0 s t hs ht noise decay
  have h2 := loop_represents m hm s t negs noise decay hs ht hn
  unfold BiWord2VecModel.Update_checked BiWord2VecModel.Update
  dsimp only
  rw [positive_term_checked_eq m hm _ _ h0 s t hs ht noise decay]
  dsimp only [Option.bind]
  rw [negatives_checked_eq m hm s hs noise decay negs _ _ h1 hn]
  dsimp only [Option.bind]
  rw [update_source_checked_eq _ _ _ _ (by rw [h2.buffer_length, h2.hidden_eq])
    (by rw [h2.hidden_eq, h2.source_eq]; exact row_bound _ _ _ _ hm.1 hs)]

theorem term_frame (m : BiWord2VecModel) (hm : m.Allocated) (st : UpdateState)
    (sp : StepSpec) (hr : Represents m st sp) (s t : Nat) (ht : t < m.target_size_) (g : ℚ)
    (k : Nat) (hk : ¬ (t * m.hidden_size_ ≤ k ∧ k < t * m.hidden_size_ + m.hidden_size_)) :
    (update_target st.model.hidden_size_ st.model.source_hidden_ s t g st.buffer
      st.model.target_hidden_).2.getD k 0 = st.model.target_hidden_.getD k 0 := by
  have hT : t * m.hidden_size_ + m.hidden_size_ ≤ st.model.target_hidden_.length := by
    rw [hr.target_length]
    exact row_bound _ _ _ _ hm.2 ht
  rw [hr.hidden_eq, (update_target_spec m.hidden_size_ _ s t g st.buffer _ hr.buffer_length
    hT).2.2.2 k, if_neg hk]

theorem negatives_frame (m : BiWord2VecModel) (hm : m.Allocated) (s : Nat)
    (hs : s < m.source_size_) (noise : Option (Nat → ℚ)) (decay : ℚ) (k : Nat)
    (negs : List Nat) :
    ∀ (st : UpdateState) (sp : StepSpec), Represents m st sp →
      (∀ n, n ∈ negs → n < m.target_size_) →
      (∀ n, n ∈ negs → ¬ (n * m.hidden_size_ ≤ k ∧ k < n * m.hidden_size_ + m.hidden_size_)) →
      (negs.foldl (negative_term s noise decay) st).model.target_hidden_.getD k 0 =
        st.model.target_hidden_.getD k 0 := by
  induction negs with
  | nil =>
    intro st sp _ _ _
    rfl
  | cons n rest ih =>
    intro st sp hr hn hk
    rw [List.foldl_cons, ih _ _
      (negative_term_represents m hm st sp hr s n hs (hn n (List.mem_cons_self n rest))
        noise decay)
      (fun j hj => hn j (List.mem_cons_of_mem n hj))
      (fun j hj => hk j (List.mem_cons_of_mem n hj))]
    unfold negative_term
    simp only [PredictRaw_snd]
    exact term_frame m hm st sp hr s n (hn n (List.mem_cons_self n rest)) _ k
      (hk n (List.mem_cons_self n rest))

theorem update_target_frame (m : BiWord2VecModel) (hm : m.Allocated) (s t : Nat)
    (negs : List Nat) (noise : Option (Nat → ℚ)) (decay : ℚ) (hs : s < m.source_size_)
    (ht : t < m.target_size_) (hn : ∀ n, n ∈ negs → n < m.target_size_) (k : Nat)
    (hk : ∀ n, n ∈ t :: negs →
      ¬ (n * m.hidden_size_ ≤ k ∧ k < n * m.hidden_size_ + m.hidden_size_)) :
    (m.Update s t negs noise decay).2.target_hidden_.getD k 0 = m.target_hidden_.getD k 0 := by
  have h0 := initial_represents m
  have h1 := positive_term_represents m hm _ _ h0 s t hs ht noise decay
  show (negs.foldl (negative_term s noise decay) _).model.target_hidden_.getD k 0 = _
  rw [negatives_frame m hm s hs noise decay k negs _ _ h1 hn
    (fun j hj => hk j (List.mem_cons_of_mem t hj))]
  unfold positive_term
  simp only [PredictRaw_snd]
  exact term_frame m hm _ _ h0 s t ht _ k (hk t (List.mem_cons_self t negs))

theorem update_source_frame (m : BiWord2VecModel) (hm : m.Allocated) (s t : Nat)
    (negs : List Nat) (noise : Option (Nat → ℚ)) (decay : ℚ) (hs : s < m.source_size_)
    (ht : t < m.target_size_) (hn : ∀ n, n ∈ negs → n < m.target_size_) (k : Nat)
    (hk : ¬ (s * m.hidden_size_ ≤ k ∧ k < s * m.hidden_size_ + m.hidden_size_)) :
    (m.Update s t negs noise decay).2.source_hidden_.getD k 0 = m.source_hidden_.getD k 0 := by
  have h2 := loop_represents m hm s t negs noise decay hs ht hn
  show (update_source _ s _ _).getD k 0 = _
  rw [h2.hidden_eq, h2.source_eq,
    (update_source_spec m.hidden_size_ s _ _ (row_bound _ _ _ _ hm.1 hs)).2 k, if_neg hk]

theorem update_members (m : BiWord2VecModel) (hm : m.Allocated) (s t : Nat)
    (negs : List Nat) (noise : Option (Nat → ℚ)) (decay : ℚ) (hs : s < m.source_size_)
    (ht : t < m.target_size_) (hn : ∀ n, n ∈ negs → n < m.target_size_) :
    (m.Update s t negs noise decay).2.alpha_ = m.alpha_ ∧
    (m.Update s t negs noise decay).2.hidden_size_ = m.hidden_size_ ∧
    (m.Update s t negs noise decay).2.source_size_ = m.source_size_ ∧
    (m.Update s t negs noise decay).2.target_size_ = m.target_size_ ∧
    (m.Update s t negs noise decay).2.source_hidden_.length = m.source_hidden_.length ∧
    (m.Update s t negs noise decay).2.target_hidden_.length = m.target_hidden_.length := by
  have h2 := loop_represents m hm s t negs noise decay hs ht hn
  refine ⟨h2.alpha_eq, h2.hidden_eq, h2.source_size_eq, h2.target_size_eq, ?_, h2.target_length⟩
  show (update_source _ s _ _).length = _
  rw [h2.hidden_eq, h2.source_eq,
    (update_source_spec m.hidden_size_ s _ _ (row_bound _ _ _ _ hm.1 hs)).1]

/-! ## `Match`: the queue -/

theorem cmp_numeric (x y : String × Option ℚ) (a b : ℚ) (hx : x.2 = some a)
    (hy : y.2 = some b) : cmp x y = false ↔ a ≤ b := by
  unfold cmp double_gt
  rw [hx, hy]
  simp only [decide_eq_false_iff_not, gt_iff_lt, not_lt]

theorem cmp_nan_left (x y : String × Option ℚ) (hx : x.2 = none) : cmp x y = false := by
  unfold cmp double_gt
  rw [hx]

theorem cmp_irrefl (x : String × Option ℚ) : cmp x x = false := by
  rcases hx : x.2 with _ | a
  · exact cmp_nan_left x x hx
  · exact (cmp_numeric x x a a hx hx).2 (le_refl a)

theorem cmp_trans (b t x : String × Option ℚ) (hb : b.2.isSome = true)
    (ht : t.2.isSome = true) (hx : x.2.isSome = true) (h1 : cmp b t = false)
    (h2 : cmp t x = false) : cmp b x = false := by
  obtain ⟨vb, hvb⟩ := Option.isSome_iff_exists.1 hb
  obtain ⟨vt, hvt⟩ := Option.isSome_iff_exists.1 ht
  obtain ⟨vx, hvx⟩ := Option.isSome_iff_exists.1 hx
  rw [cmp_numeric b t vb vt hvb hvt] at h1
  rw [cmp_numeric t x vt vx hvt hvx] at h2
  rw [cmp_numeric b x vb vx hvb hvx]
  exact le_trans h1 h2

theorem cmp_total (a x : String × Option ℚ) (ha : a.2.isSome = true)
    (hx : x.2.isSome = true) (h : ¬ cmp a x = false) : cmp x a = false := by
  obtain ⟨va, hva⟩ := Option.isSome_iff_exists.1 ha
  obtain ⟨vx, hvx⟩ := Option.isSome_iff_exists.1 hx
  rw [cmp_numeric a x va vx hva hvx] at h
  rw [cmp_numeric x a vx va hvx hva]
  exact le_of_lt (lt_of_not_le h)

theorem ge_of_cmp_false (a b : String × Option ℚ) (ha : a.2.isSome = true)
    (hb : b.2.isSome = true) (h : cmp b a = false) : double_ge a.2 b.2 = true := by
  obtain ⟨va, hva⟩ := Option.isSome_iff_exists.1 ha
  obtain ⟨vb, hvb⟩ := Option.isSome_iff_exists.1 hb
  rw [cmp_numeric b a vb va hvb hva] at h
  unfold double_ge
  rw [hva, hvb]
  simp only [decide_eq_true_eq, ge_iff_le]
  exact h

theorem exists_min_score (q : List (String × Option ℚ)) (hne : q ≠ [])
    (hnum : ∀ x ∈ q, x.2.isSome = true) :
    ∃ x ∈ q, ∀ y ∈ q, cmp x y = false := by
  induction q with
  | nil => exact absurd rfl hne
  | cons a rest ih =>
    by_cases hr : rest = []
    · subst hr
      exact ⟨a, List.mem_cons_self _ _, fun y hy => by
        rw [List.mem_singleton] at hy
        rw [hy]
        exact cmp_irrefl a⟩
    · obtain ⟨x, hx, hmin⟩ := ih hr (fun y hy => hnum y (List.mem_cons_of_mem _ hy))
      have ha := hnum a (List.mem_cons_self _ _)
      have hxn := hnum x (List.mem_cons_of_mem _ hx)
      by_cases hax : cmp a x = false
      · refine ⟨a, List.mem_cons_self _ _, fun y hy => ?_⟩
        rcases List.mem_cons.1 hy with rfl | hy
        · exact cmp_irrefl _
        · exact cmp_trans a x y ha hxn (hnum y (List.mem_cons_of_mem _ hy)) hax (hmin y hy)
      · refine ⟨x, List.mem_cons_of_mem _ hx, fun y hy => ?_⟩
        rcases List.mem_cons.1 hy with rfl | hy
        · exact cmp_total _ x ha hxn hax
        · exact hmin y hy

/-- A queue that is not empty has an element that may be its top, NaN scores
or not. -/
theorem exists_top (q : List (String × Option ℚ)) (hne : q ≠ []) :
    ∃ x ∈ q, ∀ y ∈ q, cmp x y = false := by
  by_cases hn : ∃ x ∈ q, x.2 = none
  · obtain ⟨x, hx, hnone⟩ := hn
    exact ⟨x, hx, fun y _ => cmp_nan_left x y hnone⟩
  · apply exists_min_score q hne
    intro x hx
    rcases hx2 : x.2 with _ | v
    · exact absurd ⟨x, hx, hx2⟩ hn
    · rfl

theorem getD_mem_pair (q : List (String × Option ℚ)) (k : Nat) (hk : k < q.length) :
    q.getD k ("", none) ∈ q := by
  rw [List.getD_eq_getElem _ _ hk]
  exact List.getElem_mem _

theorem top_spec (choose : List (String × Option ℚ) → Nat) (q : List (String × Option ℚ))
    (hne : q ≠ []) :
    top_position choose q < q.length ∧
      ∀ y ∈ q, cmp (q.getD (top_position choose q) ("", none)) y = false := by
  unfold top_position
  by_cases hc : is_top q (choose q) = true
  · rw [if_pos hc]
    unfold is_top at hc
    rw [Bool.and_eq_true, decide_eq_true_eq, List.all_eq_true] at hc
    refine ⟨hc.1, fun y hy => ?_⟩
    have := hc.2 y hy
    rw [Bool.not_eq_true'] at this
    exact this
  · rw [if_neg hc]
    obtain ⟨x, hx, hmin⟩ := exists_top q hne
    have hex : ∃ x ∈ q, (fun x => q.all (fun y => !cmp x y)) x = true := by
      refine ⟨x, hx, ?_⟩
      rw [List.all_eq_true]
      intro y hy
      rw [Bool.not_eq_true']
      exact hmin y hy
    have hlt := List.findIdx_lt_length_of_exists hex
    refine ⟨hlt, fun y hy => ?_⟩
    have hp := List.findIdx_getElem (w := hlt)
    rw [List.all_eq_true] at hp
    have := hp y hy
    rw [Bool.not_eq_true'] at this
    rw [List.getD_eq_getElem _ _ hlt]
    exact this

theorem perm_eraseIdx (q : List (String × Option ℚ)) :
    ∀ k, k < q.length → (q.getD k ("", none) :: q.eraseIdx k).Perm q := by
  induction q with
  | nil =>
    intro k hk
    simp at hk
  | cons a rest ih =>
    intro k hk
    cases k with
    | zero => exact List.Perm.refl _
    | succ j =>
      have hj : j < rest.length := by simpa using hk
      show (rest.getD j ("", none) :: a :: rest.eraseIdx j).Perm (a :: rest)
      exact (List.Perm.swap _ _ _).trans ((ih j hj).cons a)

theorem pop_while_stop (choose : List (String × Option ℚ) → Nat) (topn fuel : Nat)
    (q : List (String × Option ℚ)) (h : q.length ≤ topn) :
    pop_while choose topn fuel q = q := by
  cases fuel with
  | zero => rfl
  | succ f =>
    rw [pop_while, if_neg (by omega)]

theorem push_inv (choose : List (String × Option ℚ) → Nat) (topn : Nat)
    (rows q dropped : List (String × Option ℚ)) (x : String × Option ℚ)
    (h : QueueInv topn rows q dropped) :
    ∃ dropped1, QueueInv topn (rows ++ [x])
      (pop_while choose topn (x :: q).length (x :: q)) dropped1 := by
  have hlen : q.length + dropped.length = rows.length := by
    rw [← List.length_append]
    exact h.perm.length_eq
  have hperm : (x :: q ++ dropped).Perm (rows ++ [x]) := by
    have h1 : (x :: (q ++ dropped)).Perm (x :: rows) := h.perm.cons x
    exact h1.trans (List.perm_append_singleton x rows).symm
  by_cases hc : rows.length < topn
  · have hq : q.length = rows.length := by
      rw [h.size]
      omega
    have hd : dropped = [] := List.eq_nil_of_length_eq_zero (by omega)
    subst hd
    refine ⟨[], ?_⟩
    rw [pop_while_stop _ _ _ _ (by simp only [List.length_cons]; omega)]
    refine ⟨hperm, ?_, ?_⟩
    · simp only [List.length_cons, List.length_append, List.length_nil, hq]
      omega
    · intro _ a _ b hb
      simp at hb
  · have hq : q.length = topn := by
      rw [h.size]
      omega
    obtain ⟨hk, hmin⟩ := top_spec choose (x :: q) (by simp)
    have hpop : pop_while choose topn (x :: q).length (x :: q) =
        (x :: q).eraseIdx (top_position choose (x :: q)) := by
      rw [List.length_cons, pop_while, if_pos (by simp only [List.length_cons]; omega)]
      apply pop_while_stop
      rw [List.length_eraseIdx_of_lt hk]
      simp only [List.length_cons]
      omega
    rw [hpop]
    refine ⟨(x :: q).getD (top_position choose (x :: q)) ("", none) :: dropped, ?_, ?_, ?_⟩
    · have h1 : ((x :: q).eraseIdx (top_position choose (x :: q)) ++
          (x :: q).getD (top_position choose (x :: q)) ("", none) :: dropped).Perm
          (((x :: q).getD (top_position choose (x :: q)) ("", none) ::
            (x :: q).eraseIdx (top_position choose (x :: q))) ++ dropped) :=
        List.perm_middle
      exact h1.trans (((perm_eraseIdx (x :: q) _ hk).append_right dropped).trans hperm)
    · rw [List.length_eraseIdx_of_lt hk]
      simp only [List.length_cons, List.length_append, List.length_nil]
      omega
    · intro hnum1 a ha b hb
      have hnum : ∀ r ∈ rows, r.2.isSome = true :=
        fun r hr => hnum1 r (List.mem_append_left _ hr)
      have hqn : ∀ r ∈ q, r.2.isSome = true :=
        fun r hr => hnum r (h.perm.subset (List.mem_append_left _ hr))
      have hdn : ∀ r ∈ dropped, r.2.isSome = true :=
        fun r hr => hnum r (h.perm.subset (List.mem_append_right _ hr))
      have hxn : x.2.isSome = true := hnum1 x (List.mem_append_right _ (List.mem_singleton_self x))
      rcases List.mem_cons.1 hb with hbt | hbd
      · rw [hbt]
        exact hmin a (List.mem_of_mem_eraseIdx ha)
      · clear hb
        generalize hkk : top_position choose (x :: q) = k at ha hk hmin
        cases k with
        | zero =>
          exact h.best hnum a ha b hbd
        | succ j =>
          have hj : j < q.length := by simpa using hk
          rcases List.mem_cons.1 ha with hax | haq
          · have h1 : cmp b (q.getD j ("", none)) = false :=
              h.best hnum _ (getD_mem_pair q j hj) b hbd
            have h2 : cmp (q.getD j ("", none)) x = false := hmin x (List.mem_cons_self _ _)
            rw [hax]
            exact cmp_trans b _ x (hdn b hbd) (hqn _ (getD_mem_pair q j hj)) hxn h1 h2
          · exact h.best hnum a (List.mem_of_mem_eraseIdx haq) b hbd

theorem queue_inv (choose : List (String × Option ℚ) → Nat) (f : Nat → String × Option ℚ)
    (topn : Nat) (n : Nat) :
    ∃ dropped, QueueInv topn ((List.range n).map f)
      ((List.range n).foldl
        (fun q i =>
          let q := f i :: q
          pop_while choose topn q.length q)
        []) dropped := by
  induction n with
  | zero =>
    exact ⟨[], List.Perm.refl _, by simp, fun _ a ha => by simp at ha⟩
  | succ n ih =>
    obtain ⟨dropped, h⟩ := ih
    rw [List.range_succ, List.foldl_append, List.map_append]
    exact push_inv choose topn _ _ dropped _ h

theorem drain_perm (choose : List (String × Option ℚ) → Nat) (fuel : Nat) :
    ∀ (q vec : List (String × Option ℚ)), q.length ≤ fuel →
      (drain choose fuel q vec).Perm (vec ++ q) := by
  induction fuel with
  | zero =>
    intro q vec h
    have hq : q = [] := List.eq_nil_of_length_eq_zero (by omega)
    subst hq
    rw [drain, List.append_nil]
  | succ f ih =>
    intro q vec h
    rw [drain]
    by_cases hq : q.length > 0
    · rw [if_pos hq]
      have hne : q ≠ [] := List.ne_nil_of_length_pos hq
      obtain ⟨hk, -⟩ := top_spec choose q hne
      have h1 := ih (q.eraseIdx (top_position choose q))
        (vec ++ [q.getD (top_position choose q) ("", none)])
        (by rw [List.length_eraseIdx_of_lt hk]; omega)
      refine h1.trans ?_
      rw [List.append_assoc]
      exact (perm_eraseIdx q _ hk).append_left vec
    · rw [if_neg hq]
      have hq2 : q = [] := List.eq_nil_of_length_eq_zero (by omega)
      subst hq2
      rw [List.append_nil]

theorem sample_sort_contract (l : List (String × Option ℚ))
    (hnum : ∀ r ∈ l, r.2.isSome = true) :
    (sample_sort l).Perm l ∧ (sample_sort l).Pairwise (fun a b => cmp b a = false) := by
  unfold sample_sort
  have hp := List.perm_insertionSort (fun a b : String × Option ℚ => b.2.getD 0 ≤ a.2.getD 0) l
  refine ⟨hp, ?_⟩
  haveI : IsTotal (String × Option ℚ) (fun a b => b.2.getD 0 ≤ a.2.getD 0) :=
    ⟨fun a b => le_total (b.2.getD 0) (a.2.getD 0)⟩
  haveI : IsTrans (String × Option ℚ) (fun a b => b.2.getD 0 ≤ a.2.getD 0) :=
    ⟨fun a b c h1 h2 => le_trans h2 h1⟩
  have hs := List.sorted_insertionSort
    (fun a b : String × Option ℚ => b.2.getD 0 ≤ a.2.getD 0) l
  have hall : ∀ r ∈ l.insertionSort (fun a b : String × Option ℚ => b.2.getD 0 ≤ a.2.getD 0),
      r.2.isSome = true := fun r hr => hnum r (hp.subset hr)
  refine (List.Pairwise.and_mem.1 hs).imp ?_
  rintro a b ⟨ha, hb, hab⟩
  obtain ⟨va, hva⟩ := Option.isSome_iff_exists.1 (hall a ha)
  obtain ⟨vb, hvb⟩ := Option.isSome_iff_exists.1 (hall b hb)
  rw [cmp_numeric b a vb va hvb hva]
  rw [hva, hvb] at hab
  exact hab

/-- With a name for every row the checked run of `Match` reads inside
`feat_name_` and gives what `Match` gives. -/
theorem match_checked_eq (m : EmbeddingModel) (choose : List (String × Option ℚ) → Nat)
    (sort : List (String × Option ℚ) → List (String × Option ℚ))
    (embedding : List (Option ℚ))
    (score_func : List (Option ℚ) → List (Option ℚ) → Nat → Option ℚ) (topn : Nat)
    (hnames : m.num_feat_ ≤ m.feat_name_.length) :
    m.Match_checked choose sort embedding score_func topn =
      some (m.Match choose sort embedding score_func topn) := by
  unfold EmbeddingModel.Match_checked EmbeddingModel.Match
  have h := (run_checked_eq
    (fun q i =>
      (m.feat_name_[i]?).bind fun name =>
      let q := (name,
        score_func embedding (m.model_.drop (i * m.hidden_size_)) m.hidden_size_) :: q
      some (pop_while choose topn q.length q))
    (fun q i =>
      let q := (m.feat_name_.getD i "",
        score_func embedding (m.model_.drop (i * m.hidden_size_)) m.hidden_size_) :: q
      pop_while choose topn q.length q)
    (fun _ => True) (fun i => i < m.feat_name_.length)
    (by
      intro st i _ hi
      refine ⟨?_, trivial⟩
      dsimp only
      rw [List.getElem?_eq_getElem hi, List.getD_eq_getElem _ _ hi]
      rfl)
    (List.range m.num_feat_) [] trivial
    (fun i hi => lt_of_lt_of_le (List.mem_range.1 hi) hnames)).1
  rw [h]
  rfl

/-- Without a name for the last row the checked run of `Match` leaves
`feat_name_`. -/
theorem match_checked_truncated (choose : List (String × Option ℚ) → Nat)
    (sort : List (String × Option ℚ) → List (String × Option ℚ))
    (embedding : List (Option ℚ))
    (score_func : List (Option ℚ) → List (Option ℚ) → Nat → Option ℚ) (topn : Nat) :
    truncated_embedding_model.Match_checked choose sort embedding score_func topn = none := by
  unfold EmbeddingModel.Match_checked
  simp [truncated_embedding_model, List.range, List.range.loop, run_checked]

/-- Rows whose scores are all NaN: whatever the queue and a sort that returns a
permutation do, `Match` with `topn = 2` returns two pairs that are not in
non-increasing order (`NaN >= NaN` is false). -/
theorem match_nan_unordered (choose : List (String × Option ℚ) → Nat)
    (sort : List (String × Option ℚ) → List (String × Option ℚ))
    (hperm : ∀ l, (sort l).Perm l) :
    ¬ (nan_embedding_model.Match choose sort [some 1] first_cell_score 2).Pairwise
      (fun a b => double_ge a.2 b.2 = true) := by
  obtain ⟨dropped, hq⟩ := queue_inv choose
    (fun i => (nan_embedding_model.feat_name_.getD i "",
      first_cell_score [some 1] (nan_embedding_model.model_.drop
        (i * nan_embedding_model.hidden_size_)) nan_embedding_model.hidden_size_)) 2 2
  have hdrain := drain_perm choose _ _ [] (le_refl
    ((List.range 2).foldl
      (fun q i =>
        let q := (nan_embedding_model.feat_name_.getD i "",
          first_cell_score [some 1] (nan_embedding_model.model_.drop
            (i * nan_embedding_model.hidden_size_)) nan_embedding_model.hidden_size_) :: q
        pop_while choose 2 q.length q)
      []).length)
  rw [List.nil_append] at hdrain
  have hres : (nan_embedding_model.Match choose sort [some 1] first_cell_score 2).Perm
      ((List.range 2).foldl
        (fun q i =>
          let q := (nan_embedding_model.feat_name_.getD i "",
            first_cell_score [some 1] (nan_embedding_model.model_.drop
              (i * nan_embedding_model.hidden_size_)) nan_embedding_model.hidden_size_) :: q
          pop_while choose 2 q.length q)
        []) := (hperm _).trans hdrain
  have hlen : (nan_embedding_model.Match choose sort [some 1] first_cell_score 2).length = 2 := by
    rw [hres.length_eq, hq.size]
    simp
  have hnan : ∀ a ∈ nan_embedding_model.Match choose sort [some 1] first_cell_score 2,
      a.2 = none := by
    intro a ha
    have hmem := hq.perm.subset (List.mem_append_left _ (hres.subset ha))
    simp only [List.mem_map, List.mem_range] at hmem
    obtain ⟨i, hi, rfl⟩ := hmem
    interval_cases i <;> rfl
  intro hpw
  generalize nan_embedding_model.Match choose sort [some 1] first_cell_score 2 = R at hlen hnan hpw
  match R, hlen, hnan, hpw with
  | [r1, r2], _, hnan, hpw =>
    have h1 := hnan r1 (List.mem_cons_self _ _)
    have h2 : double_ge r1.2 r2.2 = true := (List.pairwise_cons.1 hpw).1 r2 (List.mem_cons_self _ _)
    rw [h1] at h2
    simp [double_ge] at h2

/-! ## `Train`: a share that wraps around -/

theorem train_share_wraps (env : Environment) (file : Option (List (List Char)))
    (model_path : String) (alpha : ℚ) (hidden_size negative : Nat) (weight_neg_sampling : ℚ)
    (method : LossType) :
    ∃ r, BiWord2VecTrainer.new.Train env file model_path alpha hidden_size (2 ^ 64 - 1)
        negative 1 2 weight_neg_sampling method = .ok r ∧
      r.launched = 2 ∧ r.calls = [[], []] := by
  have hn : (BiWord2VecTrainer.new.prepare env file alpha hidden_size (2 ^ 64 - 1) negative 1 2
      weight_neg_sampling method).2.num_threads ≠ 0 := by
    show (2 : ℕ) ≠ 0
    omega
  have h0 : local_training_words
      (BiWord2VecTrainer.new.prepare env file alpha hidden_size (2 ^ 64 - 1) negative 1 2
        weight_neg_sampling method).2.training_words
      (BiWord2VecTrainer.new.prepare env file alpha hidden_size (2 ^ 64 - 1) negative 1 2
        weight_neg_sampling method).2.iteration
      (BiWord2VecTrainer.new.prepare env file alpha hidden_size (2 ^ 64 - 1) negative 1 2
        weight_neg_sampling method).2.num_threads = 0 := by
    simp only [BiWord2VecTrainer.prepare, local_training_words, to_size_t, SIZE_T_RANGE]
    norm_num
  obtain ⟨r, hr, -, hl, -, -, hc⟩ := train_of_workers BiWord2VecTrainer.new env file model_path
    alpha hidden_size (2 ^ 64 - 1) negative 1 2 weight_neg_sampling method _ _
    (run_workers_zero _ env _ hn h0 (List.range (max 2 1)) [])
  refine ⟨r, hr, hl, ?_⟩
  rw [hc]
  rfl

/-! ## `Save` with hidden size 0 -/

theorem save_file_hidden_zero (fmt : ℚ → String) (t : List ℚ) :
    save_file fmt none 2 0 t = "2 0\n0\t1\t" := by
  simp [save_file, save_values, List.range_succ]
  decide

theorem described_file_hidden_zero (fmt : ℚ → String) (t : List ℚ) :
    described_file fmt none 2 0 t = "2 0\n0\t\n1\t\n" := by
  simp [described_file, described_line, row_name, List.range_succ, String.join]
  decide

/-! ## The conversion to `float` -/

theorem round_half_even_spec (x : ℚ) :
    |x - round_half_even x| < 1 / 2 ∨
      (|x - round_half_even x| = 1 / 2 ∧ round_half_even x % 2 = 0) := by
  have h0 : (0 : ℚ) ≤ x - ⌊x⌋ := sub_nonneg.2 (Int.floor_le x)
  have h1 : x - ⌊x⌋ < 1 := by
    have := Int.lt_floor_add_one x
    linarith
  unfold round_half_even
  split_ifs with ha hb hc
  · left
    rw [abs_of_nonneg h0]
    exact ha
  · left
    push_cast
    rw [abs_lt]
    constructor <;> linarith
  · right
    have he : x - ⌊x⌋ = 1 / 2 := le_antisymm (not_lt.1 hb) (not_lt.1 ha)
    exact ⟨by rw [abs_of_nonneg h0]; exact he, hc⟩
  · right
    have he : x - ⌊x⌋ = 1 / 2 := le_antisymm (not_lt.1 hb) (not_lt.1 ha)
    refine ⟨?_, by omega⟩
    push_cast
    have : x - (⌊x⌋ + 1) = -(1 / 2) := by linarith
    rw [this, abs_neg, abs_of_pos (by norm_num)]

theorem round_half_even_unique (x : ℚ) (n : ℤ)
    (h : |x - n| < 1 / 2 ∨ (|x - n| = 1 / 2 ∧ n % 2 = 0)) : round_half_even x = n := by
  have hs := round_half_even_spec x
  by_contra hne
  have hd : (1 : ℚ) ≤ |((round_half_even x - n : ℤ) : ℚ)| := by
    rw [← Int.cast_abs]
    have : (1 : ℤ) ≤ |round_half_even x - n| := Int.one_le_abs (sub_ne_zero.2 hne)
    exact_mod_cast this
  have ht : |((round_half_even x - n : ℤ) : ℚ)| ≤ |x - n| + |x - round_half_even x| := by
    have : ((round_half_even x - n : ℤ) : ℚ) = (x - n) - (x - round_half_even x) := by
      push_cast
      ring
    rw [this]
    exact abs_sub _ _
  rcases h with h | ⟨h, hn⟩
  · rcases hs with hs | ⟨hs, _⟩ <;> linarith
  · rcases hs with hs | ⟨hs, hr⟩
    · linarith
    · have hone : |((round_half_even x - n : ℤ) : ℚ)| ≤ 1 := by linarith
      have habs : |round_half_even x - n| = 1 := by
        have h1 : |round_half_even x - n| ≤ 1 := by
          have : ((|round_half_even x - n| : ℤ) : ℚ) ≤ 1 := by
            rw [Int.cast_abs]
            exact hone
          exact_mod_cast this
        have h2 : (1 : ℤ) ≤ |round_half_even x - n| := Int.one_le_abs (sub_ne_zero.2 hne)
        omega
      rcases abs_eq (by norm_num : (0 : ℤ) ≤ 1) |>.1 habs with h3 | h3 <;> omega

theorem round_half_even_int (n : ℤ) : round_half_even (n : ℚ) = n :=
  round_half_even_unique _ n (Or.inl (by simp))

theorem round_half_even_neg (x : ℚ) : round_half_even (-x) = -round_half_even x := by
  apply round_half_even_unique
  have h : -x - ((-round_half_even x : ℤ) : ℚ) = -(x - round_half_even x) := by
    push_cast
    ring
  rw [h, abs_neg]
  rcases round_half_even_spec x with hs | ⟨hs, hr⟩
  · exact Or.inl hs
  · exact Or.inr ⟨hs, by omega⟩

theorem round_half_even_mono (x y : ℚ) (h : x ≤ y) : round_half_even x ≤ round_half_even y := by
  by_contra hlt
  have h1 : round_half_even y + 1 ≤ round_half_even x := by omega
  have h1q : (round_half_even y : ℚ) + 1 ≤ round_half_even x := by exact_mod_cast h1
  have hx : |x - round_half_even x| ≤ 1 / 2 := by
    rcases round_half_even_spec x with hs | ⟨hs, _⟩
    · exact hs.le
    · exact hs.le
  have hy : |y - round_half_even y| ≤ 1 / 2 := by
    rcases round_half_even_spec y with hs | ⟨hs, _⟩
    · exact hs.le
    · exact hs.le
  rw [abs_le] at hx hy
  have hxy : x = y := by linarith [hx.1, hx.2, hy.1, hy.2]
  rw [hxy] at hlt
  exact hlt (le_refl _)

theorem float_exponent_neg (x : ℚ) : float_exponent (-x) = float_exponent x := by
  unfold float_exponent
  rw [abs_neg]

theorem to_float_neg (x : ℚ) : to_float (-x) = -to_float x := by
  unfold to_float
  rw [float_exponent_neg, neg_div, round_half_even_neg]
  push_cast
  ring

theorem to_float_zero : to_float 0 = 0 := by
  unfold to_float
  rw [zero_div]
  have : round_half_even 0 = 0 := by
    have := round_half_even_int 0
    simpa using this
  rw [this]
  simp

theorem float_exponent_eq (x : ℚ) (e : ℤ) (he : -126 ≤ e) (hlo : (2 : ℚ) ^ e ≤ |x|)
    (hhi : |x| < (2 : ℚ) ^ (e + 1)) : float_exponent x = e := by
  have hpos : 0 < |x| := lt_of_lt_of_le (zpow_pos (by norm_num) e) hlo
  have h2 : ((2 : ℕ) : ℚ) = 2 := by norm_num
  have h1 : e ≤ Int.log 2 |x| := by
    rw [← Int.zpow_le_iff_le_log (by norm_num) hpos, h2]
    exact hlo
  have h3 : Int.log 2 |x| < e + 1 := by
    rw [← Int.lt_zpow_iff_log_lt (by norm_num) hpos, h2]
    exact hhi
  unfold float_exponent
  omega

theorem to_float_eval (x : ℚ) (e k : ℤ) (he : -126 ≤ e) (hlo : (2 : ℚ) ^ e ≤ |x|)
    (hhi : |x| < (2 : ℚ) ^ (e + 1))
    (hk : |x / 2 ^ (e - 23) - k| < 1 / 2 ∨ (|x / 2 ^ (e - 23) - k| = 1 / 2 ∧ k % 2 = 0)) :
    to_float x = k * 2 ^ (e - 23) := by
  unfold to_float
  rw [float_exponent_eq x e he hlo hhi, round_half_even_unique _ k hk]

theorem to_float_grid (e k : ℤ) (he : -126 ≤ e) (hk1 : 2 ^ 23 ≤ |k|) (hk2 : |k| < 2 ^ 24) :
    to_float (k * 2 ^ (e - 23)) = k * 2 ^ (e - 23) := by
  have hu : (0 : ℚ) < 2 ^ (e - 23) := zpow_pos (by norm_num) _
  have habs : |(k : ℚ) * 2 ^ (e - 23)| = |(k : ℚ)| * 2 ^ (e - 23) := by
    rw [abs_mul, abs_of_pos hu]
  have h23 : (2 : ℚ) ^ e = 2 ^ 23 * 2 ^ (e - 23) := by
    rw [show e = 23 + (e - 23) by ring, zpow_add₀ (by norm_num)]
    norm_num
  have h24 : (2 : ℚ) ^ (e + 1) = 2 ^ 24 * 2 ^ (e - 23) := by
    rw [show e + 1 = 24 + (e - 23) by ring, zpow_add₀ (by norm_num)]
    norm_num
  have hq1 : ((2 : ℚ) ^ 23) ≤ |(k : ℚ)| := by
    rw [← Int.cast_abs]
    exact_mod_cast hk1
  have hq2 : |(k : ℚ)| < (2 : ℚ) ^ 24 := by
    rw [← Int.cast_abs]
    exact_mod_cast hk2
  apply to_float_eval _ e k he
  · rw [habs, h23]
    exact mul_le_mul_of_nonneg_right hq1 hu.le
  · rw [habs, h24]
    exact mul_lt_mul_of_pos_right hq2 hu
  · left
    rw [mul_div_assoc, div_self hu.ne', mul_one, sub_self, abs_zero]
    norm_num

theorem to_float_one : to_float 1 = 1 := by
  have := to_float_grid 0 (2 ^ 23) (by norm_num) (by norm_num) (by norm_num)
  norm_num at this
  exact this

theorem to_float_nonneg (x : ℚ) (hx : 0 ≤ x) : 0 ≤ to_float x := by
  unfold to_float
  have hu : (0 : ℚ) < 2 ^ (float_exponent x - 23) := zpow_pos (by norm_num) _
  have h0 : round_half_even 0 = 0 := by
    have := round_half_even_int 0
    simpa using this
  have h1 : (0 : ℤ) ≤ round_half_even (x / 2 ^ (float_exponent x - 23)) := by
    rw [← h0]
    exact round_half_even_mono _ _ (div_nonneg hx hu.le)
  exact mul_nonneg (by exact_mod_cast h1) hu.le

theorem to_float_upper (x : ℚ) (hx : 0 < x) : to_float x ≤ 2 ^ (float_exponent x + 1) := by
  have hu : (0 : ℚ) < 2 ^ (float_exponent x - 23) := zpow_pos (by norm_num) _
  have h2 : ((2 : ℕ) : ℚ) = 2 := by norm_num
  have hlog : Int.log 2 |x| ≤ float_exponent x := le_max_left _ _
  have hlt : x < (2 : ℚ) ^ (float_exponent x + 1) := by
    have h1 := Int.lt_zpow_succ_log_self (b := 2) (by norm_num) |x|
    rw [h2, abs_of_pos hx] at h1
    rw [abs_of_pos hx] at hlog
    exact lt_of_lt_of_le h1 (zpow_le_zpow_right₀ (by norm_num) (by omega))
  have h24 : (2 : ℚ) ^ (float_exponent x + 1) = 2 ^ 24 * 2 ^ (float_exponent x - 23) := by
    rw [show float_exponent x + 1 = 24 + (float_exponent x - 23) by ring,
      zpow_add₀ (by norm_num)]
    norm_num
  have hq : x / 2 ^ (float_exponent x - 23) ≤ ((2 ^ 24 : ℤ) : ℚ) := by
    rw [div_le_iff₀ hu]
    have hc : (((2 : ℤ) ^ 24 : ℤ) : ℚ) = 2 ^ 24 := by norm_num
    rw [hc, ← h24]
    exact hlt.le
  have hr : round_half_even (x / 2 ^ (float_exponent x - 23)) ≤ 2 ^ 24 := by
    have := round_half_even_mono _ _ hq
    rwa [round_half_even_int] at this
  unfold to_float
  rw [h24]
  exact mul_le_mul_of_nonneg_right (by exact_mod_cast hr) hu.le

theorem to_float_lower (x : ℚ) (hx : 0 < x) (he : -126 < float_exponent x) :
    (2 : ℚ) ^ float_exponent x ≤ to_float x := by
  have hu : (0 : ℚ) < 2 ^ (float_exponent x - 23) := zpow_pos (by norm_num) _
  have h2 : ((2 : ℕ) : ℚ) = 2 := by norm_num
  have hlog : float_exponent x = Int.log 2 |x| := by
    unfold float_exponent at he ⊢
    omega
  have hle : (2 : ℚ) ^ float_exponent x ≤ x := by
    have h1 := Int.zpow_log_le_self (b := 2) (r := |x|) (by norm_num) (abs_pos.2 hx.ne')
    rw [h2, ← hlog, abs_of_pos hx] at h1
    exact h1
  have h23 : (2 : ℚ) ^ float_exponent x = 2 ^ 23 * 2 ^ (float_exponent x - 23) := by
    rw [show float_exponent x = 23 + (float_exponent x - 23) by ring,
      zpow_add₀ (by norm_num)]
    norm_num
  have hq : ((2 ^ 23 : ℤ) : ℚ) ≤ x / 2 ^ (float_exponent x - 23) := by
    rw [le_div_iff₀ hu]
    have hc : (((2 : ℤ) ^ 23 : ℤ) : ℚ) = 2 ^ 23 := by norm_num
    rw [hc, ← h23]
    exact hle
  have hr : 2 ^ 23 ≤ round_half_even (x / 2 ^ (float_exponent x - 23)) := by
    have := round_half_even_mono _ _ hq
    rwa [round_half_even_int] at this
  unfold to_float
  rw [h23]
  exact mul_le_mul_of_nonneg_right (by exact_mod_cast hr) hu.le

theorem float_exponent_mono (x y : ℚ) (hx : 0 < x) (h : x ≤ y) :
    float_exponent x ≤ float_exponent y := by
  unfold float_exponent
  rw [abs_of_pos hx, abs_of_pos (lt_of_lt_of_le hx h)]
  exact max_le_max (Int.log_mono_right hx h) (le_refl _)

theorem to_float_mono_pos (x y : ℚ) (hx : 0 < x) (h : x ≤ y) : to_float x ≤ to_float y := by
  have hy : 0 < y := lt_of_lt_of_le hx h
  rcases (float_exponent_mono x y hx h).lt_or_eq with hlt | heq
  · have h1 := to_float_upper x hx
    have h2 := to_float_lower y hy (by
      have : -126 ≤ float_exponent x := le_max_right _ _
      omega)
    have h3 : (2 : ℚ) ^ (float_exponent x + 1) ≤ 2 ^ float_exponent y :=
      zpow_le_zpow_right₀ (by norm_num) (by omega)
    linarith
  · unfold to_float
    rw [heq]
    have hu : (0 : ℚ) < 2 ^ (float_exponent y - 23) := zpow_pos (by norm_num) _
    have := round_half_even_mono _ _ (div_le_div_of_nonneg_right h hu.le)
    exact mul_le_mul_of_nonneg_right (by exact_mod_cast this) hu.le

theorem to_float_mono : Monotone to_float := by
  intro x y h
  rcases lt_trichotomy 0 x with hx | hx | hx
  · exact to_float_mono_pos x y hx h
  · rw [← hx, to_float_zero]
    exact to_float_nonneg y (by rw [hx]; exact h)
  · rcases lt_or_le y 0 with hy | hy
    · have := to_float_mono_pos (-y) (-x) (by linarith) (by linarith)
      rw [to_float_neg, to_float_neg] at this
      linarith
    · have h1 := to_float_nonneg (-x) (by linarith)
      rw [to_float_neg] at h1
      have h2 := to_float_nonneg y hy
      linarith

theorem to_float_rounding : Rounding to_float :=
  ⟨to_float_mono, to_float_neg, to_float_one⟩

/-! ## The loops of `Update` at `T = float` -/

theorem update_target_T_loop (fl : ℚ → ℚ) (h : Nat) (S : List ℚ) (s t : Nat) (g : ℚ)
    (b T : List ℚ) (hb : b.length = h) (hT : t * h + h ≤ T.length) (n : Nat) (hn : n ≤ h) :
    ((List.range n).foldl
      (fun (st : List ℚ × List ℚ) i =>
        (st.1.set i (fl (st.1.getD i 0 - fl (g * st.2.getD (t * h + i) 0))),
         st.2.set (t * h + i)
          (fl (st.2.getD (t * h + i) 0 - fl (g * S.getD (s * h + i) 0)))))
      (b, T)).1.length = h ∧
    ((List.range n).foldl
      (fun (st : List ℚ × List ℚ) i =>
        (st.1.set i (fl (st.1.getD i 0 - fl (g * st.2.getD (t * h + i) 0))),
         st.2.set (t * h + i)
          (fl (st.2.getD (t * h + i) 0 - fl (g * S.getD (s * h + i) 0)))))
      (b, T)).2.length = T.length ∧
    (∀ i, ((List.range n).foldl
      (fun (st : List ℚ × List ℚ) i =>
        (st.1.set i (fl (st.1.getD i 0 - fl (g * st.2.getD (t * h + i) 0))),
         st.2.set (t * h + i)
          (fl (st.2.getD (t * h + i) 0 - fl (g * S.getD (s * h + i) 0)))))
      (b, T)).1.getD i 0 =
        if i < n then fl (b.getD i 0 - fl (g * T.getD (t * h + i) 0)) else b.getD i 0) ∧
    (∀ k, ((List.range n).foldl
      (fun (st : List ℚ × List ℚ) i =>
        (st.1.set i (fl (st.1.getD i 0 - fl (g * st.2.getD (t * h + i) 0))),
         st.2.set (t * h + i)
          (fl (st.2.getD (t * h + i) 0 - fl (g * S.getD (s * h + i) 0)))))
      (b, T)).2.getD k 0 =
        if t * h ≤ k ∧ k < t * h + n then
          fl (T.getD k 0 - fl (g * S.getD (s * h + (k - t * h)) 0))
        else T.getD k 0) := by
  induction n with
  | zero =>
    refine ⟨hb, rfl, fun i => ?_, fun k => ?_⟩
    · simp
    · have : ¬ (t * h ≤ k ∧ k < t * h + 0) := by omega
      rw [List.range_zero, List.foldl_nil, if_neg this]
  | succ n ih =>
    obtain ⟨h1, h2, h3, h4⟩ := ih (by omega)
    rw [List.range_succ, List.foldl_append]
    simp only [List.foldl_cons, List.foldl_nil]
    refine ⟨by rw [List.length_set]; exact h1, by rw [List.length_set]; exact h2,
      fun i => ?_, fun k => ?_⟩
    · rw [getD_set_eq, h3, h3, h4, h1]
      have hnn : ¬ n < n := lt_irrefl n
      have hk : ¬ (t * h ≤ t * h + n ∧ t * h + n < t * h + n) := by omega
      simp only [hnn, hk, if_false]
      by_cases hi : n = i
      · subst hi
        have : n < h := by omega
        simp [this]
      · by_cases hi2 : i < n
        · have : i < n + 1 := by omega
          simp [hi, hi2, this]
        · have : ¬ i < n + 1 := by omega
          simp [hi, hi2, this]
    · rw [getD_set_eq, h4, h4, h2]
      have hk : ¬ (t * h ≤ t * h + n ∧ t * h + n < t * h + n) := by omega
      simp only [hk, if_false]
      by_cases hi : t * h + n = k
      · subst hi
        have h5 : t * h + n < T.length := by omega
        have h6 : t * h ≤ t * h + n ∧ t * h + n < t * h + (n + 1) := by omega
        have h7 : t * h + n - t * h = n := by omega
        simp [h5, h6, h7]
      · by_cases hi2 : t * h ≤ k ∧ k < t * h + n
        · have : t * h ≤ k ∧ k < t * h + (n + 1) := by omega
          simp [hi, hi2, this]
        · have : ¬ (t * h ≤ k ∧ k < t * h + (n + 1)) := by omega
          simp [hi, hi2, this]

theorem update_target_T_spec (fl : ℚ → ℚ) (h : Nat) (S : List ℚ) (s t : Nat) (g : ℚ)
    (b T : List ℚ) (hb : b.length = h) (hT : t * h + h ≤ T.length) :
    (update_target_T fl h S s t g b T).1.length = h ∧
    (update_target_T fl h S s t g b T).2.length = T.length ∧
    (∀ i, i < h → (update_target_T fl h S s t g b T).1.getD i 0 =
        fl (b.getD i 0 - fl (g * T.getD (t * h + i) 0))) ∧
    (∀ k, (update_target_T fl h S s t g b T).2.getD k 0 =
        if t * h ≤ k ∧ k < t * h + h then
          fl (T.getD k 0 - fl (g * S.getD (s * h + (k - t * h)) 0))
        else T.getD k 0) := by
  obtain ⟨h1, h2, h3, h4⟩ := update_target_T_loop fl h S s t g b T hb hT h (le_refl h)
  refine ⟨h1, h2, fun i hi => ?_, h4⟩
  have := h3 i
  rw [if_pos hi] at this
  exact this

theorem update_source_T_loop (fl : ℚ → ℚ) (h : Nat) (s : Nat) (b S : List ℚ)
    (hS : s * h + h ≤ S.length) (n : Nat) (hn : n ≤ h) :
    ((List.range n).foldl
      (fun (sh : List ℚ) i => sh.set (s * h + i) (fl (sh.getD (s * h + i) 0 + b.getD i 0)))
      S).length = S.length ∧
    (∀ k, ((List.range n).foldl
      (fun (sh : List ℚ) i => sh.set (s * h + i) (fl (sh.getD (s * h + i) 0 + b.getD i 0)))
      S).getD k 0 =
        if s * h ≤ k ∧ k < s * h + n then fl (S.getD k 0 + b.getD (k - s * h) 0)
        else S.getD k 0) := by
  induction n with
  | zero =>
    refine ⟨rfl, fun k => ?_⟩
    have : ¬ (s * h ≤ k ∧ k < s * h + 0) := by omega
    rw [List.range_zero, List.foldl_nil, if_neg this]
  | succ n ih =>
    obtain ⟨h1, h2⟩ := ih (by omega)
    rw [List.range_succ, List.foldl_append]
    simp only [List.foldl_cons, List.foldl_nil]
    refine ⟨by rw [List.length_set]; exact h1, fun k => ?_⟩
    rw [getD_set_eq, h2, h2, h1]
    have hk : ¬ (s * h ≤ s * h + n ∧ s * h + n < s * h + n) := by omega
    simp only [hk, if_false]
    by_cases hi : s * h + n = k
    · subst hi
      have h5 : s * h + n < S.length := by omega
      have h6 : s * h ≤ s * h + n ∧ s * h + n < s * h + (n + 1) := by omega
      have h7 : s * h + n - s * h = n := by omega
      simp [h5, h6, h7]
    · by_cases hi2 : s * h ≤ k ∧ k < s * h + n
      · have : s * h ≤ k ∧ k < s * h + (n + 1) := by omega
        simp [hi, hi2, this]
      · have : ¬ (s * h ≤ k ∧ k < s * h + (n + 1)) := by omega
        simp [hi, hi2, this]

theorem update_source_T_spec (fl : ℚ → ℚ) (h : Nat) (s : Nat) (b S : List ℚ)
    (hS : s * h + h ≤ S.length) :
    (update_source_T fl h s b S).length = S.length ∧
    (∀ k, (update_source_T fl h s b S).getD k 0 =
        if s * h ≤ k ∧ k < s * h + h then fl (S.getD k 0 + b.getD (k - s * h) 0)
        else S.getD k 0) :=
  update_source_T_loop fl h s b S hS h (le_refl h)

theorem PredictRaw_T_snd (m : BiWord2VecModel) (fl : ℚ → ℚ) (s t : Nat) :
    (m.PredictRaw_T fl s t).2 = m := by
  unfold BiWord2VecModel.PredictRaw_T
  split_ifs <;> rfl

/-! ## One gradient step on a pair of rows, with rounding -/

theorem rounding_zero (fl : ℚ → ℚ) (hfl : Rounding fl) : fl 0 = 0 := by
  have h := hfl.neg 0
  rw [neg_zero] at h
  linarith

theorem rounding_neg_one (fl : ℚ → ℚ) (hfl : Rounding fl) : fl (-1) = -1 := by
  rw [hfl.neg, hfl.one]

/-- Rounding a product `g * x` with `-1 ≤ g ≤ 0` of a stored `x ≥ 0`. -/
theorem rounding_scale_nonneg (fl : ℚ → ℚ) (hfl : Rounding fl) (g x : ℚ) (hx : fl x = x)
    (hg0 : g ≤ 0) (hg1 : -1 ≤ g) (h0 : 0 ≤ x) : -x ≤ fl (g * x) ∧ fl (g * x) ≤ 0 := by
  constructor
  · have h1 : -x ≤ g * x := by nlinarith
    have h2 := hfl.mono h1
    rw [hfl.neg, hx] at h2
    exact h2
  · have h1 : g * x ≤ 0 := by nlinarith
    have h2 := hfl.mono h1
    rw [rounding_zero fl hfl] at h2
    exact h2

theorem rounding_scale_nonpos (fl : ℚ → ℚ) (hfl : Rounding fl) (g x : ℚ) (hx : fl x = x)
    (hg0 : g ≤ 0) (hg1 : -1 ≤ g) (h0 : x ≤ 0) : 0 ≤ fl (g * x) ∧ fl (g * x) ≤ -x := by
  constructor
  · have h1 : 0 ≤ g * x := by nlinarith
    have h2 := hfl.mono h1
    rw [rounding_zero fl hfl] at h2
    exact h2
  · have h1 : g * x ≤ -x := by nlinarith
    have h2 := hfl.mono h1
    rw [hfl.neg, hx] at h2
    exact h2

/-- One component of the positive step: with stored cells `a` (source) and `b`
(target) and a gradient `-1 ≤ g ≤ 0`, the product of the two updated cells is
not below the product of the old ones, whatever each operation rounds to. -/
theorem rounded_step_ge (fl : ℚ → ℚ) (hfl : Rounding fl) (a b g : ℚ) (ha : fl a = a)
    (hb : fl b = b) (hg0 : g ≤ 0) (hg1 : -1 ≤ g) :
    a * b ≤ fl (a + fl (0 - fl (g * b))) * fl (b - fl (g * a)) := by
  have hz := rounding_zero fl hfl
  rcases le_total 0 a with ha0 | ha0
  · obtain ⟨hu1, hu2⟩ := rounding_scale_nonneg fl hfl g a ha hg0 hg1 ha0
    have hb1 : b ≤ fl (b - fl (g * a)) := by
      have := hfl.mono (show b ≤ b - fl (g * a) by linarith)
      rwa [hb] at this
    rcases le_total 0 b with hb0 | hb0
    · obtain ⟨hv1, hv2⟩ := rounding_scale_nonneg fl hfl g b hb hg0 hg1 hb0
      have hw : 0 ≤ fl (0 - fl (g * b)) := by
        have := hfl.mono (show (0 : ℚ) ≤ 0 - fl (g * b) by linarith)
        rwa [hz] at this
      have ha1 : a ≤ fl (a + fl (0 - fl (g * b))) := by
        have := hfl.mono (show a ≤ a + fl (0 - fl (g * b)) by linarith)
        rwa [ha] at this
      exact mul_le_mul ha1 hb1 hb0 (le_trans ha0 ha1)
    · obtain ⟨hv1, hv2⟩ := rounding_scale_nonpos fl hfl g b hb hg0 hg1 hb0
      have hw1 : fl (0 - fl (g * b)) ≤ 0 := by
        have := hfl.mono (show 0 - fl (g * b) ≤ (0 : ℚ) by linarith)
        rwa [hz] at this
      have hw2 : b ≤ fl (0 - fl (g * b)) := by
        have := hfl.mono (show b ≤ 0 - fl (g * b) by linarith)
        rwa [hb] at this
      have ha1 : fl (a + fl (0 - fl (g * b))) ≤ a := by
        have := hfl.mono (show a + fl (0 - fl (g * b)) ≤ a by linarith)
        rwa [ha] at this
      have ha2 : fl (a + b) ≤ fl (a + fl (0 - fl (g * b))) :=
        hfl.mono (by linarith)
      have hb2 : fl (b - fl (g * a)) ≤ fl (a + b) := hfl.mono (by linarith)
      rcases le_total 0 (fl (a + fl (0 - fl (g * b)))) with hs | hs
      · rcases le_total (fl (b - fl (g * a))) 0 with ht | ht
        · nlinarith
        · nlinarith
      · rcases le_total (fl (b - fl (g * a))) 0 with ht | ht
        · nlinarith
        · have e1 : fl (a + b) ≤ 0 := le_trans ha2 hs
          have e2 : 0 ≤ fl (a + b) := le_trans ht hb2
          have e3 : fl (a + b) = 0 := le_antisymm e1 e2
          have e4 : fl (a + fl (0 - fl (g * b))) = 0 := le_antisymm hs (by have h9 := ha2; rw [e3] at h9; exact h9)
          rw [e4, zero_mul]
          nlinarith
  · obtain ⟨hu1, hu2⟩ := rounding_scale_nonpos fl hfl g a ha hg0 hg1 ha0
    have hb1 : fl (b - fl (g * a)) ≤ b := by
      have := hfl.mono (show b - fl (g * a) ≤ b by linarith)
      rwa [hb] at this
    rcases le_total 0 b with hb0 | hb0
    · obtain ⟨hv1, hv2⟩ := rounding_scale_nonneg fl hfl g b hb hg0 hg1 hb0
      have ha1 : a ≤ fl (a + fl (0 - fl (g * b))) := by
        have hw : 0 ≤ fl (0 - fl (g * b)) := by
          have := hfl.mono (show (0 : ℚ) ≤ 0 - fl (g * b) by linarith)
          rwa [hz] at this
        have := hfl.mono (show a ≤ a + fl (0 - fl (g * b)) by linarith)
        rwa [ha] at this
      have hw2 : fl (0 - fl (g * b)) ≤ b := by
        have := hfl.mono (show 0 - fl (g * b) ≤ b by linarith)
        rwa [hb] at this
      have ha2 : fl (a + fl (0 - fl (g * b))) ≤ fl (a + b) := hfl.mono (by linarith)
      have hb2 : fl (a + b) ≤ fl (b - fl (g * a)) := hfl.mono (by linarith)
      rcases le_total 0 (fl (b - fl (g * a))) with ht | ht
      · rcases le_total (fl (a + fl (0 - fl (g * b)))) 0 with hs | hs
        · nlinarith
        · nlinarith
      · rcases le_total (fl (a + fl (0 - fl (g * b)))) 0 with hs | hs
        · nlinarith
        · have e1 : fl (a + b) ≤ 0 := le_trans hb2 ht
          have e2 : 0 ≤ fl (a + b) := le_trans hs ha2
          have e3 : fl (a + b) = 0 := le_antisymm e1 e2
          have e4 : fl (b - fl (g * a)) = 0 := le_antisymm ht (by have h9 := hb2; rw [e3] at h9; exact h9)
          rw [e4, mul_zero]
          nlinarith
    · obtain ⟨hv1, hv2⟩ := rounding_scale_nonpos fl hfl g b hb hg0 hg1 hb0
      have hw : fl (0 - fl (g * b)) ≤ 0 := by
        have := hfl.mono (show 0 - fl (g * b) ≤ (0 : ℚ) by linarith)
        rwa [hz] at this
      have ha1 : fl (a + fl (0 - fl (g * b))) ≤ a := by
        have := hfl.mono (show a + fl (0 - fl (g * b)) ≤ a by linarith)
        rwa [ha] at this
      nlinarith [mul_nonneg (sub_nonneg.mpr ha1) (sub_nonneg.mpr hb1),
        mul_nonneg (neg_nonneg.mpr ha0) (sub_nonneg.mpr hb1),
        mul_nonneg (sub_nonneg.mpr ha1) (neg_nonneg.mpr hb0)]

/-- One component of the negative step: with a gradient `0 ≤ g ≤ 1` the product
of the two updated cells is not above the product of the old ones. -/
theorem rounded_step_le (fl : ℚ → ℚ) (hfl : Rounding fl) (a b g : ℚ) (ha : fl a = a)
    (hb : fl b = b) (hg0 : 0 ≤ g) (hg1 : g ≤ 1) :
    fl (a + fl (0 - fl (g * b))) * fl (b - fl (g * a)) ≤ a * b := by
  have h := rounded_step_ge fl hfl a (-b) (-g) ha (by rw [hfl.neg, hb]) (by linarith)
    (by linarith)
  have e1 : -g * -b = g * b := by ring
  have e2 : -b - fl (-g * a) = -(b - fl (g * a)) := by
    rw [neg_mul, hfl.neg]
    ring
  rw [e1, e2, hfl.neg] at h
  nlinarith

/-- The summation loop of `PredictRaw` is monotone in the products it adds. -/
theorem rounded_sum_mono (fl : ℚ → ℚ) (hfl : Rounding fl) (p q : Nat → ℚ) (n : Nat)
    (h : ∀ i, i < n → p i ≤ q i) :
    (List.range n).foldl (fun sum i => fl (sum + fl (p i))) 0 ≤
      (List.range n).foldl (fun sum i => fl (sum + fl (q i))) 0 := by
  induction n with
  | zero => simp
  | succ n ih =>
    rw [List.range_succ, List.foldl_append, List.foldl_append]
    simp only [List.foldl_cons, List.foldl_nil]
    exact hfl.mono (add_le_add (ih (fun i hi => h i (by omega)))
      (hfl.mono (h n (by omega))))

/-! ## `Update` at `T = float`: the score of the updated pair -/

theorem stored_source (m : BiWord2VecModel) (fl : ℚ → ℚ) (hst : m.Stored fl) (k : Nat) :
    fl (m.source_hidden_.getD k 0) = m.source_hidden_.getD k 0 ∨
      m.source_hidden_.getD k 0 = 0 := by
  by_cases hk : k < m.source_hidden_.length
  · left
    apply hst.1
    rw [List.getD_eq_getElem _ _ hk]
    exact List.getElem_mem _
  · right
    exact List.getD_eq_default _ _ (not_lt.mp hk)

theorem stored_source_cell (m : BiWord2VecModel) (fl : ℚ → ℚ) (hfl : Rounding fl)
    (hst : m.Stored fl) (k : Nat) :
    fl (m.source_hidden_.getD k 0) = m.source_hidden_.getD k 0 := by
  rcases stored_source m fl hst k with h | h
  · exact h
  · rw [h, rounding_zero fl hfl]

theorem stored_target_cell (m : BiWord2VecModel) (fl : ℚ → ℚ) (hfl : Rounding fl)
    (hst : m.Stored fl) (k : Nat) :
    fl (m.target_hidden_.getD k 0) = m.target_hidden_.getD k 0 := by
  by_cases hk : k < m.target_hidden_.length
  · apply hst.2
    rw [List.getD_eq_getElem _ _ hk]
    exact List.getElem_mem _
  · rw [List.getD_eq_default _ _ (not_lt.mp hk), rounding_zero fl hfl]

/-- The gradient of the positive term lies in `[-1, 0]`. -/
theorem positive_grad_bounds (fl : ℚ → ℚ) (hfl : Rounding fl) (c v : ℚ) (hc0 : 0 ≤ c)
    (hc1 : c ≤ 1) (hv0 : 0 ≤ v) (hv1 : v ≤ 1) :
    fl (fl c * (fl v - 1)) ≤ 0 ∧ -1 ≤ fl (fl c * (fl v - 1)) := by
  have hz := rounding_zero fl hfl
  have a0 : 0 ≤ fl c := by have := hfl.mono hc0; rwa [hz] at this
  have a1 : fl c ≤ 1 := by have := hfl.mono hc1; rwa [hfl.one] at this
  have b0 : 0 ≤ fl v := by have := hfl.mono hv0; rwa [hz] at this
  have b1 : fl v ≤ 1 := by have := hfl.mono hv1; rwa [hfl.one] at this
  constructor
  · have := hfl.mono (show fl c * (fl v - 1) ≤ 0 by nlinarith)
    rwa [hz] at this
  · have := hfl.mono (show -1 ≤ fl c * (fl v - 1) by nlinarith)
    rwa [rounding_neg_one fl hfl] at this

/-- The gradient of a negative term lies in `[0, 1]`. -/
theorem negative_grad_bounds (fl : ℚ → ℚ) (hfl : Rounding fl) (c v : ℚ) (hc0 : 0 ≤ c)
    (hc1 : c ≤ 1) (hv0 : 0 ≤ v) (hv1 : v ≤ 1) :
    0 ≤ fl (fl c * fl v) ∧ fl (fl c * fl v) ≤ 1 := by
  have hz := rounding_zero fl hfl
  have a0 : 0 ≤ fl c := by have := hfl.mono hc0; rwa [hz] at this
  have a1 : fl c ≤ 1 := by have := hfl.mono hc1; rwa [hfl.one] at this
  have b0 : 0 ≤ fl v := by have := hfl.mono hv0; rwa [hz] at this
  have b1 : fl v ≤ 1 := by have := hfl.mono hv1; rwa [hfl.one] at this
  constructor
  · have := hfl.mono (show 0 ≤ fl c * fl v by nlinarith)
    rwa [hz] at this
  · have := hfl.mono (show fl c * fl v ≤ 1 by nlinarith)
    rwa [hfl.one] at this

theorem allocated_source_row (m : BiWord2VecModel) (hm : m.Allocated) (s : Nat)
    (hs : s < m.source_size_) :
    s * m.hidden_size_ + m.hidden_size_ ≤ m.source_hidden_.length := by
  rw [hm.1]
  have := Nat.mul_le_mul_right m.hidden_size_ (Nat.succ_le_of_lt hs)
  rw [Nat.succ_mul] at this
  omega

theorem allocated_target_row (m : BiWord2VecModel) (hm : m.Allocated) (t : Nat)
    (ht : t < m.target_size_) :
    t * m.hidden_size_ + m.hidden_size_ ≤ m.target_hidden_.length := by
  rw [hm.2]
  have := Nat.mul_le_mul_right m.hidden_size_ (Nat.succ_le_of_lt ht)
  rw [Nat.succ_mul] at this
  omega

theorem rounded_sum_congr (fl : ℚ → ℚ) (p q : Nat → ℚ) (n : Nat)
    (h : ∀ i, i < n → p i = q i) :
    (List.range n).foldl (fun sum i => fl (sum + fl (p i))) 0 =
      (List.range n).foldl (fun sum i => fl (sum + fl (q i))) 0 := by
  induction n with
  | zero => simp
  | succ n ih =>
    rw [List.range_succ, List.foldl_append, List.foldl_append]
    simp only [List.foldl_cons, List.foldl_nil]
    rw [ih (fun i hi => h i (by omega)), h n (by omega)]

/-- The score of the pair after an `Update` call with no negatives, cell by
cell: `g` is the gradient the call passes to `update_target`. -/
theorem positive_update_score (fl : ℚ → ℚ) (m : BiWord2VecModel) (hm : m.Allocated)
    (s t : Nat) (noise : Option (Nat → ℚ)) (decay : ℚ)
    (hs : s < m.source_size_) (ht : t < m.target_size_) :
    ((m.Update_T fl s t [] noise decay).2.PredictRaw_T fl s t).1 =
      (List.range m.hidden_size_).foldl
        (fun sum i => fl (sum + fl (
          fl (m.source_hidden_.getD (s * m.hidden_size_ + i) 0 +
            fl (0 - fl (fl (fl (m.alpha_ * decay) * (fl (m.sigmoid_table_.evaluate
              (apply_noise_T fl noise t (m.PredictRaw_T fl s t).1)) - 1)) *
                m.target_hidden_.getD (t * m.hidden_size_ + i) 0))) *
          fl (m.target_hidden_.getD (t * m.hidden_size_ + i) 0 -
            fl (fl (fl (m.alpha_ * decay) * (fl (m.sigmoid_table_.evaluate
              (apply_noise_T fl noise t (m.PredictRaw_T fl s t).1)) - 1)) *
                m.source_hidden_.getD (s * m.hidden_size_ + i) 0))))) 0 := by
  have hS := allocated_source_row m hm s hs
  have hT := allocated_target_row m hm t ht
  unfold BiWord2VecModel.Update_T positive_term_T
  simp only [PredictRaw_T_snd, List.foldl_nil]
  generalize fl (fl (m.alpha_ * decay) * (fl (m.sigmoid_table_.evaluate
      (apply_noise_T fl noise t (m.PredictRaw_T fl s t).1)) - 1)) = g
  obtain ⟨t1, t2, t3, t4⟩ := update_target_T_spec fl m.hidden_size_ m.source_hidden_ s t g
    (List.replicate m.hidden_size_ 0) m.target_hidden_ (List.length_replicate _ _) hT
  obtain ⟨s1, s2⟩ := update_source_T_spec fl m.hidden_size_ s
    (update_target_T fl m.hidden_size_ m.source_hidden_ s t g
      (List.replicate m.hidden_size_ 0) m.target_hidden_).1 m.source_hidden_ hS
  unfold BiWord2VecModel.PredictRaw_T
  dsimp only
  rw [if_neg (by omega)]
  dsimp only
  apply rounded_sum_congr fl
  intro i hi
  rw [s2, t4, if_pos (by omega), if_pos (by omega), t3 _ (by omega)]
  have e1 : s * m.hidden_size_ + i - s * m.hidden_size_ = i := by omega
  have e2 : t * m.hidden_size_ + i - t * m.hidden_size_ = i := by omega
  have e3 : (List.replicate m.hidden_size_ (0 : ℚ)).getD i 0 = 0 := by
    simp [List.getD_eq_getElem?_getD, List.getElem?_replicate, hi]
  rw [e1, e2, e3]

theorem PredictRaw_T_fst (m : BiWord2VecModel) (fl : ℚ → ℚ) (s t : Nat)
    (hs : s < m.source_size_) (ht : t < m.target_size_) :
    (m.PredictRaw_T fl s t).1 =
      (List.range m.hidden_size_).foldl
        (fun sum i => fl (sum + fl (m.source_hidden_.getD (s * m.hidden_size_ + i) 0 *
          m.target_hidden_.getD (t * m.hidden_size_ + i) 0))) 0 := by
  unfold BiWord2VecModel.PredictRaw_T
  rw [if_neg (by omega)]

/-- With rounding after every `float` operation, one `Update` call with a
positive pair and no negatives leaves the score of the pair not smaller. -/
theorem rounded_positive_update (fl : ℚ → ℚ) (hfl : Rounding fl) (m : BiWord2VecModel)
    (hm : m.Allocated) (hst : m.Stored fl)
    (exp log : ℚ → ℚ) (hpos : ∀ x, 0 < exp x)
    (htbl : m.sigmoid_table_ = SigmoidTable.new exp log DEF_EXP_TABLE_SIZE)
    (s t : Nat) (noise : Option (Nat → ℚ)) (decay : ℚ)
    (hs : s < m.source_size_) (ht : t < m.target_size_)
    (had : 0 < m.alpha_ * decay) (had1 : m.alpha_ * decay ≤ 1) :
    (m.PredictRaw_T fl s t).1 ≤
      ((m.Update_T fl s t [] noise decay).2.PredictRaw_T fl s t).1 := by
  have hb := evaluate_new_bounds exp log hpos DEF_EXP_TABLE_SIZE
    (by norm_num [DEF_EXP_TABLE_SIZE])
    (apply_noise_T fl noise t (m.PredictRaw_T fl s t).1)
  rw [← htbl] at hb
  obtain ⟨hg0, hg1⟩ := positive_grad_bounds fl hfl (m.alpha_ * decay) _ had.le had1 hb.1 hb.2
  rw [positive_update_score fl m hm s t noise decay hs ht]
  generalize fl (fl (m.alpha_ * decay) * (fl (m.sigmoid_table_.evaluate
      (apply_noise_T fl noise t (m.PredictRaw_T fl s t).1)) - 1)) = g at hg0 hg1 ⊢
  rw [PredictRaw_T_fst m fl s t hs ht]
  apply rounded_sum_mono fl hfl
  intro i hi
  exact rounded_step_ge fl hfl _ _ _ (stored_source_cell m fl hfl hst _)
    (stored_target_cell m fl hfl hst _) hg0 hg1

/-- When the gradient of the positive term rounds to zero, the call with no
negatives leaves the score of the pair as it was. -/
theorem rounded_positive_update_fixed (fl : ℚ → ℚ) (hfl : Rounding fl) (m : BiWord2VecModel)
    (hm : m.Allocated) (hst : m.Stored fl)
    (s t : Nat) (noise : Option (Nat → ℚ)) (decay : ℚ)
    (hs : s < m.source_size_) (ht : t < m.target_size_)
    (hgrad : fl (fl (m.alpha_ * decay) * (fl (m.sigmoid_table_.evaluate
      (apply_noise_T fl noise t (m.PredictRaw_T fl s t).1)) - 1)) = 0) :
    ((m.Update_T fl s t [] noise decay).2.PredictRaw_T fl s t).1 =
      (m.PredictRaw_T fl s t).1 := by
  have hz := rounding_zero fl hfl
  rw [positive_update_score fl m hm s t noise decay hs ht, hgrad,
    PredictRaw_T_fst m fl s t hs ht]
  apply rounded_sum_congr fl
  intro i hi
  rw [zero_mul, zero_mul, hz, sub_zero, sub_zero, hz, add_zero,
    stored_source_cell m fl hfl hst, stored_target_cell m fl hfl hst]

/-- The score of the pair `(s, n)` after an `Update` call whose positive term
has gradient zero and whose one negative target is `n`, cell by cell. -/
theorem negative_update_score (fl : ℚ → ℚ) (hfl : Rounding fl) (m : BiWord2VecModel)
    (hm : m.Allocated) (hst : m.Stored fl)
    (s t n : Nat) (noise : Option (Nat → ℚ)) (decay : ℚ)
    (hs : s < m.source_size_) (ht : t < m.target_size_) (hn : n < m.target_size_)
    (hgrad : fl (fl (m.alpha_ * decay) * (fl (m.sigmoid_table_.evaluate
      (apply_noise_T fl noise t (m.PredictRaw_T fl s t).1)) - 1)) = 0) :
    ((m.Update_T fl s t [n] noise decay).2.PredictRaw_T fl s n).1 =
      (List.range m.hidden_size_).foldl
        (fun sum i => fl (sum + fl (
          fl (m.source_hidden_.getD (s * m.hidden_size_ + i) 0 +
            fl (0 - fl (fl (fl (m.alpha_ * decay) * fl (m.sigmoid_table_.evaluate
              (apply_noise_T fl noise n (m.PredictRaw_T fl s n).1))) *
                m.target_hidden_.getD (n * m.hidden_size_ + i) 0))) *
          fl (m.target_hidden_.getD (n * m.hidden_size_ + i) 0 -
            fl (fl (fl (m.alpha_ * decay) * fl (m.sigmoid_table_.evaluate
              (apply_noise_T fl noise n (m.PredictRaw_T fl s n).1))) *
                m.source_hidden_.getD (s * m.hidden_size_ + i) 0))))) 0 := by
  have hz := rounding_zero fl hfl
  have hS := allocated_source_row m hm s hs
  have hT := allocated_target_row m hm t ht
  have hN := allocated_target_row m hm n hn
  obtain ⟨t1, t2, t3, t4⟩ := update_target_T_spec fl m.hidden_size_ m.source_hidden_ s t 0
    (List.replicate m.hidden_size_ 0) m.target_hidden_ (List.length_replicate _ _) hT
  have t5 : ∀ k, (update_target_T fl m.hidden_size_ m.source_hidden_ s t 0
      (List.replicate m.hidden_size_ 0) m.target_hidden_).2.getD k 0 =
      m.target_hidden_.getD k 0 := by
    intro k
    rw [t4]
    split_ifs
    · rw [zero_mul, hz, sub_zero, stored_target_cell m fl hfl hst]
    · rfl
  have t6 : ∀ i, i < m.hidden_size_ → (update_target_T fl m.hidden_size_ m.source_hidden_ s t 0
      (List.replicate m.hidden_size_ 0) m.target_hidden_).1.getD i 0 = 0 := by
    intro i hi
    rw [t3 i hi, zero_mul, hz, sub_zero]
    simp [List.getD_eq_getElem?_getD, List.getElem?_replicate, hi, hz]
  have hpr : (BiWord2VecModel.PredictRaw_T
      { m with target_hidden_ := (update_target_T fl m.hidden_size_ m.source_hidden_ s t 0
        (List.replicate m.hidden_size_ 0) m.target_hidden_).2 } fl s n).1 =
      (m.PredictRaw_T fl s n).1 := by
    rw [PredictRaw_T_fst m fl s n hs hn,
      PredictRaw_T_fst { m with target_hidden_ :=
        (update_target_T fl m.hidden_size_ m.source_hidden_ s t 0
          (List.replicate m.hidden_size_ 0) m.target_hidden_).2 } fl s n hs hn]
    apply rounded_sum_congr fl
    intro i _
    dsimp only
    rw [t5]
  unfold BiWord2VecModel.Update_T positive_term_T negative_term_T
  simp only [PredictRaw_T_snd, List.foldl_cons, List.foldl_nil]
  rw [hgrad, hpr]
  generalize fl (fl (m.alpha_ * decay) * fl (m.sigmoid_table_.evaluate
      (apply_noise_T fl noise n (m.PredictRaw_T fl s n).1))) = g
  obtain ⟨u1, u2, u3, u4⟩ := update_target_T_spec fl m.hidden_size_ m.source_hidden_ s n g
    (update_target_T fl m.hidden_size_ m.source_hidden_ s t 0
      (List.replicate m.hidden_size_ 0) m.target_hidden_).1
    (update_target_T fl m.hidden_size_ m.source_hidden_ s t 0
      (List.replicate m.hidden_size_ 0) m.target_hidden_).2 t1 (by rw [t2]; exact hN)
  obtain ⟨s1, s2⟩ := update_source_T_spec fl m.hidden_size_ s
    (update_target_T fl m.hidden_size_ m.source_hidden_ s n g
      (update_target_T fl m.hidden_size_ m.source_hidden_ s t 0
        (List.replicate m.hidden_size_ 0) m.target_hidden_).1
      (update_target_T fl m.hidden_size_ m.source_hidden_ s t 0
        (List.replicate m.hidden_size_ 0) m.target_hidden_).2).1 m.source_hidden_ hS
  unfold BiWord2VecModel.PredictRaw_T
  dsimp only
  rw [if_neg (by omega)]
  dsimp only
  apply rounded_sum_congr fl
  intro i hi
  rw [s2, u4, if_pos (by omega), if_pos (by omega), u3 _ (by omega)]
  have e1 : s * m.hidden_size_ + i - s * m.hidden_size_ = i := by omega
  have e2 : n * m.hidden_size_ + i - n * m.hidden_size_ = i := by omega
  rw [e1, e2, t5, t6 i hi]

/-- With rounding after every `float` operation, an `Update` call whose
positive term has gradient zero and whose one negative target is `n` leaves the
score of the pair `(s, n)` not greater. -/
theorem rounded_negative_update (fl : ℚ → ℚ) (hfl : Rounding fl) (m : BiWord2VecModel)
    (hm : m.Allocated) (hst : m.Stored fl)
    (exp log : ℚ → ℚ) (hpos : ∀ x, 0 < exp x)
    (htbl : m.sigmoid_table_ = SigmoidTable.new exp log DEF_EXP_TABLE_SIZE)
    (s t n : Nat) (noise : Option (Nat → ℚ)) (decay : ℚ)
    (hs : s < m.source_size_) (ht : t < m.target_size_) (hn : n < m.target_size_)
    (had : 0 < m.alpha_ * decay) (had1 : m.alpha_ * decay ≤ 1)
    (hgrad : fl (fl (m.alpha_ * decay) * (fl (m.sigmoid_table_.evaluate
      (apply_noise_T fl noise t (m.PredictRaw_T fl s t).1)) - 1)) = 0) :
    ((m.Update_T fl s t [n] noise decay).2.PredictRaw_T fl s n).1 ≤
      (m.PredictRaw_T fl s n).1 := by
  have hb := evaluate_new_bounds exp log hpos DEF_EXP_TABLE_SIZE
    (by norm_num [DEF_EXP_TABLE_SIZE])
    (apply_noise_T fl noise n (m.PredictRaw_T fl s n).1)
  rw [← htbl] at hb
  obtain ⟨hg0, hg1⟩ := negative_grad_bounds fl hfl (m.alpha_ * decay) _ had.le had1 hb.1 hb.2
  rw [negative_update_score fl hfl m hm hst s t n noise decay hs ht hn hgrad]
  generalize fl (fl (m.alpha_ * decay) * fl (m.sigmoid_table_.evaluate
      (apply_noise_T fl noise n (m.PredictRaw_T fl s n).1))) = g at hg0 hg1 ⊢
  rw [PredictRaw_T_fst m fl s n hs hn]
  apply rounded_sum_mono fl hfl
  intro i hi
  exact rounded_step_le fl hfl _ _ _ (stored_source_cell m fl hfl hst _)
    (stored_target_cell m fl hfl hst _) hg0 hg1

/-! ## The `float` sample model -/

theorem to_float_exact (x : ℚ) (e k : ℤ) (he : -126 ≤ e) (hk1 : 2 ^ 23 ≤ |k|)
    (hk2 : |k| < 2 ^ 24) (hx : x = k * 2 ^ (e - 23)) : to_float x = x := by
  rw [hx]
  exact to_float_grid e k he hk1 hk2

theorem to_float_two_pow (e : ℤ) (he : -126 ≤ e) : to_float (2 ^ e) = 2 ^ e := by
  apply to_float_exact _ e (2 ^ 23) he (by norm_num) (by norm_num)
  have h : (2 : ℚ) ^ e = 2 ^ (23 : ℤ) * 2 ^ (e - 23) := by
    rw [← zpow_add₀ (by norm_num)]
    congr 1
    ring
  rw [h]
  norm_num

theorem to_float_four : to_float 4 = 4 := by
  have := to_float_two_pow 2 (by norm_num)
  norm_num at this
  exact this

theorem to_float_sixteenth : to_float (1 / 16) = 1 / 16 := by
  have := to_float_two_pow (-4) (by norm_num)
  norm_num at this
  exact this

theorem to_float_sample_cells :
    to_float (17 / 4) = 17 / 4 ∧ to_float 6 = 6 ∧ to_float (289 / 16) = 289 / 16 ∧
      to_float 24 = 24 ∧ to_float 16 = 16 := by
  refine ⟨?_, ?_, ?_, ?_, ?_⟩
  · exact to_float_exact _ 2 8912896 (by norm_num) (by norm_num) (by norm_num) (by norm_num)
  · exact to_float_exact _ 2 12582912 (by norm_num) (by norm_num) (by norm_num) (by norm_num)
  · exact to_float_exact _ 4 9469952 (by norm_num) (by norm_num) (by norm_num) (by norm_num)
  · exact to_float_exact _ 4 12582912 (by norm_num) (by norm_num) (by norm_num) (by norm_num)
  · exact to_float_exact _ 4 8388608 (by norm_num) (by norm_num) (by norm_num) (by norm_num)

theorem float_model_allocated (exp log : ℚ → ℚ) : (float_model exp log).Allocated := by
  constructor <;> rfl

theorem float_model_stored (exp log : ℚ → ℚ) : (float_model exp log).Stored to_float := by
  obtain ⟨h1, h2, _, _, _⟩ := to_float_sample_cells
  constructor
  · intro x hx
    simp only [float_model, List.mem_cons, List.mem_singleton, List.not_mem_nil, or_false] at hx
    rcases hx with rfl | rfl | rfl
    · exact h1
    · exact to_float_four
    · exact to_float_zero
  · intro x hx
    simp only [float_model, List.mem_cons, List.mem_singleton, List.not_mem_nil, or_false] at hx
    rcases hx with rfl | rfl | rfl | rfl
    · exact h1
    · exact h2
    · rw [to_float_neg, to_float_four]
    · exact to_float_zero

theorem float_model_raw (exp log : ℚ → ℚ) :
    ((float_model exp log).PredictRaw_T to_float 0 0).1 = 289 / 16 ∧
    ((float_model exp log).PredictRaw_T to_float 1 1).1 = 24 ∧
    ((float_model exp log).PredictRaw_T to_float 1 2).1 = -16 := by
  obtain ⟨_, _, h3, h4, h5⟩ := to_float_sample_cells
  refine ⟨?_, ?_, ?_⟩
  · rw [PredictRaw_T_fst _ _ 0 0 (by norm_num [float_model]) (by norm_num [float_model])]
    norm_num [float_model, List.range, List.range.loop, h3]
  · rw [PredictRaw_T_fst _ _ 1 1 (by norm_num [float_model]) (by norm_num [float_model])]
    norm_num [float_model, List.range, List.range.loop, h4]
  · rw [PredictRaw_T_fst _ _ 1 2 (by norm_num [float_model]) (by norm_num [float_model])]
    norm_num [float_model, List.range, List.range.loop, to_float_neg, h5]

theorem slot_new_eq (exp log : ℚ → ℚ) (x : ℚ) (k : Nat) (hk : k < DEF_EXP_TABLE_SIZE)
    (h1 : (k : ℚ) ≤ (x + 20) * 25) (h2 : (x + 20) * 25 < (k : ℚ) + 1) :
    (SigmoidTable.new exp log DEF_EXP_TABLE_SIZE).slot x = k := by
  have hf : ⌊(x + MAX_EXP_NUM) * ((DEF_EXP_TABLE_SIZE : Nat) : ℚ) / (MAX_EXP_NUM * 2)⌋ =
      (k : ℤ) := by
    rw [Int.floor_eq_iff]
    have e : (x + MAX_EXP_NUM) * ((DEF_EXP_TABLE_SIZE : Nat) : ℚ) / (MAX_EXP_NUM * 2) =
        (x + 20) * 25 := by
      norm_num [MAX_EXP_NUM, DEF_EXP_TABLE_SIZE]
      ring
    rw [e]
    exact ⟨by exact_mod_cast h1, by exact_mod_cast h2⟩
  unfold SigmoidTable.slot
  simp only [SigmoidTable.new]
  rw [hf, Int.toNat_ofNat, if_neg (by omega)]

/-- The table value read for the raw score `18.0625` (slot 951, argument
`18.04`). -/
theorem float_table_high (exp log : ℚ → ℚ) :
    (SigmoidTable.new exp log DEF_EXP_TABLE_SIZE).evaluate (289 / 16) =
      1 / (1 + exp (-(451 / 25))) := by
  have he := epsilon_pos
  have he1 : epsilon < 1 := by norm_num [epsilon]
  rw [evaluate_new exp log _ (by norm_num [DEF_EXP_TABLE_SIZE]),
    if_neg (by norm_num [MAX_EXP_NUM]; linarith),
    if_neg (by norm_num [MAX_EXP_NUM]; linarith),
    slot_new_eq exp log _ 951 (by norm_num [DEF_EXP_TABLE_SIZE]) (by norm_num) (by norm_num)]
  norm_num [sigmoid, safe_exp, exp_value, MAX_EXP_NUM, DEF_EXP_TABLE_SIZE]

/-- The table value read for the raw score `-16` (slot 100, argument `-16`). -/
theorem float_table_low (exp log : ℚ → ℚ) :
    (SigmoidTable.new exp log DEF_EXP_TABLE_SIZE).evaluate (-16) = 1 / (1 + exp 16) := by
  have he := epsilon_pos
  have he1 : epsilon < 1 := by norm_num [epsilon]
  rw [evaluate_new exp log _ (by norm_num [DEF_EXP_TABLE_SIZE]),
    if_neg (by norm_num [MAX_EXP_NUM]; linarith),
    if_neg (by norm_num [MAX_EXP_NUM]; linarith),
    slot_new_eq exp log _ 100 (by norm_num [DEF_EXP_TABLE_SIZE]) (by norm_num) (by norm_num)]
  norm_num [sigmoid, safe_exp, exp_value, MAX_EXP_NUM, DEF_EXP_TABLE_SIZE]

/-- The table value read for the raw score `24`: saturated. -/
theorem float_table_saturated (exp log : ℚ → ℚ) :
    (SigmoidTable.new exp log DEF_EXP_TABLE_SIZE).evaluate 24 = 1 := by
  have he1 : epsilon < 1 := by norm_num [epsilon]
  rw [evaluate_new exp log _ (by norm_num [DEF_EXP_TABLE_SIZE]),
    if_pos (by norm_num [MAX_EXP_NUM]; linarith)]

/-- A value just below 1 converts to the `float` `1`. -/
theorem to_float_near_one (e : ℚ) (h0 : 0 < e) (h1 : e ≤ 1 / 2 ^ 26) :
    to_float (1 / (1 + e)) = 1 := by
  have hpos : (0 : ℚ) < 1 + e := by linarith
  have hx1 : 1 / (1 + e) < 1 := by
    rw [div_lt_one hpos]
    linarith
  have hx2 : 1 - 1 / 2 ^ 26 ≤ 1 / (1 + e) := by
    rw [le_div_iff₀ hpos]
    nlinarith
  have hx0 : (0 : ℚ) < 1 / (1 + e) := by positivity
  have h := to_float_eval (1 / (1 + e)) (-1) (2 ^ 24) (by norm_num)
    (by rw [abs_of_pos hx0]; norm_num; norm_num at hx2; linarith)
    (by rw [abs_of_pos hx0]; norm_num; norm_num at hx1; linarith)
    (Or.inl (by
      norm_num
      rw [abs_lt]
      norm_num at hx1 hx2
      constructor <;> linarith))
  rw [h]
  norm_num

/-- On the `float` sample the gradient of the pair `(0, 0)` converts to zero:
the table value is below 1 and becomes the `float` `1`. -/
theorem float_model_positive_grad (exp log : ℚ → ℚ) (hpos : ∀ x, 0 < exp x)
    (hsmall : exp (-(451 / 25)) ≤ 1 / 2 ^ 26) :
    to_float (to_float ((float_model exp log).alpha_ * 1) *
      (to_float ((float_model exp log).sigmoid_table_.evaluate
        (apply_noise_T to_float none 0
          ((float_model exp log).PredictRaw_T to_float 0 0).1)) - 1)) = 0 := by
  rw [(float_model_raw exp log).1]
  show to_float (_ * (to_float ((SigmoidTable.new exp log DEF_EXP_TABLE_SIZE).evaluate
    (289 / 16)) - 1)) = 0
  rw [float_table_high, to_float_near_one _ (hpos _) hsmall, sub_self, mul_zero, to_float_zero]

/-- For every `exp` with `exp(-18.04) ≤ 2⁻²⁶` (as `e^(-18.04) = 1.46e-8` is)
the call leaves the score of the pair `(0, 0)` of the `float` sample as it
was. -/
theorem float_positive_absorbed (exp log : ℚ → ℚ) (hpos : ∀ x, 0 < exp x)
    (hsmall : exp (-(451 / 25)) ≤ 1 / 2 ^ 26) :
    (((float_model exp log).Update_T to_float 0 0 [] none 1).2.PredictRaw_T to_float 0 0).1 =
      ((float_model exp log).PredictRaw_T to_float 0 0).1 :=
  rounded_positive_update_fixed to_float to_float_rounding _ (float_model_allocated exp log)
    (float_model_stored exp log) 0 0 none 1 (by norm_num [float_model])
    (by norm_num [float_model]) (float_model_positive_grad exp log hpos hsmall)

/-- On the `float` sample the positive pair `(1, 1)` is saturated: its gradient
is zero. -/
theorem float_model_saturated_grad (exp log : ℚ → ℚ) :
    to_float (to_float ((float_model exp log).alpha_ * 1) *
      (to_float ((float_model exp log).sigmoid_table_.evaluate
        (apply_noise_T to_float none 1
          ((float_model exp log).PredictRaw_T to_float 1 1).1)) - 1)) = 0 := by
  rw [(float_model_raw exp log).2.1]
  show to_float (_ * (to_float ((SigmoidTable.new exp log DEF_EXP_TABLE_SIZE).evaluate
    24) - 1)) = 0
  rw [float_table_saturated, to_float_one, sub_self, mul_zero, to_float_zero]

/-- A step of at most `2⁻²⁵` is absorbed by a cell of magnitude 4. -/
theorem to_float_absorb (w : ℚ) (h0 : 0 ≤ w) (h1 : w ≤ 1 / 2 ^ 25) :
    to_float (4 + w) = 4 ∧ to_float (-4 - w) = -4 := by
  have h : to_float (4 + w) = 4 := by
    have := to_float_eval (4 + w) 2 (2 ^ 23) (by norm_num)
      (by rw [abs_of_pos (by linarith)]; norm_num; exact h0)
      (by rw [abs_of_pos (by linarith)]; norm_num; norm_num at h1; linarith)
      (Or.inl (by
        norm_num
        rw [abs_lt]
        norm_num at h1
        constructor <;> linarith))
    rw [this]
    norm_num
  refine ⟨h, ?_⟩
  rw [show -4 - w = -(4 + w) by ring, to_float_neg, h]

/-- The gradient of the negative pair `(1, 2)` of the `float` sample is at most
`2⁻²⁷` when `exp(16) ≥ 2²³` (as `e^16 = 8.9e6` is). -/
theorem float_model_negative_grad (exp log : ℚ → ℚ) (hbig : 2 ^ 23 ≤ exp 16) :
    0 ≤ to_float (to_float ((float_model exp log).alpha_ * 1) *
      to_float ((float_model exp log).sigmoid_table_.evaluate
        (apply_noise_T to_float none 2
          ((float_model exp log).PredictRaw_T to_float 1 2).1))) ∧
    to_float (to_float ((float_model exp log).alpha_ * 1) *
      to_float ((float_model exp log).sigmoid_table_.evaluate
        (apply_noise_T to_float none 2
          ((float_model exp log).PredictRaw_T to_float 1 2).1))) ≤ 1 / 2 ^ 27 := by
  rw [(float_model_raw exp log).2.2]
  show 0 ≤ to_float (to_float (1 / 16 * 1) *
      to_float ((SigmoidTable.new exp log DEF_EXP_TABLE_SIZE).evaluate (-16))) ∧
    to_float (to_float (1 / 16 * 1) *
      to_float ((SigmoidTable.new exp log DEF_EXP_TABLE_SIZE).evaluate (-16))) ≤ 1 / 2 ^ 27
  rw [float_table_low, mul_one, to_float_sixteenth]
  have hE : (0 : ℚ) < 1 + exp 16 := by linarith
  have hv0 : (0 : ℚ) ≤ 1 / (1 + exp 16) := by positivity
  have hv1 : 1 / (1 + exp 16) ≤ 1 / 2 ^ 23 := by
    apply div_le_div_of_nonneg_left zero_le_one (by norm_num)
    linarith
  have h23 : to_float (1 / 2 ^ 23) = 1 / 2 ^ 23 := by
    have := to_float_two_pow (-23) (by norm_num)
    norm_num at this ⊢
    exact this
  have h27 : to_float (1 / 2 ^ 27) = 1 / 2 ^ 27 := by
    have := to_float_two_pow (-27) (by norm_num)
    norm_num at this ⊢
    exact this
  have a0 : 0 ≤ to_float (1 / (1 + exp 16)) := by
    have := to_float_mono hv0
    rwa [to_float_zero] at this
  have a1 : to_float (1 / (1 + exp 16)) ≤ 1 / 2 ^ 23 := by
    have := to_float_mono hv1
    rwa [h23] at this
  constructor
  · have := to_float_mono (show (0 : ℚ) ≤ 1 / 16 * to_float (1 / (1 + exp 16)) by positivity)
    rwa [to_float_zero] at this
  · have := to_float_mono
      (show 1 / 16 * to_float (1 / (1 + exp 16)) ≤ 1 / 2 ^ 27 by norm_num at a1 ⊢; linarith)
    rwa [h27] at this

/-- For every `exp` with `exp(16) ≥ 2²³` the call with positive pair `(1, 1)`
and negative target 2 leaves the score of the pair `(1, 2)` of the `float`
sample at `-16`. -/
theorem float_negative_absorbed (exp log : ℚ → ℚ) (hbig : 2 ^ 23 ≤ exp 16) :
    (((float_model exp log).Update_T to_float 1 1 [2] none 1).2.PredictRaw_T to_float 1 2).1 =
      ((float_model exp log).PredictRaw_T to_float 1 2).1 := by
  obtain ⟨hg0, hg1⟩ := float_model_negative_grad exp log hbig
  rw [negative_update_score to_float to_float_rounding _ (float_model_allocated exp log)
    (float_model_stored exp log) 1 1 2 none 1 (by norm_num [float_model])
    (by norm_num [float_model]) (by norm_num [float_model])
    (float_model_saturated_grad exp log)]
  generalize to_float (to_float ((float_model exp log).alpha_ * 1) *
      to_float ((float_model exp log).sigmoid_table_.evaluate
        (apply_noise_T to_float none 2
          ((float_model exp log).PredictRaw_T to_float 1 2).1))) = g at hg0 hg1 ⊢
  rw [(float_model_raw exp log).2.2]
  have h25 : to_float (1 / 2 ^ 25) = 1 / 2 ^ 25 := by
    have := to_float_two_pow (-25) (by norm_num)
    norm_num at this ⊢
    exact this
  have w0 : 0 ≤ to_float (g * 4) := by
    have := to_float_mono (show (0 : ℚ) ≤ g * 4 by linarith)
    rwa [to_float_zero] at this
  have w1 : to_float (g * 4) ≤ 1 / 2 ^ 25 := by
    have := to_float_mono (show g * 4 ≤ 1 / 2 ^ 25 by norm_num at hg1 ⊢; linarith)
    rwa [h25] at this
  have v0 : 0 ≤ to_float (to_float (g * 4)) := by
    have := to_float_mono w0
    rwa [to_float_zero] at this
  have v1 : to_float (to_float (g * 4)) ≤ 1 / 2 ^ 25 := by
    have := to_float_mono w1
    rwa [h25] at this
  have e2 := (to_float_absorb _ v0 v1).1
  have e3 := (to_float_absorb _ w0 w1).2
  have e4 : to_float 16 = 16 := to_float_sample_cells.2.2.2.2
  simp only [float_model, List.range, List.range.loop, List.foldl_cons, List.foldl_nil]
  norm_num
  simp only [to_float_neg, neg_neg]
  rw [e2, e3]
  norm_num [to_float_neg, e4]

theorem step_exp_pos : ∀ t : ℚ, 0 < step_exp t := fun _ => zpow_pos (by norm_num) _

theorem step_exp_values : step_exp (-(451 / 25)) ≤ 1 / 2 ^ 26 ∧ 2 ^ 23 ≤ step_exp 16 := by
  have h1 : ⌊(3 : ℚ) * (-(451 / 25)) / 2⌋ = -28 := by
    rw [Int.floor_eq_iff]
    constructor <;> norm_num
  have h2 : ⌊(3 : ℚ) * 16 / 2⌋ = 24 := by
    rw [Int.floor_eq_iff]
    constructor <;> norm_num
  unfold step_exp
  rw [h1, h2]
  constructor <;> norm_num

theorem float_sample_exact_raw :
    (float_sample.PredictRaw 0 0).1 = 289 / 16 ∧ (float_sample.PredictRaw 1 1).1 = 24 ∧
      (float_sample.PredictRaw 1 2).1 = -16 := by
  refine ⟨?_, ?_, ?_⟩
  · rw [PredictRaw_fst float_sample 0 0 (by norm_num [float_sample, float_model])
      (by norm_num [float_sample, float_model])]
    norm_num [dot, row, float_sample, float_model]
  · rw [PredictRaw_fst float_sample 1 1 (by norm_num [float_sample, float_model])
      (by norm_num [float_sample, float_model])]
    norm_num [dot, row, float_sample, float_model]
  · rw [PredictRaw_fst float_sample 1 2 (by norm_num [float_sample, float_model])
      (by norm_num [float_sample, float_model])]
    norm_num [dot, row, float_sample, float_model]

/-! ## `Update` in exact arithmetic: the score of the updated pair -/

/-- In exact arithmetic one `Update` call with a positive pair and no negatives
makes the score of the pair strictly greater, when the rows are not both zero
and the table value is below 1. -/
theorem exact_positive_update (m : BiWord2VecModel) (hm : m.Allocated)
    (exp log : ℚ → ℚ) (hpos : ∀ x, 0 < exp x)
    (htbl : m.sigmoid_table_ = SigmoidTable.new exp log DEF_EXP_TABLE_SIZE)
    (source_id target_id : Nat) (noise : Option (Nat → ℚ)) (decay : ℚ)
    (hs : source_id < m.source_size_) (ht : target_id < m.target_size_)
    (hrows : ∃ i, i < m.hidden_size_ ∧
      (row m.source_hidden_ m.hidden_size_ source_id i ≠ 0 ∨
       row m.target_hidden_ m.hidden_size_ target_id i ≠ 0))
    (had : 0 < m.alpha_ * decay) (had1 : m.alpha_ * decay ≤ 1)
    (hsat : m.sigmoid_table_.evaluate
      (apply_noise noise target_id (m.PredictRaw source_id target_id).1) < 1) :
    (m.PredictRaw source_id target_id).1 <
      ((m.Update source_id target_id [] noise decay).2.PredictRaw source_id target_id).1 := by
  obtain ⟨_, e2, e3, e4, e5, e6⟩ := update_spec m hm source_id target_id [] noise decay hs ht
    (fun n hn => absurd hn (List.not_mem_nil n))
  have hb := evaluate_new_bounds exp log hpos DEF_EXP_TABLE_SIZE
    (by norm_num [DEF_EXP_TABLE_SIZE])
    (apply_noise noise target_id (m.PredictRaw source_id target_id).1)
  rw [← htbl] at hb
  rw [PredictRaw_fst (m.Update source_id target_id [] noise decay).2 source_id target_id
      (by rw [e5]; exact hs) (by rw [e6]; exact ht), e4,
    PredictRaw_fst m source_id target_id hs ht]
  rw [apply_noise_raw m source_id target_id hs ht noise] at hsat hb
  have hc0 : 0 < m.alpha_ * decay * (1 - m.sigmoid_table_.evaluate
      (raw_score m.hidden_size_ (row m.source_hidden_ m.hidden_size_ source_id) noise
        (fun u => row m.target_hidden_ m.hidden_size_ u) target_id)) :=
    mul_pos had (by linarith)
  have hc1 : m.alpha_ * decay * (1 - m.sigmoid_table_.evaluate
      (raw_score m.hidden_size_ (row m.source_hidden_ m.hidden_size_ source_id) noise
        (fun u => row m.target_hidden_ m.hidden_size_ u) target_id)) ≤ 1 := by
    have h1 : (1 - m.sigmoid_table_.evaluate
      (raw_score m.hidden_size_ (row m.source_hidden_ m.hidden_size_ source_id) noise
        (fun u => row m.target_hidden_ m.hidden_size_ u) target_id)) ≤ 1 := by linarith [hb.1]
    calc m.alpha_ * decay * (1 - m.sigmoid_table_.evaluate
          (raw_score m.hidden_size_ (row m.source_hidden_ m.hidden_size_ source_id) noise
            (fun u => row m.target_hidden_ m.hidden_size_ u) target_id))
        ≤ m.alpha_ * decay * 1 := mul_le_mul_of_nonneg_left h1 had.le
      _ ≤ 1 := by linarith
  have hstep := dot_step_gt m.hidden_size_ (row m.source_hidden_ m.hidden_size_ source_id)
    (row m.target_hidden_ m.hidden_size_ target_id) _ hc0 hc1 hrows
  refine lt_of_lt_of_eq hstep (dot_congr _ _ _ _ _ (fun i hi => ?_) (fun i hi => ?_)).symm
  · rw [e3 i hi]
    simp [spec_step, spec_term, term_grad]
    ring
  · rw [e2 target_id ht i hi]
    simp [spec_step, spec_term, term_grad]
    ring

/-- In exact arithmetic an `Update` call in which only the negative pair
contributes a gradient makes the score of the negative pair strictly smaller. -/
theorem exact_negative_update (m : BiWord2VecModel) (hm : m.Allocated)
    (exp log : ℚ → ℚ) (hpos : ∀ x, 0 < exp x)
    (htbl : m.sigmoid_table_ = SigmoidTable.new exp log DEF_EXP_TABLE_SIZE)
    (source_id target_id n : Nat) (noise : Option (Nat → ℚ)) (decay : ℚ)
    (hs : source_id < m.source_size_) (ht : target_id < m.target_size_)
    (hn : n < m.target_size_) (hne : n ≠ target_id)
    (hgrad : m.alpha_ * decay * (m.sigmoid_table_.evaluate
      (apply_noise noise target_id (m.PredictRaw source_id target_id).1) - 1) = 0)
    (had : 0 < m.alpha_ * decay) (had1 : m.alpha_ * decay ≤ 1)
    (hsig : 0 < m.sigmoid_table_.evaluate
      (apply_noise noise n (m.PredictRaw source_id n).1))
    (hrows : ∃ i, i < m.hidden_size_ ∧
      (row m.source_hidden_ m.hidden_size_ source_id i ≠ 0 ∨
       row m.target_hidden_ m.hidden_size_ n i ≠ 0)) :
    ((m.Update source_id target_id [n] noise decay).2.PredictRaw source_id n).1 <
      (m.PredictRaw source_id n).1 := by
  obtain ⟨_, e2, e3, e4, e5, e6⟩ := update_spec m hm source_id target_id [n] noise decay hs ht
    (by intro k hk; rw [List.mem_singleton.mp hk]; exact hn)
  have hb := evaluate_new_bounds exp log hpos DEF_EXP_TABLE_SIZE
    (by norm_num [DEF_EXP_TABLE_SIZE])
    (apply_noise noise n (m.PredictRaw source_id n).1)
  rw [← htbl] at hb
  rw [PredictRaw_fst (m.Update source_id target_id [n] noise decay).2 source_id n
      (by rw [e5]; exact hs) (by rw [e6]; exact hn), e4,
    PredictRaw_fst m source_id n hs hn]
  rw [apply_noise_raw m source_id n hs hn noise] at hsig hb
  rw [apply_noise_raw m source_id target_id hs ht noise, mul_comm m.alpha_ decay] at hgrad
  have hc0 : 0 < m.alpha_ * decay * m.sigmoid_table_.evaluate
      (raw_score m.hidden_size_ (row m.source_hidden_ m.hidden_size_ source_id) noise
        (fun u => row m.target_hidden_ m.hidden_size_ u) n) := mul_pos had hsig
  have hc1 : m.alpha_ * decay * m.sigmoid_table_.evaluate
      (raw_score m.hidden_size_ (row m.source_hidden_ m.hidden_size_ source_id) noise
        (fun u => row m.target_hidden_ m.hidden_size_ u) n) ≤ 1 := by
    calc m.alpha_ * decay * m.sigmoid_table_.evaluate
          (raw_score m.hidden_size_ (row m.source_hidden_ m.hidden_size_ source_id) noise
            (fun u => row m.target_hidden_ m.hidden_size_ u) n)
        ≤ m.alpha_ * decay * 1 := mul_le_mul_of_nonneg_left hb.2 had.le
      _ ≤ 1 := by linarith
  have hstep := dot_step_lt m.hidden_size_ (row m.source_hidden_ m.hidden_size_ source_id)
    (row m.target_hidden_ m.hidden_size_ n) _ hc0 hc1 hrows
  have hraw : raw_score m.hidden_size_ (row m.source_hidden_ m.hidden_size_ source_id) noise
      (Function.update (fun u => row m.target_hidden_ m.hidden_size_ u) target_id
        (fun i => row m.target_hidden_ m.hidden_size_ target_id i -
          0 * row m.source_hidden_ m.hidden_size_ source_id i)) n =
      raw_score m.hidden_size_ (row m.source_hidden_ m.hidden_size_ source_id) noise
        (fun u => row m.target_hidden_ m.hidden_size_ u) n := by
    unfold raw_score
    simp only [Function.update_noteq hne]
  refine lt_of_eq_of_lt (dot_congr _ _ _ _ _ (fun i hi => ?_) (fun i hi => ?_)) hstep
  · rw [e3 i hi]
    simp only [spec_step, spec_term, term_grad, List.foldl_cons, List.foldl_nil, if_true,
      Bool.false_eq_true, if_false, hgrad, hraw, Function.update_noteq hne]
    ring
  · rw [e2 n hn i hi]
    simp only [spec_step, spec_term, term_grad, List.foldl_cons, List.foldl_nil, if_true,
      Bool.false_eq_true, if_false, hgrad, hraw, Function.update_same]
    simp only [Function.update_noteq hne]
    ring

/-! ## The claims -/

/-- C1, the claim fails: for the weights `2^53 - 2` and `2^53` both normalised
weights are within `epsilon` of 1, `util_less` sorts both indices into `larger`,
both slots get `alias_prob_ = 1`, and the table gives position 0 the mass 1
where `n * weight_0 / total` is `(2^53 - 2) / (2^53 - 1)`. -/
theorem alias_table_not_exact :
    table_mass (AliasSampler.new [(0, 2 ^ 53 - 2), (1, 2 ^ 53)]) 0 = 1 ∧
    (2 : ℚ) * (2 ^ 53 - 2) / weight_sum [(0, 2 ^ 53 - 2), (1, 2 ^ 53)] ≠ 1 := by
  have hnew : AliasSampler.new [(0, 2 ^ 53 - 2), (1, 2 ^ 53)] =
      { alias_ := [0, 0], alias_prob_ := [1, 1], data_index_ := [0, 1] } := by
    norm_num [AliasSampler.new, AliasSampler.Init, normalise, weight_sum, split_indices,
      List.range, List.range.loop, work_loop, clamp_rest, util_less, util_equal, epsilon, abs_lt,
      List.replicate]
  constructor
  · rw [hnew]
    norm_num [table_mass, Finset.sum_range_succ]
  · norm_num [weight_sum]

/-- C1 as amended: for a non-empty list with positive total, the table built
by `Init` encodes the weight distribution up to the tolerance of `util_less`:
for every position `j` the mass `alias_prob[j] + Σ_{alias[i] = j} (1 - alias_prob[i])`
differs from `n * weight_j / total` by less than `n * epsilon`, and equals it
whenever `alias_prob[j]` is not 1 (position `j` was paired in the work loop
rather than left over). -/
theorem alias_table_mass (dw : List (Nat × ℚ)) (hne : dw ≠ [])
    (hpos : 0 < weight_sum dw) (j : Nat) (hj : j < dw.length) :
    |table_mass (AliasSampler.new dw) j -
        (dw.length : ℚ) * (dw.getD j (0, 0)).2 / weight_sum dw| < (dw.length : ℚ) * epsilon ∧
    ((AliasSampler.new dw).alias_prob_.getD j 0 ≠ 1 →
      table_mass (AliasSampler.new dw) j =
        (dw.length : ℚ) * (dw.getD j (0, 0)).2 / weight_sum dw) := by
  obtain ⟨hinv, hsm⟩ := final_state dw hpos
  have hp0 : (normalise dw).getD j 0 =
      (dw.length : ℚ) * (dw.getD j (0, 0)).2 / weight_sum dw := by
    rw [normalise_getD dw j hj]; ring
  rw [alias_new_eq dw hne, table_mass_of_state _ _ _ hinv _ j hj]
  simp only
  rw [hp0, clamp_rest_getD _ _ _ hinv j hj]
  have he := epsilon_pos
  have hn : (0 : ℚ) < (dw.length : ℚ) := Nat.cast_pos.mpr (by omega)
  by_cases hact : j ∈ (work_loop dw.length
        { probs := normalise dw,
          smaller := (split_indices (normalise dw) dw.length).1,
          larger := (split_indices (normalise dw) dw.length).2,
          alias_ := List.replicate dw.length 0,
          alias_prob_ := List.replicate dw.length 0 }).smaller ++
      (work_loop dw.length
        { probs := normalise dw,
          smaller := (split_indices (normalise dw) dw.length).1,
          larger := (split_indices (normalise dw) dw.length).2,
          alias_ := List.replicate dw.length 0,
          alias_prob_ := List.replicate dw.length 0 }).larger
  · rw [if_pos hact, if_pos hact]
    refine ⟨?_, fun hc => absurd rfl hc⟩
    have hj2 := hact
    rw [hsm, List.nil_append] at hj2
    have := leftover_bound _ _ _ hinv hsm j hj2
    rw [add_sub_cancel_left]
    exact this
  · rw [if_neg hact, if_neg hact]
    refine ⟨?_, fun _ => by ring⟩
    rw [add_zero, sub_self, abs_zero]
    exact mul_pos hn he

/-- C1 as amended, for the weights 0 and 1 at position 0. -/
theorem alias_table_mass_witness :
    |table_mass (AliasSampler.new [(7, 0), (8, 1)]) 0 -
        (([(7, 0), (8, 1)] : List (Nat × ℚ)).length : ℚ) *
          (([(7, 0), (8, 1)] : List (Nat × ℚ)).getD 0 (0, 0)).2 /
          weight_sum [(7, 0), (8, 1)]| <
      (([(7, 0), (8, 1)] : List (Nat × ℚ)).length : ℚ) * epsilon :=
  (alias_table_mass [(7, 0), (8, 1)] (by simp) (by norm_num [weight_sum]) 0 (by simp)).1

/-- C2: one `Update` call is the described SGD step.  For in-range ids on an
allocated model, every target row after the call is the row the term-by-term
description (`spec_step`: raw score from the pre-call source row and the
current target row, minus the noise value when a noise function is given;
gradient `decay * alpha * (sigmoid - 1)` for the positive term and
`decay * alpha * sigmoid` for a negative one; target row minus `g` times the
pre-call source row) produces, and the source row is its pre-call value minus
the accumulated sum of `g_k` times the row of target `k` just before term `k`.
With no negatives: `target' = target - g * source` and
`source' = source - g * target`, on the pre-call rows. -/
theorem update_sgd_step (m : BiWord2VecModel) (hm : m.Allocated) (source_id target_id : Nat)
    (negatives : List Nat) (noise : Option (Nat → ℚ)) (decay : ℚ)
    (hs : source_id < m.source_size_) (ht : target_id < m.target_size_)
    (hn : ∀ n, n ∈ negatives → n < m.target_size_) :
    (∀ u, u < m.target_size_ → ∀ i, i < m.hidden_size_ →
      row (m.Update source_id target_id negatives noise decay).2.target_hidden_
          m.hidden_size_ u i =
        (spec_step m source_id target_id negatives noise decay).rows u i) ∧
    (∀ i, i < m.hidden_size_ →
      row (m.Update source_id target_id negatives noise decay).2.source_hidden_
          m.hidden_size_ source_id i =
        row m.source_hidden_ m.hidden_size_ source_id i -
          (spec_step m source_id target_id negatives noise decay).acc i) ∧
    (∀ i, i < m.hidden_size_ →
      row (m.Update source_id target_id [] noise decay).2.target_hidden_
          m.hidden_size_ target_id i =
        row m.target_hidden_ m.hidden_size_ target_id i -
          decay * m.alpha_ *
            (m.sigmoid_table_.evaluate
              (apply_noise noise target_id (m.PredictRaw source_id target_id).1) - 1) *
            row m.source_hidden_ m.hidden_size_ source_id i ∧
      row (m.Update source_id target_id [] noise decay).2.source_hidden_
          m.hidden_size_ source_id i =
        row m.source_hidden_ m.hidden_size_ source_id i -
          decay * m.alpha_ *
            (m.sigmoid_table_.evaluate
              (apply_noise noise target_id (m.PredictRaw source_id target_id).1) - 1) *
            row m.target_hidden_ m.hidden_size_ target_id i) := by
  obtain ⟨_, h2, h3, _⟩ := update_spec m hm source_id target_id negatives noise decay hs ht hn
  refine ⟨h2, h3, fun i hi => ?_⟩
  obtain ⟨_, e2, e3, _⟩ := update_spec m hm source_id target_id [] noise decay hs ht
    (fun n hn => absurd hn (List.not_mem_nil n))
  rw [e2 target_id ht i hi, e3 i hi, apply_noise_raw m source_id target_id hs ht noise]
  simp [spec_step, spec_term, term_grad]

/-- C2 on the sample model: source 0, positive target 0, negative target 1. -/
theorem update_sgd_step_witness :
    (∀ u, u < sample_model.target_size_ → ∀ i, i < sample_model.hidden_size_ →
      row (sample_model.Update 0 0 [1] none 1).2.target_hidden_ sample_model.hidden_size_ u i =
        (spec_step sample_model 0 0 [1] none 1).rows u i) ∧
    (∀ i, i < sample_model.hidden_size_ →
      row (sample_model.Update 0 0 [1] none 1).2.source_hidden_ sample_model.hidden_size_ 0 i =
        row sample_model.source_hidden_ sample_model.hidden_size_ 0 i -
          (spec_step sample_model 0 0 [1] none 1).acc i) :=
  have h := update_sgd_step sample_model sample_model_allocated 0 0 [1] none 1
    (by norm_num [sample_model]) (by norm_num [sample_model])
    (by intro n hn; rw [List.mem_singleton.mp hn]; norm_num [sample_model])
  ⟨h.1, h.2.1⟩

/-- C3, the claim fails: with the weights `[(7, 0), (8, 1)]` the entry at
position 0 has weight 0, yet slot 1 (left over, `alias_prob_ = 1`, `alias_`
still the initial 0) hands it out when the uniform real is `1`: `draw` returns
position 0 and `sampling` returns its index 7. -/
theorem zero_weight_entry_drawn :
    (([(7, 0), (8, 1)] : List (Nat × ℚ)).getD 0 (0, 0)).2 = 0 ∧
    (AliasSampler.new [(7, 0), (8, 1)]).alias_.getD 1 0 = 0 ∧
    (AliasSampler.new [(7, 0), (8, 1)]).draw 1 1 = 0 ∧
    (AliasSampler.new [(7, 0), (8, 1)]).sampling 1 1 = 7 := by
  have h01 : util_less 0 1 = true := util_less_zero_one
  have h11 : util_less 1 1 = false := by
    norm_num [util_less, util_equal, epsilon, abs_lt]
  have h21 : util_less 2 1 = false := by
    norm_num [util_less, util_equal, epsilon, abs_lt]
  have hnew : AliasSampler.new [(7, 0), (8, 1)] =
      { alias_ := [1, 0], alias_prob_ := [0, 1], data_index_ := [7, 8] } := by
    norm_num [AliasSampler.new, AliasSampler.Init, normalise, weight_sum, split_indices,
      List.range, List.range.loop, work_loop, clamp_rest, h01, h11, h21, List.replicate]
  rw [hnew]
  refine ⟨rfl, rfl, ?_, ?_⟩
  · simp [AliasSampler.draw, h11]
  · simp [AliasSampler.sampling, AliasSampler.draw, h11]

/-- C3 as amended: for a non-empty list with positive total, a position `j` of
weight 0 has `alias_prob[j] = 0`; no slot paired in the work loop (a slot whose
`alias_prob` is not 1) has `j` as its alias, `j` itself included; `j` is not
among the left-over entries clamped to 1; so a draw with slot `i < n` and
`u >= 0` returns `j` only if `j = 0`, slot `i` is a left-over slot and `u` is
not `util_less` than 1, and never returns a `j` other than 0. -/
theorem zero_weight_entry (dw : List (Nat × ℚ)) (hne : dw ≠ [])
    (hpos : 0 < weight_sum dw) (j : Nat) (hj : j < dw.length)
    (hw : (dw.getD j (0, 0)).2 = 0) :
    (AliasSampler.new dw).alias_prob_.getD j 0 = 0 ∧
    (∀ i, i < dw.length → (AliasSampler.new dw).alias_prob_.getD i 0 ≠ 1 →
      (AliasSampler.new dw).alias_.getD i 0 ≠ j) ∧
    (∀ i u, i < dw.length → 0 ≤ u → (AliasSampler.new dw).draw i u = j →
      j = 0 ∧ (AliasSampler.new dw).alias_prob_.getD i 0 = 1 ∧ util_less u 1 = false) ∧
    (j ≠ 0 → ∀ i u, i < dw.length → 0 ≤ u → (AliasSampler.new dw).draw i u ≠ j) := by
  obtain ⟨hinv, hsm⟩ := final_state dw hpos
  have hz := zero_final dw hpos j hj hw
  have hmain : ∀ i u, i < dw.length → 0 ≤ u → (AliasSampler.new dw).draw i u = j →
      j = 0 ∧ (AliasSampler.new dw).alias_prob_.getD i 0 = 1 ∧ util_less u 1 = false := by
    intro i u hi hu hd
    rw [alias_new_eq dw hne] at hd ⊢
    unfold AliasSampler.draw at hd
    simp only at hd ⊢
    rw [clamp_rest_getD _ _ _ hinv i hi] at hd ⊢
    by_cases hact : i ∈ (work_loop dw.length
          { probs := normalise dw,
            smaller := (split_indices (normalise dw) dw.length).1,
            larger := (split_indices (normalise dw) dw.length).2,
            alias_ := List.replicate dw.length 0,
            alias_prob_ := List.replicate dw.length 0 }).smaller ++
        (work_loop dw.length
          { probs := normalise dw,
            smaller := (split_indices (normalise dw) dw.length).1,
            larger := (split_indices (normalise dw) dw.length).2,
            alias_ := List.replicate dw.length 0,
            alias_prob_ := List.replicate dw.length 0 }).larger
    · rw [if_pos hact] at hd ⊢
      by_cases hu1 : util_less u 1 = true
      · rw [if_pos hu1] at hd
        exfalso
        rw [hd, hsm, List.nil_append] at hact
        exact hz.not_large hact
      · rw [if_neg hu1, (hinv.fresh i hact).1] at hd
        exact ⟨hd.symm, rfl, by simpa using hu1⟩
    · rw [if_neg hact] at hd ⊢
      exfalso
      by_cases hu1 : util_less u ((work_loop dw.length
          { probs := normalise dw,
            smaller := (split_indices (normalise dw) dw.length).1,
            larger := (split_indices (normalise dw) dw.length).2,
            alias_ := List.replicate dw.length 0,
            alias_prob_ := List.replicate dw.length 0 }).alias_prob_.getD i 0) = true
      · rw [if_pos hu1] at hd
        rw [hd, hz.done_zero (by rw [hsm]; exact List.not_mem_nil j), util_less_iff] at hu1
        linarith [epsilon_pos]
      · rw [if_neg hu1] at hd
        exact hz.no_alias i hi hact hd
  refine ⟨?_, ?_, hmain, fun hj0 i u hi hu hd => hj0 (hmain i u hi hu hd).1⟩
  · rw [alias_new_eq dw hne]
    simp only
    rw [clamp_rest_getD _ _ _ hinv j hj, if_neg (by
      rw [hsm, List.nil_append]; exact hz.not_large)]
    exact hz.done_zero (by rw [hsm]; exact List.not_mem_nil j)
  · intro i hi hq
    rw [alias_new_eq dw hne] at hq ⊢
    simp only at hq ⊢
    rw [clamp_rest_getD _ _ _ hinv i hi] at hq
    by_cases hact : i ∈ (work_loop dw.length
          { probs := normalise dw,
            smaller := (split_indices (normalise dw) dw.length).1,
            larger := (split_indices (normalise dw) dw.length).2,
            alias_ := List.replicate dw.length 0,
            alias_prob_ := List.replicate dw.length 0 }).smaller ++
        (work_loop dw.length
          { probs := normalise dw,
            smaller := (split_indices (normalise dw) dw.length).1,
            larger := (split_indices (normalise dw) dw.length).2,
            alias_ := List.replicate dw.length 0,
            alias_prob_ := List.replicate dw.length 0 }).larger
    · rw [if_pos hact] at hq
      exact absurd rfl hq
    · exact hz.no_alias i hi hact

/-- C3 as amended, for the weights `[(3, 1), (7, 0), (8, 1)]` at position 1. -/
theorem zero_weight_entry_witness :
    (AliasSampler.new [(3, 1), (7, 0), (8, 1)]).alias_prob_.getD 1 0 = 0 ∧
    (∀ i u, i < ([(3, 1), (7, 0), (8, 1)] : List (Nat × ℚ)).length → 0 ≤ u →
      (AliasSampler.new [(3, 1), (7, 0), (8, 1)]).draw i u ≠ 1) :=
  have h := zero_weight_entry [(3, 1), (7, 0), (8, 1)] (by simp) (by norm_num [weight_sum]) 1
    (by simp) (by simp)
  ⟨h.1, h.2.2.2 (by norm_num)⟩

/-- C4: for a single-element input `[(idx, w)]`, `sampling()` returns `idx` for
every sequence of values the random engine can hand to the distributions (any
slot, any real; any number of draws), for `AliasSampler`, `MultinomialSampler`
and `RandomSampler`. -/
theorem single_element_sampling (idx : Nat) (w : ℚ) :
    (∀ draws : List (Nat × ℚ),
      draws.map (fun d => (AliasSampler.new [(idx, w)]).sampling d.1 d.2) =
        List.replicate draws.length idx) ∧
    (∀ draws : List ℚ,
      draws.map (fun u => (MultinomialSampler.new [(idx, w)]).sampling u) =
        List.replicate draws.length idx) ∧
    (∀ draws : List Nat,
      draws.map (fun slot => (RandomSampler.new [(idx, w)]).sampling slot) =
        List.replicate draws.length idx) := by
  refine ⟨fun draws => ?_, fun draws => ?_, fun draws => ?_⟩
  · rw [List.eq_replicate_iff]
    refine ⟨List.length_map _ _, fun b hb => ?_⟩
    obtain ⟨d, _, rfl⟩ := List.mem_map.mp hb
    exact alias_sampling_single idx w d.1 d.2
  · rw [List.eq_replicate_iff]
    refine ⟨List.length_map _ _, fun b hb => ?_⟩
    obtain ⟨d, _, rfl⟩ := List.mem_map.mp hb
    exact multinomial_sampling_single idx w d
  · rw [List.eq_replicate_iff]
    refine ⟨List.length_map _ _, fun b hb => ?_⟩
    obtain ⟨d, _, rfl⟩ := List.mem_map.mp hb
    exact random_sampling_single idx w d

/-- C5, the claim fails for the shipped `T = float`: on the `float` sample,
for source 0 and target 0 (rows `[4.25]` and `[4.25]`, raw score 18.0625,
`alpha * decay = 1/16`), every hypothesis holds - in-range ids, non-zero rows,
a sigmoid table value below 1 - but the table value converts to the `float`
`1`, the gradient is zero, and the score after the call equals the score before
it. -/
theorem positive_update_absorbed :
    (0 < float_sample.source_size_ ∧ 0 < float_sample.target_size_) ∧
    row float_sample.source_hidden_ float_sample.hidden_size_ 0 0 ≠ 0 ∧
    (0 < float_sample.alpha_ * 1 ∧ float_sample.alpha_ * 1 ≤ 1) ∧
    float_sample.sigmoid_table_.evaluate
      (apply_noise_T to_float none 0 (float_sample.PredictRaw_T to_float 0 0).1) < 1 ∧
    ((float_sample.Update_T to_float 0 0 [] none 1).2.PredictRaw_T to_float 0 0).1 =
      (float_sample.PredictRaw_T to_float 0 0).1 := by
  refine ⟨by norm_num [float_sample, float_model], by norm_num [row, float_sample, float_model],
    by norm_num [float_sample, float_model], ?_,
    float_positive_absorbed step_exp (fun _ => 0) step_exp_pos step_exp_values.1⟩
  show (SigmoidTable.new step_exp (fun _ => 0) DEF_EXP_TABLE_SIZE).evaluate
    (apply_noise_T to_float none 0 ((float_model step_exp (fun _ => 0)).PredictRaw_T
      to_float 0 0).1) < 1
  rw [(float_model_raw step_exp (fun _ => 0)).1]
  show (SigmoidTable.new step_exp (fun _ => 0) DEF_EXP_TABLE_SIZE).evaluate (289 / 16) < 1
  rw [float_table_high, div_lt_one (by linarith [step_exp_pos (-(451 / 25))])]
  linarith [step_exp_pos (-(451 / 25))]

/-- C5, as amended.  For an allocated model with the constructor's table, in-range
ids and `0 < alpha * decay <= 1`, one `Update` call with that positive pair and
no negatives:
(1) at `T = float`, whatever each `float` operation rounds to (`fl` monotone,
sign-symmetric, exact at 1; the cells are `float` values; no overflow), leaves
`PredictRaw(source_id, target_id)` not smaller than before the call;
(2) in exact arithmetic, when the two rows are not both zero and the sigmoid
table value of the raw score is below 1, makes it strictly greater. -/
theorem positive_update_monotone (m : BiWord2VecModel) (hm : m.Allocated)
    (exp log : ℚ → ℚ) (hpos : ∀ x, 0 < exp x)
    (htbl : m.sigmoid_table_ = SigmoidTable.new exp log DEF_EXP_TABLE_SIZE)
    (source_id target_id : Nat) (noise : Option (Nat → ℚ)) (decay : ℚ)
    (hs : source_id < m.source_size_) (ht : target_id < m.target_size_)
    (had : 0 < m.alpha_ * decay) (had1 : m.alpha_ * decay ≤ 1) :
    (∀ fl : ℚ → ℚ, Rounding fl → m.Stored fl →
      (m.PredictRaw_T fl source_id target_id).1 ≤
        ((m.Update_T fl source_id target_id [] noise decay).2.PredictRaw_T fl
          source_id target_id).1) ∧
    ((∃ i, i < m.hidden_size_ ∧
        (row m.source_hidden_ m.hidden_size_ source_id i ≠ 0 ∨
         row m.target_hidden_ m.hidden_size_ target_id i ≠ 0)) →
      m.sigmoid_table_.evaluate
        (apply_noise noise target_id (m.PredictRaw source_id target_id).1) < 1 →
      (m.PredictRaw source_id target_id).1 <
        ((m.Update source_id target_id [] noise decay).2.PredictRaw source_id target_id).1) :=
  ⟨fun fl hfl hst =>
      rounded_positive_update fl hfl m hm hst exp log hpos htbl source_id target_id noise decay
        hs ht had had1,
    fun hrows hsat =>
      exact_positive_update m hm exp log hpos htbl source_id target_id noise decay hs ht hrows
        had had1 hsat⟩

/-- C5 as amended, on the `float` sample with `to_float` as the rounding:
source 0 and target 0, `decay = 1`. -/
theorem positive_update_monotone_witness :
    (float_sample.PredictRaw_T to_float 0 0).1 ≤
      ((float_sample.Update_T to_float 0 0 [] none 1).2.PredictRaw_T to_float 0 0).1 ∧
    (float_sample.PredictRaw 0 0).1 <
      ((float_sample.Update 0 0 [] none 1).2.PredictRaw 0 0).1 :=
  ⟨(positive_update_monotone float_sample (float_model_allocated _ _) step_exp (fun _ => 0)
      step_exp_pos rfl 0 0 none 1 (by norm_num [float_sample, float_model])
      (by norm_num [float_sample, float_model]) (by norm_num [float_sample, float_model])
      (by norm_num [float_sample, float_model])).1 to_float to_float_rounding
      (float_model_stored _ _),
   (positive_update_monotone float_sample (float_model_allocated _ _) step_exp (fun _ => 0)
      step_exp_pos rfl 0 0 none 1 (by norm_num [float_sample, float_model])
      (by norm_num [float_sample, float_model]) (by norm_num [float_sample, float_model])
      (by norm_num [float_sample, float_model])).2
      ⟨0, by norm_num [float_sample, float_model],
        Or.inl (by norm_num [row, float_sample, float_model])⟩
      (by
        rw [float_sample_exact_raw.1]
        show (SigmoidTable.new step_exp (fun _ => 0) DEF_EXP_TABLE_SIZE).evaluate (289 / 16) < 1
        rw [float_table_high, div_lt_one (by linarith [step_exp_pos (-(451 / 25))])]
        linarith [step_exp_pos (-(451 / 25))])⟩

/-- C6, the claim fails for the shipped `T = float`: on the `float` sample,
for source 1 (row `[4]`), positive target 1 (row `[6]`, raw score 24, saturated,
gradient zero) and negative target 2 (row `[-4]`, raw score -16, table value
positive), with `alpha * decay = 1/16`, every hypothesis holds, but the step is
absorbed when the two cells are updated and the score of the negative pair
after the call equals the score before it. -/
theorem negative_update_absorbed :
    (1 < float_sample.source_size_ ∧ 1 < float_sample.target_size_ ∧
      2 < float_sample.target_size_) ∧
    row float_sample.source_hidden_ float_sample.hidden_size_ 1 0 ≠ 0 ∧
    (0 < float_sample.alpha_ * 1 ∧ float_sample.alpha_ * 1 ≤ 1) ∧
    to_float (to_float (float_sample.alpha_ * 1) *
      (to_float (float_sample.sigmoid_table_.evaluate
        (apply_noise_T to_float none 1 (float_sample.PredictRaw_T to_float 1 1).1)) - 1)) = 0 ∧
    0 < float_sample.sigmoid_table_.evaluate
      (apply_noise_T to_float none 2 (float_sample.PredictRaw_T to_float 1 2).1) ∧
    ((float_sample.Update_T to_float 1 1 [2] none 1).2.PredictRaw_T to_float 1 2).1 =
      (float_sample.PredictRaw_T to_float 1 2).1 := by
  refine ⟨by norm_num [float_sample, float_model], by norm_num [row, float_sample, float_model],
    by norm_num [float_sample, float_model], float_model_saturated_grad step_exp (fun _ => 0),
    ?_, float_negative_absorbed step_exp (fun _ => 0) step_exp_values.2⟩
  show 0 < (SigmoidTable.new step_exp (fun _ => 0) DEF_EXP_TABLE_SIZE).evaluate
    (apply_noise_T to_float none 2 ((float_model step_exp (fun _ => 0)).PredictRaw_T
      to_float 1 2).1)
  rw [(float_model_raw step_exp (fun _ => 0)).2.2]
  show 0 < (SigmoidTable.new step_exp (fun _ => 0) DEF_EXP_TABLE_SIZE).evaluate (-16)
  rw [float_table_low]
  have := step_exp_pos 16
  positivity

/-- C6, as amended.  For an allocated model with the constructor's table, in-range
ids and `0 < alpha * decay <= 1`, one `Update` call with one negative target `n`
in which the positive term's gradient is zero:
(1) at `T = float`, whatever each `float` operation rounds to (`fl` monotone,
sign-symmetric, exact at 1; the cells are `float` values; no overflow), leaves
`PredictRaw(source_id, n)` not greater than before the call;
(2) in exact arithmetic, when `n` is not the positive target, the sigmoid table
value of `n`'s raw score is positive and the source row and `n`'s row are not
both zero, makes it strictly smaller. -/
theorem negative_update_monotone (m : BiWord2VecModel) (hm : m.Allocated)
    (exp log : ℚ → ℚ) (hpos : ∀ x, 0 < exp x)
    (htbl : m.sigmoid_table_ = SigmoidTable.new exp log DEF_EXP_TABLE_SIZE)
    (source_id target_id n : Nat) (noise : Option (Nat → ℚ)) (decay : ℚ)
    (hs : source_id < m.source_size_) (ht : target_id < m.target_size_)
    (hn : n < m.target_size_)
    (had : 0 < m.alpha_ * decay) (had1 : m.alpha_ * decay ≤ 1) :
    (∀ fl : ℚ → ℚ, Rounding fl → m.Stored fl →
      fl (fl (m.alpha_ * decay) * (fl (m.sigmoid_table_.evaluate
        (apply_noise_T fl noise target_id (m.PredictRaw_T fl source_id target_id).1)) - 1))
          = 0 →
      ((m.Update_T fl source_id target_id [n] noise decay).2.PredictRaw_T fl source_id n).1 ≤
        (m.PredictRaw_T fl source_id n).1) ∧
    (n ≠ target_id →
      m.alpha_ * decay * (m.sigmoid_table_.evaluate
        (apply_noise noise target_id (m.PredictRaw source_id target_id).1) - 1) = 0 →
      0 < m.sigmoid_table_.evaluate (apply_noise noise n (m.PredictRaw source_id n).1) →
      (∃ i, i < m.hidden_size_ ∧
        (row m.source_hidden_ m.hidden_size_ source_id i ≠ 0 ∨
         row m.target_hidden_ m.hidden_size_ n i ≠ 0)) →
      ((m.Update source_id target_id [n] noise decay).2.PredictRaw source_id n).1 <
        (m.PredictRaw source_id n).1) :=
  ⟨fun fl hfl hst hgrad =>
      rounded_negative_update fl hfl m hm hst exp log hpos htbl source_id target_id n noise
        decay hs ht hn had had1 hgrad,
    fun hne hgrad hsig hrows =>
      exact_negative_update m hm exp log hpos htbl source_id target_id n noise decay hs ht hn
        hne hgrad had had1 hsig hrows⟩

/-- C6 as amended, on the `float` sample with `to_float` as the rounding:
source 1, positive target 1 (saturated), negative target 2, `decay = 1`. -/
theorem negative_update_monotone_witness :
    ((float_sample.Update_T to_float 1 1 [2] none 1).2.PredictRaw_T to_float 1 2).1 ≤
      (float_sample.PredictRaw_T to_float 1 2).1 ∧
    ((float_sample.Update 1 1 [2] none 1).2.PredictRaw 1 2).1 <
      (float_sample.PredictRaw 1 2).1 :=
  ⟨(negative_update_monotone float_sample (float_model_allocated _ _) step_exp (fun _ => 0)
      step_exp_pos rfl 1 1 2 none 1 (by norm_num [float_sample, float_model])
      (by norm_num [float_sample, float_model]) (by norm_num [float_sample, float_model])
      (by norm_num [float_sample, float_model])
      (by norm_num [float_sample, float_model])).1 to_float to_float_rounding
      (float_model_stored _ _) (float_model_saturated_grad step_exp (fun _ => 0)),
   (negative_update_monotone float_sample (float_model_allocated _ _) step_exp (fun _ => 0)
      step_exp_pos rfl 1 1 2 none 1 (by norm_num [float_sample, float_model])
      (by norm_num [float_sample, float_model]) (by norm_num [float_sample, float_model])
      (by norm_num [float_sample, float_model])
      (by norm_num [float_sample, float_model])).2 (by norm_num)
      (by
        rw [float_sample_exact_raw.2.1]
        show float_sample.alpha_ * 1 *
          ((SigmoidTable.new step_exp (fun _ => 0) DEF_EXP_TABLE_SIZE).evaluate 24 - 1) = 0
        rw [float_table_saturated, sub_self, mul_zero])
      (by
        rw [float_sample_exact_raw.2.2]
        show 0 < (SigmoidTable.new step_exp (fun _ => 0) DEF_EXP_TABLE_SIZE).evaluate (-16)
        rw [float_table_low]
        have := step_exp_pos 16
        positivity)
      ⟨0, by norm_num [float_sample, float_model],
        Or.inl (by norm_num [row, float_sample, float_model])⟩⟩

/-- C7: `Update` returns the summed loss of the call: `-LogSigmoid(r_p)` for the
positive pair plus `-LogSigmoid(-r_j)` for each negative `j`, every raw score
being the dot product of the source row with the target's row when the term
is processed, reduced by the noise value when a noise function is given.  With
no negatives the result is `-LogSigmoid(r_p)`; each further negative `n` adds
`-LogSigmoid(-r_n)`. -/
theorem update_loss (m : BiWord2VecModel) (hm : m.Allocated) (source_id target_id : Nat)
    (negatives : List Nat) (noise : Option (Nat → ℚ)) (decay : ℚ)
    (hs : source_id < m.source_size_) (ht : target_id < m.target_size_)
    (hn : ∀ n, n ∈ negatives → n < m.target_size_) :
    (m.Update source_id target_id negatives noise decay).1 =
      (spec_step m source_id target_id negatives noise decay).loss ∧
    (m.Update source_id target_id [] noise decay).1 =
      -(m.sigmoid_table_.LogSigmoid
        (raw_score m.hidden_size_ (row m.source_hidden_ m.hidden_size_ source_id) noise
          (fun u => row m.target_hidden_ m.hidden_size_ u) target_id)) ∧
    (∀ n, n < m.target_size_ →
      (m.Update source_id target_id (negatives ++ [n]) noise decay).1 =
        (m.Update source_id target_id negatives noise decay).1 +
          -(m.sigmoid_table_.LogSigmoid
            (-(raw_score m.hidden_size_ (row m.source_hidden_ m.hidden_size_ source_id) noise
              (spec_step m source_id target_id negatives noise decay).rows n)))) := by
  refine ⟨(update_spec m hm source_id target_id negatives noise decay hs ht hn).1, ?_,
    fun n hnr => ?_⟩
  · rw [(update_spec m hm source_id target_id [] noise decay hs ht
      (fun n hn => absurd hn (List.not_mem_nil n))).1]
    simp [spec_step, spec_term, term_loss]
  · have hn2 : ∀ k, k ∈ negatives ++ [n] → k < m.target_size_ := by
      intro k hk
      rcases List.mem_append.mp hk with hk | hk
      · exact hn k hk
      · rw [List.mem_singleton.mp hk]; exact hnr
    rw [(update_spec m hm source_id target_id (negatives ++ [n]) noise decay hs ht hn2).1,
      (update_spec m hm source_id target_id negatives noise decay hs ht hn).1]
    simp [spec_step, spec_term, term_loss, List.foldl_append]

/-- C7 on the sample model: source 0, positive target 0, negative target 1. -/
theorem update_loss_witness :
    (sample_model.Update 0 0 [1] none 1).1 = (spec_step sample_model 0 0 [1] none 1).loss :=
  (update_loss sample_model sample_model_allocated 0 0 [1] none 1
    (by norm_num [sample_model]) (by norm_num [sample_model])
    (by intro n hn; rw [List.mem_singleton.mp hn]; norm_num [sample_model])).1

/-- C8: `PredictRaw(source_id, target_id)` returns 0 when `source_id >= source_size`
or `target_id >= target_size`, otherwise the dot product of source row
`source_id` and target row `target_id` over the `hidden_size` components, and
the model after the call is the model before it. -/
theorem predict_raw_contract (m : BiWord2VecModel) (source_id target_id : Nat) :
    ((m.source_size_ ≤ source_id ∨ m.target_size_ ≤ target_id) →
        (m.PredictRaw source_id target_id).1 = 0) ∧
    ((source_id < m.source_size_ ∧ target_id < m.target_size_) →
        (m.PredictRaw source_id target_id).1 =
          dot m.hidden_size_ (row m.source_hidden_ m.hidden_size_ source_id)
            (row m.target_hidden_ m.hidden_size_ target_id)) ∧
    (m.PredictRaw source_id target_id).2 = m :=
  ⟨PredictRaw_out_of_range m source_id target_id,
   fun h => PredictRaw_fst m source_id target_id h.1 h.2,
   PredictRaw_snd m source_id target_id⟩

/-- C9, the claim fails at both boundary points: whatever positive function
stands for `std::exp`, `operator[]` returns neither 0 at `x = -20` nor 1 at
`x = 20` (it reads the first and the last table slot there). -/
theorem evaluate_boundary_not_saturated :
    ¬ ∃ exp log : ℚ → ℚ, (∀ t, 0 < exp t) ∧
      ((SigmoidTable.new exp log DEF_EXP_TABLE_SIZE).evaluate (-20) = 0 ∨
       (SigmoidTable.new exp log DEF_EXP_TABLE_SIZE).evaluate 20 = 1) := by
  rintro ⟨exp, log, hpos, h⟩
  have hn : 0 < DEF_EXP_TABLE_SIZE := by norm_num [DEF_EXP_TABLE_SIZE]
  have he := epsilon_pos
  rcases h with h | h
  · rw [evaluate_new exp log _ hn, if_neg (by norm_num [MAX_EXP_NUM]; linarith),
      if_neg (by norm_num [MAX_EXP_NUM]; linarith)] at h
    exact absurd h (sigmoid_pos exp hpos _).ne'
  · rw [evaluate_new exp log _ hn, if_neg (by norm_num [MAX_EXP_NUM]; linarith),
      if_neg (by norm_num [MAX_EXP_NUM]; linarith)] at h
    exact absurd h (sigmoid_lt_one exp hpos _).ne

/-- C9 as amended: `operator[]` returns exactly 0 for every `x <= -20 - epsilon`
and exactly 1 for every `x >= 20 + epsilon` (`epsilon` the tolerance of
`util_less` / `util_greater`); at `x = -20` it returns the first table entry,
`sigmoid(-20)`, and at `x = 20` the last one, `sigmoid(19.96)`. -/
theorem evaluate_saturation (exp log : ℚ → ℚ) (x : ℚ) :
    (x ≤ -20 - epsilon → (SigmoidTable.new exp log DEF_EXP_TABLE_SIZE).evaluate x = 0) ∧
    (20 + epsilon ≤ x → (SigmoidTable.new exp log DEF_EXP_TABLE_SIZE).evaluate x = 1) ∧
    (SigmoidTable.new exp log DEF_EXP_TABLE_SIZE).evaluate (-20) = sigmoid exp (-20) ∧
    (SigmoidTable.new exp log DEF_EXP_TABLE_SIZE).evaluate 20 = sigmoid exp (499 / 25) := by
  have hn : 0 < DEF_EXP_TABLE_SIZE := by norm_num [DEF_EXP_TABLE_SIZE]
  have he := epsilon_pos
  refine ⟨fun hx => ?_, fun hx => ?_, ?_, ?_⟩
  · rw [evaluate_new exp log _ hn, if_neg (by norm_num [MAX_EXP_NUM]; linarith),
      if_pos (by norm_num [MAX_EXP_NUM]; linarith)]
  · rw [evaluate_new exp log _ hn, if_pos (by norm_num [MAX_EXP_NUM]; linarith)]
  · rw [evaluate_new exp log _ hn, if_neg (by norm_num [MAX_EXP_NUM]; linarith),
      if_neg (by norm_num [MAX_EXP_NUM]; linarith)]
    congr 1
    norm_num [SigmoidTable.slot, SigmoidTable.new, MAX_EXP_NUM, DEF_EXP_TABLE_SIZE, exp_value]
  · rw [evaluate_new exp log _ hn, if_neg (by norm_num [MAX_EXP_NUM]; linarith),
      if_neg (by norm_num [MAX_EXP_NUM]; linarith)]
    congr 1
    norm_num [SigmoidTable.slot, SigmoidTable.new, MAX_EXP_NUM, DEF_EXP_TABLE_SIZE, exp_value]

/-- C9 as amended, at `x = -21` and `x = 21`. -/
theorem evaluate_saturation_witness :
    (SigmoidTable.new (fun x => max x 0 + 1) (fun _ => 0) DEF_EXP_TABLE_SIZE).evaluate (-21) = 0 ∧
    (SigmoidTable.new (fun x => max x 0 + 1) (fun _ => 0) DEF_EXP_TABLE_SIZE).evaluate 21 = 1 :=
  ⟨(evaluate_saturation (fun x => max x 0 + 1) (fun _ => 0) (-21)).1
      (by norm_num [epsilon]),
   (evaluate_saturation (fun x => max x 0 + 1) (fun _ => 0) 21).2.1
      (by norm_num [epsilon])⟩

/-- C10: `operator[]` of the table built by the constructor is monotonically
non-decreasing over all of `ℚ` (table slots and both saturated regions), when
the function standing for `std::exp` is positive and monotone. -/
theorem evaluate_monotone (exp log : ℚ → ℚ) (hpos : ∀ t, 0 < exp t) (hmono : Monotone exp)
    (x y : ℚ) (hxy : x ≤ y) :
    (SigmoidTable.new exp log DEF_EXP_TABLE_SIZE).evaluate x ≤
      (SigmoidTable.new exp log DEF_EXP_TABLE_SIZE).evaluate y :=
  evaluate_new_mono exp log hpos hmono DEF_EXP_TABLE_SIZE (by norm_num [DEF_EXP_TABLE_SIZE])
    x y hxy

/-- C10 at `x = -3`, `y = 5`, with `max x 0 + 1` standing for `std::exp`. -/
theorem evaluate_monotone_witness :
    (∀ t : ℚ, 0 < max t 0 + 1) ∧ Monotone (fun t : ℚ => max t 0 + 1) ∧ (-3 : ℚ) ≤ 5 ∧
    (SigmoidTable.new (fun t => max t 0 + 1) (fun _ => 0) DEF_EXP_TABLE_SIZE).evaluate (-3) ≤
      (SigmoidTable.new (fun t => max t 0 + 1) (fun _ => 0) DEF_EXP_TABLE_SIZE).evaluate 5 :=
  have hpos : ∀ t : ℚ, 0 < max t 0 + 1 := fun t =>
    lt_of_lt_of_le zero_lt_one (le_add_of_nonneg_left (le_max_right t 0))
  have hmono : Monotone (fun t : ℚ => max t 0 + 1) := fun a b hab =>
    add_le_add_right (max_le_max hab (le_refl 0)) 1
  ⟨hpos, hmono, by norm_num,
    evaluate_monotone (fun t => max t 0 + 1) (fun _ => 0) hpos hmono (-3) 5 (by norm_num)⟩

/-- C11, what the code does: above the domain (`x >= 20 + epsilon`, for one
`x = 21`) `LogSigmoid` returns 1 where `operator[]` returns 1, so it is not the
logarithm of that value (`log 1 = 0`); inside the domain
(`-20 - epsilon < x < 20 + epsilon`) both read the same slot and `LogSigmoid(x)`
is `safe_log` of the value `operator[]` returns. -/
theorem log_sigmoid_saturation (exp log : ℚ → ℚ) :
    (SigmoidTable.new exp log DEF_EXP_TABLE_SIZE).LogSigmoid 21 = 1 ∧
    (SigmoidTable.new exp log DEF_EXP_TABLE_SIZE).evaluate 21 = 1 ∧
    (∀ x, 20 + epsilon ≤ x →
      (SigmoidTable.new exp log DEF_EXP_TABLE_SIZE).LogSigmoid x = 1 ∧
      (SigmoidTable.new exp log DEF_EXP_TABLE_SIZE).evaluate x = 1) ∧
    (∀ x, -20 - epsilon < x → x < 20 + epsilon →
      (SigmoidTable.new exp log DEF_EXP_TABLE_SIZE).LogSigmoid x =
        safe_log log ((SigmoidTable.new exp log DEF_EXP_TABLE_SIZE).evaluate x)) := by
  have hn : 0 < DEF_EXP_TABLE_SIZE := by norm_num [DEF_EXP_TABLE_SIZE]
  have he1 : epsilon < 1 := by norm_num [epsilon]
  have hsat : ∀ x, 20 + epsilon ≤ x →
      (SigmoidTable.new exp log DEF_EXP_TABLE_SIZE).LogSigmoid x = 1 ∧
      (SigmoidTable.new exp log DEF_EXP_TABLE_SIZE).evaluate x = 1 := by
    intro x hx
    have hx2 : MAX_EXP_NUM + epsilon ≤ x := by norm_num [MAX_EXP_NUM]; linarith
    constructor
    · rw [log_sigmoid_new exp log _ hn, if_pos hx2]
    · rw [evaluate_new exp log _ hn, if_pos hx2]
  refine ⟨(hsat 21 (by linarith)).1, (hsat 21 (by linarith)).2, hsat, fun x h1 h2 => ?_⟩
  have hx1 : ¬ MAX_EXP_NUM + epsilon ≤ x := by norm_num [MAX_EXP_NUM]; linarith
  have hx2 : ¬ x + epsilon ≤ -MAX_EXP_NUM := by norm_num [MAX_EXP_NUM]; linarith
  rw [log_sigmoid_new exp log _ hn, evaluate_new exp log _ hn]
  simp only [if_neg hx1, if_neg hx2]

/-- C12: after any sequence of inserting `SearchWord` calls on a fresh
`WordTable`, the table holds the distinct tokens, each once, in
first-occurrence order: `size()` is the number of distinct tokens; call `k`
returns the number of distinct tokens that occur before the first occurrence
of its token (the `n`-th distinct token receives id `n - 1`); a later lookup of
a token returns the same id and leaves the table as it is; `WordAt` of that id
is the token; and `SearchWord(WordAt(i)) = i` for every `i < size()`. -/
theorem word_table_ids (words : List String) :
    (search_all words WordTable.new).2.word_vec_.Nodup ∧
    (∀ w, w ∈ (search_all words WordTable.new).2.word_vec_ ↔ w ∈ words) ∧
    (search_all words WordTable.new).2.size = words.toFinset.card ∧
    (search_all words WordTable.new).1.length = words.length ∧
    (∀ k, k < words.length →
      (search_all words WordTable.new).1.getD k 0 =
        (words.take (words.indexOf (words.getD k ""))).toFinset.card ∧
      (search_all words WordTable.new).2.SearchWord (words.getD k "") =
        ((search_all words WordTable.new).1.getD k 0, (search_all words WordTable.new).2) ∧
      (search_all words WordTable.new).2.WordAt ((search_all words WordTable.new).1.getD k 0) =
        words.getD k "") ∧
    (∀ i, i < (search_all words WordTable.new).2.size →
      ((search_all words WordTable.new).2.SearchWord
        ((search_all words WordTable.new).2.WordAt i)).1 = i) := by
  have h := table_after words
  refine ⟨h.nodup, h.mem_iff, h.card, h.ids_length, fun k hk => ?_, fun i hi => ?_⟩
  · have hm : words.getD k "" ∈ (search_all words WordTable.new).2.word_vec_ :=
      (h.mem_iff _).mpr (getD_mem_str words k hk)
    have hlt := List.indexOf_lt_length.mpr hm
    refine ⟨h.ids_rank k hk, ?_, ?_⟩
    · rw [SearchWord_of_mem _ h.valid _ hm, h.ids_index k hk]
    · rw [h.ids_index k hk]
      unfold WordTable.WordAt
      rw [if_neg (not_le.mpr hlt)]
      exact getD_indexOf_str _ _ hm
  · unfold WordTable.size at hi
    have hw : (search_all words WordTable.new).2.WordAt i =
        (search_all words WordTable.new).2.word_vec_.getD i "" := by
      unfold WordTable.WordAt
      rw [if_neg (not_le.mpr hi)]
    have hm := getD_mem_str _ i hi
    rw [hw, SearchWord_of_mem _ h.valid _ hm]
    show List.indexOf _ _ = i
    rw [List.getD_eq_getElem?_getD, List.getElem?_eq_getElem hi]
    exact List.indexOf_getElem h.nodup i hi

/-- C13: after `load_data` (one parser thread) on any sequence of lines, starting
from a fresh `DataManager`, the source ids occurring in the stored samples are
exactly the ids below `source_size()` and the target ids occurring are exactly
the ids below `target_size()`; so every stored sample has
`source_id < source_size` and `target_id < target_size`. -/
theorem loaded_ids (atof : List Char → ℚ) (lines : List (List Char)) :
    (∀ i, i < (DataManager.new.load_data atof (some lines)).2.source_size ↔
      ∃ s, s ∈ (DataManager.new.load_data atof (some lines)).2.samples_ ∧ s.source_ = i) ∧
    (∀ i, i < (DataManager.new.load_data atof (some lines)).2.target_size ↔
      ∃ s, s ∈ (DataManager.new.load_data atof (some lines)).2.samples_ ∧ s.target_ = i) ∧
    (∀ s, s ∈ (DataManager.new.load_data atof (some lines)).2.samples_ →
      s.source_ < (DataManager.new.load_data atof (some lines)).2.source_size ∧
      s.target_ < (DataManager.new.load_data atof (some lines)).2.target_size) := by
  have h := load_lines_inv atof lines DataManager.new load_inv_new
  refine ⟨h.source_ids, h.target_ids, fun s hs => ?_⟩
  exact ⟨(h.source_ids _).mpr ⟨s, hs, rfl⟩, (h.target_ids _).mpr ⟨s, hs, rfl⟩⟩

/-- C14, counterexample.  The share is computed in `size_t`: for
`training_words = 1`, `iteration = 2^64 - 1` and 2 threads the grand total is
`T = 2^64 - 1`, the sum `T + 2 - 1` wraps to 0, and each of the 2 workers
processes no example at all (here on the sample corpus), not
`ceil(T / 2) = 2^63`. -/
theorem share_overflow :
    (∃ r, BiWord2VecTrainer.new.Train sample_environment sample_file "m" (1 / 40) 2 (2 ^ 64 - 1)
        2 1 2 0 LossType.LOSS_LINE = .ok r ∧
      r.launched = 2 ∧ r.calls = [[], []]) ∧
    grand_total 1 (DataManager.new.load_data sample_environment.atof sample_file).2.size
      (2 ^ 64 - 1) = 2 ^ 64 - 1 ∧
    ⌈((2 ^ 64 - 1 : ℕ) : ℚ) / (2 : ℕ)⌉₊ = 2 ^ 63 := by
  refine ⟨train_share_wraps sample_environment sample_file "m" (1 / 40) 2 2 0
    LossType.LOSS_LINE, ?_, ?_⟩
  · norm_num [grand_total]
  · rw [← ceil_div_eq _ _ (by omega)]
    norm_num

/-- C14, amended.  When the corpus yields at least one sample, `thread_count ≥ 1`
and `T + thread_count - 1 < 2^64` for the grand total `T = training_words *
iteration` (the sample count in place of a `training_words` of 0), `Train`
finishes, it starts `thread_count` workers, each worker calls `Update` exactly
`ceil(T / thread_count)` times, each time with exactly `negative` negative ids,
and the shares sum to at least `T` and to less than `T + thread_count`. -/
theorem worker_shares (env : Environment) (file : Option (List (List Char)))
    (model_path : String) (alpha : ℚ)
    (hidden_size iteration negative training_words num_threads : Nat)
    (weight_neg_sampling : ℚ) (method : LossType)
    (hsamples : 0 < (DataManager.new.load_data env.atof file).2.size)
    (hthreads : 1 ≤ num_threads)
    (hrange : grand_total training_words (DataManager.new.load_data env.atof file).2.size
      iteration + num_threads - 1 < SIZE_T_RANGE) :
    ∃ r, BiWord2VecTrainer.new.Train env file model_path alpha hidden_size iteration negative
        training_words num_threads weight_neg_sampling method = .ok r ∧
      r.launched = num_threads ∧ r.calls.length = num_threads ∧
      (∀ c ∈ r.calls,
        c.length = ⌈(grand_total training_words
          (DataManager.new.load_data env.atof file).2.size iteration : ℚ) / num_threads⌉₊ ∧
        ∀ u ∈ c, u.negative_targets.length = negative) ∧
      grand_total training_words (DataManager.new.load_data env.atof file).2.size iteration
        ≤ (r.calls.map List.length).sum ∧
      (r.calls.map List.length).sum <
        grand_total training_words (DataManager.new.load_data env.atof file).2.size iteration
          + num_threads := by
  obtain ⟨ds, ts, hd, ht, hv⟩ := prepare_samplers env file alpha hidden_size iteration negative
    training_words num_threads weight_neg_sampling method hsamples
  have hmax : max num_threads 1 = num_threads := max_eq_left hthreads
  obtain ⟨ctx1, log1, hw, hlen, hmem, -⟩ := run_workers_ok _ env ds ts hd ht hv
    (List.range (max num_threads 1))
    (BiWord2VecTrainer.new.prepare env file alpha hidden_size iteration negative training_words
      num_threads weight_neg_sampling method).2 []
    (by show num_threads ≠ 0; omega)
  obtain ⟨r, hr, -, hl, -, -, hc⟩ := train_of_workers BiWord2VecTrainer.new env file model_path
    alpha hidden_size iteration negative training_words num_threads weight_neg_sampling method
    ctx1 log1 hw
  have hshare : local_training_words
      (BiWord2VecTrainer.new.prepare env file alpha hidden_size iteration negative training_words
        num_threads weight_neg_sampling method).2.training_words
      (BiWord2VecTrainer.new.prepare env file alpha hidden_size iteration negative training_words
        num_threads weight_neg_sampling method).2.iteration
      (BiWord2VecTrainer.new.prepare env file alpha hidden_size iteration negative training_words
        num_threads weight_neg_sampling method).2.num_threads
      = (grand_total training_words (DataManager.new.load_data env.atof file).2.size iteration
          + num_threads - 1) / num_threads :=
    share_no_overflow _ _ hthreads hrange
  rw [hshare] at hmem
  have hall : ∀ c ∈ r.calls,
      c.length = (grand_total training_words (DataManager.new.load_data env.atof file).2.size
          iteration + num_threads - 1) / num_threads ∧
        ∀ u ∈ c, u.negative_targets.length = negative := by
    intro c hcm
    rw [hc] at hcm
    rcases hmem c hcm with h | h
    · simp at h
    · exact h
  have hlen2 : r.calls.length = num_threads := by
    rw [hc, hlen, hmax]
    simp
  have hsum := sum_lengths r.calls _ (fun c hcm => (hall c hcm).1)
  have h1 := Nat.div_mul_le_self
    (grand_total training_words (DataManager.new.load_data env.atof file).2.size iteration
      + num_threads - 1) num_threads
  have h2 := Nat.lt_div_mul_add (a := grand_total training_words
    (DataManager.new.load_data env.atof file).2.size iteration + num_threads - 1)
    (b := num_threads) (by omega)
  rw [hlen2, Nat.mul_comm] at hsum
  refine ⟨r, hr, hl.trans hmax, hlen2, ?_, ?_, ?_⟩
  · intro c hcm
    rw [← ceil_div_eq _ _ hthreads]
    exact hall c hcm
  · rw [hsum]
    omega
  · rw [hsum]
    omega

/-- C14, witness: the sample corpus (one sample), `training_words = 0`, 3
iterations, 2 negatives, 2 threads. -/
theorem worker_shares_witness :
    0 < (DataManager.new.load_data sample_environment.atof sample_file).2.size ∧
      1 ≤ 2 ∧
      grand_total 0 (DataManager.new.load_data sample_environment.atof sample_file).2.size 3
        + 2 - 1 < SIZE_T_RANGE ∧
      ∃ r, BiWord2VecTrainer.new.Train sample_environment sample_file "m" (1 / 40) 2 3 2 0 2 0
          LossType.LOSS_LINE = .ok r ∧
        r.launched = 2 ∧ r.calls.length = 2 ∧
        (∀ c ∈ r.calls,
          c.length = ⌈(grand_total 0
            (DataManager.new.load_data sample_environment.atof sample_file).2.size 3 : ℚ)
              / (2 : ℕ)⌉₊ ∧
          ∀ u ∈ c, u.negative_targets.length = 2) ∧
        grand_total 0 (DataManager.new.load_data sample_environment.atof sample_file).2.size 3
          ≤ (r.calls.map List.length).sum ∧
        (r.calls.map List.length).sum <
          grand_total 0 (DataManager.new.load_data sample_environment.atof sample_file).2.size 3
            + 2 :=
  ⟨by decide, by decide, by decide,
    worker_shares sample_environment sample_file "m" (1 / 40) 2 3 2 0 2 0 LossType.LOSS_LINE
      (by decide) (by decide) (by decide)⟩

/-- C15, the code against the claim.  When the corpus yields no samples both
builders return the null pointer, and `Train` neither checks them nor returns
`false`: it starts its workers all the same.  With `training_words = 1`, one
iteration and one thread the worker calls `data_sampler_->sampling()` through
the null pointer in its first pass; with `training_words = 0` the worker is
started with an empty share and `Train` reports success. -/
theorem train_empty_corpus (env : Environment) (file : Option (List (List Char)))
    (model_path : String) (alpha : ℚ) (hidden_size negative : Nat) (weight_neg_sampling : ℚ)
    (method : LossType)
    (hempty : (DataManager.new.load_data env.atof file).2.size = 0) :
    (BiWord2VecTrainer.new.prepare env file alpha hidden_size 1 negative 1 1
        weight_neg_sampling method).1.data_sampler_ = none ∧
      (BiWord2VecTrainer.new.prepare env file alpha hidden_size 1 negative 1 1
        weight_neg_sampling method).1.target_sampler_ = none ∧
      BiWord2VecTrainer.new.Train env file model_path alpha hidden_size 1 negative 1 1
        weight_neg_sampling method = .null_dereference ∧
      ∃ r, BiWord2VecTrainer.new.Train env file model_path alpha hidden_size 1 negative 0 1
          weight_neg_sampling method = .ok r ∧
        r.returned = true ∧ r.launched = 1 ∧ r.calls = [[]] := by
  have hlen : (DataManager.new.load_data env.atof file).2.samples_.length = 0 := hempty
  obtain ⟨hd, ht⟩ := data_sampler_none _ hlen
  have hd1 : (BiWord2VecTrainer.new.prepare env file alpha hidden_size 1 negative 1 1
      weight_neg_sampling method).1.data_sampler_ = none := hd
  refine ⟨hd1, ht _ _, ?_, ?_⟩
  · have hshare : local_training_words 1 1 1 = 1 := by
      norm_num [local_training_words, to_size_t, SIZE_T_RANGE]
    have hctx : (BiWord2VecTrainer.new.prepare env file alpha hidden_size 1 negative 1 1
        weight_neg_sampling method).2.training_words = 1 := by
      simp only [BiWord2VecTrainer.prepare]
      rfl
    have hthread : (BiWord2VecTrainer.new.prepare env file alpha hidden_size 1 negative 1 1
        weight_neg_sampling method).1.TrainThread env 0
        (BiWord2VecTrainer.new.prepare env file alpha hidden_size 1 negative 1 1
          weight_neg_sampling method).2 = .null_dereference := by
      unfold BiWord2VecTrainer.TrainThread
      rw [if_neg (by show (1 : ℕ) ≠ 0; omega)]
      dsimp only
      rw [hctx]
      have hit : (BiWord2VecTrainer.new.prepare env file alpha hidden_size 1 negative 1 1
          weight_neg_sampling method).2.iteration = 1 := rfl
      have hnt : (BiWord2VecTrainer.new.prepare env file alpha hidden_size 1 negative 1 1
          weight_neg_sampling method).2.num_threads = 1 := rfl
      rw [hit, hnt, hshare]
      show run_passes _ [0] _ = _
      rw [run_passes, train_step, hd1]
    apply train_of_null
    have hr : List.range (max 1 1) = [0] := rfl
    rw [hr, run_workers_single, hthread]
  · have hn : (BiWord2VecTrainer.new.prepare env file alpha hidden_size 1 negative 0 1
        weight_neg_sampling method).2.num_threads ≠ 0 := by
      show (1 : ℕ) ≠ 0
      omega
    have h0 : local_training_words
        (BiWord2VecTrainer.new.prepare env file alpha hidden_size 1 negative 0 1
          weight_neg_sampling method).2.training_words
        (BiWord2VecTrainer.new.prepare env file alpha hidden_size 1 negative 0 1
          weight_neg_sampling method).2.iteration
        (BiWord2VecTrainer.new.prepare env file alpha hidden_size 1 negative 0 1
          weight_neg_sampling method).2.num_threads = 0 := by
      have hb : BiWord2VecTrainer.new.data_manager_ = DataManager.new := rfl
      simp only [BiWord2VecTrainer.prepare, hb, hempty, local_training_words, to_size_t,
        SIZE_T_RANGE]
      norm_num
    obtain ⟨r, hr, hret, hl, -, -, hc⟩ := train_of_workers BiWord2VecTrainer.new env file
      model_path alpha hidden_size 1 negative 0 1 weight_neg_sampling method _ _
      (run_workers_zero _ env _ hn h0 (List.range (max 1 1)) [])
    refine ⟨r, hr, hret, hl, ?_⟩
    rw [hc]
    rfl

/-- C15, witness: the corpus file cannot be opened. -/
theorem train_empty_corpus_witness :
    (DataManager.new.load_data sample_environment.atof none).2.size = 0 ∧
      (BiWord2VecTrainer.new.prepare sample_environment none (1 / 40) 2 1 5 1 1 0
          LossType.LOSS_LINE).1.data_sampler_ = none ∧
      (BiWord2VecTrainer.new.prepare sample_environment none (1 / 40) 2 1 5 1 1 0
          LossType.LOSS_LINE).1.target_sampler_ = none ∧
      BiWord2VecTrainer.new.Train sample_environment none "m" (1 / 40) 2 1 5 1 1 0
          LossType.LOSS_LINE = .null_dereference ∧
      ∃ r, BiWord2VecTrainer.new.Train sample_environment none "m" (1 / 40) 2 1 5 0 1 0
            LossType.LOSS_LINE = .ok r ∧
          r.returned = true ∧ r.launched = 1 ∧ r.calls = [[]] :=
  ⟨rfl, train_empty_corpus sample_environment none "m" (1 / 40) 2 5 0 LossType.LOSS_LINE rfl⟩

/-- C16, the claim fails for a non-numeric third field: the line `a b xyz` has
the three fields `a`, `b`, `xyz`, and whatever `atof` returns for `xyz`,
`parse_data` returns true and `load_data` stores a sample for the line. -/
theorem parse_data_non_numeric :
    fields ['a', ' ', 'b', ' ', 'x', 'y', 'z', '\n'] = [['a'], ['b'], ['x', 'y', 'z']] ∧
    ¬ ∃ atof : List Char → ℚ,
      (DataManager.new.parse_data atof ['a', ' ', 'b', ' ', 'x', 'y', 'z', '\n'] Sample.new).1
          = false ∨
      (DataManager.new.load_data atof
          (some [['a', ' ', 'b', ' ', 'x', 'y', 'z', '\n']])).2.samples_.length ≠ 1 := by
  have hf : fields ['a', ' ', 'b', ' ', 'x', 'y', 'z', '\n'] = [['a'], ['b'], ['x', 'y', 'z']] := by
    decide
  refine ⟨hf, ?_⟩
  rintro ⟨atof, h⟩
  have hp : ∀ s, (DataManager.new.parse_data atof ['a', ' ', 'b', ' ', 'x', 'y', 'z', '\n'] s).1
      = true := by
    intro s
    rcases parse_data_fields atof DataManager.new ['a', ' ', 'b', ' ', 'x', 'y', 'z', '\n'] s
      with ⟨hlt, _⟩ | ⟨f1, f2, f3, rest, _, he⟩
    · rw [hf] at hlt
      simp at hlt
    · rw [he]
  rcases h with h | h
  · rw [hp] at h
    cases h
  · apply h
    rcases parse_data_fields atof DataManager.new ['a', ' ', 'b', ' ', 'x', 'y', 'z', '\n']
      Sample.new with ⟨hlt, _⟩ | ⟨f1, f2, f3, rest, _, he⟩
    · rw [hf] at hlt
      simp at hlt
    · simp only [DataManager.load_data, List.foldl_cons, List.foldl_nil,
        DataManager.load_line, he, if_true]
      rfl

/-- C16 as amended: `parse_data` returns false, leaving the sample and the
object untouched (so `load_data` stores nothing), for every line with fewer
than three whitespace-separated fields; it returns true for every line with
at least three fields, whatever the third field is: the words of the first two
fields are interned and the weight is `atof` of the third field (0 when
`util_less(weight, 0)`), and `load_data` stores that sample. -/
theorem parse_data_accepts (atof : List Char → ℚ) (dm : DataManager) (line : List Char)
    (sample : Sample) :
    ((fields line).length < 3 →
      dm.parse_data atof line sample = (false, sample, dm) ∧
      dm.load_line atof line = dm) ∧
    (∀ f1 f2 f3 rest, fields line = f1 :: f2 :: f3 :: rest →
      (dm.parse_data atof line sample).1 = true ∧
      (dm.parse_data atof line sample).2.1 =
        { source_ := (dm.source_words_.SearchWord (String.mk f1)).1,
          target_ := (dm.target_words_.SearchWord (String.mk f2)).1,
          weight_ := if util_less_at epsilon_float (atof f3) 0 then 0 else atof f3 } ∧
      (dm.load_line atof line).samples_ =
        dm.samples_ ++
          [{ source_ := (dm.source_words_.SearchWord (String.mk f1)).1,
             target_ := (dm.target_words_.SearchWord (String.mk f2)).1,
             weight_ := if util_less_at epsilon_float (atof f3) 0 then 0 else atof f3 }]) := by
  constructor
  · intro hlt
    have key : ∀ s, dm.parse_data atof line s = (false, s, dm) := by
      intro s
      rcases parse_data_fields atof dm line s with ⟨_, he⟩ | ⟨f1, f2, f3, rest, hf, _⟩
      · exact he
      · rw [hf] at hlt
        simp only [List.length_cons] at hlt
        omega
    refine ⟨key sample, ?_⟩
    unfold DataManager.load_line
    simp only [key Sample.new]
    rfl
  · intro f1 f2 f3 rest hf
    have key : ∀ s, dm.parse_data atof line s =
        (true,
         { source_ := (dm.source_words_.SearchWord (String.mk f1)).1,
           target_ := (dm.target_words_.SearchWord (String.mk f2)).1,
           weight_ := if util_less_at epsilon_float (atof f3) 0 then 0 else atof f3 },
         { dm with
           source_words_ := (dm.source_words_.SearchWord (String.mk f1)).2,
           target_words_ := (dm.target_words_.SearchWord (String.mk f2)).2 }) := by
      intro s
      rcases parse_data_fields atof dm line s with ⟨hlt, _⟩ | ⟨g1, g2, g3, rest2, hg, he⟩
      · rw [hf] at hlt
        simp only [List.length_cons] at hlt
        omega
      · rw [hf] at hg
        simp only [List.cons.injEq] at hg
        obtain ⟨rfl, rfl, rfl, _⟩ := hg
        exact he
    refine ⟨by rw [key sample], by rw [key sample], ?_⟩
    unfold DataManager.load_line
    simp only [key Sample.new]
    rfl

/-- C16 as amended, on the lines `a` (one field) and `a x 1`. -/
theorem parse_data_accepts_witness :
    (DataManager.new.parse_data (fun _ => 1) ['a', '\n'] Sample.new).1 = false ∧
    (DataManager.new.parse_data (fun _ => 1) ['a', ' ', 'x', ' ', '1', '\n'] Sample.new).1
      = true :=
  ⟨by
    rw [((parse_data_accepts (fun _ => 1) DataManager.new ['a', '\n'] Sample.new).1
      (by decide)).1],
   ((parse_data_accepts (fun _ => 1) DataManager.new ['a', ' ', 'x', ' ', '1', '\n']
      Sample.new).2 ['a'] ['x'] ['1'] [] (by decide)).1⟩

/-- C17, counterexample.  With hidden size 0 the inner loop of `Save` never
runs, so no row is terminated by a newline: for a model of 2 rows each file is
`"2 0\n0\t1\t"`, the header line followed by a single unterminated text, not by
the 2 lines `"0\t\n"`, `"1\t\n"` of the description. -/
theorem save_hidden_zero :
    (BiWord2VecModel.new (fun t => max t 0 + 1) (fun _ => 0) 2 2 0 (1 / 40)).Save
        (fun _ => "1.000000") "m" none none
        = [("m.source", "2 0\n0\t1\t"), ("m.target", "2 0\n0\t1\t")] ∧
      described_file (fun _ => "1.000000") none 2 0
          (BiWord2VecModel.new (fun t => max t 0 + 1) (fun _ => 0) 2 2 0 (1 / 40)).source_hidden_
        = "2 0\n0\t\n1\t\n" ∧
      save_file (fun _ => "1.000000") none 2 0
          (BiWord2VecModel.new (fun t => max t 0 + 1) (fun _ => 0) 2 2 0 (1 / 40)).source_hidden_
        ≠ described_file (fun _ => "1.000000") none 2 0
          (BiWord2VecModel.new (fun t => max t 0 + 1) (fun _ => 0) 2 2 0 (1 / 40)).source_hidden_ := by
  refine ⟨?_, described_file_hidden_zero _ _, ?_⟩
  · simp only [BiWord2VecModel.Save, BiWord2VecModel.new, save_file_hidden_zero]
    decide
  · rw [save_file_hidden_zero, described_file_hidden_zero]
    decide

/-- C17, amended.  For every model with hidden size `d ≥ 1`, `Save` writes the
two files `path.source` and `path.target`, and each consists of the header line
`"R d"` followed by one line per row `i < R`: the name of the row (the name
function's result, or the decimal id without one), a tab, the `d` numbers of
the row separated by single spaces, and a newline. -/
theorem save_layout (m : BiWord2VecModel) (fmt : ℚ → String) (path : String)
    (source_name target_name : Option (Nat → String)) (hd : 1 ≤ m.hidden_size_) :
    m.Save fmt path source_name target_name =
      [(path ++ ".source",
          toString m.source_size_ ++ " " ++ toString m.hidden_size_ ++ "\n" ++
            String.join ((List.range m.source_size_).map (fun i =>
              row_name source_name i ++ "\t" ++
                " ".intercalate ((List.range m.hidden_size_).map
                  (fun j => fmt (m.source_hidden_.getD (i * m.hidden_size_ + j) 0))) ++ "\n"))),
       (path ++ ".target",
          toString m.target_size_ ++ " " ++ toString m.hidden_size_ ++ "\n" ++
            String.join ((List.range m.target_size_).map (fun i =>
              row_name target_name i ++ "\t" ++
                " ".intercalate ((List.range m.hidden_size_).map
                  (fun j => fmt (m.target_hidden_.getD (i * m.hidden_size_ + j) 0))) ++ "\n")))] := by
  rw [BiWord2VecModel.Save, save_file_eq fmt source_name _ _ hd,
    save_file_eq fmt target_name _ _ hd]
  rfl

/-- C17, witness: the sample model (1 source row, 2 target rows, hidden size 1) saved without name
functions. -/
theorem save_layout_witness :
    1 ≤ sample_model.hidden_size_ ∧
      sample_model.Save (fun _ => "x") "m" none none =
        [("m.source",
          toString sample_model.source_size_ ++ " " ++ toString sample_model.hidden_size_ ++ "\n" ++
            String.join ((List.range sample_model.source_size_).map (fun i =>
              row_name none i ++ "\t" ++
                " ".intercalate ((List.range sample_model.hidden_size_).map
                  (fun j => (fun _ => "x")
                    (sample_model.source_hidden_.getD (i * sample_model.hidden_size_ + j) 0)))
                  ++ "\n"))),
         ("m.target",
          toString sample_model.target_size_ ++ " " ++ toString sample_model.hidden_size_ ++ "\n" ++
            String.join ((List.range sample_model.target_size_).map (fun i =>
              row_name none i ++ "\t" ++
                " ".intercalate ((List.range sample_model.hidden_size_).map
                  (fun j => (fun _ => "x")
                    (sample_model.target_hidden_.getD (i * sample_model.hidden_size_ + j) 0)))
                  ++ "\n")))] :=
  ⟨by decide, save_layout sample_model (fun _ => "x") "m" none none (by decide)⟩

/-- C18, the code against the claim.  A worker publishes its running totals
`logloss` and `count` at the start of a pass, before the `Update` call of that
pass.  In a single-threaded run of `N` examples (`1 ≤ N ≤ 10001`, one
iteration, `k` negatives each) the only publication is in the last pass, so
when the worker has finished the aggregate count is `(N - 1) * (1 + k)`
(reduced to `size_t`) and the aggregate loss is the sum of the first `N - 1`
`Update` return values: the last example is missing from both, the count is
below `N * (1 + k)`, and the final loss is their quotient.  For `N = 1` both
aggregates are 0. -/
theorem aggregate_misses_last_example (env : Environment) (file : Option (List (List Char)))
    (model_path : String) (alpha : ℚ) (hidden_size k N : Nat) (weight_neg_sampling : ℚ)
    (method : LossType)
    (hsamples : 0 < (DataManager.new.load_data env.atof file).2.size)
    (h1 : 1 ≤ N) (h2 : N ≤ 10001) :
    ∃ r cs, BiWord2VecTrainer.new.Train env file model_path alpha hidden_size 1 k N 1
        weight_neg_sampling method = .ok r ∧
      r.calls = [cs] ∧ cs.length = N ∧ (∀ u ∈ cs, u.negative_targets.length = k) ∧
      r.context.logloss_count = to_size_t ((N - 1) * (1 + k)) ∧
      r.context.logloss_count < N * (1 + k) ∧
      r.context.logloss = ((cs.take (N - 1)).map UpdateCall.result).sum ∧
      r.loss = ((cs.take (N - 1)).map UpdateCall.result).sum /
        (to_size_t ((N - 1) * (1 + k)) : ℕ) := by
  obtain ⟨ds, ts, hd, ht, hv⟩ := prepare_samplers env file alpha hidden_size 1 k N 1
    weight_neg_sampling method hsamples
  have hn : (BiWord2VecTrainer.new.prepare env file alpha hidden_size 1 k N 1
      weight_neg_sampling method).2.num_threads ≠ 0 := by
    show (1 : ℕ) ≠ 0
    omega
  have hN : local_training_words
      (BiWord2VecTrainer.new.prepare env file alpha hidden_size 1 k N 1
        weight_neg_sampling method).2.training_words
      (BiWord2VecTrainer.new.prepare env file alpha hidden_size 1 k N 1
        weight_neg_sampling method).2.iteration
      (BiWord2VecTrainer.new.prepare env file alpha hidden_size 1 k N 1
        weight_neg_sampling method).2.num_threads = N := by
    have htw : (BiWord2VecTrainer.new.prepare env file alpha hidden_size 1 k N 1
        weight_neg_sampling method).2.training_words = N := by
      simp only [BiWord2VecTrainer.prepare]
      rw [if_neg (by omega)]
    have hit : (BiWord2VecTrainer.new.prepare env file alpha hidden_size 1 k N 1
        weight_neg_sampling method).2.iteration = 1 := rfl
    have hnt : (BiWord2VecTrainer.new.prepare env file alpha hidden_size 1 k N 1
        weight_neg_sampling method).2.num_threads = 1 := rfl
    rw [htw, hit, hnt]
    have := share_no_overflow (N * 1) 1 (le_refl 1) (by unfold SIZE_T_RANGE; omega)
    unfold local_training_words
    rw [this]
    simp
  obtain ⟨st, hst, hlen, hneg, hloss, hcount⟩ := train_thread_publishes _ env 0 ds ts hd ht hv
    _ hn N hN h1 h2
  have hworkers : run_workers
      ((BiWord2VecTrainer.new.prepare env file alpha hidden_size 1 k N 1
        weight_neg_sampling method).1.TrainThread env)
      (List.range (max 1 1))
      (BiWord2VecTrainer.new.prepare env file alpha hidden_size 1 k N 1
        weight_neg_sampling method).2 [] = .ok (st.context, [st.calls]) := by
    have hr : List.range (max 1 1) = [0] := rfl
    rw [hr, run_workers_single, hst]
  obtain ⟨r, hr, -, -, hctx, hl, hc⟩ := train_of_workers BiWord2VecTrainer.new env file
    model_path alpha hidden_size 1 k N 1 weight_neg_sampling method _ _ hworkers
  have hloss0 : st.context.logloss = ((st.calls.take (N - 1)).map UpdateCall.result).sum := by
    rw [hloss]
    show (0 : ℚ) + _ = _
    rw [zero_add]
  have hcount0 : st.context.logloss_count = to_size_t ((N - 1) * (1 + k)) := by
    rw [hcount]
    show to_size_t (0 + (N - 1) * (1 + k)) = _
    rw [Nat.zero_add]
  refine ⟨r, st.calls, hr, hc, hlen, hneg, ?_, ?_, ?_, ?_⟩
  · rw [hctx, hcount0]
  · rw [hctx, hcount0]
    have hle : to_size_t ((N - 1) * (1 + k)) ≤ (N - 1) * (1 + k) := Nat.mod_le _ _
    have hlt : (N - 1) * (1 + k) < N * (1 + k) :=
      Nat.mul_lt_mul_of_pos_right (by omega) (by omega)
    omega
  · rw [hctx, hloss0]
  · rw [hl, hloss0, hcount0]

/-- C18, witness: the sample corpus, one example, 2 negatives. -/
theorem aggregate_misses_last_example_witness :
    0 < (DataManager.new.load_data sample_environment.atof sample_file).2.size ∧
      1 ≤ 1 ∧ 1 ≤ 10001 ∧
      ∃ r cs, BiWord2VecTrainer.new.Train sample_environment sample_file "m" (1 / 40) 2 1 2 1 1
          0 LossType.LOSS_LINE = .ok r ∧
        r.calls = [cs] ∧ cs.length = 1 ∧ (∀ u ∈ cs, u.negative_targets.length = 2) ∧
        r.context.logloss_count = to_size_t ((1 - 1) * (1 + 2)) ∧
        r.context.logloss_count < 1 * (1 + 2) ∧
        r.context.logloss = ((cs.take (1 - 1)).map UpdateCall.result).sum ∧
        r.loss = ((cs.take (1 - 1)).map UpdateCall.result).sum /
          (to_size_t ((1 - 1) * (1 + 2)) : ℕ) :=
  ⟨by decide, by decide, by decide,
    aggregate_misses_last_example sample_environment sample_file "m" (1 / 40) 2 2 1 0
      LossType.LOSS_LINE (by decide) (by decide) (by decide)⟩

/-- C19, the code against the claim.  `Train` stores `num_threads` in the
context before it raises the local copy to at least 1.  With `thread_count = 0`
exactly one worker (id 0) is started, it reads `num_threads = 0` from the
context, and its share computation divides by that 0; `Train` does not
finish. -/
theorem train_zero_threads (tr : BiWord2VecTrainer) (env : Environment)
    (file : Option (List (List Char))) (model_path : String) (alpha : ℚ)
    (hidden_size iteration negative training_words : Nat) (weight_neg_sampling : ℚ)
    (method : LossType) :
    List.range (max 0 1) = [0] ∧
      (tr.prepare env file alpha hidden_size iteration negative training_words 0
        weight_neg_sampling method).2.num_threads = 0 ∧
      (tr.prepare env file alpha hidden_size iteration negative training_words 0
          weight_neg_sampling method).1.TrainThread env 0
        (tr.prepare env file alpha hidden_size iteration negative training_words 0
          weight_neg_sampling method).2 = .division_by_zero ∧
      tr.Train env file model_path alpha hidden_size iteration negative training_words 0
        weight_neg_sampling method = .division_by_zero := by
  have hthread : (tr.prepare env file alpha hidden_size iteration negative training_words 0
        weight_neg_sampling method).1.TrainThread env 0
      (tr.prepare env file alpha hidden_size iteration negative training_words 0
        weight_neg_sampling method).2 = .division_by_zero := by
    have hz : (tr.prepare env file alpha hidden_size iteration negative training_words 0
        weight_neg_sampling method).2.num_threads = 0 := rfl
    unfold BiWord2VecTrainer.TrainThread
    dsimp only
    rw [if_pos hz]
  refine ⟨rfl, rfl, hthread, ?_⟩
  apply train_of_division
  have hr : List.range (max 0 1) = [0] := rfl
  rw [hr, run_workers_single, hthread]

/-- C21, the code against the claim.  The clamp is
`if (util_less<T>(weight, 0)) weight = 0.`, and `util_less<float>(weight, 0)`
is false for a weight within `2^-23` of 0, so a small negative weight is not
clamped: for the line `a b -5.9604644775390625e-08`, whose third field `atof`
reads as `-2^-24`, `parse_data` returns true and the accepted sample keeps the
weight `-2^-24 < 0`. -/
theorem tiny_negative_weight :
    (DataManager.new.parse_data (fun _ => -(1 / 2 ^ 24))
      ['a', ' ', 'b', ' ', '-', '5', '.', '9', '6', '0', '4', '6', '4', '4', '7', '7', '5',
        '3', '9', '0', '6', '2', '5', 'e', '-', '0', '8', '\n'] Sample.new).1 = true ∧
    (DataManager.new.parse_data (fun _ => -(1 / 2 ^ 24))
      ['a', ' ', 'b', ' ', '-', '5', '.', '9', '6', '0', '4', '6', '4', '4', '7', '7', '5',
        '3', '9', '0', '6', '2', '5', 'e', '-', '0', '8', '\n'] Sample.new).2.1.weight_
      = -(1 / 2 ^ 24) ∧
    (DataManager.new.parse_data (fun _ => -(1 / 2 ^ 24))
      ['a', ' ', 'b', ' ', '-', '5', '.', '9', '6', '0', '4', '6', '4', '4', '7', '7', '5',
        '3', '9', '0', '6', '2', '5', 'e', '-', '0', '8', '\n'] Sample.new).2.1.weight_ < 0 := by
  have hf : fields ['a', ' ', 'b', ' ', '-', '5', '.', '9', '6', '0', '4', '6', '4', '4', '7',
      '7', '5', '3', '9', '0', '6', '2', '5', 'e', '-', '0', '8', '\n'] =
      [['a'], ['b'], ['-', '5', '.', '9', '6', '0', '4', '6', '4', '4', '7', '7', '5',
        '3', '9', '0', '6', '2', '5', 'e', '-', '0', '8']] := by
    decide
  rcases parse_data_fields (fun _ => -(1 / 2 ^ 24)) DataManager.new
      ['a', ' ', 'b', ' ', '-', '5', '.', '9', '6', '0', '4', '6', '4', '4', '7', '7', '5',
        '3', '9', '0', '6', '2', '5', 'e', '-', '0', '8', '\n'] Sample.new with
    ⟨hlt, _⟩ | ⟨f1, f2, f3, rest, _, he⟩
  · rw [hf] at hlt
    simp at hlt
  · rw [he]
    have hw : util_less_at epsilon_float (-(1 / 2 ^ 24)) 0 = false := by
      norm_num [util_less_at, util_equal_at, epsilon_float, abs_lt]
    simp only [hw]
    norm_num

/-- C22: for every non-empty list `dw` of (index, weight) pairs, with `n` its
length, and all values of the random distributions (`idx < n` for the integer
ones, as `uniform_int_distribution(0, n - 1)` gives them, any `u` for the real
ones): the slot `AliasSampler::draw` returns is `idx` or `alias_[idx]` and it is
below `n`, and `sampling` returns the index stored at that slot; the position
`MultinomialSampler::sampling` reads is below `n`; `RandomSampler::sampling`
returns the index stored at `idx`; each result is one of the indices of `dw`.
Consequently every id drawn from a sampler that `build_target_sampler` returns
is the target id of a loaded sample. -/
theorem sampling_in_range (dw : List (Nat × ℚ)) (hne : dw ≠ []) :
    (∀ idx u, idx < dw.length →
      (AliasSampler.new dw).draw idx u < dw.length ∧
      ((AliasSampler.new dw).draw idx u = idx ∨
        (AliasSampler.new dw).draw idx u = (AliasSampler.new dw).alias_.getD idx 0) ∧
      (AliasSampler.new dw).sampling idx u =
        (dw.map Prod.fst).getD ((AliasSampler.new dw).draw idx u) 0 ∧
      (AliasSampler.new dw).sampling idx u ∈ dw.map Prod.fst) ∧
    (∀ u,
      (if upper_bound (MultinomialSampler.new dw).multinomial_dist_ u ≥ dw.length
        then dw.length - 1
        else upper_bound (MultinomialSampler.new dw).multinomial_dist_ u) < dw.length ∧
      (MultinomialSampler.new dw).sampling u =
        (dw.map Prod.fst).getD
          (if upper_bound (MultinomialSampler.new dw).multinomial_dist_ u ≥ dw.length
            then dw.length - 1
            else upper_bound (MultinomialSampler.new dw).multinomial_dist_ u) 0 ∧
      (MultinomialSampler.new dw).sampling u ∈ dw.map Prod.fst) ∧
    (∀ idx, idx < dw.length →
      (RandomSampler.new dw).sampling idx = (dw.map Prod.fst).getD idx 0 ∧
      (RandomSampler.new dw).sampling idx ∈ dw.map Prod.fst) ∧
    (∀ (dm : DataManager) (pow : ℚ → ℚ → ℚ) (w : ℚ) (ts : BaseSampler),
      dm.build_target_sampler pow w = some ts →
      ∀ idx u, idx < (target_weights dm).length →
        ∃ s ∈ dm.samples_, ts.sampling idx u = s.target_) := by
  have hpos : 0 < dw.length := List.length_pos.2 hne
  refine ⟨?_, ?_, ?_, ?_⟩
  · intro idx u hidx
    refine ⟨alias_draw_lt dw hne idx u hidx, ?_, alias_sampling_eq dw hne idx u hidx,
      alias_sampling_mem dw hne idx u⟩
    unfold AliasSampler.draw
    split_ifs
    · exact Or.inl rfl
    · exact Or.inr rfl
  · intro u
    refine ⟨?_, ?_, multinomial_sampling_mem dw hne u⟩
    · split_ifs with h
      · omega
      · omega
    · unfold MultinomialSampler.sampling
      dsimp only
      have hl : (MultinomialSampler.new dw).multinomial_dist_.length = dw.length :=
        cumulative_length _ _ _
      rw [hl]
      rfl
  · intro idx hidx
    refine ⟨?_, random_sampling_mem dw hne idx⟩
    unfold RandomSampler.sampling RandomSampler.new
    dsimp only
    rw [List.length_map, if_neg (by omega)]
  · intro dm pow w ts h idx u _
    have hm := target_sampler_mem dm pow w ts h idx u
    obtain ⟨s, hs, he⟩ := List.mem_map.1 hm
    exact ⟨s, hs, he.symm⟩

/-- C22, witness: the two pairs `(10, 1)`, `(20, 1)`. -/
theorem sampling_in_range_witness :
    ([(10, 1), (20, 1)] : List (Nat × ℚ)) ≠ [] ∧
      (AliasSampler.new [(10, 1), (20, 1)]).draw 1 (1 / 2) < 2 ∧
      (MultinomialSampler.new [(10, 1), (20, 1)]).sampling (3 / 4) ∈ [10, 20] ∧
      (RandomSampler.new [(10, 1), (20, 1)]).sampling 1 ∈ [10, 20] :=
  ⟨by simp,
   ((sampling_in_range [(10, 1), (20, 1)] (by simp)).1 1 (1 / 2) (by decide)).1,
   ((sampling_in_range [(10, 1), (20, 1)] (by simp)).2.1 (3 / 4)).2.2,
   ((sampling_in_range [(10, 1), (20, 1)] (by simp)).2.2.1 1 (by decide)).2⟩

/-- C23: on a model allocated as the constructor does, for `source_id`,
`target_id` and every listed negative id in range, `Update` leaves every
source row other than row `source_id` and every target row other than the
rows of `target_id` and of the listed negative ids as they were; the run in
which every access to `source_hidden_`, `target_hidden_` and `buffer` is
checked against the array finishes, with the same result; and `alpha_`,
`hidden_size_`, `source_size_`, `target_size_` and the sizes of the two tables
are unchanged. -/
theorem update_frame (m : BiWord2VecModel) (hm : m.Allocated) (source_id target_id : Nat)
    (negatives : List Nat) (noise : Option (Nat → ℚ)) (decay : ℚ)
    (hs : source_id < m.source_size_) (ht : target_id < m.target_size_)
    (hn : ∀ n, n ∈ negatives → n < m.target_size_) :
    (∀ u, u ≠ source_id → ∀ i, i < m.hidden_size_ →
      row (m.Update source_id target_id negatives noise decay).2.source_hidden_
          m.hidden_size_ u i =
        row m.source_hidden_ m.hidden_size_ u i) ∧
    (∀ u, u ∉ target_id :: negatives → ∀ i, i < m.hidden_size_ →
      row (m.Update source_id target_id negatives noise decay).2.target_hidden_
          m.hidden_size_ u i =
        row m.target_hidden_ m.hidden_size_ u i) ∧
    m.Update_checked source_id target_id negatives noise decay =
      some (m.Update source_id target_id negatives noise decay) ∧
    (m.Update source_id target_id negatives noise decay).2.alpha_ = m.alpha_ ∧
    (m.Update source_id target_id negatives noise decay).2.hidden_size_ = m.hidden_size_ ∧
    (m.Update source_id target_id negatives noise decay).2.source_size_ = m.source_size_ ∧
    (m.Update source_id target_id negatives noise decay).2.target_size_ = m.target_size_ ∧
    (m.Update source_id target_id negatives noise decay).2.source_hidden_.length =
      m.source_hidden_.length ∧
    (m.Update source_id target_id negatives noise decay).2.target_hidden_.length =
      m.target_hidden_.length := by
  refine ⟨?_, ?_, update_checked_eq m hm source_id target_id negatives noise decay hs ht hn,
    update_members m hm source_id target_id negatives noise decay hs ht hn⟩
  · intro u hu i hi
    unfold row
    apply update_source_frame m hm source_id target_id negatives noise decay hs ht hn
    rw [row_index_iff _ _ _ _ hi]
    exact hu
  · intro u hu i hi
    unfold row
    apply update_target_frame m hm source_id target_id negatives noise decay hs ht hn
    intro n hnm
    rw [row_index_iff _ _ _ _ hi]
    intro he
    exact hu (he ▸ hnm)

/-- C23, witness: the sample model, source 0, target 0, negative id 1. -/
theorem update_frame_witness :
    sample_model.Allocated ∧ 0 < sample_model.source_size_ ∧ 0 < sample_model.target_size_ ∧
      (∀ n, n ∈ [1] → n < sample_model.target_size_) ∧
      sample_model.Update_checked 0 0 [1] none 1 = some (sample_model.Update 0 0 [1] none 1) ∧
      (sample_model.Update 0 0 [1] none 1).2.alpha_ = sample_model.alpha_ :=
  ⟨sample_model_allocated, by decide, by decide, by decide,
    (update_frame sample_model sample_model_allocated 0 0 [1] none 1 (by decide) (by decide)
      (by decide)).2.2.1,
    (update_frame sample_model sample_model_allocated 0 0 [1] none 1 (by decide) (by decide)
      (by decide)).2.2.2.1⟩

/-- C24, the claim fails on two kinds of loaded model.  (1) A score may be NaN
(a row read from the text `nan`, or a score function that returns NaN): for the
model of the two rows `a` and `b` with the cell NaN, the query `[1]`, the product
of the first cells as score and `topn = 2`, whatever the queue and a sort that
returns a permutation do, the pairs returned are not in non-increasing order of
score.  (2) `LoadModel` returns true for a file that ends before its last row
line: for the model it leaves for the lines `2 1` and `a<TAB>1`, `Match` reads
`feat_name_[1]` outside the vector, whatever its arguments. -/
theorem match_nan_or_truncated :
    (¬ ∃ (choose : List (String × Option ℚ) → Nat)
        (sort : List (String × Option ℚ) → List (String × Option ℚ)),
      (∀ l, (sort l).Perm l) ∧
      (nan_embedding_model.Match choose sort [some 1] first_cell_score 2).Pairwise
        (fun a b => double_ge a.2 b.2 = true)) ∧
    (¬ ∃ (choose : List (String × Option ℚ) → Nat)
        (sort : List (String × Option ℚ) → List (String × Option ℚ))
        (embedding : List (Option ℚ))
        (score_func : List (Option ℚ) → List (Option ℚ) → Nat → Option ℚ) (topn : Nat),
      (truncated_embedding_model.Match_checked choose sort embedding score_func topn).isSome
        = true) := by
  constructor
  · rintro ⟨choose, sort, hperm, hpw⟩
    exact match_nan_unordered choose sort hperm hpw
  · rintro ⟨choose, sort, embedding, score_func, topn, h⟩
    rw [match_checked_truncated] at h
    exact absurd h (by simp)

/-- C24, as amended: for a loaded model in which every one of the `num_feat_`
rows has a name (`num_feat_ <= feat_name_.size()`), a query vector and a score
function that give every row a score that is a number (no NaN), and every
`topn`, whatever top the queue shows among equal scores (`choose`) and whatever
sort meeting the contract of `std::sort` is used: `Match` reads `feat_name_`
inside the vector and returns exactly `min(topn, num_feat_)` pairs, ordered by
non-increasing score; they are the (name, score) pairs of that many different
rows, and every returned score is at least the score of every row that is not
returned. -/
theorem match_top (m : EmbeddingModel) (choose : List (String × Option ℚ) → Nat)
    (sort : List (String × Option ℚ) → List (String × Option ℚ))
    (embedding : List (Option ℚ))
    (score_func : List (Option ℚ) → List (Option ℚ) → Nat → Option ℚ) (topn : Nat)
    (hnames : m.num_feat_ ≤ m.feat_name_.length)
    (hnum : ∀ i, i < m.num_feat_ →
      (score_func embedding (m.model_.drop (i * m.hidden_size_)) m.hidden_size_).isSome = true)
    (hsort : ∀ l, (∀ r ∈ l, r.2.isSome = true) →
      (sort l).Perm l ∧ (sort l).Pairwise (fun a b => cmp b a = false)) :
    m.Match_checked choose sort embedding score_func topn =
      some (m.Match choose sort embedding score_func topn) ∧
    (m.Match choose sort embedding score_func topn).length = min topn m.num_feat_ ∧
    (m.Match choose sort embedding score_func topn).Pairwise
      (fun a b => double_ge a.2 b.2 = true) ∧
    (∀ a ∈ m.Match choose sort embedding score_func topn, a.1 ∈ m.feat_name_) ∧
    ∃ rest,
      ((m.Match choose sort embedding score_func topn) ++ rest).Perm
        ((List.range m.num_feat_).map (fun i =>
          (m.feat_name_.getD i "",
           score_func embedding (m.model_.drop (i * m.hidden_size_)) m.hidden_size_))) ∧
      ∀ a ∈ m.Match choose sort embedding score_func topn, ∀ b ∈ rest,
        double_ge a.2 b.2 = true := by
  obtain ⟨dropped, hq⟩ := queue_inv choose
    (fun i => (m.feat_name_.getD i "",
      score_func embedding (m.model_.drop (i * m.hidden_size_)) m.hidden_size_))
    topn m.num_feat_
  have hrows : ∀ r ∈ (List.range m.num_feat_).map (fun i =>
      (m.feat_name_.getD i "",
       score_func embedding (m.model_.drop (i * m.hidden_size_)) m.hidden_size_)),
      r.2.isSome = true := by
    intro r hr
    obtain ⟨i, hi, rfl⟩ := List.mem_map.1 hr
    exact hnum i (List.mem_range.1 hi)
  have hdrain := drain_perm choose _ _ [] (le_refl
    ((List.range m.num_feat_).foldl
      (fun q i =>
        let q := (m.feat_name_.getD i "",
          score_func embedding (m.model_.drop (i * m.hidden_size_)) m.hidden_size_) :: q
        pop_while choose topn q.length q)
      []).length)
  rw [List.nil_append] at hdrain
  have hvec : ∀ r ∈ drain choose
      ((List.range m.num_feat_).foldl
        (fun q i =>
          let q := (m.feat_name_.getD i "",
            score_func embedding (m.model_.drop (i * m.hidden_size_)) m.hidden_size_) :: q
          pop_while choose topn q.length q)
        []).length
      ((List.range m.num_feat_).foldl
        (fun q i =>
          let q := (m.feat_name_.getD i "",
            score_func embedding (m.model_.drop (i * m.hidden_size_)) m.hidden_size_) :: q
          pop_while choose topn q.length q)
        []) [], r.2.isSome = true :=
    fun r hr => hrows r (hq.perm.subset (List.mem_append_left _ (hdrain.subset hr)))
  have hperm : (m.Match choose sort embedding score_func topn).Perm
      ((List.range m.num_feat_).foldl
        (fun q i =>
          let q := (m.feat_name_.getD i "",
            score_func embedding (m.model_.drop (i * m.hidden_size_)) m.hidden_size_) :: q
          pop_while choose topn q.length q)
        []) := (hsort _ hvec).1.trans hdrain
  have hall : ((m.Match choose sort embedding score_func topn) ++ dropped).Perm
      ((List.range m.num_feat_).map (fun i =>
        (m.feat_name_.getD i "",
         score_func embedding (m.model_.drop (i * m.hidden_size_)) m.hidden_size_))) :=
    (hperm.append_right dropped).trans hq.perm
  have hres : ∀ a ∈ m.Match choose sort embedding score_func topn, a.2.isSome = true :=
    fun a ha => hrows a (hall.subset (List.mem_append_left _ ha))
  refine ⟨match_checked_eq m choose sort embedding score_func topn hnames, ?_, ?_, ?_,
    dropped, hall, ?_⟩
  · rw [hperm.length_eq, hq.size]
    simp
  · refine (List.Pairwise.and_mem.1 (hsort _ hvec).2).imp ?_
    rintro a b ⟨ha, hb, hab⟩
    exact ge_of_cmp_false a b (hres a ha) (hres b hb) hab
  · intro a ha
    have hmem := hall.subset (List.mem_append_left _ ha)
    obtain ⟨i, hi, rfl⟩ := List.mem_map.1 hmem
    have hlt : i < m.feat_name_.length := lt_of_lt_of_le (List.mem_range.1 hi) hnames
    show m.feat_name_.getD i "" ∈ m.feat_name_
    rw [List.getD_eq_getElem _ _ hlt]
    exact List.getElem_mem _
  · intro a ha b hb
    exact ge_of_cmp_false a b (hres a ha)
      (hrows b (hall.subset (List.mem_append_right _ hb)))
      (hq.best hrows a (hperm.subset ha) b hb)

/-- C24 as amended, on the sample model of three rows, the query `[1]`, the
product of the first cells as score, `topn = 2`. -/
theorem match_top_witness :
    sample_embedding_model.Match_checked (fun _ => 0) sample_sort [some 1] first_cell_score 2 =
      some (sample_embedding_model.Match (fun _ => 0) sample_sort [some 1]
        first_cell_score 2) ∧
    (sample_embedding_model.Match (fun _ => 0) sample_sort [some 1] first_cell_score 2).length
      = min 2 sample_embedding_model.num_feat_ ∧
    (sample_embedding_model.Match (fun _ => 0) sample_sort [some 1]
      first_cell_score 2).Pairwise (fun a b => double_ge a.2 b.2 = true) :=
  ⟨(match_top sample_embedding_model (fun _ => 0) sample_sort [some 1] first_cell_score 2
      (by decide)
      (by intro i hi; simp only [sample_embedding_model] at hi; interval_cases i <;> rfl)
      sample_sort_contract).1,
   (match_top sample_embedding_model (fun _ => 0) sample_sort [some 1] first_cell_score 2
      (by decide)
      (by intro i hi; simp only [sample_embedding_model] at hi; interval_cases i <;> rfl)
      sample_sort_contract).2.1,
   (match_top sample_embedding_model (fun _ => 0) sample_sort [some 1] first_cell_score 2
      (by decide)
      (by intro i hi; simp only [sample_embedding_model] at hi; interval_cases i <;> rfl)
      sample_sort_contract).2.2.1⟩

end BiWord2Vec
